import Mathlib

/-!
# FlashX associative page cache

A shallow embedding of `associative_cache.cpp` (hash cells, frequency-biased victim
selection, clock shadow cells, linear-hash expansion) and the properties proved about it.

The header `associative_cache.h` (page, page buffer, shadow page, embedded queue, routing
helpers, memory manager) is not part of the sources.  Every definition that stands for code
of that header says so in its doc comment; everything else follows the `.cpp` file line by
line.  Locks are not modelled: every function is the sequential behaviour of one call.
-/

set_option autoImplicit false

namespace FlashX

/-! ## Pages -/

/-- Modelled from the spec: the sentinel offset "unassigned" carried by a page that
represents no backing-store offset (the page class is declared in the missing header). -/
def unassigned : Int := -1

/-- Modelled from the spec: the page record of the data model (offset, ref, hits,
io_pending, data_ready, initialized), plus an identifier of the buffer it owns.  The class
`thread_safe_page` is declared in the missing header.  `hits` is kept as a natural number so
that the 8-bit bound is a property to be proved and not a consequence of the type. -/
structure thread_safe_page where
  offset : Int
  data : Nat
  ref : Nat
  hits : Nat
  io_pending : Bool
  data_ready : Bool
  initialized : Bool
deriving DecidableEq, Repr

namespace thread_safe_page

/-- Modelled from the spec: a page as `page_cell::set_pages` leaves it at cell construction:
unassigned, unreferenced, never hit, owning buffer `d`. -/
def fresh (d : Nat) : thread_safe_page :=
  { offset := unassigned, data := d, ref := 0, hits := 0,
    io_pending := false, data_ready := false, initialized := false }

/-- Modelled from the spec: `set_offset` overwrites the identity of the page. -/
def set_offset (p : thread_safe_page) (off : Int) : thread_safe_page :=
  { p with offset := off }

/-- Modelled from the spec: `inc_ref` adds one holder. -/
def inc_ref (p : thread_safe_page) : thread_safe_page :=
  { p with ref := p.ref + 1 }

/-- Modelled from the spec: `set_hits` stores a hit count. -/
def set_hits (p : thread_safe_page) (h : Nat) : thread_safe_page :=
  { p with hits := h }

/-- Modelled from the spec: `reset_hits` clears the hit count. -/
def reset_hits (p : thread_safe_page) : thread_safe_page :=
  { p with hits := 0 }

/-- Modelled from the spec: `hit` is a saturating +1 on the 8-bit counter `hits`. -/
def hit (p : thread_safe_page) : thread_safe_page :=
  { p with hits := if p.hits < 0xff then p.hits + 1 else p.hits }

/-- Modelled from the spec: `set_data_ready` stores the data-ready flag. -/
def set_data_ready (p : thread_safe_page) (b : Bool) : thread_safe_page :=
  { p with data_ready := b }

end thread_safe_page

/-! ## Shadow pages and the clock shadow cell -/

/-- Modelled from the spec: the compact record `{offset, hits, referenced}` kept after an
eviction (class `shadow_page` of the missing header). -/
structure shadow_page where
  offset : Int
  hits : Nat
  referenced : Bool
deriving DecidableEq, Repr

namespace shadow_page

/-- Modelled from the spec: the default-constructed shadow page, which is not valid. -/
def invalid : shadow_page :=
  { offset := unassigned, hits := 0, referenced := false }

/-- Modelled from the spec: `shadow_page(page)` records the page's `{offset, hits}`. -/
def of_page (p : thread_safe_page) : shadow_page :=
  { offset := p.offset, hits := p.hits, referenced := false }

/-- Modelled from the spec: a shadow page is valid when it records an assigned offset. -/
def is_valid (s : shadow_page) : Bool :=
  decide (s.offset ≠ unassigned)

end shadow_page

/-- Modelled from the spec: the state of a `clock_shadow_cell`: a queue of at most
`capacity` shadow pages (the embedded array of `NUM_SHADOW_PAGES` entries of the missing
header) and the clock hand `last_idx`. -/
structure clock_shadow_cell where
  queue : List shadow_page
  last_idx : Nat
  capacity : Nat
deriving DecidableEq, Repr

namespace clock_shadow_cell

/-- Modelled from the spec: an empty shadow cell of the given capacity. -/
def empty (capacity : Nat) : clock_shadow_cell :=
  { queue := [], last_idx := 0, capacity := capacity }

/-- Modelled from the spec: `queue.is_full()`. -/
def is_full (s : clock_shadow_cell) : Bool :=
  decide (s.capacity ≤ s.queue.length)

/-- The `for` loop of `clock_shadow_cell::add` (lines 343-357): `n` is the number of
iterations left.  Returns the queue, the clock hand and `inserted`. -/
def add_scan (pg : shadow_page) :
    Nat → List shadow_page → Nat → List shadow_page × Nat × Bool
  | 0, q, l => (q, l, false)
  | n + 1, q, l =>
    let l1 := (l + 1) % q.length
    match q[l1]? with
    | none => (q, l1, false)
    | some old =>
      if old.referenced then
        add_scan pg n (q.set l1 { old with referenced := false }) l1
      else
        (q.set l1 pg, l1, true)

/-- The `do ... while (!inserted)` loop of `clock_shadow_cell::add` (lines 342-364), run for
at most `fuel` passes; `none` when no pass inserted the page. -/
def add_passes (pg : shadow_page) :
    Nat → List shadow_page → Nat → Option (List shadow_page × Nat)
  | 0, _, _ => none
  | fuel + 1, q, l =>
    match add_scan pg q.length q l with
    | (q1, l1, true) => some (q1, l1)
    | (q1, l1, false) => add_passes pg fuel q1 l1

/-- `clock_shadow_cell::add` (lines 332-365).  A pass that inserts nothing clears every
referenced bit, so the second pass inserts at the first entry it scans whenever the queue is
not empty; with an empty full queue (capacity 0) the source loops for ever, which is `none`. -/
def add (s : clock_shadow_cell) (pg : shadow_page) : Option clock_shadow_cell :=
  if s.is_full then
    match add_passes pg 2 s.queue s.last_idx with
    | some (q, l) => some { s with queue := q, last_idx := l }
    | none => none
  else
    some { s with queue := s.queue ++ [pg] }

/-- The loop of `clock_shadow_cell::search` (lines 368-375) over the queue: the copy of the
first entry with the offset (or the invalid shadow page) and the queue with that entry's
referenced bit set. -/
def search_queue (off : Int) : List shadow_page → shadow_page × List shadow_page
  | [] => (shadow_page.invalid, [])
  | pg :: rest =>
    if pg.offset = off then
      (pg, { pg with referenced := true } :: rest)
    else
      ((search_queue off rest).1, pg :: (search_queue off rest).2)

/-- `clock_shadow_cell::search` (lines 367-376). -/
def search (s : clock_shadow_cell) (off : Int) : shadow_page × clock_shadow_cell :=
  ((search_queue off s.queue).1, { s with queue := (search_queue off s.queue).2 })

/-- `clock_shadow_cell::scale_down_hits` (lines 378-382). -/
def scale_down_hits (s : clock_shadow_cell) : clock_shadow_cell :=
  { s with queue := s.queue.map (fun e => { e with hits := e.hits / 2 }) }

end clock_shadow_cell

/-! ## Hash cells -/

/-- Modelled from the spec: the state of a `hash_cell`: its `hash` (index in the logical
cell space), the `overflow` flag, the page buffer `buf` of `CELL_SIZE` pages and the shadow
cell.  The class is declared in the missing header; the shadow member is taken to be the
clock variant, whose three operations are all defined in `associative_cache.cpp`.  The
number of pages of `buf` plays the role of `CELL_SIZE` in the loops over the buffer. -/
structure hash_cell where
  hash : Int
  overflow : Bool
  buf : List thread_safe_page
  shadow : clock_shadow_cell
deriving DecidableEq, Repr

/-- Modelled from the spec: `page_cell::scale_down_hits` halves the hits of every page of the
buffer. -/
def page_cell_scale_down_hits (buf : List thread_safe_page) : List thread_safe_page :=
  buf.map (fun p => p.set_hits (p.hits / 2))

namespace hash_cell

/-- The lookup loop of `hash_cell::search` (lines 167-172): the index of the first page from
slot `i` on whose offset is `off`. -/
def find_offset (off : Int) : List thread_safe_page → Nat → Option Nat
  | [], _ => none
  | pg :: rest, i => if pg.offset = off then some i else find_offset off rest (i + 1)

/-- The `for` loop of `hash_cell::get_empty_page` (lines 230-255) from slot `i` on, with the
running `min_hits` and `ret` (a slot index); pinned pages are skipped, and the loop stops as
soon as `min_hits` is 0. -/
def scan : List thread_safe_page → Nat → Nat → Option Nat → Nat × Option Nat
  | [], _, min_hits, ret => (min_hits, ret)
  | pg :: rest, i, min_hits, ret =>
    if pg.ref ≠ 0 then
      scan rest (i + 1) min_hits ret
    else
      let m1 := if min_hits > pg.hits then pg.hits else min_hits
      let r1 := if min_hits > pg.hits then some i else ret
      if m1 = 0 then (m1, r1) else scan rest (i + 1) m1 r1

/-- The end of `hash_cell::get_empty_page` (lines 284-292) on the selected slot `i`: record
the victim in the shadow cell when it was hit before (only with `USE_SHADOW_PAGE`), reset its
hits and clear `data_ready`.  `none` when the shadow insertion never ends or `i` is no slot. -/
def evict (use_shadow : Bool) (c : hash_cell) (i : Nat) : Option hash_cell :=
  match c.buf[i]? with
  | none => none
  | some p =>
    let p1 := (p.reset_hits).set_data_ready false
    if use_shadow && decide (p.hits > 0) then
      match c.shadow.add (shadow_page.of_page p) with
      | none => none
      | some sh => some { c with buf := c.buf.set i p1, shadow := sh }
    else
      some { c with buf := c.buf.set i p1 }

/-- Lines 175-191 of `hash_cell::search` on the victim slot `i`: the victim's old offset
(the new value of `old_off`) and the cell after `set_offset(off)` and, with
`USE_SHADOW_PAGE`, after seeding the hits from a valid shadow record of `off`. -/
def reassign (use_shadow : Bool) (c : hash_cell) (i : Nat) (off : Int) : Option (Int × hash_cell) :=
  match c.buf[i]? with
  | none => none
  | some p =>
    let p1 := p.set_offset off
    if use_shadow then
      let r := c.shadow.search off
      let p2 := if r.1.is_valid then p1.set_hits r.1.hits else p1
      some (p.offset, { c with buf := c.buf.set i p2, shadow := r.2 })
    else
      some (p.offset, { c with buf := c.buf.set i p1 })

/-- Line 208 of `hash_cell::search`: `ret->inc_ref()` on slot `i`. -/
def pin (c : hash_cell) (i : Nat) : Option hash_cell :=
  match c.buf[i]? with
  | none => none
  | some p => some { c with buf := c.buf.set i p.inc_ref }

/-- Lines 209-214 of `hash_cell::search`: when the chosen page's hits is `0xff`, halve the
hits of every page of the cell and (with `USE_SHADOW_PAGE`) of every shadow entry. -/
def age (use_shadow : Bool) (c : hash_cell) (i : Nat) : Option hash_cell :=
  match c.buf[i]? with
  | none => none
  | some p =>
    if p.hits = 0xff then
      some { c with
        buf := page_cell_scale_down_hits c.buf,
        shadow := if use_shadow then c.shadow.scale_down_hits else c.shadow }
    else
      some c

/-- Line 215 of `hash_cell::search`: `ret->hit()` on slot `i`. -/
def record_hit (c : hash_cell) (i : Nat) : Option hash_cell :=
  match c.buf[i]? with
  | none => none
  | some p => some { c with buf := c.buf.set i p.hit }

/-- The loop of `hash_cell::rehash` (lines 101-146) over the pages of this cell that are
still to be visited, with the buffer of the expanded cell and the counter `j`.  `hash1` is
`table->hash1_locked`.  Returns the visited pages of this cell and the buffer of the expanded
cell; `none` when the assertion of line 139 fails or the expanded cell has no slot `j`. -/
def rehash_loop (hash1 : Int → Int) (this_hash expanded_hash : Int) :
    List thread_safe_page → List thread_safe_page → Nat →
      Option (List thread_safe_page × List thread_safe_page)
  | [], ebuf, _ => some ([], ebuf)
  | pg :: rest, ebuf, j =>
    if hash1 pg.offset ≠ expanded_hash then
      match rehash_loop hash1 this_hash expanded_hash rest ebuf j with
      | none => none
      | some (b, e) => some (pg.set_hits 1 :: b, e)
    else if this_hash ≠ hash1 pg.offset then
      match ebuf[j]? with
      | none => none
      | some expanded_pg =>
        if pg.ref ≠ 0 then
          match rehash_loop hash1 this_hash expanded_hash rest ebuf j with
          | none => none
          | some (b, e) => some (pg :: b, e)
        else if expanded_pg.initialized then
          none
        else
          match rehash_loop hash1 this_hash expanded_hash rest (ebuf.set j pg) (j + 1) with
          | none => none
          | some (b, e) => some (expanded_pg :: b, e)
    else
      match rehash_loop hash1 this_hash expanded_hash rest ebuf j with
      | none => none
      | some (b, e) => some (pg :: b, e)

/-- `hash_cell::rehash` (lines 98-150): this cell and the expanded cell after the call. -/
def rehash (hash1 : Int → Int) (c expanded : hash_cell) : Option (hash_cell × hash_cell) :=
  match rehash_loop hash1 c.hash expanded.hash c.buf expanded.buf 0 with
  | none => none
  | some (b, e) => some ({ c with buf := b, overflow := false }, { expanded with buf := e })

end hash_cell

/-! ## The memory manager and the linear-hash table -/

/-- Modelled from the spec: the memory manager as the cache sees it: the answers it will give
to the coming `get_free_pages` calls (`true` = pages supplied; no answer left = failure), the
identifier of the next buffer it hands out, and its `average_cache_size()`. -/
structure memory_manager where
  answers : List Bool
  next_buf : Nat
  average_cache_size : Int
deriving DecidableEq, Repr

/-- Modelled from the spec: `get_free_pages(n, pages, cache)`: `n` page buffers, or failure. -/
def memory_manager.get_free_pages (m : memory_manager) (n : Nat) :
    memory_manager × Option (List Nat) :=
  match m.answers with
  | [] => (m, none)
  | false :: rest => ({ m with answers := rest }, none)
  | true :: rest =>
    ({ m with answers := rest, next_buf := m.next_buf + n },
      some ((List.range n).map (fun k => m.next_buf + k)))

/-- Modelled from the spec: the state of an `associative_cache` (class declared in the
missing header): `level`, `split`, `init_ncells`, the directory `cells_table` (one entry per
chunk of `init_ncells` cells, `none` for a NULL entry), the counter `ncells` of published
chunks, the `TABLE_EXPANDING` flag, the memory manager, and the build constants `CELL_SIZE`,
`NUM_SHADOW_PAGES`, `PAGE_SIZE` and whether `USE_SHADOW_PAGE` is defined. -/
structure associative_cache where
  level : Nat
  split : Nat
  init_ncells : Nat
  cells_table : List (Option (List hash_cell))
  ncells : Nat
  expanding : Bool
  manager : memory_manager
  CELL_SIZE : Nat
  NUM_SHADOW_PAGES : Nat
  PAGE_SIZE : Nat
  use_shadow : Bool
deriving DecidableEq, Repr

namespace associative_cache

/-- Modelled from the spec: `get_cell(global_index)` is `directory[chunk][offset]` with
`chunk = global_index / init_ncells` and `offset = global_index mod init_ncells`; `none` when
that cell does not exist (NULL chunk, index out of range, or division by zero). -/
def get_cell (C : associative_cache) (idx : Nat) : Option hash_cell :=
  if C.init_ncells = 0 then none
  else
    match C.cells_table[idx / C.init_ncells]? with
    | some (some cells) => cells[idx % C.init_ncells]?
    | _ => none

/-- A write through a `hash_cell *` obtained from `get_cell(idx)`: the cache in which that
cell has the new state. -/
def set_cell (C : associative_cache) (idx : Nat) (c : hash_cell) : associative_cache :=
  match C.cells_table[idx / C.init_ncells]? with
  | some (some cells) =>
    { C with cells_table :=
        C.cells_table.set (idx / C.init_ncells) (some (cells.set (idx % C.init_ncells) c)) }
  | _ => C

/-- Modelled from the spec: `size()` is the logical cell count `2^level * init_ncells + split`. -/
def size (C : associative_cache) : Nat :=
  2 ^ C.level * C.init_ncells + C.split

/-- Modelled from the spec: `hash1(p) = p mod (2^(level+1) * init_ncells)` for the page index
`p = o / PAGE_SIZE` of offset `o`, with the truncating division and remainder of C. -/
def hash1_locked (C : associative_cache) (off : Int) : Int :=
  Int.tmod (Int.tdiv off (C.PAGE_SIZE : Int)) ((C.init_ncells : Int) * 2 ^ (C.level + 1))

end associative_cache

/-- The constructor `hash_cell::hash_cell(cache, hash)` (lines 83-92): the manager after the
request for `CELL_SIZE` pages, and the new cell, `none` when it throws `oom_exception`. -/
def hash_cell.create (m : memory_manager) (CELL_SIZE NUM_SHADOW_PAGES : Nat) (hash : Int) :
    memory_manager × Option hash_cell :=
  match m.get_free_pages CELL_SIZE with
  | (m1, none) => (m1, none)
  | (m1, some pages) =>
    (m1, some { hash := hash, overflow := false,
                buf := pages.map thread_safe_page.fresh,
                shadow := clock_shadow_cell.empty NUM_SHADOW_PAGES })

/-- How a call on the cache ends: it returns a value in a new cache state, it throws
`expand_exception` in a new cache state, it never leaves a loop (`spins`), or it stops on a
failed assertion or an access outside an array (`fault`). -/
inductive Outcome (α : Type) where
  | returned : α → associative_cache → Outcome α
  | expand_exception : associative_cache → Outcome α
  | spins : Outcome α
  | fault : Outcome α
deriving DecidableEq, Repr

/-- The value a call returned, when it returned. -/
def Outcome.value {α : Type} : Outcome α → Option α
  | Outcome.returned a _ => some a
  | _ => none

/-- The cache state in which a call returned or threw, when it did. -/
def Outcome.cache {α : Type} : Outcome α → Option associative_cache
  | Outcome.returned _ C => some C
  | Outcome.expand_exception C => some C
  | _ => none

namespace associative_cache

/-- The inner loop of `expand` (lines 442-444): construct the cells `first_hash`,
`first_hash + 1`, ... of one chunk, `n` cells in all; `none` as soon as a constructor throws
`oom_exception`. -/
def alloc_cells (CELL_SIZE NUM_SHADOW_PAGES : Nat) :
    Nat → memory_manager → Int → memory_manager × Option (List hash_cell)
  | 0, m, _ => (m, some [])
  | n + 1, m, first_hash =>
    match hash_cell.create m CELL_SIZE NUM_SHADOW_PAGES first_hash with
    | (m1, none) => (m1, none)
    | (m1, some c) =>
      match alloc_cells CELL_SIZE NUM_SHADOW_PAGES n m1 (first_hash + 1) with
      | (m2, none) => (m2, none)
      | (m2, some cs) => (m2, some (c :: cs))

/-- The loop of `expand` that creates the missing chunks (lines 438-451), for the `count`
chunk indices from `i` on: the manager afterwards, the temporary `table` of the chunks that
were built, and `out_of_memory`. -/
def alloc_chunks (CELL_SIZE NUM_SHADOW_PAGES init_ncells : Nat) :
    Nat → Nat → memory_manager → memory_manager × List (List hash_cell) × Bool
  | 0, _, m => (m, [], false)
  | count + 1, i, m =>
    match alloc_cells CELL_SIZE NUM_SHADOW_PAGES init_ncells m ((i * init_ncells : Nat) : Int) with
    | (m1, none) => (m1, [], true)
    | (m1, some cells) =>
      match alloc_chunks CELL_SIZE NUM_SHADOW_PAGES init_ncells count (i + 1) m1 with
      | (m2, table, oom) => (m2, cells :: table, oom)

/-- The publication loop of `expand` (lines 459-461): `cells_table[at + k] = table[k]`;
`none` when an index is outside the directory. -/
def publish : List (Option (List hash_cell)) → Nat → List (List hash_cell) →
    Option (List (Option (List hash_cell)))
  | dir, _, [] => some dir
  | dir, pos, cells :: table =>
    if pos < dir.length then publish (dir.set pos (some cells)) (pos + 1) table else none

/-- The body of the `while` loop of `expand` up to line 466: when the chunk of the cell
`split + size` is not there yet, build the missing chunks and publish those that were built.
Returns `out_of_memory` and the cache; `none` on an access outside the directory. -/
def grow (C : associative_cache) (size : Nat) : Option (Bool × associative_cache) :=
  let cells_idx := (C.split + size) / C.init_ncells
  let orig_size := C.ncells
  if cells_idx ≥ orig_size then
    match alloc_chunks C.CELL_SIZE C.NUM_SHADOW_PAGES C.init_ncells
        (cells_idx + 1 - orig_size) orig_size C.manager with
    | (m, table, oom) =>
      match publish C.cells_table orig_size table with
      | none => none
      | some dir =>
        some (oom, { C with manager := m, cells_table := dir, ncells := C.ncells + table.length })
  else
    some (false, C)

/-- The `while` loop of `expand` (lines 427-481) followed by lines 482-483, with `fuel`
bounding the number of iterations.  `cell` of the source is the cell at index `split`, read
at the head of every iteration.  `none` on a fault (a cell that does not exist, a failed
assertion in `rehash`). -/
def expand_loop (global_idx size : Nat) : Nat → associative_cache → Option (Bool × associative_cache)
  | 0, _ => none
  | fuel + 1, C =>
    match C.get_cell C.split with
    | none => none
    | some cell =>
      if C.split < global_idx ∨ cell.overflow = true then
        match C.grow size with
        | none => none
        | some (true, C1) => some (false, C1)
        | some (false, C1) =>
          match C1.get_cell (C1.split + size) with
          | none => none
          | some expanded_cell =>
            match hash_cell.rehash C1.hash1_locked cell expanded_cell with
            | none => none
            | some (c2, e2) =>
              let C2 := (C1.set_cell C1.split c2).set_cell (C1.split + size) e2
              if C2.split + 1 = size then
                some (true, { C2 with level := C2.level + 1, split := 0, expanding := false })
              else
                expand_loop global_idx size fuel { C2 with split := C2.split + 1 }
      else
        some (true, { C with expanding := false })

/-- `associative_cache::expand(cell)` (lines 402-484), the cell being given by its global
index `g` (which the scan of lines 415-423 recovers from the pointer; a cell that is in no
published chunk fails `assert(cells)`).  Every iteration of the loop reads the cell
`split + size` of a directory of `cells_table.length` chunks and then increments `split`, so
`cells_table.length * init_ncells + 1` iterations are never exceeded. -/
def expand (C : associative_cache) (g : Nat) : Option (Bool × associative_cache) :=
  if C.expanding then
    some (false, C)
  else
    match C.get_cell g with
    | none => none
    | some _ =>
      expand_loop g (2 ^ C.level * C.init_ncells) (C.cells_table.length * C.init_ncells + 1)
        { C with expanding := true }

end associative_cache

namespace hash_cell

/-- The selection part of `hash_cell::get_empty_page` (lines 221-282) for the cell of global
index `g`: the selected slot and the cache at line 284.  The `do ... while (ret == NULL)` loop
never ends when a scan selects nothing, since nothing changes between two scans (`spins`).
After a call of `expand` that returned false the scan runs again with `min_hits` reset and
`ret` still pointing to the slot selected before. -/
def select_victim (C : associative_cache) (g : Nat) : Outcome Nat :=
  match C.get_cell g with
  | none => Outcome.fault
  | some c =>
    match scan c.buf 0 0x7fffffff none with
    | (_, none) => Outcome.spins
    | (min_hits, some i) =>
      if min_hits ≠ 0 then
        let C1 := C.set_cell g { c with overflow := true }
        if (C1.size : Int) < C1.manager.average_cache_size then
          match C1.expand g with
          | none => Outcome.fault
          | some (true, C2) => Outcome.expand_exception C2
          | some (false, C2) =>
            match C2.get_cell g with
            | none => Outcome.fault
            | some c2 =>
              match scan c2.buf 0 0x7fffffff (some i) with
              | (_, none) => Outcome.spins
              | (min_hits2, some i2) =>
                if min_hits2 ≠ 0 then
                  Outcome.returned i2 (C2.set_cell g { c2 with overflow := true })
                else
                  Outcome.returned i2 C2
        else
          Outcome.returned i C1
      else
        Outcome.returned i C

/-- `hash_cell::get_empty_page` (lines 221-293) for the cell of global index `g`: the slot
of the returned page and the cache afterwards. -/
def get_empty_page (C : associative_cache) (g : Nat) : Outcome Nat :=
  match select_victim C g with
  | Outcome.returned i C1 =>
    match C1.get_cell g with
    | none => Outcome.fault
    | some c1 =>
      match evict C1.use_shadow c1 i with
      | none => Outcome.spins
      | some c2 => Outcome.returned i (C1.set_cell g c2)
  | Outcome.expand_exception C1 => Outcome.expand_exception C1
  | Outcome.spins => Outcome.spins
  | Outcome.fault => Outcome.fault

/-- Lines 156-208 of `hash_cell::search(off, old_off)` for the cell of global index `g`: the
slot of the chosen page `ret` and the value of `old_off`, in the cache right after
`ret->inc_ref()`. -/
def search_pinned (C : associative_cache) (g : Nat) (off old_off : Int) : Outcome (Nat × Int) :=
  match C.get_cell g with
  | none => Outcome.fault
  | some c =>
    match find_offset off c.buf 0 with
    | some i =>
      match pin c i with
      | none => Outcome.fault
      | some c1 => Outcome.returned (i, old_off) (C.set_cell g c1)
    | none =>
      match get_empty_page C g with
      | Outcome.returned i C1 =>
        match C1.get_cell g with
        | none => Outcome.fault
        | some c1 =>
          match reassign C1.use_shadow c1 i off with
          | none => Outcome.fault
          | some (evicted, c2) =>
            match pin c2 i with
            | none => Outcome.fault
            | some c3 => Outcome.returned (i, evicted) (C1.set_cell g c3)
      | Outcome.expand_exception C1 => Outcome.expand_exception C1
      | Outcome.spins => Outcome.spins
      | Outcome.fault => Outcome.fault

/-- `hash_cell::search(off, old_off)` (lines 156-218) for the cell of global index `g`: the
slot of the returned page and the value of `old_off` on return, and the cache afterwards. -/
def search (C : associative_cache) (g : Nat) (off old_off : Int) : Outcome (Nat × Int) :=
  match search_pinned C g off old_off with
  | Outcome.returned (i, evicted) C1 =>
    match C1.get_cell g with
    | none => Outcome.fault
    | some c1 =>
      match age C1.use_shadow c1 i with
      | none => Outcome.fault
      | some c2 =>
        match record_hit c2 i with
        | none => Outcome.fault
        | some c3 => Outcome.returned (i, evicted) (C1.set_cell g c3)
  | Outcome.expand_exception C1 => Outcome.expand_exception C1
  | Outcome.spins => Outcome.spins
  | Outcome.fault => Outcome.fault

/-- Whether a call `search(off, ...)` on the cell of global index `g` runs an expansion: the
lookup misses, the first scan of `get_empty_page` selects a page that was hit before, the
table is below the manager's average size, so that line 275 calls `table->expand(this)`, and
that call finds `TABLE_EXPANDING` clear. -/
def runs_expansion (C : associative_cache) (g : Nat) (off : Int) : Bool :=
  match C.get_cell g with
  | none => false
  | some c =>
    match find_offset off c.buf 0 with
    | some _ => false
    | none =>
      match scan c.buf 0 0x7fffffff none with
      | (min_hits, some _) =>
        decide (min_hits ≠ 0) && decide ((C.size : Int) < C.manager.average_cache_size) &&
          !C.expanding
      | (_, none) => false

end hash_cell

/-! ## A caller of the cell -/

/-- Modelled from the spec: `dec_ref`, by which the holder of a page gives its reference
back. -/
def thread_safe_page.dec_ref (p : thread_safe_page) : thread_safe_page :=
  { p with ref := p.ref - 1 }

/-- A caller that looks up the offsets `offs` one after the other in the cell of global index
`g`, with `old_off` initialised to the sentinel, and releases each returned page before the
next call; `none` when one of the calls does not return. -/
def lookup_and_release (C : associative_cache) (g : Nat) : List Int → Option associative_cache
  | [] => some C
  | o :: rest =>
    match hash_cell.search C g o unassigned with
    | Outcome.returned (i, _) C1 =>
      match C1.get_cell g with
      | none => none
      | some c1 =>
        match c1.buf[i]? with
        | none => none
        | some p =>
          lookup_and_release (C1.set_cell g { c1 with buf := c1.buf.set i p.dec_ref }) g rest
    | _ => none

/-! ## The table: routing, lookup and construction -/

namespace associative_cache

/-- Modelled from the spec: `hash0(p) = p mod (2^level * init_ncells)` for the page index
`p = o / PAGE_SIZE` of offset `o`, with the truncating division and remainder of C. -/
def hash0_locked (C : associative_cache) (off : Int) : Int :=
  Int.tmod (Int.tdiv off (C.PAGE_SIZE : Int)) ((C.init_ncells : Int) * 2 ^ C.level)

/-- Modelled from the spec: the global index of the cell responsible for offset `off`: it is
`hash1` if `hash0 < split`, else `hash0`. -/
def cell_index (C : associative_cache) (off : Int) : Int :=
  if C.hash0_locked off < (C.split : Int) then C.hash1_locked off else C.hash0_locked off

/-- `associative_cache::search(offset, old_off)` (lines 486-500): the cell responsible for the
offset is looked up and searched again after every `expand_exception`.  `fuel` bounds the
number of attempts; the result is `none` when all of them ended in `expand_exception`.  A
returned value is the global index of the cell, the slot of the page in it and `old_off`. -/
def search : Nat → associative_cache → Int → Int → Option (Outcome (Nat × Nat × Int))
  | 0, _, _, _ => none
  | fuel + 1, C, off, old_off =>
    if C.cell_index off < 0 then some Outcome.fault
    else
      match hash_cell.search C (C.cell_index off).toNat off old_off with
      | Outcome.returned (i, old) C1 =>
        some (Outcome.returned ((C.cell_index off).toNat, i, old) C1)
      | Outcome.expand_exception C1 => search fuel C1 off old_off
      | Outcome.spins => some Outcome.spins
      | Outcome.fault => some Outcome.fault

/-- The constructor `associative_cache::associative_cache(manager)` (lines 502-530), with the
constants of the missing header (`init_cache_size`, `CELL_SIZE`, `NUM_SHADOW_PAGES`,
`PAGE_SIZE`, whether `USE_SHADOW_PAGE` is defined) and the manager's `get_max_size()` as
arguments; `none` when a division by zero or the assertion stops it, or when it exits on
`oom_exception`. -/
def create (manager : memory_manager) (init_cache_size max_size CELL_SIZE NUM_SHADOW_PAGES
    PAGE_SIZE : Nat) (use_shadow : Bool) : Option associative_cache :=
  if PAGE_SIZE = 0 ∨ CELL_SIZE = 0 then none
  else if init_cache_size < CELL_SIZE * PAGE_SIZE then none
  else
    match alloc_cells CELL_SIZE NUM_SHADOW_PAGES (init_cache_size / PAGE_SIZE / CELL_SIZE)
        manager 0 with
    | (_, none) => none
    | (m, some cells) =>
      some { level := 0, split := 0,
             init_ncells := init_cache_size / PAGE_SIZE / CELL_SIZE,
             cells_table := some cells ::
               List.replicate (max_size / PAGE_SIZE / CELL_SIZE
                 / (init_cache_size / PAGE_SIZE / CELL_SIZE) - 1) none,
             ncells := 1, expanding := false, manager := m,
             CELL_SIZE := CELL_SIZE, NUM_SHADOW_PAGES := NUM_SHADOW_PAGES,
             PAGE_SIZE := PAGE_SIZE, use_shadow := use_shadow }

end associative_cache

/-- A caller gives back the reference it holds on the page in slot `i` of the cell of global
index `g`; `none` when there is no such page or it is not in use. -/
def release (C : associative_cache) (g i : Nat) : Option associative_cache :=
  match C.get_cell g with
  | none => none
  | some c =>
    match c.buf[i]? with
    | none => none
    | some p =>
      if p.ref = 0 then none
      else some (C.set_cell g { c with buf := c.buf.set i p.dec_ref })

/-- The operations of a caller of the cache: a lookup of an offset (which returned within the
given number of attempts), the release of a page, and a call of `expand` for a cell. -/
inductive Op where
  | search : Int → Nat → Op
  | release : Nat → Nat → Op
  | expand : Nat → Op
deriving DecidableEq, Repr

/-- The cache after one operation; `none` when the operation does not return. -/
def step (C : associative_cache) : Op → Option associative_cache
  | Op.search off fuel =>
    match C.search fuel off unassigned with
    | some (Outcome.returned _ C1) => some C1
    | _ => none
  | Op.release g i => release C g i
  | Op.expand g =>
    match C.expand g with
    | some (_, C1) => some C1
    | none => none

/-- The cache after a sequence of operations. -/
def run (C : associative_cache) : List Op → Option associative_cache
  | [] => some C
  | op :: rest =>
    match step C op with
    | none => none
    | some C1 => run C1 rest

/-! ## The generic queue and the LRU shadow cell -/

/-- Modelled from the spec: the state of a `generic_queue<T, SIZE>` (class declared in the
missing header): the circular buffer `buf` of `SIZE` entries, the physical index `start` of
the first element and the number `num` of elements. -/
structure generic_queue (α : Type) where
  buf : List α
  start : Nat
  num : Nat
deriving DecidableEq, Repr

namespace generic_queue

/-- Modelled from the spec: `get(i)`, the element at logical position `i`, which is the entry
`(start + i) % SIZE` of the buffer. -/
def get {α : Type} (q : generic_queue α) (i : Nat) : Option α :=
  q.buf[(q.start + i) % q.buf.length]?

/-- The elements at the logical positions `i`, `i + 1`, ... of a buffer, `n` of them. -/
def logical_from {α : Type} (buf : List α) : Nat → Nat → List α
  | _, 0 => []
  | i, n + 1 =>
    match buf[i % buf.length]? with
    | none => []
    | some x => x :: logical_from buf (i + 1) n

/-- The logical sequence of the queue: its elements from the first to the last. -/
def to_list {α : Type} (q : generic_queue α) : List α :=
  logical_from q.buf q.start q.num

/-- Modelled from the spec: `pop_front()` drops the first element. -/
def pop_front {α : Type} (q : generic_queue α) : generic_queue α :=
  { q with start := (q.start + 1) % q.buf.length, num := q.num - 1 }

/-- Modelled from the spec: `push_back(x)` stores `x` behind the last element. -/
def push_back {α : Type} (q : generic_queue α) (x : α) : generic_queue α :=
  { q with buf := q.buf.set ((q.start + q.num) % q.buf.length) x, num := q.num + 1 }

/-- The source of a `memcpy`: `count` entries of a buffer from index `pos` on. -/
def slice {α : Type} (l : List α) (pos count : Nat) : List α :=
  (l.drop pos).take count

/-- `generic_queue::remove(idx)` (lines 19-81), `SIZE` being the length of the buffer; `none`
when `assert(idx < num)` fails.  The array `tmp` is the concatenation of the copied pieces,
and the final `memcpy` puts its first `num - 1` entries at the beginning of the buffer. -/
def remove {α : Type} (q : generic_queue α) (idx : Nat) : Option (generic_queue α) :=
  if ¬ idx < q.num then none
  else if idx = 0 then some q.pop_front
  else if idx = q.num - 1 then some { q with num := q.num - 1 }
  else
    let tmp :=
      if q.start + q.num ≤ q.buf.length then
        slice q.buf q.start idx ++ slice q.buf (q.start + idx + 1) (q.num - idx - 1)
      else if idx + q.start < q.buf.length then
        slice q.buf q.start idx
          ++ slice q.buf (q.start + idx + 1) (q.buf.length - q.start - idx - 1)
          ++ slice q.buf 0 (q.num - (q.buf.length - q.start))
      else
        slice q.buf q.start (q.buf.length - q.start)
          ++ slice q.buf 0 ((idx + q.start) % q.buf.length)
          ++ slice q.buf ((idx + q.start) % q.buf.length + 1)
              ((q.start + q.num) % q.buf.length - (idx + q.start) % q.buf.length - 1)
    some { buf := tmp.take (q.num - 1) ++ q.buf.drop (q.num - 1), start := 0,
           num := q.num - 1 }

end generic_queue

/-- The loop of `LRU_shadow_cell::search` (lines 385-392) from logical position `i` on, `n`
being the number of positions left: the returned shadow page and the queue afterwards;
`none` when a position is outside the buffer. -/
def LRU_shadow_cell_search_loop (off : Int) (q : generic_queue shadow_page) :
    Nat → Nat → Option (shadow_page × generic_queue shadow_page)
  | 0, _ => some (shadow_page.invalid, q)
  | n + 1, i =>
    match q.get i with
    | none => none
    | some pg =>
      if pg.offset = off then
        match q.remove i with
        | none => none
        | some q1 => some (pg, q1.push_back pg)
      else
        LRU_shadow_cell_search_loop off q n (i + 1)

/-- `LRU_shadow_cell::search(off)` (lines 384-394) on the queue of the shadow cell. -/
def LRU_shadow_cell_search (q : generic_queue shadow_page) (off : Int) :
    Option (shadow_page × generic_queue shadow_page) :=
  LRU_shadow_cell_search_loop off q q.num 0

/-! ## Predicates used in the statements -/

/-- Every page of the cell and every entry of its shadow cell has a hits value that fits the
8-bit counter. -/
def hash_cell.hits_bounded (c : hash_cell) : Prop :=
  (∀ p ∈ c.buf, p.hits ≤ 0xff) ∧ (∀ e ∈ c.shadow.queue, e.hits ≤ 0xff)

/-- Every cell of the directory has 8-bit hits values. -/
def associative_cache.hits_bounded (C : associative_cache) : Prop :=
  ∀ x ∈ C.cells_table, ∀ cells ∈ x, ∀ c ∈ cells, hash_cell.hits_bounded c

/-- The sum of the hits of the pages of a buffer. -/
def hits_sum (buf : List thread_safe_page) : Nat :=
  (buf.map (fun p => p.hits)).sum

/-- The victim scan as the specification words it, without the short cut: it examines every
slot, skips the pages in use and keeps the first slot of the least hits seen so far. -/
def hash_cell.exhaustive_scan : List thread_safe_page → Nat → Nat → Option Nat → Nat × Option Nat
  | [], _, min_hits, ret => (min_hits, ret)
  | pg :: rest, i, min_hits, ret =>
    if pg.ref ≠ 0 then
      hash_cell.exhaustive_scan rest (i + 1) min_hits ret
    else if min_hits > pg.hits then
      hash_cell.exhaustive_scan rest (i + 1) pg.hits (some i)
    else
      hash_cell.exhaustive_scan rest (i + 1) min_hits ret

/-- The pages that `rehash` is to move into the expanded cell: those whose `hash1` is the
hash of the expanded cell and that are not in use. -/
def hash_cell.is_moved (hash1 : Int → Int) (expanded_hash : Int) (p : thread_safe_page) : Bool :=
  decide (hash1 p.offset = expanded_hash) && decide (p.ref = 0)

/-- The offsets held by the pages of a buffer, slot by slot. -/
def slot_offsets (buf : List thread_safe_page) : List Int :=
  buf.map (fun p => p.offset)

/-- The assigned (non-sentinel) offsets held by the pages of a buffer are pairwise distinct:
two slots hold the same offset only when it is the sentinel. -/
def distinct_identities (buf : List thread_safe_page) : Prop :=
  (slot_offsets buf).Pairwise (fun x y => x = y → x = unassigned)

/-- Every slot of `ys` holds the sentinel or the offset that the same slot of `xs` holds. -/
def slots_kept (xs ys : List Int) : Prop :=
  ys.length = xs.length ∧ ∀ (k : Nat) (y : Int), ys[k]? = some y → y = unassigned ∨ xs[k]? = some y

/-- The cells of the directory past the logical cell space, which no split step has filled
yet, hold only pages without an assigned offset. -/
def spare_cells_unassigned (C : associative_cache) : Prop :=
  ∀ j, j < C.cells_table.length * C.init_ncells → C.size ≤ j →
    ∀ c ∈ C.get_cell j, ∀ p ∈ c.buf, p.offset = unassigned

/-- The cell holds the offsets `offs` in its first slots, in that order, each with one hit and
not in use, and pages that were never assigned in its other slots, and its shadow queue is
empty: the cell after the offsets `offs` were admitted one after the other into a fresh
cell. -/
def hash_cell.filled_in_order (c : hash_cell) (offs : List Int) : Prop :=
  (∀ (t : Nat) (o : Int), offs[t]? = some o →
    ∃ p, c.buf[t]? = some p ∧ p.offset = o ∧ p.hits = 1 ∧ p.ref = 0) ∧
  (∀ (t : Nat) (p : thread_safe_page), offs.length ≤ t → c.buf[t]? = some p →
    p.offset = unassigned ∧ p.hits = 0 ∧ p.ref = 0) ∧
  c.shadow.queue = []

/-! ## Concrete states

Small cache states on which the functions above are evaluated. -/

/-- A page that currently represents offset `off`, with the given hits and ref. -/
def sample_page (off : Int) (hits ref : Nat) : thread_safe_page :=
  { offset := off, data := 0, ref := ref, hits := hits,
    io_pending := false, data_ready := true, initialized := true }

/-- A cell with the given hash, overflow flag, pages and shadow queue (capacity 4). -/
def sample_cell (hash : Int) (overflow : Bool) (buf : List thread_safe_page)
    (queue : List shadow_page) : hash_cell :=
  { hash := hash, overflow := overflow, buf := buf,
    shadow := { queue := queue, last_idx := 0, capacity := 4 } }

/-- A cache of one chunk holding the single cell `c`, at level 0 with split 0, whose logical
size 1 is not below the manager's average size 0 (so `get_empty_page` never calls `expand`),
built with `USE_SHADOW_PAGE`, `PAGE_SIZE = 4096`. -/
def sample_cache (c : hash_cell) : associative_cache :=
  { level := 0, split := 0, init_ncells := 1, cells_table := [some [c], none],
    ncells := 1, expanding := false,
    manager := { answers := [], next_buf := 0, average_cache_size := 0 },
    CELL_SIZE := c.buf.length, NUM_SHADOW_PAGES := 4, PAGE_SIZE := 4096, use_shadow := true }

/-- The sample cache whose only cell holds offset 4096 (1 hit) in slot 0 and offset 8192
(3 hits) in slot 1, both unreferenced, with an empty shadow cell. -/
def two_page_cache : associative_cache :=
  sample_cache (sample_cell 0 false [sample_page 4096 1 0, sample_page 8192 3 0] [])

/-- The state of `two_page_cache` after a hit on offset 8192. -/
def two_page_cache_after_hit : associative_cache :=
  sample_cache (sample_cell 0 false [sample_page 4096 1 0, sample_page 8192 4 1] [])

/-- The state of `two_page_cache` after a miss on offset 12288, which evicts offset 4096 from
slot 0 and records it in the shadow cell. -/
def two_page_cache_after_miss : associative_cache :=
  sample_cache (sample_cell 0 true
    [{ sample_page 12288 1 1 with data_ready := false }, sample_page 8192 3 0]
    [{ offset := 4096, hits := 1, referenced := false }])

/-- The sample cache whose only cell is fresh: two unassigned pages and an empty shadow cell. -/
def fresh_cache : associative_cache :=
  sample_cache (sample_cell 0 false [thread_safe_page.fresh 0, thread_safe_page.fresh 1] [])

/-- The sample cache whose only cell holds offset 4096 (1 hit, unreferenced) in its single
page, the shadow cell remembering offset 8192 with 255 hits. -/
def seeded_cache : associative_cache :=
  sample_cache (sample_cell 0 false [sample_page 4096 1 0]
    [{ offset := 8192, hits := 255, referenced := false }])

/-- The state of `seeded_cache` after a miss on offset 8192: the page was seeded with 255
hits, the aging halved every hits value and the hit was recorded. -/
def seeded_cache_after : associative_cache :=
  sample_cache (sample_cell 0 true [{ sample_page 8192 128 1 with data_ready := false }]
    [{ offset := 8192, hits := 127, referenced := true },
     { offset := 4096, hits := 0, referenced := false }])

/-- The state of `two_page_cache_after_hit` after a miss on offset 12288: slot 1 is in use,
so slot 0 is taken. -/
def two_page_cache_after_hit_miss : associative_cache :=
  sample_cache (sample_cell 0 true
    [{ sample_page 12288 1 1 with data_ready := false }, sample_page 8192 4 1]
    [{ offset := 4096, hits := 1, referenced := false }])

/-- The state of `two_page_cache` after `get_empty_page` took slot 0. -/
def two_page_cache_victim_taken : associative_cache :=
  sample_cache (sample_cell 0 true
    [{ sample_page 4096 0 0 with data_ready := false }, sample_page 8192 3 0]
    [{ offset := 4096, hits := 1, referenced := false }])

/-- The state of `two_page_cache_after_miss` after offset 4096 came back, into slot 1. -/
def two_page_cache_after_round_trip : associative_cache :=
  sample_cache (sample_cell 0 true
    [{ sample_page 12288 1 1 with data_ready := false },
     { sample_page 4096 2 1 with data_ready := false }]
    [{ offset := 4096, hits := 1, referenced := true },
     { offset := 8192, hits := 3, referenced := false }])

/-- A `hash1` for cells 0 and 2 of a table of four cells with pages of 4096 bytes. -/
def sample_hash1 (off : Int) : Int :=
  Int.tmod (Int.tdiv off 4096) 4

/-- A cache at level 1 with two cells of one page each and room for two more chunks, below
the manager's average size 100.  Cell 0 holds offset 8192 (page index 2, so `hash1` is 2),
cell 1 has its overflow flag set, and the manager will supply pages for one more cell only. -/
def expanding_cache : associative_cache :=
  { level := 1, split := 0, init_ncells := 1,
    cells_table := [some [sample_cell 0 false [sample_page 8192 1 0] []],
                    some [sample_cell 1 true [sample_page 4096 3 0] []], none, none],
    ncells := 2, expanding := false,
    manager := { answers := [true], next_buf := 7, average_cache_size := 100 },
    CELL_SIZE := 1, NUM_SHADOW_PAGES := 4, PAGE_SIZE := 4096, use_shadow := true }

/-- The quantity `level * 2 * init_ncells + split` of the lifetime invariant, as the
specification writes it. -/
def stated_measure (C : associative_cache) : Nat :=
  C.level * 2 * C.init_ncells + C.split

/-- The cache `expanding_cache` while an expansion is in progress: `TABLE_EXPANDING` is set. -/
def busy_cache : associative_cache :=
  { expanding_cache with expanding := true }

/-- The cache `expanding_cache` with a memory manager that has no pages left to supply. -/
def starved_cache : associative_cache :=
  { expanding_cache with manager := { answers := [], next_buf := 7, average_cache_size := 100 } }

/-- The state in which `expand` leaves `starved_cache`: nothing but the flag has changed. -/
def starved_cache_after : associative_cache :=
  { starved_cache with expanding := true }

/-- A cell of index `g` whose single page holds the page index `g` with one hit. -/
def one_page_cell (g : Nat) (overflow : Bool) : hash_cell :=
  sample_cell (g : Int) overflow [sample_page (4096 * (g : Int)) 1 0] []

/-- A cache at level 2 with `init_ncells = 1` and `split = 3`: seven cells of one page each,
every page in the cell responsible for it, cell 3 with its overflow flag set, room for one
more chunk in the directory and a manager that will supply the pages for it. -/
def level_two_cache : associative_cache :=
  { level := 2, split := 3, init_ncells := 1,
    cells_table := [some [one_page_cell 0 false], some [one_page_cell 1 false],
                    some [one_page_cell 2 false], some [one_page_cell 3 true],
                    some [one_page_cell 4 false], some [one_page_cell 5 false],
                    some [one_page_cell 6 false], none],
    ncells := 7, expanding := false,
    manager := { answers := [true], next_buf := 7, average_cache_size := 100 },
    CELL_SIZE := 1, NUM_SHADOW_PAGES := 4, PAGE_SIZE := 4096, use_shadow := true }

/-- The state in which `expand` leaves `level_two_cache` when called for cell 3: cell 3 has
been split into the new cell 7, `split` has reached 4 and the level has become 3. -/
def level_two_cache_after : associative_cache :=
  { level := 3, split := 0, init_ncells := 1,
    cells_table := [some [one_page_cell 0 false], some [one_page_cell 1 false],
                    some [one_page_cell 2 false], some [one_page_cell 3 false],
                    some [one_page_cell 4 false], some [one_page_cell 5 false],
                    some [one_page_cell 6 false],
                    some [{ hash := 7, overflow := false, buf := [thread_safe_page.fresh 7],
                            shadow := clock_shadow_cell.empty 4 }]],
    ncells := 8, expanding := false,
    manager := { answers := [], next_buf := 8, average_cache_size := 100 },
    CELL_SIZE := 1, NUM_SHADOW_PAGES := 4, PAGE_SIZE := 4096, use_shadow := true }

/-- A memory manager that will answer four requests for pages, with an average cache size of
100 cells. -/
def plentiful_manager : memory_manager :=
  { answers := [true, true, true, true], next_buf := 0, average_cache_size := 100 }

/-- The cache that the constructor builds with `CELL_SIZE = 1`, one initial cell and room
for four chunks, after the lookup of offset 0, the release of its page and the lookup of
offset 8192 (which split cell 0 twice): level 1, split 1, the page of offset 0 unused in
cell 0, the page of offset 8192 in use in cell 2. -/
def livelock_cache : associative_cache :=
  { level := 1, split := 1, init_ncells := 1,
    cells_table :=
      [some [{ hash := 0, overflow := false,
               buf := [{ thread_safe_page.fresh 0 with offset := 0, hits := 1 }],
               shadow := clock_shadow_cell.empty 4 }],
       some [{ hash := 1, overflow := false, buf := [thread_safe_page.fresh 1],
               shadow := clock_shadow_cell.empty 4 }],
       some [{ hash := 2, overflow := false,
               buf := [{ thread_safe_page.fresh 2 with offset := 8192, hits := 1, ref := 1 }],
               shadow := clock_shadow_cell.empty 4 }],
       none],
    ncells := 3, expanding := false,
    manager := { answers := [true], next_buf := 3, average_cache_size := 100 },
    CELL_SIZE := 1, NUM_SHADOW_PAGES := 4, PAGE_SIZE := 4096, use_shadow := true }

/-- The cache `livelock_cache` with the overflow flag of cell 0 set. -/
def livelock_cache_flagged : associative_cache :=
  { livelock_cache with
    cells_table :=
      [some [{ hash := 0, overflow := true,
               buf := [{ thread_safe_page.fresh 0 with offset := 0, hits := 1 }],
               shadow := clock_shadow_cell.empty 4 }],
       some [{ hash := 1, overflow := false, buf := [thread_safe_page.fresh 1],
               shadow := clock_shadow_cell.empty 4 }],
       some [{ hash := 2, overflow := false,
               buf := [{ thread_safe_page.fresh 2 with offset := 8192, hits := 1, ref := 1 }],
               shadow := clock_shadow_cell.empty 4 }],
       none] }

/-- The cache that the constructor builds from `plentiful_manager` with `CELL_SIZE = 1`, one
initial cell and room for four chunks. -/
def created_cache : associative_cache :=
  { level := 0, split := 0, init_ncells := 1,
    cells_table :=
      [some [{ hash := 0, overflow := false, buf := [thread_safe_page.fresh 0],
               shadow := clock_shadow_cell.empty 4 }],
       none, none, none],
    ncells := 1, expanding := false,
    manager := { answers := [true, true, true], next_buf := 1, average_cache_size := 100 },
    CELL_SIZE := 1, NUM_SHADOW_PAGES := 4, PAGE_SIZE := 4096, use_shadow := true }

/-- A cell of hash 0 holding offset 16384 (page index 4) with 3 hits and offset 8192 (page
index 2) with 5 hits, neither in use. -/
def split_source_cell : hash_cell :=
  sample_cell 0 true [sample_page 16384 3 0, sample_page 8192 5 0] []

/-- A new cell of hash 2 with two fresh pages. -/
def split_target_cell : hash_cell :=
  { hash := 2, overflow := false,
    buf := [thread_safe_page.fresh 7, thread_safe_page.fresh 8],
    shadow := clock_shadow_cell.empty 4 }

/-- A queue of the three elements 40, 10, 20 that wraps around the end of its buffer of four
entries. -/
def wrapped_queue : generic_queue Nat :=
  { buf := [10, 20, 30, 40], start := 3, num := 3 }

/-- A queue of the shadow pages of the offsets 4096, 8192 and 12288 that wraps around the end
of its buffer of four entries. -/
def shadow_queue : generic_queue shadow_page :=
  { buf := [{ offset := 8192, hits := 2, referenced := false },
            { offset := 12288, hits := 3, referenced := false },
            shadow_page.invalid,
            { offset := 4096, hits := 1, referenced := false }],
    start := 3, num := 3 }

/-- A full clock shadow cell of three entries, the first two referenced, with the hand on the
last entry. -/
def full_clock_cell : clock_shadow_cell :=
  { queue := [{ offset := 4096, hits := 1, referenced := true },
              { offset := 8192, hits := 2, referenced := true },
              { offset := 12288, hits := 3, referenced := false }],
    last_idx := 2, capacity := 3 }

/-- A full clock shadow cell of three entries that are all referenced, with the hand on the
second entry. -/
def all_referenced_clock_cell : clock_shadow_cell :=
  { queue := [{ offset := 4096, hits := 1, referenced := true },
              { offset := 8192, hits := 2, referenced := true },
              { offset := 12288, hits := 3, referenced := true }],
    last_idx := 1, capacity := 3 }

/-- The shadow page of the offset 16384 with seven hits. -/
def incoming_shadow_page : shadow_page :=
  { offset := 16384, hits := 7, referenced := false }

/-- A cell of two pages that were both hit, holding the offsets 8192 and 16384. -/
def crowded_cell : hash_cell :=
  sample_cell 0 false [sample_page 8192 1 0, sample_page 16384 2 0] []

/-- A cache of level 1 with three published chunks of one cell: the cell 0 is `crowded_cell`,
the cell 1 has its overflow flag set, the cell 2 is a spare cell of fresh pages, and the
manager has no memory left for the chunk of the cell 3. -/
def crowded_cache : associative_cache :=
  { level := 1, split := 0, init_ncells := 1,
    cells_table := [some [crowded_cell],
                    some [sample_cell 1 true [sample_page 4096 3 0, sample_page 12288 1 0] []],
                    some [{ hash := 2, overflow := false,
                            buf := [thread_safe_page.fresh 7, thread_safe_page.fresh 8],
                            shadow := clock_shadow_cell.empty 4 }],
                    none],
    ncells := 3, expanding := false,
    manager := { answers := [], next_buf := 9, average_cache_size := 100 },
    CELL_SIZE := 2, NUM_SHADOW_PAGES := 4, PAGE_SIZE := 4096, use_shadow := true }

/-- The cache `crowded_cache` after the lookup of the offset 32768 in the cell 0: the page of
the offset 8192 has moved to the cell 2, the fresh page that came back holds the new offset,
and `TABLE_EXPANDING` is still set since the split of the cell 1 found no memory. -/
def crowded_cache_after : associative_cache :=
  { level := 1, split := 1, init_ncells := 1,
    cells_table := [some [{ hash := 0, overflow := false,
                            buf := [{ offset := 32768, data := 7, ref := 1, hits := 1,
                                      io_pending := false, data_ready := false,
                                      initialized := false },
                                    sample_page 16384 1 0],
                            shadow := clock_shadow_cell.empty 4 }],
                    some [sample_cell 1 true [sample_page 4096 3 0, sample_page 12288 1 0] []],
                    some [{ hash := 2, overflow := false,
                            buf := [sample_page 8192 1 0, thread_safe_page.fresh 8],
                            shadow := clock_shadow_cell.empty 4 }],
                    none],
    ncells := 3, expanding := true,
    manager := { answers := [], next_buf := 9, average_cache_size := 100 },
    CELL_SIZE := 2, NUM_SHADOW_PAGES := 4, PAGE_SIZE := 4096, use_shadow := true }

/-- A buffer of five pages: hits 2, hits 1 in use, hits 1, hits 0, hits 0; the scan of
`get_empty_page` stops at the fourth. -/
def scanned_buffer : List thread_safe_page :=
  [sample_page 4096 2 0, sample_page 8192 1 1, sample_page 12288 1 0, sample_page 16384 0 0,
    sample_page 20480 0 0]

/-- A cache at level 1 with chunks of two cells, of which only the chunk 0 is published: the
split of the cell 0, whose overflow flag is set, needs the chunks 1 and 2, and the manager
supplies pages for three cells only, the two of chunk 1 and the first of chunk 2. -/
def lagging_cache : associative_cache :=
  { level := 1, split := 0, init_ncells := 2,
    cells_table := [some [sample_cell 0 true [sample_page 16384 1 0] [],
                          sample_cell 1 false [sample_page 4096 1 0] []],
                    none, none, none],
    ncells := 1, expanding := false,
    manager := { answers := [true, true, true], next_buf := 7, average_cache_size := 100 },
    CELL_SIZE := 1, NUM_SHADOW_PAGES := 4, PAGE_SIZE := 4096, use_shadow := true }

/-- The cache `lagging_cache` after the split step that ran out of memory: the chunk 1, which
was fully built, is published, the cell built for the chunk 2 is gone, and `TABLE_EXPANDING`
is still set. -/
def lagging_cache_after : associative_cache :=
  { lagging_cache with
    cells_table := [some [sample_cell 0 true [sample_page 16384 1 0] [],
                          sample_cell 1 false [sample_page 4096 1 0] []],
                    some [{ hash := 2, overflow := false, buf := [thread_safe_page.fresh 7],
                            shadow := clock_shadow_cell.empty 4 },
                          { hash := 3, overflow := false, buf := [thread_safe_page.fresh 8],
                            shadow := clock_shadow_cell.empty 4 }],
                    none, none],
    ncells := 2, expanding := true,
    manager := { answers := [], next_buf := 10, average_cache_size := 100 } }

/-- The sample cache whose only cell holds offset 4096 (3 hits) and offset 8192 (5 hits), with
a full shadow queue of four records, the first three referenced, and the clock hand on the
third. -/
def full_shadow_cache : associative_cache :=
  sample_cache
    { hash := 0, overflow := false,
      buf := [sample_page 4096 3 0, sample_page 8192 5 0],
      shadow := { queue := [{ offset := 20480, hits := 1, referenced := true },
                            { offset := 24576, hits := 1, referenced := true },
                            { offset := 28672, hits := 1, referenced := true },
                            { offset := 32768, hits := 1, referenced := false }],
                  last_idx := 2, capacity := 4 } }

/-- The state of `full_shadow_cache` after a miss on offset 12288, which evicts offset 4096
from slot 0 and records it in the entry after the clock hand. -/
def full_shadow_cache_after_miss : associative_cache :=
  sample_cache
    { hash := 0, overflow := true,
      buf := [{ sample_page 12288 1 1 with data_ready := false }, sample_page 8192 5 0],
      shadow := { queue := [{ offset := 20480, hits := 1, referenced := true },
                            { offset := 24576, hits := 1, referenced := true },
                            { offset := 28672, hits := 1, referenced := true },
                            { offset := 4096, hits := 3, referenced := false }],
                  last_idx := 3, capacity := 4 } }

/-- The state of `full_shadow_cache_after_miss` after offset 4096 came back: the record of the
victim of that call, offset 8192, has taken the entry that remembered offset 4096. -/
def full_shadow_cache_after_round_trip : associative_cache :=
  sample_cache
    { hash := 0, overflow := true,
      buf := [{ sample_page 12288 1 1 with data_ready := false },
              { sample_page 4096 1 1 with data_ready := false }],
      shadow := { queue := [{ offset := 20480, hits := 1, referenced := false },
                            { offset := 24576, hits := 1, referenced := false },
                            { offset := 28672, hits := 1, referenced := false },
                            { offset := 8192, hits := 5, referenced := false }],
                  last_idx := 3, capacity := 4 } }

/-! ## Auxiliary lemmas -/

namespace associative_cache

theorem set_cell_init_ncells (C : associative_cache) (g : Nat) (c : hash_cell) :
    (C.set_cell g c).init_ncells = C.init_ncells := by
  unfold set_cell; split <;> rfl

theorem set_cell_use_shadow (C : associative_cache) (g : Nat) (c : hash_cell) :
    (C.set_cell g c).use_shadow = C.use_shadow := by
  unfold set_cell; split <;> rfl

theorem set_cell_size (C : associative_cache) (g : Nat) (c : hash_cell) :
    (C.set_cell g c).size = C.size := by
  unfold set_cell; split <;> rfl

theorem set_cell_manager (C : associative_cache) (g : Nat) (c : hash_cell) :
    (C.set_cell g c).manager = C.manager := by
  unfold set_cell; split <;> rfl

theorem set_cell_expanding (C : associative_cache) (g : Nat) (c : hash_cell) :
    (C.set_cell g c).expanding = C.expanding := by
  unfold set_cell; split <;> rfl

theorem set_cell_level (C : associative_cache) (g : Nat) (c : hash_cell) :
    (C.set_cell g c).level = C.level := by
  unfold set_cell; split <;> rfl

theorem set_cell_split (C : associative_cache) (g : Nat) (c : hash_cell) :
    (C.set_cell g c).split = C.split := by
  unfold set_cell; split <;> rfl

theorem set_cell_ncells (C : associative_cache) (g : Nat) (c : hash_cell) :
    (C.set_cell g c).ncells = C.ncells := by
  unfold set_cell; split <;> rfl

theorem set_cell_length (C : associative_cache) (g : Nat) (c : hash_cell) :
    (C.set_cell g c).cells_table.length = C.cells_table.length := by
  unfold set_cell; split <;> simp

theorem get_cell_set_cell_self {C : associative_cache} {g : Nat} {c : hash_cell}
    (h : C.get_cell g = some c) (c1 : hash_cell) :
    (C.set_cell g c1).get_cell g = some c1 := by
  unfold get_cell at h
  split at h
  · exact absurd h (by simp)
  · rename_i hn
    split at h
    · rename_i cells hc
      have hlt : g / C.init_ncells < C.cells_table.length := by
        by_contra hcon
        rw [List.getElem?_eq_none (by omega)] at hc
        exact absurd hc (by simp)
      have hlt2 : g % C.init_ncells < cells.length := by
        by_contra hcon
        rw [List.getElem?_eq_none (by omega)] at h
        exact absurd h (by simp)
      simp [get_cell, set_cell, hc, hn, hlt, hlt2]
    · exact absurd h (by simp)

theorem get_cell_set_cell_ne (C : associative_cache) {g k : Nat} (c1 : hash_cell)
    (h : g ≠ k) : (C.set_cell g c1).get_cell k = C.get_cell k := by
  by_cases hn : C.init_ncells = 0
  · simp [get_cell, set_cell_init_ncells, hn]
  · unfold set_cell
    split
    · rename_i cells hc
      simp only [get_cell, hn, if_false]
      by_cases hq : g / C.init_ncells = k / C.init_ncells
      · have hr : g % C.init_ncells ≠ k % C.init_ncells := by
          intro hr
          apply h
          rw [← Nat.div_add_mod g C.init_ncells, ← Nat.div_add_mod k C.init_ncells, hq, hr]
        have hlt : k / C.init_ncells < C.cells_table.length := by
          by_contra hcon
          rw [hq, List.getElem?_eq_none (by omega)] at hc
          exact absurd hc (by simp)
        rw [hq] at hc ⊢
        simp [hlt, hc, List.getElem?_set_ne hr]
      · rw [List.getElem?_set_ne hq]
    · rfl

end associative_cache

namespace hash_cell

theorem search_returned {C : associative_cache} {g : Nat} {off old : Int} {i : Nat} {ev : Int}
    {C2 : associative_cache} (h : search C g off old = Outcome.returned (i, ev) C2) :
    ∃ C1 c1 c2 c3, search_pinned C g off old = Outcome.returned (i, ev) C1 ∧
      C1.get_cell g = some c1 ∧ age C1.use_shadow c1 i = some c2 ∧
      record_hit c2 i = some c3 ∧ C2 = C1.set_cell g c3 := by
  unfold search at h
  split at h
  · rename_i i1 ev1 C1 hp
    split at h
    · exact absurd h (by simp)
    · rename_i c1 hc1
      split at h
      · exact absurd h (by simp)
      · rename_i c2 hc2
        split at h
        · exact absurd h (by simp)
        · rename_i c3 hc3
          simp only [Outcome.returned.injEq, Prod.mk.injEq] at h
          obtain ⟨⟨rfl, rfl⟩, rfl⟩ := h
          exact ⟨C1, c1, c2, c3, hp, hc1, hc2, hc3, rfl⟩
  · exact absurd h (by simp)
  · exact absurd h (by simp)
  · exact absurd h (by simp)

theorem search_pinned_returned {C : associative_cache} {g : Nat} {off old : Int} {i : Nat}
    {ev : Int} {C2 : associative_cache}
    (h : search_pinned C g off old = Outcome.returned (i, ev) C2) :
    ∃ c, C.get_cell g = some c ∧
      ((find_offset off c.buf 0 = some i ∧ ev = old ∧
          ∃ c1, pin c i = some c1 ∧ C2 = C.set_cell g c1) ∨
       (find_offset off c.buf 0 = none ∧
          ∃ C1 c1 c2 c3, get_empty_page C g = Outcome.returned i C1 ∧
            C1.get_cell g = some c1 ∧ reassign C1.use_shadow c1 i off = some (ev, c2) ∧
            pin c2 i = some c3 ∧ C2 = C1.set_cell g c3)) := by
  unfold search_pinned at h
  split at h
  · exact absurd h (by simp)
  · rename_i c hc
    refine ⟨c, hc, ?_⟩
    split at h
    · rename_i i1 hf
      split at h
      · exact absurd h (by simp)
      · rename_i c1 hp
        simp only [Outcome.returned.injEq, Prod.mk.injEq] at h
        obtain ⟨⟨rfl, rfl⟩, rfl⟩ := h
        exact Or.inl ⟨hf, rfl, c1, hp, rfl⟩
    · rename_i hf
      right
      refine ⟨hf, ?_⟩
      split at h
      · rename_i i1 C1 hg
        split at h
        · exact absurd h (by simp)
        · rename_i c1 hc1
          split at h
          · exact absurd h (by simp)
          · rename_i ev1 c2 ha
            split at h
            · exact absurd h (by simp)
            · rename_i c3 hp
              simp only [Outcome.returned.injEq, Prod.mk.injEq] at h
              obtain ⟨⟨rfl, rfl⟩, rfl⟩ := h
              exact ⟨C1, c1, c2, c3, hg, hc1, ha, hp, rfl⟩
      · exact absurd h (by simp)
      · exact absurd h (by simp)
      · exact absurd h (by simp)

theorem get_empty_page_returned {C : associative_cache} {g i : Nat} {C2 : associative_cache}
    (h : get_empty_page C g = Outcome.returned i C2) :
    ∃ C1 c1 c2, select_victim C g = Outcome.returned i C1 ∧ C1.get_cell g = some c1 ∧
      evict C1.use_shadow c1 i = some c2 ∧ C2 = C1.set_cell g c2 := by
  unfold get_empty_page at h
  split at h
  · rename_i i1 C1 hs
    split at h
    · exact absurd h (by simp)
    · rename_i c1 hc1
      split at h
      · exact absurd h (by simp)
      · rename_i c2 he
        simp only [Outcome.returned.injEq] at h
        obtain ⟨rfl, rfl⟩ := h
        exact ⟨C1, c1, c2, hs, hc1, he, rfl⟩
  · exact absurd h (by simp)
  · exact absurd h (by simp)
  · exact absurd h (by simp)

end hash_cell

namespace hash_cell

theorem select_victim_returned {C : associative_cache} {g i : Nat} {C1 : associative_cache}
    (h : select_victim C g = Outcome.returned i C1) :
    ∃ c, C.get_cell g = some c ∧
      ((scan c.buf 0 0x7fffffff none = (0, some i) ∧ C1 = C) ∨
       (∃ m, scan c.buf 0 0x7fffffff none = (m, some i) ∧ m ≠ 0 ∧
          ¬ (((C.set_cell g { c with overflow := true }).size : Int) <
              (C.set_cell g { c with overflow := true }).manager.average_cache_size) ∧
          C1 = C.set_cell g { c with overflow := true }) ∨
       (∃ m i0 C2 c2 m2, scan c.buf 0 0x7fffffff none = (m, some i0) ∧ m ≠ 0 ∧
          (((C.set_cell g { c with overflow := true }).size : Int) <
              (C.set_cell g { c with overflow := true }).manager.average_cache_size) ∧
          (C.set_cell g { c with overflow := true }).expand g = some (false, C2) ∧
          C2.get_cell g = some c2 ∧ scan c2.buf 0 0x7fffffff (some i0) = (m2, some i) ∧
          C1 = if m2 ≠ 0 then C2.set_cell g { c2 with overflow := true } else C2)) := by
  unfold select_victim at h
  split at h
  · exact absurd h (by simp)
  · rename_i c hc
    refine ⟨c, hc, ?_⟩
    split at h
    · exact absurd h (by simp)
    · rename_i m i0 hs
      split at h
      · rename_i hm
        simp only at h
        split at h
        · rename_i hsmall
          split at h
          · exact absurd h (by simp)
          · exact absurd h (by simp)
          · rename_i C2 he
            split at h
            · exact absurd h (by simp)
            · rename_i c2 hc2
              split at h
              · exact absurd h (by simp)
              · rename_i m2 i2 hs2
                right; right
                refine ⟨m, i0, C2, c2, m2, hs, hm, hsmall, he, hc2, ?_⟩
                split at h
                · rename_i hm2
                  simp only [Outcome.returned.injEq] at h
                  obtain ⟨rfl, rfl⟩ := h
                  exact ⟨hs2, by simp [hm2]⟩
                · rename_i hm2
                  simp only [Outcome.returned.injEq] at h
                  obtain ⟨rfl, rfl⟩ := h
                  exact ⟨hs2, by simp [hm2]⟩
        · rename_i hsmall
          simp only [Outcome.returned.injEq] at h
          obtain ⟨rfl, rfl⟩ := h
          exact Or.inr (Or.inl ⟨m, hs, hm, hsmall, rfl⟩)
      · rename_i hm
        simp only [Outcome.returned.injEq] at h
        obtain ⟨rfl, rfl⟩ := h
        have hm0 : m = 0 := by simpa using hm
        subst hm0
        exact Or.inl ⟨hs, rfl⟩

end hash_cell

namespace hash_cell

theorem scan_spec (buf : List thread_safe_page) :
    ∀ (i m : Nat) (r : Option Nat) (m1 : Nat) (r1 : Option Nat),
      scan buf i m r = (m1, r1) →
      (m1 = m ∧ r1 = r ∧ ∀ (k : Nat) (q : thread_safe_page), buf[k]? = some q → q.ref = 0 → m ≤ q.hits) ∨
      (∃ k q, buf[k]? = some q ∧ r1 = some (i + k) ∧ q.ref = 0 ∧ q.hits = m1 ∧ m1 < m ∧
        (∀ (j : Nat) (p : thread_safe_page), j < k → buf[j]? = some p → p.ref = 0 → m1 < p.hits) ∧
        (∀ (j : Nat) (p : thread_safe_page), buf[j]? = some p → p.ref = 0 → m1 ≤ p.hits)) := by
  induction buf with
  | nil =>
    intro i m r m1 r1 h
    simp only [scan, Prod.mk.injEq] at h
    left
    exact ⟨h.1.symm, h.2.symm, by simp⟩
  | cons pg rest ih =>
    intro i m r m1 r1 h
    unfold scan at h
    split at h
    · rename_i href
      rcases ih _ _ _ _ _ h with ⟨h1, h2, h3⟩ | ⟨k, q, hk, hr, hq, hh, hlt, he, ha⟩
      · left
        refine ⟨h1, h2, ?_⟩
        intro k q hk hq
        cases k with
        | zero =>
          simp only [List.getElem?_cons_zero, Option.some.injEq] at hk
          subst hk
          exact absurd hq href
        | succ k => exact h3 k q (by simpa using hk) hq
      · right
        refine ⟨k + 1, q, by simpa using hk, by rw [hr]; congr 1; omega, hq, hh, hlt, ?_, ?_⟩
        · intro j p hj hp hp0
          cases j with
          | zero =>
            simp only [List.getElem?_cons_zero, Option.some.injEq] at hp
            subst hp
            exact absurd hp0 href
          | succ j => exact he j p (by omega) (by simpa using hp) hp0
        · intro j p hp hp0
          cases j with
          | zero =>
            simp only [List.getElem?_cons_zero, Option.some.injEq] at hp
            subst hp
            exact absurd hp0 href
          | succ j => exact ha j p (by simpa using hp) hp0
    · rename_i href
      have hpg : pg.ref = 0 := by simpa using href
      simp only at h
      by_cases hgt : m > pg.hits
      · simp only [hgt, if_true] at h
        split at h
        · rename_i h0
          simp only [Prod.mk.injEq] at h
          right
          refine ⟨0, pg, by simp, by simp [← h.2], hpg, h.1, by omega, ?_, ?_⟩
          · intro j p hj; omega
          · intro j p _ _; omega
        · rename_i h0
          rcases ih _ _ _ _ _ h with ⟨h1, h2, h3⟩ | ⟨k, q, hk, hr, hq, hh, hlt, he, ha⟩
          · right
            refine ⟨0, pg, by simp, by simp [h2], hpg, h1.symm, by omega, ?_, ?_⟩
            · intro j p hj; omega
            · intro j p hp hp0
              cases j with
              | zero =>
                simp only [List.getElem?_cons_zero, Option.some.injEq] at hp
                subst hp
                omega
              | succ j =>
                have := h3 j p (by simpa using hp) hp0
                omega
          · right
            refine ⟨k + 1, q, by simpa using hk, by rw [hr]; congr 1; omega, hq, hh,
              by omega, ?_, ?_⟩
            · intro j p hj hp hp0
              cases j with
              | zero =>
                simp only [List.getElem?_cons_zero, Option.some.injEq] at hp
                subst hp
                omega
              | succ j => exact he j p (by omega) (by simpa using hp) hp0
            · intro j p hp hp0
              cases j with
              | zero =>
                simp only [List.getElem?_cons_zero, Option.some.injEq] at hp
                subst hp
                omega
              | succ j => exact ha j p (by simpa using hp) hp0
      · simp only [hgt, if_false] at h
        split at h
        · rename_i h0
          simp only [Prod.mk.injEq] at h
          left
          refine ⟨h.1.symm, h.2.symm, ?_⟩
          intro k q _ _
          omega
        · rename_i h0
          rcases ih _ _ _ _ _ h with ⟨h1, h2, h3⟩ | ⟨k, q, hk, hr, hq, hh, hlt, he, ha⟩
          · left
            refine ⟨h1, h2, ?_⟩
            intro k q hk hq
            cases k with
            | zero =>
              simp only [List.getElem?_cons_zero, Option.some.injEq] at hk
              subst hk
              omega
            | succ k => exact h3 k q (by simpa using hk) hq
          · right
            refine ⟨k + 1, q, by simpa using hk, by rw [hr]; congr 1; omega, hq, hh,
              hlt, ?_, ?_⟩
            · intro j p hj hp hp0
              cases j with
              | zero =>
                simp only [List.getElem?_cons_zero, Option.some.injEq] at hp
                subst hp
                omega
              | succ j => exact he j p (by omega) (by simpa using hp) hp0
            · intro j p hp hp0
              cases j with
              | zero =>
                simp only [List.getElem?_cons_zero, Option.some.injEq] at hp
                subst hp
                omega
              | succ j => exact ha j p (by simpa using hp) hp0

end hash_cell

namespace hash_cell

theorem pin_some {c c1 : hash_cell} {i : Nat} (h : pin c i = some c1) :
    ∃ p, c.buf[i]? = some p ∧ c1 = { c with buf := c.buf.set i p.inc_ref } := by
  unfold pin at h
  split at h
  · exact absurd h (by simp)
  · rename_i p hp
    exact ⟨p, hp, by simpa using h.symm⟩

theorem record_hit_some {c c1 : hash_cell} {i : Nat} (h : record_hit c i = some c1) :
    ∃ p, c.buf[i]? = some p ∧ c1 = { c with buf := c.buf.set i p.hit } := by
  unfold record_hit at h
  split at h
  · exact absurd h (by simp)
  · rename_i p hp
    exact ⟨p, hp, by simpa using h.symm⟩

theorem age_some {u : Bool} {c c1 : hash_cell} {i : Nat} (h : age u c i = some c1) :
    ∃ p, c.buf[i]? = some p ∧
      ((p.hits = 0xff ∧ c1 = { c with
          buf := page_cell_scale_down_hits c.buf,
          shadow := if u then c.shadow.scale_down_hits else c.shadow }) ∨
       (p.hits ≠ 0xff ∧ c1 = c)) := by
  unfold age at h
  split at h
  · exact absurd h (by simp)
  · rename_i p hp
    refine ⟨p, hp, ?_⟩
    split at h
    · rename_i h255
      exact Or.inl ⟨h255, by simpa using h.symm⟩
    · rename_i h255
      exact Or.inr ⟨h255, by simpa using h.symm⟩

theorem reassign_some {u : Bool} {c c1 : hash_cell} {i : Nat} {off ev : Int}
    (h : reassign u c i off = some (ev, c1)) :
    ∃ p, c.buf[i]? = some p ∧ ev = p.offset ∧
      ((u = true ∧ c1 = { c with
          buf := c.buf.set i
            (if (c.shadow.search off).1.is_valid
              then (p.set_offset off).set_hits (c.shadow.search off).1.hits
              else p.set_offset off),
          shadow := (c.shadow.search off).2 }) ∨
       (u = false ∧ c1 = { c with buf := c.buf.set i (p.set_offset off) })) := by
  unfold reassign at h
  split at h
  · exact absurd h (by simp)
  · rename_i p hp
    refine ⟨p, hp, ?_⟩
    split at h
    · rename_i hu
      simp only [Option.some.injEq, Prod.mk.injEq] at h
      exact ⟨h.1.symm, Or.inl ⟨hu, h.2.symm⟩⟩
    · rename_i hu
      simp only [Option.some.injEq, Prod.mk.injEq] at h
      exact ⟨h.1.symm, Or.inr ⟨by simpa using hu, h.2.symm⟩⟩

theorem evict_some {u : Bool} {c c1 : hash_cell} {i : Nat} (h : evict u c i = some c1) :
    ∃ p, c.buf[i]? = some p ∧
      c1.buf = c.buf.set i ((p.reset_hits).set_data_ready false) ∧
      c1.hash = c.hash ∧ c1.overflow = c.overflow ∧
      ((u = true ∧ 0 < p.hits ∧ c.shadow.add (shadow_page.of_page p) = some c1.shadow) ∨
       ((u = false ∨ p.hits = 0) ∧ c1.shadow = c.shadow)) := by
  unfold evict at h
  split at h
  · exact absurd h (by simp)
  · rename_i p hp
    refine ⟨p, hp, ?_⟩
    simp only at h
    split at h
    · rename_i hcond
      simp only [Bool.and_eq_true, decide_eq_true_eq] at hcond
      split at h
      · exact absurd h (by simp)
      · rename_i sh hsh
        simp only [Option.some.injEq] at h
        subst h
        exact ⟨rfl, rfl, rfl, Or.inl ⟨hcond.1, hcond.2, hsh⟩⟩
    · rename_i hcond
      simp only [Bool.and_eq_true, decide_eq_true_eq, not_and, not_lt, Nat.le_zero] at hcond
      simp only [Option.some.injEq] at h
      subst h
      refine ⟨rfl, rfl, rfl, Or.inr ⟨?_, rfl⟩⟩
      cases u
      · exact Or.inl rfl
      · exact Or.inr (hcond rfl)

theorem find_offset_some (off : Int) (buf : List thread_safe_page) :
    ∀ (s i : Nat), find_offset off buf s = some i →
      ∃ k p, i = s + k ∧ buf[k]? = some p ∧ p.offset = off ∧
        ∀ (j : Nat) (q : thread_safe_page), j < k → buf[j]? = some q → q.offset ≠ off := by
  induction buf with
  | nil => intro s i h; simp [find_offset] at h
  | cons pg rest ih =>
    intro s i h
    unfold find_offset at h
    split at h
    · rename_i hoff
      simp only [Option.some.injEq] at h
      exact ⟨0, pg, by omega, by simp, hoff, by intro j q hj; omega⟩
    · rename_i hoff
      obtain ⟨k, p, hi, hk, hp, hlow⟩ := ih _ _ h
      refine ⟨k + 1, p, by omega, by simpa using hk, hp, ?_⟩
      intro j q hj hq
      cases j with
      | zero =>
        simp only [List.getElem?_cons_zero, Option.some.injEq] at hq
        subst hq
        exact hoff
      | succ j => exact hlow j q (by omega) (by simpa using hq)

theorem find_offset_none (off : Int) (buf : List thread_safe_page) :
    ∀ (s : Nat), find_offset off buf s = none →
      ∀ (k : Nat) (p : thread_safe_page), buf[k]? = some p → p.offset ≠ off := by
  induction buf with
  | nil => intro s _ k p hk; simp at hk
  | cons pg rest ih =>
    intro s h k p hk
    unfold find_offset at h
    split at h
    · exact absurd h (by simp)
    · rename_i hoff
      cases k with
      | zero =>
        simp only [List.getElem?_cons_zero, Option.some.injEq] at hk
        subst hk
        exact hoff
      | succ k => exact ih _ h k p (by simpa using hk)

theorem find_offset_of_mem (off : Int) (buf : List thread_safe_page) :
    ∀ (s : Nat) (k : Nat) (p : thread_safe_page), buf[k]? = some p → p.offset = off →
      ∃ i, find_offset off buf s = some i := by
  intro s k p hk hp
  cases hf : find_offset off buf s with
  | none => exact absurd hp (find_offset_none off buf s hf k p hk)
  | some i => exact ⟨i, rfl⟩

end hash_cell

theorem map_set_same {α β : Type} (f : α → β) (l : List α) (i : Nat) (p q : α)
    (hp : l[i]? = some p) (hq : f q = f p) : (l.set i q).map f = l.map f := by
  apply List.ext_getElem?
  intro n
  rw [List.map_set, List.getElem?_set]
  split
  · rename_i hin
    subst hin
    simp [hp, hq]
    by_contra hle
    rw [List.getElem?_eq_none (by omega)] at hp
    exact absurd hp (by simp)
  · rfl

theorem scale_down_map_offset (buf : List thread_safe_page) :
    (page_cell_scale_down_hits buf).map (fun p => p.offset) = buf.map (fun p => p.offset) := by
  simp [page_cell_scale_down_hits, thread_safe_page.set_hits]

theorem scale_down_map_ref (buf : List thread_safe_page) :
    (page_cell_scale_down_hits buf).map (fun p => p.ref) = buf.map (fun p => p.ref) := by
  simp [page_cell_scale_down_hits, thread_safe_page.set_hits]

namespace hash_cell

/-- The part of `search` after `inc_ref` keeps every offset and every reference count. -/
theorem search_tail_frame {C : associative_cache} {g : Nat} {off old : Int} {i : Nat} {ev : Int}
    {C2 : associative_cache} (h : search C g off old = Outcome.returned (i, ev) C2) :
    ∃ C1 c1 c3, search_pinned C g off old = Outcome.returned (i, ev) C1 ∧
      C1.get_cell g = some c1 ∧ C2.get_cell g = some c3 ∧
      c3.buf.map (fun p => p.offset) = c1.buf.map (fun p => p.offset) ∧
      c3.buf.map (fun p => p.ref) = c1.buf.map (fun p => p.ref) := by
  obtain ⟨C1, c1, c2, c3, hp, hc1, ha, hr, rfl⟩ := search_returned h
  refine ⟨C1, c1, c3, hp, hc1, associative_cache.get_cell_set_cell_self hc1 c3, ?_, ?_⟩
  · obtain ⟨p, hp2, rfl⟩ := record_hit_some hr
    obtain ⟨q, hq, hcase⟩ := age_some ha
    rw [map_set_same _ _ _ p _ hp2 (by simp [thread_safe_page.hit])]
    rcases hcase with ⟨_, rfl⟩ | ⟨_, rfl⟩
    · exact scale_down_map_offset _
    · rfl
  · obtain ⟨p, hp2, rfl⟩ := record_hit_some hr
    obtain ⟨q, hq, hcase⟩ := age_some ha
    rw [map_set_same _ _ _ p _ hp2 (by simp [thread_safe_page.hit])]
    rcases hcase with ⟨_, rfl⟩ | ⟨_, rfl⟩
    · exact scale_down_map_ref _
    · rfl

end hash_cell

namespace hash_cell

theorem getElem?_of_map_eq {α β : Type} (f : α → β) {l1 l2 : List α} (h : l1.map f = l2.map f)
    {i : Nat} {p : α} (hp : l2[i]? = some p) : ∃ q, l1[i]? = some q ∧ f q = f p := by
  have h1 : (l1.map f)[i]? = (l2.map f)[i]? := by rw [h]
  rw [List.getElem?_map, List.getElem?_map, hp] at h1
  cases hq : l1[i]? with
  | none => rw [hq] at h1; simp at h1
  | some q =>
    rw [hq] at h1
    simp only [Option.map_some', Option.some.injEq] at h1
    exact ⟨q, rfl, h1⟩

theorem search_pinned_offset {C : associative_cache} {g : Nat} {off old : Int} {i : Nat}
    {ev : Int} {C1 : associative_cache}
    (h : search_pinned C g off old = Outcome.returned (i, ev) C1) :
    ∃ c1 p1, C1.get_cell g = some c1 ∧ c1.buf[i]? = some p1 ∧ p1.offset = off := by
  obtain ⟨c, hc, hcase⟩ := search_pinned_returned h
  rcases hcase with ⟨hf, _, c1, hpin, rfl⟩ | ⟨_, Ca, ca, cb, cc, _, hca, hadm, hpin, rfl⟩
  · obtain ⟨k, p, hik, hk, hp, _⟩ := find_offset_some off c.buf 0 i hf
    have hki : k = i := by omega
    subst hki
    obtain ⟨q, hq, rfl⟩ := pin_some hpin
    rw [hk] at hq
    simp only [Option.some.injEq] at hq
    subst hq
    have hlt : k < c.buf.length := (List.getElem?_eq_some.mp hk).1
    exact ⟨_, p.inc_ref, associative_cache.get_cell_set_cell_self hc _,
      by simp [List.getElem?_set_self hlt], hp⟩
  · obtain ⟨q, hq, rfl⟩ := pin_some hpin
    obtain ⟨p, hp, _, hcase⟩ := reassign_some hadm
    have hlt : i < ca.buf.length := (List.getElem?_eq_some.mp hp).1
    refine ⟨_, q.inc_ref, associative_cache.get_cell_set_cell_self hca _, ?_, ?_⟩
    · have : i < cb.buf.length := (List.getElem?_eq_some.mp hq).1
      simp [List.getElem?_set_self this]
    · rcases hcase with ⟨_, rfl⟩ | ⟨_, rfl⟩
      · simp only [List.getElem?_set_self hlt, Option.some.injEq] at hq
        subst hq
        split <;> simp [thread_safe_page.inc_ref, thread_safe_page.set_hits,
          thread_safe_page.set_offset]
      · simp only [List.getElem?_set_self hlt, Option.some.injEq] at hq
        subst hq
        simp [thread_safe_page.inc_ref, thread_safe_page.set_offset]

end hash_cell

/-- Whenever `hash_cell::search(off, old_off)` returns a page, the offset of that page is
`off`; and if a slot of the cell already held `off` before the call, the returned page is the
lowest-index such slot and the call changes the offset of no slot. -/
theorem search_returned_offset (C : associative_cache) (g : Nat) (off old : Int)
    (i : Nat) (ev : Int) (C2 : associative_cache)
    (h : hash_cell.search C g off old = Outcome.returned (i, ev) C2) :
    (∃ c2 p2, C2.get_cell g = some c2 ∧ c2.buf[i]? = some p2 ∧ p2.offset = off) ∧
    (∀ (c : hash_cell) (k : Nat) (p : thread_safe_page),
      C.get_cell g = some c → c.buf[k]? = some p → p.offset = off →
        (∃ q, c.buf[i]? = some q ∧ q.offset = off) ∧
        (∀ (j : Nat) (q : thread_safe_page), j < i → c.buf[j]? = some q → q.offset ≠ off) ∧
        (∃ c2, C2.get_cell g = some c2 ∧
          c2.buf.map (fun q => q.offset) = c.buf.map (fun q => q.offset))) := by
  obtain ⟨C1, c1, c3, hp, hc1, hc3, hoff, _⟩ := hash_cell.search_tail_frame h
  constructor
  · obtain ⟨c1', p1, hc1', hp1, hp1off⟩ := hash_cell.search_pinned_offset hp
    rw [hc1] at hc1'
    simp only [Option.some.injEq] at hc1'
    subst hc1'
    obtain ⟨q, hq, hqo⟩ := hash_cell.getElem?_of_map_eq (fun p => p.offset) hoff hp1
    exact ⟨c3, q, hc3, hq, by simpa [hp1off] using hqo⟩
  · intro c k p hc hk hpo
    obtain ⟨c', hc', hcase⟩ := hash_cell.search_pinned_returned hp
    rw [hc] at hc'
    simp only [Option.some.injEq] at hc'
    subst hc'
    rcases hcase with ⟨hf, _, cp, hpin, rfl⟩ | ⟨hf, _⟩
    · obtain ⟨k', p', hik, hk', hp', hlow⟩ := hash_cell.find_offset_some off c.buf 0 i hf
      have hki : k' = i := by omega
      subst hki
      refine ⟨⟨p', hk', hp'⟩, hlow, c3, hc3, ?_⟩
      rw [hoff]
      rw [associative_cache.get_cell_set_cell_self hc cp] at hc1
      simp only [Option.some.injEq] at hc1
      subst hc1
      obtain ⟨q, hq, rfl⟩ := hash_cell.pin_some hpin
      exact map_set_same _ _ _ q _ hq (by simp [thread_safe_page.inc_ref])
    · exact absurd hpo (hash_cell.find_offset_none off c.buf 0 hf k p hk)

namespace hash_cell

theorem search_hit_returns {C : associative_cache} {g : Nat} {off : Int} {c : hash_cell}
    {i : Nat} (hc : C.get_cell g = some c) (hf : find_offset off c.buf 0 = some i)
    (old : Int) : ∃ C2, search C g off old = Outcome.returned (i, old) C2 := by
  obtain ⟨k, p, hik, hk, hp, _⟩ := find_offset_some off c.buf 0 i hf
  have hki : k = i := by omega
  subst hki
  have hlt : k < c.buf.length := (List.getElem?_eq_some.mp hk).1
  have hpin : search_pinned C g off old =
      Outcome.returned (k, old) (C.set_cell g { c with buf := c.buf.set k p.inc_ref }) := by
    simp [search_pinned, hc, hf, pin, hk]
  have hg := associative_cache.get_cell_set_cell_self hc
    { c with buf := c.buf.set k p.inc_ref }
  unfold search
  rw [hpin]
  simp only [hg]
  have h1 : (c.buf.set k p.inc_ref)[k]? = some p.inc_ref := List.getElem?_set_self hlt
  by_cases h255 : p.inc_ref.hits = 0xff
  · have h2 : (page_cell_scale_down_hits (c.buf.set k p.inc_ref))[k]? =
        some (p.inc_ref.set_hits (p.inc_ref.hits / 2)) := by
      simp only [page_cell_scale_down_hits, List.getElem?_map, h1, Option.map_some']
    simp [age, h1, h255, record_hit, h2]
  · simp [age, h1, h255, record_hit]

end hash_cell

/-- C4 (as stated, refuted): a hit on offset 8192 in slot 1, called with the out-parameter
holding 12288, returns with the out-parameter still 12288, which is not the unassigned
sentinel. -/
theorem search_hit_leaves_stale_old_off :
    ∃ c p, two_page_cache.get_cell 0 = some c ∧
      c.buf[1]? = some p ∧ p.offset = 8192 ∧
      (hash_cell.search two_page_cache 0 8192 12288).value
          = some (1, 12288) ∧
      (12288 : Int) ≠ unassigned :=
  ⟨_, _, rfl, rfl, rfl, by decide, by decide⟩

/-- C4 (amended): when some slot of the cell already holds `off`, `search(off, old_off)`
returns, and the evicted offset it reports is the value the out-parameter held before the
call: a hit never writes `old_off`. -/
theorem search_hit_keeps_old_off (C : associative_cache) (g : Nat) (off old : Int)
    (c : hash_cell) (k : Nat) (p : thread_safe_page)
    (hc : C.get_cell g = some c) (hk : c.buf[k]? = some p) (hp : p.offset = off) :
    ∃ i C2, hash_cell.search C g off old = Outcome.returned (i, old) C2 := by
  obtain ⟨i, hf⟩ := hash_cell.find_offset_of_mem off c.buf 0 k p hk hp
  obtain ⟨C2, h⟩ := hash_cell.search_hit_returns hc hf old
  exact ⟨i, C2, h⟩

/-- C4 (amended), at a concrete input: a hit on offset 8192 in `two_page_cache`. -/
theorem search_hit_keeps_old_off_witness :
    ∃ i C2, hash_cell.search two_page_cache 0 8192 12288
          = Outcome.returned (i, 12288) C2 :=
  search_hit_keeps_old_off two_page_cache 0 8192 12288
    (sample_cell 0 false [sample_page 4096 1 0, sample_page 8192 3 0] []) 1
    (sample_page 8192 3 0) rfl rfl rfl

namespace hash_cell

theorem scan_initial_ret (buf : List thread_safe_page) :
    ∀ (i m : Nat) (r r0 : Option Nat),
      (scan buf i m r).1 = (scan buf i m r0).1 ∧
      ((scan buf i m r).2 = (scan buf i m r0).2 ∨
        ((scan buf i m r).2 = r ∧ (scan buf i m r0).2 = r0)) := by
  induction buf with
  | nil => intro i m r r0; simp [scan]
  | cons pg rest ih =>
    intro i m r r0
    unfold scan
    by_cases href : pg.ref ≠ 0
    · rw [if_pos href, if_pos href]
      exact ih _ _ _ _
    · rw [if_neg href, if_neg href]
      by_cases hgt : m > pg.hits
      · simp only [if_pos hgt]
        by_cases h0 : pg.hits = 0
        · simp [h0]
        · simp [if_neg h0]
      · simp only [if_neg hgt]
        by_cases h0 : m = 0
        · simp [h0]
        · simp only [if_neg h0]
          exact ih _ _ _ _

theorem scan_again {buf : List thread_safe_page} {i m m1 k : Nat}
    (h : scan buf i m none = (m1, some k)) (r0 : Option Nat) :
    scan buf i m r0 = (m1, some k) := by
  obtain ⟨h1, h2⟩ := scan_initial_ret buf i m none r0
  rw [h] at h1 h2
  simp only at h1 h2
  rcases h2 with h2 | ⟨h2, _⟩
  · exact Prod.ext h1.symm h2.symm
  · exact absurd h2 (by simp)

/-- When no expansion runs, the cache that `select_victim` returns differs from the initial one
at most in the overflow flag of the cell, and the slot it returns is the one the first scan
selected. -/
theorem select_victim_no_expansion {C : associative_cache} {g i : Nat} {C1 : associative_cache}
    {c : hash_cell} (hc : C.get_cell g = some c)
    (hno : ∀ m k, scan c.buf 0 0x7fffffff none = (m, some k) →
      m = 0 ∨ ¬ ((C.size : Int) < C.manager.average_cache_size) ∨ C.expanding = true)
    (h : select_victim C g = Outcome.returned i C1) :
    ∃ c1 m, C1.get_cell g = some c1 ∧ c1.buf = c.buf ∧ c1.shadow = c.shadow ∧
      c1.hash = c.hash ∧ C1.use_shadow = C.use_shadow ∧
      scan c.buf 0 0x7fffffff none = (m, some i) := by
  obtain ⟨c', hc', hcase⟩ := select_victim_returned h
  rw [hc] at hc'
  simp only [Option.some.injEq] at hc'
  subst hc'
  rcases hcase with ⟨hs, rfl⟩ | ⟨m, hs, _, _, rfl⟩ |
    ⟨m, i0, C2, c2, m2, hs, hm, hsmall, he, hc2, hs2, rfl⟩
  · exact ⟨c, 0, hc, rfl, rfl, rfl, rfl, hs⟩
  · exact ⟨_, m, associative_cache.get_cell_set_cell_self hc _, rfl, rfl, rfl,
      associative_cache.set_cell_use_shadow _ _ _, hs⟩
  · rw [associative_cache.set_cell_size, associative_cache.set_cell_manager] at hsmall
    rcases hno m _ hs with h0 | hns | hexp
    · exact absurd h0 hm
    · exact absurd hsmall hns
    · have hexp2 : (C.set_cell g { c with overflow := true }).expanding = true := by
        rw [associative_cache.set_cell_expanding]; exact hexp
      simp only [associative_cache.expand, hexp2, if_true, Option.some.injEq,
        Prod.mk.injEq, true_and] at he
      subst he
      rw [associative_cache.get_cell_set_cell_self hc] at hc2
      simp only [Option.some.injEq] at hc2
      subst hc2
      have hs3 := scan_again hs (some i0)
      simp only at hs2
      rw [hs3] at hs2
      simp only [Prod.mk.injEq, Option.some.injEq] at hs2
      obtain ⟨rfl, rfl⟩ := hs2
      simp only [hm, ne_eq, not_false_eq_true, if_true]
      have hg1 := associative_cache.get_cell_set_cell_self hc { c with overflow := true }
      exact ⟨_, m, associative_cache.get_cell_set_cell_self hg1 _, rfl, rfl, rfl,
        by simp [associative_cache.set_cell_use_shadow], hs⟩

theorem runs_expansion_false {C : associative_cache} {g : Nat} {off : Int} {c : hash_cell}
    (hc : C.get_cell g = some c) (hf : find_offset off c.buf 0 = none)
    (hno : runs_expansion C g off = false) :
    ∀ m k, scan c.buf 0 0x7fffffff none = (m, some k) →
      m = 0 ∨ ¬ ((C.size : Int) < C.manager.average_cache_size) ∨ C.expanding = true := by
  intro m k hs
  unfold runs_expansion at hno
  simp only [hc, hf, hs] at hno
  simp only [ne_eq, Bool.and_eq_false_imp, Bool.and_eq_true, decide_eq_true_eq,
    Bool.not_eq_eq_eq_not, Bool.not_false, and_imp] at hno
  by_contra hcon
  push_neg at hcon
  obtain ⟨h0, hsm, hexp⟩ := hcon
  have := hno h0 hsm
  simp [this] at hexp

end hash_cell

namespace hash_cell

theorem search_pinned_miss {C : associative_cache} {g : Nat} {off old : Int} {i : Nat}
    {ev : Int} {C1 : associative_cache} {c : hash_cell} (hc : C.get_cell g = some c)
    (hf : find_offset off c.buf 0 = none)
    (h : search_pinned C g off old = Outcome.returned (i, ev) C1) :
    ∃ Cs cs ce ca cp, select_victim C g = Outcome.returned i Cs ∧ Cs.get_cell g = some cs ∧
      evict Cs.use_shadow cs i = some ce ∧ reassign Cs.use_shadow ce i off = some (ev, ca) ∧
      pin ca i = some cp ∧ C1.get_cell g = some cp ∧ C1.use_shadow = Cs.use_shadow := by
  obtain ⟨c', hc', hcase⟩ := search_pinned_returned h
  rw [hc] at hc'
  simp only [Option.some.injEq] at hc'
  subst hc'
  rcases hcase with ⟨hf2, _⟩ | ⟨_, Ca, ca, cb, cc, hg, hca, hadm, hpin, rfl⟩
  · rw [hf] at hf2; exact absurd hf2 (by simp)
  · obtain ⟨Cs, cs, ce, hs, hcs, hev, rfl⟩ := get_empty_page_returned hg
    rw [associative_cache.get_cell_set_cell_self hcs] at hca
    simp only [Option.some.injEq] at hca
    subst hca
    rw [associative_cache.set_cell_use_shadow] at hadm
    exact ⟨Cs, cs, ce, cb, cc, hs, hcs, hev, hadm, hpin,
      associative_cache.get_cell_set_cell_self
        (associative_cache.get_cell_set_cell_self hcs ce) cc,
      by simp [associative_cache.set_cell_use_shadow]⟩

theorem miss_chain {u : Bool} {cs ce ca cp : hash_cell} {i : Nat} {off ev : Int}
    (hev : evict u cs i = some ce) (hadm : reassign u ce i off = some (ev, ca))
    (hpin : pin ca i = some cp) :
    ∃ p pf, cs.buf[i]? = some p ∧ cp.buf = cs.buf.set i pf ∧ ev = p.offset ∧
      pf.ref = p.ref + 1 ∧ pf.offset = off ∧ pf.data_ready = false ∧ pf.data = p.data ∧
      pf.hits = (if u = true ∧ (ce.shadow.search off).1.is_valid = true
        then (ce.shadow.search off).1.hits else 0) ∧
      cp.shadow = (if u = true then (ce.shadow.search off).2 else ce.shadow) ∧
      cp.hash = cs.hash ∧ cp.overflow = cs.overflow := by
  obtain ⟨p, hp, hbuf, hhash, hovf, _⟩ := evict_some hev
  have hlt : i < cs.buf.length := (List.getElem?_eq_some.mp hp).1
  obtain ⟨p1, hp1, hev1, hcase⟩ := reassign_some hadm
  rw [hbuf, List.getElem?_set_self hlt] at hp1
  simp only [Option.some.injEq] at hp1
  subst hp1
  obtain ⟨p2, hp2, rfl⟩ := pin_some hpin
  rcases hcase with ⟨hu, rfl⟩ | ⟨hu, rfl⟩
  · subst hu
    by_cases hv : (ce.shadow.search off).1.is_valid = true
    · simp only [hv, if_true, hbuf, List.set_set, List.getElem?_set_self hlt,
        Option.some.injEq] at hp2
      subst hp2
      refine ⟨p, (((p.reset_hits.set_data_ready false).set_offset off).set_hits
        (ce.shadow.search off).1.hits).inc_ref, hp, by simp [hbuf, hv], ?_⟩
      simp [hev1, hv, hhash, hovf, thread_safe_page.inc_ref, thread_safe_page.set_hits,
        thread_safe_page.set_offset, thread_safe_page.set_data_ready,
        thread_safe_page.reset_hits]
    · simp only [hv, if_false, hbuf, List.set_set, List.getElem?_set_self hlt,
        Option.some.injEq] at hp2
      subst hp2
      refine ⟨p, ((p.reset_hits.set_data_ready false).set_offset off).inc_ref, hp,
        by simp [hbuf, hv], ?_⟩
      simp [hev1, hv, hhash, hovf, thread_safe_page.inc_ref, thread_safe_page.set_hits,
        thread_safe_page.set_offset, thread_safe_page.set_data_ready,
        thread_safe_page.reset_hits]
  · subst hu
    simp only [hbuf, List.set_set, List.getElem?_set_self hlt, Option.some.injEq] at hp2
    subst hp2
    refine ⟨p, ((p.reset_hits.set_data_ready false).set_offset off).inc_ref, hp,
      by simp [hbuf], ?_⟩
    simp [hev1, hhash, hovf, thread_safe_page.inc_ref, thread_safe_page.set_hits,
      thread_safe_page.set_offset, thread_safe_page.set_data_ready,
      thread_safe_page.reset_hits]

end hash_cell

namespace hash_cell

theorem find_offset_eq_none {off : Int} {buf : List thread_safe_page}
    (h : ∀ p ∈ buf, p.offset ≠ off) (s : Nat) : find_offset off buf s = none := by
  cases hf : find_offset off buf s with
  | none => rfl
  | some i =>
    obtain ⟨k, p, _, hk, hp, _⟩ := find_offset_some off buf s i hf
    exact absurd hp (h p (List.getElem?_mem hk))

theorem getElem?_map_set_ne {α β : Type} (f : α → β) {l1 l2 : List α} {i k : Nat} {b : β}
    (h : l1.map f = (l2.map f).set i b) (hk : k ≠ i) :
    (l1[k]?).map f = (l2[k]?).map f := by
  have h1 : (l1.map f)[k]? = ((l2.map f).set i b)[k]? := by rw [h]
  rw [List.getElem?_set_ne (Ne.symm hk), List.getElem?_map, List.getElem?_map] at h1
  exact h1

theorem getElem?_map_set_self {α β : Type} (f : α → β) {l1 l2 : List α} {i : Nat} {b : β}
    {p : α} (h : l1.map f = (l2.map f).set i b) (hp : l2[i]? = some p) :
    ∃ q, l1[i]? = some q ∧ f q = b := by
  have hlt : i < (l2.map f).length := by
    rw [List.length_map]; exact (List.getElem?_eq_some.mp hp).1
  have h1 : (l1.map f)[i]? = ((l2.map f).set i b)[i]? := by rw [h]
  rw [List.getElem?_set_self hlt, List.getElem?_map] at h1
  cases hq : l1[i]? with
  | none => rw [hq] at h1; simp at h1
  | some q =>
    rw [hq] at h1
    simp only [Option.map_some', Option.some.injEq] at h1
    exact ⟨q, rfl, h1⟩

/-- The reference counts after a call of `search` that ran no expansion. -/
theorem search_refs {C : associative_cache} {g : Nat} {off old : Int} {i : Nat} {ev : Int}
    {C2 : associative_cache} {c : hash_cell} (hc : C.get_cell g = some c)
    (hno : runs_expansion C g off = false)
    (h : search C g off old = Outcome.returned (i, ev) C2) :
    ∃ c2 p, C2.get_cell g = some c2 ∧ c.buf[i]? = some p ∧
      c2.buf.map (fun q => q.ref) = (c.buf.map (fun q => q.ref)).set i (p.ref + 1) := by
  obtain ⟨C1, c1, c3, hp, hc1, hc3, _, href⟩ := search_tail_frame h
  refine ⟨c3, ?_⟩
  obtain ⟨c', hc', hcase⟩ := search_pinned_returned hp
  rw [hc] at hc'
  simp only [Option.some.injEq] at hc'
  subst hc'
  rcases hcase with ⟨hf, _, cp, hpin, rfl⟩ | ⟨hf, _⟩
  · rw [associative_cache.get_cell_set_cell_self hc cp] at hc1
    simp only [Option.some.injEq] at hc1
    subst hc1
    obtain ⟨q, hq, rfl⟩ := pin_some hpin
    exact ⟨q, hc3, hq, by rw [href]; simp [List.map_set, thread_safe_page.inc_ref]⟩
  · obtain ⟨Cs, cs, ce, ca, cp, hs, hcs, hev, hadm, hpin, hcp, _⟩ := search_pinned_miss hc hf hp
    rw [hc1] at hcp
    simp only [Option.some.injEq] at hcp
    subst hcp
    obtain ⟨cs', m, hcs', hbuf, _, _, _, _⟩ :=
      select_victim_no_expansion hc (runs_expansion_false hc hf hno) hs
    rw [hcs] at hcs'
    simp only [Option.some.injEq] at hcs'
    subst hcs'
    obtain ⟨p, pf, hp1, hcpbuf, _, hpref, _⟩ := miss_chain hev hadm hpin
    rw [hbuf] at hp1 hcpbuf
    exact ⟨p, hc3, hp1, by rw [href, hcpbuf, List.map_set, hpref]⟩

end hash_cell

/-- C2: when `hash_cell::search` returns page P and no expansion ran inside the call, the ref
of P after the call is its ref before the call plus one, and the ref of every other page of the
cell is unchanged, on a hit and on a miss alike. -/
theorem search_increments_ref_of_returned_page (C : associative_cache) (g : Nat)
    (off old : Int) (i : Nat) (ev : Int) (C2 : associative_cache) (c : hash_cell)
    (hc : C.get_cell g = some c) (hno : hash_cell.runs_expansion C g off = false)
    (h : hash_cell.search C g off old = Outcome.returned (i, ev) C2) :
    ∃ c2, C2.get_cell g = some c2 ∧
      (∃ p p2, c.buf[i]? = some p ∧ c2.buf[i]? = some p2 ∧ p2.ref = p.ref + 1) ∧
      (∀ k, k ≠ i → (c2.buf[k]?).map (fun q => q.ref) = (c.buf[k]?).map (fun q => q.ref)) := by
  obtain ⟨c2, p, hc2, hp, hmap⟩ := hash_cell.search_refs hc hno h
  refine ⟨c2, hc2, ?_, ?_⟩
  · obtain ⟨q, hq, hqr⟩ := hash_cell.getElem?_map_set_self (fun (q : thread_safe_page) => q.ref) hmap hp
    exact ⟨p, q, hp, hq, hqr⟩
  · intro k hk
    exact hash_cell.getElem?_map_set_ne (fun (q : thread_safe_page) => q.ref) hmap hk

/-- C3 (as stated, refuted): cell 0 of `expanding_cache` does not hold offset 24576 and its
slot 0 holds offset 8192; `search(24576, old_off)` on it returns slot 0 with `old_off` the
unassigned sentinel, not 8192: the expansion run by the call moved the page of offset 8192 to
the new cell 2 before it failed for lack of memory, and the second scan selected the
never-assigned page that took its place. -/
theorem search_miss_reports_offset_after_rehash :
    ∃ c p, expanding_cache.get_cell 0 = some c ∧ (∀ q ∈ c.buf, q.offset ≠ 24576) ∧
      c.buf[0]? = some p ∧ p.offset = 8192 ∧
      (hash_cell.search expanding_cache 0 24576 77).value = some (0, unassigned) ∧
      (8192 : Int) ≠ unassigned :=
  ⟨_, _, rfl, by decide, rfl, rfl, by decide, by decide⟩

/-- C3 (amended): on a miss, when `hash_cell::search(off, old_off)` returns, `old_off` is the
offset that the returned slot held when `get_empty_page` selected it for good (line 284); when
no expansion ran inside the call, that is the offset the slot held immediately before the
call, hence the unassigned sentinel when the victim had never been assigned. -/
theorem search_miss_reports_victim_offset (C : associative_cache) (g : Nat) (off old : Int)
    (i : Nat) (ev : Int) (C2 : associative_cache) (c : hash_cell)
    (hc : C.get_cell g = some c) (hmiss : ∀ p ∈ c.buf, p.offset ≠ off)
    (h : hash_cell.search C g off old = Outcome.returned (i, ev) C2) :
    (∃ Cs cs p, hash_cell.select_victim C g = Outcome.returned i Cs ∧
      Cs.get_cell g = some cs ∧ cs.buf[i]? = some p ∧ ev = p.offset) ∧
    (hash_cell.runs_expansion C g off = false →
      ∃ p, c.buf[i]? = some p ∧ ev = p.offset ∧ (p.offset = unassigned → ev = unassigned)) := by
  have hf := hash_cell.find_offset_eq_none hmiss 0
  obtain ⟨C1, c1, c2, c3, hp, _, _, _, _⟩ := hash_cell.search_returned h
  obtain ⟨Cs, cs, ce, ca, cp, hs, hcs, hev, hadm, hpin, _, _⟩ :=
    hash_cell.search_pinned_miss hc hf hp
  obtain ⟨p, pf, hp1, _, hevp, _⟩ := hash_cell.miss_chain hev hadm hpin
  refine ⟨⟨Cs, cs, p, hs, hcs, hp1, hevp⟩, ?_⟩
  intro hno
  obtain ⟨cs', m, hcs', hbuf, _, _, _, _⟩ :=
    hash_cell.select_victim_no_expansion hc (hash_cell.runs_expansion_false hc hf hno) hs
  rw [hcs] at hcs'
  simp only [Option.some.injEq] at hcs'
  subst hcs'
  rw [hbuf] at hp1
  exact ⟨p, hp1, hevp, fun hu => by rw [hevp, hu]⟩

/-- C2, at a concrete input: a miss on offset 12288 in `two_page_cache`. -/
theorem search_increments_ref_of_returned_page_witness :
    two_page_cache.get_cell 0
      = some (sample_cell 0 false [sample_page 4096 1 0, sample_page 8192 3 0] []) ∧
    hash_cell.runs_expansion two_page_cache 0 12288 = false ∧
    hash_cell.search two_page_cache 0 12288 (-1)
      = Outcome.returned (0, 4096) two_page_cache_after_miss ∧
    ∃ c2, two_page_cache_after_miss.get_cell 0 = some c2 ∧
      (∃ p p2, (sample_cell 0 false [sample_page 4096 1 0, sample_page 8192 3 0] []).buf[0]?
          = some p ∧ c2.buf[0]? = some p2 ∧ p2.ref = p.ref + 1) ∧
      (∀ k, k ≠ 0 → (c2.buf[k]?).map (fun q => q.ref)
        = ((sample_cell 0 false [sample_page 4096 1 0, sample_page 8192 3 0] []).buf[k]?).map
            (fun q => q.ref)) :=
  ⟨by decide, by decide, by decide,
    search_increments_ref_of_returned_page two_page_cache 0 12288 (-1) 0 4096
      two_page_cache_after_miss
      (sample_cell 0 false [sample_page 4096 1 0, sample_page 8192 3 0] [])
      (by decide) (by decide) (by decide)⟩

/-- C3 (amended), at a concrete input: a miss on offset 12288 in `two_page_cache`. -/
theorem search_miss_reports_victim_offset_witness :
    hash_cell.search two_page_cache 0 12288 (-1)
      = Outcome.returned (0, 4096) two_page_cache_after_miss ∧
    ∃ Cs cs p, hash_cell.select_victim two_page_cache 0 = Outcome.returned 0 Cs ∧
      Cs.get_cell 0 = some cs ∧ cs.buf[0]? = some p ∧ (4096 : Int) = p.offset :=
  ⟨by decide,
    (search_miss_reports_victim_offset two_page_cache 0 12288 (-1) 0 4096
      two_page_cache_after_miss
      (sample_cell 0 false [sample_page 4096 1 0, sample_page 8192 3 0] [])
      (by decide) (by decide) (by decide)).1⟩

namespace hash_cell

/-- A hit on a page whose hits is not `0xff`: the exact result of `search`. -/
theorem search_hit_page {C : associative_cache} {g : Nat} {off : Int} {c : hash_cell}
    {i : Nat} {p : thread_safe_page} (hc : C.get_cell g = some c)
    (hf : find_offset off c.buf 0 = some i) (hp : c.buf[i]? = some p)
    (h255 : p.hits ≠ 0xff) (old : Int) :
    search C g off old = Outcome.returned (i, old)
      ((C.set_cell g { c with buf := c.buf.set i p.inc_ref }).set_cell g
        { c with buf := c.buf.set i p.inc_ref.hit }) := by
  have hlt : i < c.buf.length := (List.getElem?_eq_some.mp hp).1
  have hpin : search_pinned C g off old =
      Outcome.returned (i, old) (C.set_cell g { c with buf := c.buf.set i p.inc_ref }) := by
    simp [search_pinned, hc, hf, pin, hp]
  have hg := associative_cache.get_cell_set_cell_self hc
    { c with buf := c.buf.set i p.inc_ref }
  unfold search
  rw [hpin]
  simp only [hg]
  have h1 : (c.buf.set i p.inc_ref)[i]? = some p.inc_ref := List.getElem?_set_self hlt
  have h2 : p.inc_ref.hits ≠ 0xff := by simpa [thread_safe_page.inc_ref] using h255
  simp [age, h1, h2, record_hit]

/-- On a miss, `search` returns as soon as `get_empty_page` does. -/
theorem search_miss_returns {C : associative_cache} {g : Nat} {off : Int} {c : hash_cell}
    {i : Nat} {Cg : associative_cache} (hc : C.get_cell g = some c)
    (hf : find_offset off c.buf 0 = none)
    (hg : get_empty_page C g = Outcome.returned i Cg) (old : Int) :
    ∃ ev C2, search C g off old = Outcome.returned (i, ev) C2 := by
  obtain ⟨Cs, cs, ce, hs, hcs, hev, rfl⟩ := get_empty_page_returned hg
  obtain ⟨p, hp, hbuf, _⟩ := evict_some hev
  have hlt : i < cs.buf.length := (List.getElem?_eq_some.mp hp).1
  have hce : (Cs.set_cell g ce).get_cell g = some ce :=
    associative_cache.get_cell_set_cell_self hcs ce
  have hpe : ce.buf[i]? = some ((p.reset_hits).set_data_ready false) := by
    rw [hbuf]; exact List.getElem?_set_self hlt
  have hlt2 : i < ce.buf.length := (List.getElem?_eq_some.mp hpe).1
  obtain ⟨ev, ca, hadm, hca⟩ : ∃ ev ca, reassign (Cs.set_cell g ce).use_shadow ce i off
      = some (ev, ca) ∧ ca.buf.length = ce.buf.length := by
    unfold reassign
    rw [hpe]
    by_cases hu : (Cs.set_cell g ce).use_shadow = true
    · simp only [hu, if_true]
      exact ⟨_, _, rfl, by simp⟩
    · simp only [hu]
      exact ⟨_, _, rfl, by simp⟩
  have hlt3 : i < ca.buf.length := by omega
  obtain ⟨pa, hpa⟩ : ∃ pa, ca.buf[i]? = some pa := ⟨_, List.getElem?_eq_getElem hlt3⟩
  have hpin : search_pinned C g off old = Outcome.returned (i, ev)
      ((Cs.set_cell g ce).set_cell g { ca with buf := ca.buf.set i pa.inc_ref }) := by
    simp [search_pinned, hc, hf, hg, hce, hadm, pin, hpa]
  have hcp := associative_cache.get_cell_set_cell_self hce
    { ca with buf := ca.buf.set i pa.inc_ref }
  unfold search
  rw [hpin]
  simp only [hcp]
  have h1 : (ca.buf.set i pa.inc_ref)[i]? = some pa.inc_ref := List.getElem?_set_self hlt3
  by_cases h255 : pa.inc_ref.hits = 0xff
  · have h2 : (page_cell_scale_down_hits (ca.buf.set i pa.inc_ref))[i]? =
        some (pa.inc_ref.set_hits (pa.inc_ref.hits / 2)) := by
      simp only [page_cell_scale_down_hits, List.getElem?_map, h1, Option.map_some']
    simp [age, h1, h255, record_hit, h2]
  · simp [age, h1, h255, record_hit]

theorem tail_without_aging {u : Bool} {c1 c2 c3 : hash_cell} {i : Nat} {pf : thread_safe_page}
    (ha : age u c1 i = some c2) (hr : record_hit c2 i = some c3)
    (hp : c1.buf[i]? = some pf) (h255 : pf.hits ≠ 0xff) :
    c3 = { c1 with buf := c1.buf.set i pf.hit } := by
  obtain ⟨q, hq, hcase⟩ := age_some ha
  rw [hp] at hq
  simp only [Option.some.injEq] at hq
  subst hq
  rcases hcase with ⟨h, _⟩ | ⟨_, rfl⟩
  · exact absurd h h255
  · obtain ⟨q, hq, rfl⟩ := record_hit_some hr
    rw [hp] at hq
    simp only [Option.some.injEq] at hq
    subst hq
    rfl

end hash_cell

/-- C5: hit-after-miss on a fresh cell, for every assigned offset `o`: the first `search(o)`
returns slot 0 with evicted offset unassigned, `data_ready` false and hits 1; whatever the
caller then stores in `data_ready`, a second `search(o)` returns the same slot, leaves
`data_ready` as it was and leaves the page with hits 2. -/
theorem hit_after_miss_on_fresh_cell (C : associative_cache) (g : Nat) (c : hash_cell)
    (o old : Int) (hc : C.get_cell g = some c) (hne : c.buf ≠ [])
    (hfresh : ∀ p ∈ c.buf, p.offset = unassigned ∧ p.hits = 0 ∧ p.ref = 0)
    (hshadow : c.shadow.queue = []) (ho : o ≠ unassigned) :
    ∃ C1 c1 p1, hash_cell.search C g o old = Outcome.returned (0, unassigned) C1 ∧
      C1.get_cell g = some c1 ∧ c1.buf[0]? = some p1 ∧
      p1.offset = o ∧ p1.data_ready = false ∧ p1.hits = 1 ∧
      ∀ (b : Bool) (old2 : Int), ∃ C2 c2 p2,
        hash_cell.search
            (C1.set_cell g { c1 with buf := c1.buf.set 0 (p1.set_data_ready b) }) g o old2
          = Outcome.returned (0, old2) C2 ∧
        C2.get_cell g = some c2 ∧ c2.buf[0]? = some p2 ∧
        p2.offset = o ∧ p2.data_ready = b ∧ p2.hits = 2 := by
  obtain ⟨p0, rest, hbuf⟩ := List.exists_cons_of_ne_nil hne
  obtain ⟨hp0o, hp0h, hp0r⟩ := hfresh p0 (by rw [hbuf]; exact List.mem_cons_self _ _)
  have hf : hash_cell.find_offset o c.buf 0 = none :=
    hash_cell.find_offset_eq_none (fun p hp => by rw [(hfresh p hp).1]; exact Ne.symm ho) 0
  have hs : hash_cell.scan c.buf 0 0x7fffffff none = (0, some 0) := by
    rw [hbuf]; simp [hash_cell.scan, hp0r, hp0h]
  have hsel : hash_cell.select_victim C g = Outcome.returned 0 C := by
    simp [hash_cell.select_victim, hc, hs]
  have hp0 : c.buf[0]? = some p0 := by rw [hbuf]; simp
  have hev : hash_cell.evict C.use_shadow c 0 =
      some { c with buf := c.buf.set 0 ((p0.reset_hits).set_data_ready false) } := by
    simp [hash_cell.evict, hp0, hp0h]
  have hgep : hash_cell.get_empty_page C g = Outcome.returned 0
      (C.set_cell g { c with buf := c.buf.set 0 ((p0.reset_hits).set_data_ready false) }) := by
    simp [hash_cell.get_empty_page, hsel, hc, hev]
  obtain ⟨ev, C2, h⟩ := hash_cell.search_miss_returns hc hf hgep old
  obtain ⟨C1, c1, c2, c3, hp, hc1, ha, hr, hC2⟩ := hash_cell.search_returned h
  obtain ⟨Cs, cs, ce, ca, cp, hs, hcs, hev2, hadm, hpin, hcp, hus⟩ :=
    hash_cell.search_pinned_miss hc hf hp
  rw [hsel] at hs
  simp only [Outcome.returned.injEq, true_and] at hs
  subst hs
  rw [hc] at hcs
  simp only [Option.some.injEq] at hcs
  subst hcs
  rw [hev] at hev2
  simp only [Option.some.injEq] at hev2
  subst hev2
  rw [hc1] at hcp
  simp only [Option.some.injEq] at hcp
  subst hcp
  obtain ⟨p, pf, hp1, hbufp, hevp, hpref, hpoff, hpdr, hpdata, hphits, _⟩ :=
    hash_cell.miss_chain hev hadm hpin
  rw [hp0] at hp1
  simp only [Option.some.injEq] at hp1
  subst hp1
  have hinv : (clock_shadow_cell.search c.shadow o).1.is_valid = false := by
    simp [clock_shadow_cell.search, hshadow, clock_shadow_cell.search_queue,
      shadow_page.is_valid, shadow_page.invalid]
  have hpf0 : pf.hits = 0 := by
    rw [hphits]; simp [hinv]
  have hlt : 0 < c.buf.length := by rw [hbuf]; simp
  have hpf : c1.buf[0]? = some pf := by rw [hbufp]; exact List.getElem?_set_self hlt
  have hc3 := hash_cell.tail_without_aging ha hr hpf (by rw [hpf0]; decide)
  have hlt1 : 0 < c1.buf.length := (List.getElem?_eq_some.mp hpf).1
  have hC2c3 : C2.get_cell g = some c3 := by
    rw [hC2]; exact associative_cache.get_cell_set_cell_self hc1 c3
  have hc3buf : c3.buf[0]? = some pf.hit := by
    rw [hc3]; exact List.getElem?_set_self hlt1
  have hev0 : ev = unassigned := by rw [hevp, hp0o]
  subst hev0
  refine ⟨C2, c3, pf.hit, h, hC2c3, hc3buf, by simpa [thread_safe_page.hit] using hpoff,
    by simpa [thread_safe_page.hit] using hpdr, by simp [thread_safe_page.hit, hpf0], ?_⟩
  intro b old2
  have hlt3 : 0 < c3.buf.length := (List.getElem?_eq_some.mp hc3buf).1
  have hget := associative_cache.get_cell_set_cell_self hC2c3
    { c3 with buf := c3.buf.set 0 (pf.hit.set_data_ready b) }
  have hq : ({ c3 with buf := c3.buf.set 0 (pf.hit.set_data_ready b) } : hash_cell).buf[0]?
      = some (pf.hit.set_data_ready b) := List.getElem?_set_self hlt3
  have hfind : hash_cell.find_offset o
      ({ c3 with buf := c3.buf.set 0 (pf.hit.set_data_ready b) } : hash_cell).buf 0
        = some 0 := by
    obtain ⟨q0, rest3, h3⟩ := List.exists_cons_of_ne_nil (List.ne_nil_of_length_pos hlt3)
    simp [h3, hash_cell.find_offset, thread_safe_page.set_data_ready, thread_safe_page.hit,
      hpoff]
  have hres := hash_cell.search_hit_page hget hfind hq
    (by simp [thread_safe_page.set_data_ready, thread_safe_page.hit, hpf0]) old2
  refine ⟨_, _, (pf.hit.set_data_ready b).inc_ref.hit, hres,
    associative_cache.get_cell_set_cell_self
      (associative_cache.get_cell_set_cell_self hget _) _, ?_, ?_, ?_, ?_⟩
  · have : 0 < (c3.buf.set 0 (pf.hit.set_data_ready b)).length := by simpa using hlt3
    exact List.getElem?_set_self this
  · simp [thread_safe_page.set_data_ready, thread_safe_page.hit, thread_safe_page.inc_ref,
      hpoff]
  · simp [thread_safe_page.set_data_ready, thread_safe_page.hit, thread_safe_page.inc_ref]
  · simp [thread_safe_page.set_data_ready, thread_safe_page.hit, thread_safe_page.inc_ref,
      hpf0]

/-- C5, at a concrete input: two searches of offset 0 on a fresh cell of two pages. -/
theorem hit_after_miss_on_fresh_cell_witness :
    ∃ C1 c1 p1, hash_cell.search fresh_cache 0 0 (-1) = Outcome.returned (0, unassigned) C1 ∧
      C1.get_cell 0 = some c1 ∧ c1.buf[0]? = some p1 ∧
      p1.offset = 0 ∧ p1.data_ready = false ∧ p1.hits = 1 ∧
      ∀ (b : Bool) (old2 : Int), ∃ C2 c2 p2,
        hash_cell.search
            (C1.set_cell 0 { c1 with buf := c1.buf.set 0 (p1.set_data_ready b) }) 0 0 old2
          = Outcome.returned (0, old2) C2 ∧
        C2.get_cell 0 = some c2 ∧ c2.buf[0]? = some p2 ∧
        p2.offset = 0 ∧ p2.data_ready = b ∧ p2.hits = 2 :=
  hit_after_miss_on_fresh_cell fresh_cache 0
    (sample_cell 0 false [thread_safe_page.fresh 0, thread_safe_page.fresh 1] []) 0 (-1)
    (by decide) (by decide) (by decide) (by decide) (by decide)

namespace hash_cell

/-- What `rehash` does to the pages of this cell: the buffer keeps its length, a page that is
in use stays in its slot with its offset and ref, and every page of the expanded cell
afterwards was there before or is an unused page of this cell. -/
theorem rehash_loop_spec (hash1 : Int → Int) (th eh : Int) (buf : List thread_safe_page) :
    ∀ (ebuf : List thread_safe_page) (j : Nat) (b e : List thread_safe_page),
      rehash_loop hash1 th eh buf ebuf j = some (b, e) →
      b.length = buf.length ∧ e.length = ebuf.length ∧
      (∀ (k : Nat) (q : thread_safe_page), buf[k]? = some q → q.ref ≠ 0 →
        b[k]? = some q ∨ b[k]? = some (q.set_hits 1)) ∧
      (∀ q ∈ e, q ∈ ebuf ∨ (q ∈ buf ∧ q.ref = 0)) ∧
      (∀ q ∈ b, q ∈ buf ∨ q ∈ ebuf ∨ ∃ q0 ∈ buf, q = q0.set_hits 1) := by
  induction buf with
  | nil =>
    intro ebuf j b e h
    simp only [rehash_loop, Option.some.injEq, Prod.mk.injEq] at h
    obtain ⟨rfl, rfl⟩ := h
    simp
  | cons pg rest ih =>
    intro ebuf j b e h
    unfold rehash_loop at h
    split at h
    · -- the page does not map to the expanded cell
      split at h
      · exact absurd h (by simp)
      · rename_i b1 e1 hrec
        simp only [Option.some.injEq, Prod.mk.injEq] at h
        obtain ⟨rfl, rfl⟩ := h
        obtain ⟨hl, hle, hpin, hexp, hsrc⟩ := ih _ _ _ _ hrec
        refine ⟨by simp [hl], hle, ?_, ?_, ?_⟩
        · intro k q hk hq
          cases k with
          | zero =>
            simp only [List.getElem?_cons_zero, Option.some.injEq] at hk
            subst hk
            right; simp
          | succ k =>
            simpa using hpin k q (by simpa using hk) hq
        · intro q hq
          rcases hexp q hq with h1 | ⟨h1, h2⟩
          · exact Or.inl h1
          · exact Or.inr ⟨List.mem_cons_of_mem _ h1, h2⟩
        · intro q hq
          rcases List.mem_cons.mp hq with rfl | hq
          · exact Or.inr (Or.inr ⟨pg, List.mem_cons_self _ _, rfl⟩)
          · rcases hsrc q hq with h1 | h1 | ⟨q0, h1, h2⟩
            · exact Or.inl (List.mem_cons_of_mem _ h1)
            · exact Or.inr (Or.inl h1)
            · exact Or.inr (Or.inr ⟨q0, List.mem_cons_of_mem _ h1, h2⟩)
    · split at h
      · split at h
        · exact absurd h (by simp)
        · rename_i epg hepg
          split at h
          · -- the page is in use: it stays
            rename_i href
            split at h
            · exact absurd h (by simp)
            · rename_i b1 e1 hrec
              simp only [Option.some.injEq, Prod.mk.injEq] at h
              obtain ⟨rfl, rfl⟩ := h
              obtain ⟨hl, hle, hpin, hexp, hsrc⟩ := ih _ _ _ _ hrec
              refine ⟨by simp [hl], hle, ?_, ?_, ?_⟩
              · intro k q hk hq
                cases k with
                | zero =>
                  simp only [List.getElem?_cons_zero, Option.some.injEq] at hk
                  subst hk
                  left; simp
                | succ k =>
                  simpa using hpin k q (by simpa using hk) hq
              · intro q hq
                rcases hexp q hq with h1 | ⟨h1, h2⟩
                · exact Or.inl h1
                · exact Or.inr ⟨List.mem_cons_of_mem _ h1, h2⟩
              · intro q hq
                rcases List.mem_cons.mp hq with rfl | hq
                · exact Or.inl (List.mem_cons_self _ _)
                · rcases hsrc q hq with h1 | h1 | ⟨q0, h1, h2⟩
                  · exact Or.inl (List.mem_cons_of_mem _ h1)
                  · exact Or.inr (Or.inl h1)
                  · exact Or.inr (Or.inr ⟨q0, List.mem_cons_of_mem _ h1, h2⟩)
          · rename_i href
            have hpg0 : pg.ref = 0 := by simpa using href
            split at h
            · exact absurd h (by simp)
            · -- the page is exchanged with slot j of the expanded cell
              split at h
              · exact absurd h (by simp)
              · rename_i b1 e1 hrec
                simp only [Option.some.injEq, Prod.mk.injEq] at h
                obtain ⟨rfl, rfl⟩ := h
                obtain ⟨hl, hle, hpin, hexp, hsrc⟩ := ih _ _ _ _ hrec
                refine ⟨by simp [hl], by simpa using hle, ?_, ?_, ?_⟩
                · intro k q hk hq
                  cases k with
                  | zero =>
                    simp only [List.getElem?_cons_zero, Option.some.injEq] at hk
                    subst hk
                    exact absurd hpg0 hq
                  | succ k =>
                    simpa using hpin k q (by simpa using hk) hq
                · intro q hq
                  rcases hexp q hq with h1 | ⟨h1, h2⟩
                  · rcases List.mem_or_eq_of_mem_set h1 with h3 | rfl
                    · exact Or.inl h3
                    · exact Or.inr ⟨List.mem_cons_self _ _, hpg0⟩
                  · exact Or.inr ⟨List.mem_cons_of_mem _ h1, h2⟩
                · intro q hq
                  rcases List.mem_cons.mp hq with rfl | hq
                  · exact Or.inr (Or.inl (List.getElem?_mem hepg))
                  · rcases hsrc q hq with h1 | h1 | ⟨q0, h1, h2⟩
                    · exact Or.inl (List.mem_cons_of_mem _ h1)
                    · rcases List.mem_or_eq_of_mem_set h1 with h3 | rfl
                      · exact Or.inr (Or.inl h3)
                      · exact Or.inl (List.mem_cons_self _ _)
                    · exact Or.inr (Or.inr ⟨q0, List.mem_cons_of_mem _ h1, h2⟩)
      · -- the page maps to this cell
        split at h
        · exact absurd h (by simp)
        · rename_i b1 e1 hrec
          simp only [Option.some.injEq, Prod.mk.injEq] at h
          obtain ⟨rfl, rfl⟩ := h
          obtain ⟨hl, hle, hpin, hexp, hsrc⟩ := ih _ _ _ _ hrec
          refine ⟨by simp [hl], hle, ?_, ?_, ?_⟩
          · intro k q hk hq
            cases k with
            | zero =>
              simp only [List.getElem?_cons_zero, Option.some.injEq] at hk
              subst hk
              left; simp
            | succ k =>
              simpa using hpin k q (by simpa using hk) hq
          · intro q hq
            rcases hexp q hq with h1 | ⟨h1, h2⟩
            · exact Or.inl h1
            · exact Or.inr ⟨List.mem_cons_of_mem _ h1, h2⟩
          · intro q hq
            rcases List.mem_cons.mp hq with rfl | hq
            · exact Or.inl (List.mem_cons_self _ _)
            · rcases hsrc q hq with h1 | h1 | ⟨q0, h1, h2⟩
              · exact Or.inl (List.mem_cons_of_mem _ h1)
              · exact Or.inr (Or.inl h1)
              · exact Or.inr (Or.inr ⟨q0, List.mem_cons_of_mem _ h1, h2⟩)

theorem rehash_some {hash1 : Int → Int} {c e c2 e2 : hash_cell}
    (h : rehash hash1 c e = some (c2, e2)) :
    ∃ b eb, rehash_loop hash1 c.hash e.hash c.buf e.buf 0 = some (b, eb) ∧
      c2 = { c with buf := b, overflow := false } ∧ e2 = { e with buf := eb } := by
  unfold rehash at h
  split at h
  · exact absurd h (by simp)
  · rename_i b eb hl
    simp only [Option.some.injEq, Prod.mk.injEq] at h
    exact ⟨b, eb, hl, h.1.symm, h.2.symm⟩

end hash_cell

namespace associative_cache

theorem create_fresh {m m1 : memory_manager} {n s : Nat} {hash : Int} {c : hash_cell}
    (h : hash_cell.create m n s hash = (m1, some c)) :
    (∀ p ∈ c.buf, ∃ d, p = thread_safe_page.fresh d) ∧ c.shadow.queue = [] := by
  unfold hash_cell.create at h
  split at h
  · simp at h
  · rename_i m2 pages hp
    simp only [Prod.mk.injEq, Option.some.injEq] at h
    obtain ⟨_, rfl⟩ := h
    refine ⟨?_, rfl⟩
    intro p hp
    simp only [List.mem_map] at hp
    obtain ⟨d, _, rfl⟩ := hp
    exact ⟨d, rfl⟩

theorem alloc_cells_fresh (cs ns : Nat) :
    ∀ (n : Nat) (m : memory_manager) (first : Int) (m1 : memory_manager)
      (cells : List hash_cell),
      alloc_cells cs ns n m first = (m1, some cells) →
      ∀ c ∈ cells, (∀ p ∈ c.buf, ∃ d, p = thread_safe_page.fresh d) ∧ c.shadow.queue = [] := by
  intro n
  induction n with
  | zero =>
    intro m first m1 cells h
    simp only [alloc_cells, Prod.mk.injEq, Option.some.injEq] at h
    obtain ⟨_, rfl⟩ := h
    simp
  | succ n ih =>
    intro m first m1 cells h
    unfold alloc_cells at h
    split at h
    · simp at h
    · rename_i m2 c hc
      split at h
      · simp at h
      · rename_i m3 cs1 hrec
        simp only [Prod.mk.injEq, Option.some.injEq] at h
        obtain ⟨_, rfl⟩ := h
        intro c1 hc1
        rcases List.mem_cons.mp hc1 with rfl | hc1
        · exact create_fresh hc
        · exact ih _ _ _ _ hrec c1 hc1

theorem alloc_chunks_fresh (cs ns init : Nat) :
    ∀ (count i : Nat) (m m1 : memory_manager) (table : List (List hash_cell)) (oom : Bool),
      alloc_chunks cs ns init count i m = (m1, table, oom) →
      ∀ cells ∈ table, ∀ c ∈ cells,
        (∀ p ∈ c.buf, ∃ d, p = thread_safe_page.fresh d) ∧ c.shadow.queue = [] := by
  intro count
  induction count with
  | zero =>
    intro i m m1 table oom h
    simp only [alloc_chunks, Prod.mk.injEq] at h
    obtain ⟨_, rfl, _⟩ := h
    simp
  | succ n ih =>
    intro i m m1 table oom h
    unfold alloc_chunks at h
    split at h
    · simp only [Prod.mk.injEq] at h
      obtain ⟨_, rfl, _⟩ := h
      simp
    · rename_i m2 cells hc
      split at h
      rename_i m3 t1 oom1 hrec
      simp only [Prod.mk.injEq] at h
      obtain ⟨_, rfl, _⟩ := h
      intro cells1 hc1
      rcases List.mem_cons.mp hc1 with rfl | hc1
      · exact alloc_cells_fresh cs ns _ _ _ _ _ hc
      · exact ih _ _ _ _ _ hrec cells1 hc1

theorem publish_spec (table : List (List hash_cell)) :
    ∀ (dir : List (Option (List hash_cell))) (pos : Nat)
      (dir1 : List (Option (List hash_cell))),
      publish dir pos table = some dir1 →
      dir1.length = dir.length ∧ (∀ j, j < pos → dir1[j]? = dir[j]?) ∧
      (∀ x ∈ dir1, x ∈ dir ∨ ∃ cells ∈ table, x = some cells) := by
  induction table with
  | nil =>
    intro dir pos dir1 h
    simp only [publish, Option.some.injEq] at h
    subst h
    exact ⟨rfl, fun _ _ => rfl, fun x hx => Or.inl hx⟩
  | cons cells table ih =>
    intro dir pos dir1 h
    unfold publish at h
    split at h
    · obtain ⟨hl, hlt, hmem⟩ := ih _ _ _ h
      refine ⟨by simpa using hl, ?_, ?_⟩
      · intro j hj
        rw [hlt j (by omega), List.getElem?_set_ne (by omega)]
      · intro x hx
        rcases hmem x hx with h1 | ⟨cs1, h1, h2⟩
        · rcases List.mem_or_eq_of_mem_set h1 with h3 | rfl
          · exact Or.inl h3
          · exact Or.inr ⟨cells, List.mem_cons_self _ _, rfl⟩
        · exact Or.inr ⟨cs1, List.mem_cons_of_mem _ h1, h2⟩
    · exact absurd h (by simp)

theorem grow_spec {C : associative_cache} {size : Nat} {oom : Bool} {C1 : associative_cache}
    (h : C.grow size = some (oom, C1)) :
    C1.init_ncells = C.init_ncells ∧ C1.split = C.split ∧ C1.level = C.level ∧
    C.ncells ≤ C1.ncells ∧ C1.expanding = C.expanding ∧ C1.use_shadow = C.use_shadow ∧
    C1.PAGE_SIZE = C.PAGE_SIZE ∧ C1.cells_table.length = C.cells_table.length ∧
    (∀ g, g / C.init_ncells < C.ncells → C1.get_cell g = C.get_cell g) ∧
    (∀ x ∈ C1.cells_table, x ∈ C.cells_table ∨
      ∃ cells, x = some cells ∧ ∀ c ∈ cells,
        (∀ p ∈ c.buf, ∃ d, p = thread_safe_page.fresh d) ∧ c.shadow.queue = []) := by
  unfold grow at h
  simp only at h
  split at h
  · obtain ⟨m, table, oom1, ha⟩ : ∃ m table oom1, alloc_chunks C.CELL_SIZE C.NUM_SHADOW_PAGES
        C.init_ncells ((C.split + size) / C.init_ncells + 1 - C.ncells) C.ncells C.manager
          = (m, table, oom1) := ⟨_, _, _, rfl⟩
    rw [ha] at h
    simp only at h
    split at h
    · exact absurd h (by simp)
    · rename_i dir hp
      simp only [Option.some.injEq, Prod.mk.injEq] at h
      obtain ⟨_, rfl⟩ := h
      obtain ⟨hl, hlt, hmem⟩ := publish_spec _ _ _ _ hp
      refine ⟨rfl, rfl, rfl, by simp, rfl, rfl, rfl, hl, ?_, ?_⟩
      · intro g hg
        simp only [get_cell]
        rw [hlt _ hg]
      · intro x hx
        rcases hmem x hx with h1 | ⟨cells, h1, h2⟩
        · exact Or.inl h1
        · exact Or.inr ⟨cells, h2, alloc_chunks_fresh _ _ _ _ _ _ _ _ _ ha cells h1⟩
  · simp only [Option.some.injEq, Prod.mk.injEq] at h
    obtain ⟨_, rfl⟩ := h
    exact ⟨rfl, rfl, rfl, le_refl _, rfl, rfl, rfl, rfl, fun _ _ => rfl, fun x hx => Or.inl hx⟩

/-- Induction over the iterations of the loop of `expand`: an invariant `inv` kept by every
iteration gives the property `post` of the state in which the loop ends. -/
theorem expand_loop_induct (global_idx size : Nat) (inv post : associative_cache → Prop)
    (hoom : ∀ C C1, inv C → C.grow size = some (true, C1) → post C1)
    (hexit : ∀ C, inv C → post { C with expanding := false })
    (hiter : ∀ C cell C1 e c2 e2, inv C → C.get_cell C.split = some cell →
      C.grow size = some (false, C1) → C1.get_cell (C1.split + size) = some e →
      hash_cell.rehash C1.hash1_locked cell e = some (c2, e2) →
      inv { (C1.set_cell C1.split c2).set_cell (C1.split + size) e2 with
              split := ((C1.set_cell C1.split c2).set_cell (C1.split + size) e2).split + 1 } ∧
      post { (C1.set_cell C1.split c2).set_cell (C1.split + size) e2 with
              level := ((C1.set_cell C1.split c2).set_cell (C1.split + size) e2).level + 1,
              split := 0, expanding := false }) :
    ∀ (fuel : Nat) (C : associative_cache) (b : Bool) (C2 : associative_cache),
      inv C → expand_loop global_idx size fuel C = some (b, C2) → post C2 := by
  intro fuel
  induction fuel with
  | zero => intro C b C2 _ h; simp [expand_loop] at h
  | succ fuel ih =>
    intro C b C2 hinv h
    unfold expand_loop at h
    split at h
    · exact absurd h (by simp)
    · rename_i cell hcell
      split at h
      · split at h
        · exact absurd h (by simp)
        · rename_i C1 hg
          simp only [Option.some.injEq, Prod.mk.injEq] at h
          obtain ⟨_, rfl⟩ := h
          exact hoom C _ hinv hg
        · rename_i C1 hg
          split at h
          · exact absurd h (by simp)
          · rename_i e he
            split at h
            · exact absurd h (by simp)
            · rename_i c2 e2 hr
              obtain ⟨h1, h2⟩ := hiter C cell C1 e c2 e2 hinv hcell hg he hr
              simp only at h
              split at h
              · simp only [Option.some.injEq, Prod.mk.injEq] at h
                obtain ⟨_, rfl⟩ := h
                exact h2
              · exact ih _ _ _ h1 h
      · simp only [Option.some.injEq, Prod.mk.injEq] at h
        obtain ⟨_, rfl⟩ := h
        exact hexit C hinv

end associative_cache

namespace associative_cache

/-- A call of `expand` keeps every page in use of a routed cell in its slot, with its offset
and its ref. -/
theorem expand_keeps_pinned {C : associative_cache} {g0 : Nat} {b : Bool}
    {C2 : associative_cache} {g k : Nat} {x : Int} {r : Nat} (hr : r ≠ 0)
    (hg : g < C.size) (hn : g / C.init_ncells < C.ncells)
    (hp : ∃ c q, C.get_cell g = some c ∧ c.buf[k]? = some q ∧ q.offset = x ∧ q.ref = r)
    (h : C.expand g0 = some (b, C2)) :
    ∃ c q, C2.get_cell g = some c ∧ c.buf[k]? = some q ∧ q.offset = x ∧ q.ref = r := by
  unfold expand at h
  split at h
  · simp only [Option.some.injEq, Prod.mk.injEq] at h
    obtain ⟨_, rfl⟩ := h
    exact hp
  · split at h
    · exact absurd h (by simp)
    · refine expand_loop_induct g0 (2 ^ C.level * C.init_ncells)
        (fun D => g < 2 ^ C.level * C.init_ncells + D.split ∧ g / D.init_ncells < D.ncells ∧
          ∃ c q, D.get_cell g = some c ∧ c.buf[k]? = some q ∧ q.offset = x ∧ q.ref = r)
        (fun D => ∃ c q, D.get_cell g = some c ∧ c.buf[k]? = some q ∧ q.offset = x ∧ q.ref = r)
        ?_ ?_ ?_ (C.cells_table.length * C.init_ncells + 1) { C with expanding := true }
        b C2 ⟨hg, hn, hp⟩ h
      · intro D D1 ⟨_, hn1, hp1⟩ hgrow
        obtain ⟨_, _, _, _, _, _, _, _, hget, _⟩ := grow_spec hgrow
        rw [hget g hn1]
        exact hp1
      · intro D ⟨_, _, hp1⟩
        exact hp1
      · intro D cell D1 e c2 e2 ⟨hlt, hn1, c, q, hc, hq, hqo, hqr⟩ hcell hgrow he hre
        obtain ⟨hinit, hsplit, _, hnc, _, _, _, _, hget, _⟩ := grow_spec hgrow
        have hc1 : D1.get_cell g = some c := by rw [hget g hn1]; exact hc
        have hne : D1.split + 2 ^ C.level * C.init_ncells ≠ g := by rw [hsplit]; omega
        have hpin : ∃ c3 q3, ((D1.set_cell D1.split c2).set_cell
            (D1.split + 2 ^ C.level * C.init_ncells) e2).get_cell g = some c3 ∧
            c3.buf[k]? = some q3 ∧ q3.offset = x ∧ q3.ref = r := by
          rw [get_cell_set_cell_ne _ _ hne]
          by_cases hgs : D1.split = g
          · rw [hgs, get_cell_set_cell_self hc1]
            rw [hsplit] at hgs
            rw [hgs, hc] at hcell
            simp only [Option.some.injEq] at hcell
            subst hcell
            obtain ⟨bb, eb, hl, rfl, _⟩ := hash_cell.rehash_some hre
            obtain ⟨_, _, hpinned, _, _⟩ := hash_cell.rehash_loop_spec _ _ _ _ _ _ _ _ hl
            rcases hpinned k q hq (by rw [hqr]; exact hr) with h1 | h1
            · exact ⟨_, q, rfl, h1, hqo, hqr⟩
            · exact ⟨_, q.set_hits 1, rfl, h1, hqo, hqr⟩
          · rw [get_cell_set_cell_ne _ _ hgs]
            exact ⟨c, q, hc1, hq, hqo, hqr⟩
        refine ⟨⟨?_, ?_, hpin⟩, hpin⟩
        · simp only [set_cell_split]
          rw [hsplit]; omega
        · simp only [set_cell_init_ncells, set_cell_ncells]
          rw [hinit]; omega

end associative_cache

namespace hash_cell

theorem select_victim_thrown {C : associative_cache} {g : Nat} {C2 : associative_cache}
    (h : select_victim C g = Outcome.expand_exception C2) :
    ∃ c, C.get_cell g = some c ∧
      (C.set_cell g { c with overflow := true }).expand g = some (true, C2) := by
  unfold select_victim at h
  split at h
  · exact absurd h (by simp)
  · rename_i c hc
    refine ⟨c, hc, ?_⟩
    split at h
    · exact absurd h (by simp)
    · split at h
      · simp only at h
        split at h
        · split at h
          · exact absurd h (by simp)
          · rename_i C3 he
            simp only [Outcome.expand_exception.injEq] at h
            subst h
            exact he
          · split at h
            · exact absurd h (by simp)
            · split at h
              · exact absurd h (by simp)
              · split at h <;> exact absurd h (by simp)
        · exact absurd h (by simp)
      · exact absurd h (by simp)

theorem search_thrown {C : associative_cache} {g : Nat} {off old : Int}
    {C2 : associative_cache} (h : search C g off old = Outcome.expand_exception C2) :
    select_victim C g = Outcome.expand_exception C2 := by
  have h1 : search_pinned C g off old = Outcome.expand_exception C2 := by
    unfold search at h
    split at h
    · split at h
      · exact absurd h (by simp)
      · split at h
        · exact absurd h (by simp)
        · split at h <;> exact absurd h (by simp)
    · rename_i C3 hp
      simp only [Outcome.expand_exception.injEq] at h
      subst h
      exact hp
    · exact absurd h (by simp)
    · exact absurd h (by simp)
  have h2 : get_empty_page C g = Outcome.expand_exception C2 := by
    unfold search_pinned at h1
    split at h1
    · exact absurd h1 (by simp)
    · split at h1
      · split at h1 <;> exact absurd h1 (by simp)
      · split at h1
        · split at h1
          · exact absurd h1 (by simp)
          · split at h1
            · exact absurd h1 (by simp)
            · split at h1 <;> exact absurd h1 (by simp)
        · rename_i C3 hp
          simp only [Outcome.expand_exception.injEq] at h1
          subst h1
          exact hp
        · exact absurd h1 (by simp)
        · exact absurd h1 (by simp)
  unfold get_empty_page at h2
  split at h2
  · split at h2
    · exact absurd h2 (by simp)
    · split at h2 <;> exact absurd h2 (by simp)
  · rename_i C3 hp
    simp only [Outcome.expand_exception.injEq] at h2
    subst h2
    exact hp
  · exact absurd h2 (by simp)
  · exact absurd h2 (by simp)

/-- The selection of a victim keeps every page in use of the cell in its slot, and never
selects such a slot. -/
theorem select_victim_pinned {C : associative_cache} {g i : Nat} {Cs : associative_cache}
    {c : hash_cell} {k : Nat} {p : thread_safe_page}
    (hc : C.get_cell g = some c) (hg : g < C.size) (hn : g / C.init_ncells < C.ncells)
    (hk : c.buf[k]? = some p) (hr : p.ref ≠ 0)
    (h : select_victim C g = Outcome.returned i Cs) :
    (∃ cs q, Cs.get_cell g = some cs ∧ cs.buf[k]? = some q ∧ q.offset = p.offset ∧
      q.ref = p.ref) ∧ i ≠ k := by
  obtain ⟨c', hc', hcase⟩ := select_victim_returned h
  rw [hc] at hc'
  simp only [Option.some.injEq] at hc'
  subst hc'
  have first : ∀ m j, scan c.buf 0 0x7fffffff none = (m, some j) → j ≠ k := by
    intro m j hs
    rcases scan_spec c.buf 0 _ none m (some j) hs with ⟨_, h2, _⟩ | ⟨k1, q, hk1, hj, hq, _⟩
    · exact absurd h2 (by simp)
    · simp only [Option.some.injEq, zero_add] at hj
      subst hj
      intro hjk
      subst hjk
      rw [hk] at hk1
      simp only [Option.some.injEq] at hk1
      subst hk1
      exact hr hq
  rcases hcase with ⟨hs, rfl⟩ | ⟨m, hs, _, _, rfl⟩ |
    ⟨m, i0, C2, c2, m2, hs, hm, hsmall, he, hc2, hs2, rfl⟩
  · exact ⟨⟨c, p, hc, hk, rfl, rfl⟩, first _ _ hs⟩
  · exact ⟨⟨_, p, associative_cache.get_cell_set_cell_self hc _, hk, rfl, rfl⟩, first _ _ hs⟩
  · have hpin := associative_cache.expand_keeps_pinned (g := g) (k := k) (x := p.offset)
      (r := p.ref) hr
      (by rw [associative_cache.set_cell_size]; exact hg)
      (by rw [associative_cache.set_cell_init_ncells, associative_cache.set_cell_ncells]
          exact hn)
      ⟨{ c with overflow := true }, p, associative_cache.get_cell_set_cell_self hc _, hk,
        rfl, rfl⟩ he
    obtain ⟨c2', q, hc2', hq, hqo, hqr⟩ := hpin
    rw [hc2] at hc2'
    simp only [Option.some.injEq] at hc2'
    subst hc2'
    constructor
    · by_cases hm2 : m2 ≠ 0
      · simp only [hm2, ne_eq, not_false_eq_true, if_true]
        exact ⟨_, q, associative_cache.get_cell_set_cell_self hc2 _, hq, hqo, hqr⟩
      · simp only [hm2, if_false]
        exact ⟨c2, q, hc2, hq, hqo, hqr⟩
    · rcases scan_spec c2.buf 0 _ (some i0) m2 (some i) hs2 with
        ⟨_, h2, _⟩ | ⟨k1, q1, hk1, hj, hq1, _⟩
      · simp only [Option.some.injEq] at h2
        subst h2
        exact first _ _ hs
      · simp only [Option.some.injEq, zero_add] at hj
        subst hj
        intro hjk
        subst hjk
        rw [hq] at hk1
        simp only [Option.some.injEq] at hk1
        subst hk1
        exact hr (by rw [← hqr]; exact hq1)

end hash_cell

/-- C6: reference safety.  Neither `hash_cell::search` nor `hash_cell::rehash` changes the
offset stored in a slot of the cell it is called on whose ref is greater than 0 at the time
of the call: after `search` (whether it returns or throws `expand_exception`) the slot holds
the same offset, and on a miss it is not the slot chosen as eviction victim; after `rehash`
the slot holds the same page (at most with its hits set to 1), and every page of the expanded
cell was there before or is a page of this cell with ref 0.  For `search` the cell is one that
lookups are routed to (`g < size()`), lying in a published chunk. -/
theorem pinned_slot_keeps_offset :
    (∀ (C : associative_cache) (g : Nat) (off old : Int) (c : hash_cell) (k : Nat)
      (p : thread_safe_page),
      C.get_cell g = some c → g < C.size → g / C.init_ncells < C.ncells →
      c.buf[k]? = some p → p.ref ≠ 0 →
      (∀ i ev C2, hash_cell.search C g off old = Outcome.returned (i, ev) C2 →
        (∃ c2 q, C2.get_cell g = some c2 ∧ c2.buf[k]? = some q ∧ q.offset = p.offset) ∧
        ((∀ q ∈ c.buf, q.offset ≠ off) → i ≠ k)) ∧
      (∀ C2, hash_cell.search C g off old = Outcome.expand_exception C2 →
        ∃ c2 q, C2.get_cell g = some c2 ∧ c2.buf[k]? = some q ∧ q.offset = p.offset)) ∧
    (∀ (hash1 : Int → Int) (c e c2 e2 : hash_cell) (k : Nat) (p : thread_safe_page),
      hash_cell.rehash hash1 c e = some (c2, e2) → c.buf[k]? = some p → p.ref ≠ 0 →
      (c2.buf[k]? = some p ∨ c2.buf[k]? = some (p.set_hits 1)) ∧
      (∀ q ∈ e2.buf, q ∈ e.buf ∨ (q ∈ c.buf ∧ q.ref = 0))) := by
  constructor
  · intro C g off old c k p hc hg hn hk hr
    constructor
    · intro i ev C2 h
      obtain ⟨C1, c1, c3, hp, hc1, hc3, hoff, _⟩ := hash_cell.search_tail_frame h
      obtain ⟨c', hc', hcase⟩ := hash_cell.search_pinned_returned hp
      rw [hc] at hc'
      simp only [Option.some.injEq] at hc'
      subst hc'
      rcases hcase with ⟨hf, _, cp, hpin, rfl⟩ | ⟨hf, _⟩
      · rw [associative_cache.get_cell_set_cell_self hc cp] at hc1
        simp only [Option.some.injEq] at hc1
        subst hc1
        obtain ⟨q, hq, rfl⟩ := hash_cell.pin_some hpin
        have hmap : c3.buf.map (fun q => q.offset) = c.buf.map (fun q => q.offset) := by
          rw [hoff]
          exact map_set_same _ _ _ q _ hq (by simp [thread_safe_page.inc_ref])
        obtain ⟨q3, hq3, hq3o⟩ := hash_cell.getElem?_of_map_eq _ hmap hk
        refine ⟨⟨c3, q3, hc3, hq3, hq3o⟩, ?_⟩
        intro hmiss
        rw [hash_cell.find_offset_eq_none hmiss 0] at hf
        exact absurd hf (by simp)
      · obtain ⟨Cs, cs, ce, ca, cp, hs, hcs, hev, hadm, hpin, hcp, _⟩ :=
          hash_cell.search_pinned_miss hc hf hp
        rw [hc1] at hcp
        simp only [Option.some.injEq] at hcp
        subst hcp
        obtain ⟨⟨cs', q, hcs', hq, hqo, _⟩, hik⟩ :=
          hash_cell.select_victim_pinned hc hg hn hk hr hs
        rw [hcs] at hcs'
        simp only [Option.some.injEq] at hcs'
        subst hcs'
        obtain ⟨p0, pf, _, hbuf, _⟩ := hash_cell.miss_chain hev hadm hpin
        have hq1 : c1.buf[k]? = some q := by
          rw [hbuf, List.getElem?_set_ne hik]; exact hq
        obtain ⟨q3, hq3, hq3o⟩ := hash_cell.getElem?_of_map_eq _ hoff hq1
        exact ⟨⟨c3, q3, hc3, hq3, by rw [← hqo]; exact hq3o⟩, fun _ => hik⟩
    · intro C2 h
      obtain ⟨c', hc', he⟩ := hash_cell.select_victim_thrown (hash_cell.search_thrown h)
      rw [hc] at hc'
      simp only [Option.some.injEq] at hc'
      subst hc'
      obtain ⟨c2, q, hc2, hq, hqo, _⟩ :=
        associative_cache.expand_keeps_pinned (g := g) (k := k) (x := p.offset)
          (r := p.ref) hr
          (by rw [associative_cache.set_cell_size]; exact hg)
          (by rw [associative_cache.set_cell_init_ncells, associative_cache.set_cell_ncells]
              exact hn)
          ⟨{ c with overflow := true }, p, associative_cache.get_cell_set_cell_self hc _, hk,
        rfl, rfl⟩ he
      exact ⟨c2, q, hc2, hq, hqo⟩
  · intro hash1 c e c2 e2 k p h hk hr
    obtain ⟨b, eb, hl, rfl, rfl⟩ := hash_cell.rehash_some h
    obtain ⟨_, _, hpinned, hexp, _⟩ := hash_cell.rehash_loop_spec _ _ _ _ _ _ _ _ hl
    exact ⟨hpinned k p hk hr, hexp⟩

namespace hash_cell

/-- The cell in the state that `select_victim` returns is the cell of the final scan, up to
its overflow flag: the returned slot is the result of a scan of that buffer. -/
theorem select_victim_final_scan {C : associative_cache} {g i : Nat} {Cs : associative_cache}
    (h : select_victim C g = Outcome.returned i Cs) :
    ∃ cs m r0, Cs.get_cell g = some cs ∧ scan cs.buf 0 0x7fffffff r0 = (m, some i) := by
  obtain ⟨c, hc, hcase⟩ := select_victim_returned h
  rcases hcase with ⟨hs, rfl⟩ | ⟨m, hs, _, _, rfl⟩ |
    ⟨m, i0, C2, c2, m2, hs, hm, hsmall, he, hc2, hs2, rfl⟩
  · exact ⟨c, 0, none, hc, hs⟩
  · exact ⟨_, m, none, associative_cache.get_cell_set_cell_self hc _, hs⟩
  · by_cases hm2 : m2 ≠ 0
    · simp only [hm2, ne_eq, not_false_eq_true, if_true]
      exact ⟨_, m2, some i0, associative_cache.get_cell_set_cell_self hc2 _, hs2⟩
    · simp only [hm2, if_false]
      exact ⟨c2, m2, some i0, hc2, hs2⟩

end hash_cell

/-- Frequency-biased victim selection.  Whenever `get_empty_page` returns a victim and the
cell, as of the final scan, has a slot with ref 0 (hits being 8-bit values), the victim is the
lowest-index slot among the slots with ref 0 whose hits is minimal among those slots; in
particular, when all pages have ref 0 and equal hits the victim is slot 0; and a `search` that
misses returns that victim and reports as evicted offset the offset that slot held. -/
theorem victim_of_final_scan (C : associative_cache) (g i : Nat)
    (C2 : associative_cache) (c : hash_cell) (hc : C.get_cell g = some c)
    (h : hash_cell.get_empty_page C g = Outcome.returned i C2) :
    ∃ Cs cs p, hash_cell.select_victim C g = Outcome.returned i Cs ∧
      Cs.get_cell g = some cs ∧ cs.buf[i]? = some p ∧
      ((∃ (k : Nat) (q : thread_safe_page), cs.buf[k]? = some q ∧ q.ref = 0) →
        (∀ q ∈ cs.buf, q.hits ≤ 0xff) →
        p.ref = 0 ∧ ∀ (k : Nat) (q : thread_safe_page), cs.buf[k]? = some q → q.ref = 0 →
          p.hits ≤ q.hits ∧ (q.hits = p.hits → i ≤ k)) ∧
      ((∀ q ∈ cs.buf, q.ref = 0 ∧ q.hits = p.hits) → p.hits ≤ 0xff → i = 0) ∧
      (∀ (off old : Int) (j : Nat) (ev : Int) (C3 : associative_cache),
        (∀ q ∈ c.buf, q.offset ≠ off) →
        hash_cell.search C g off old = Outcome.returned (j, ev) C3 →
        j = i ∧ ev = p.offset) := by
  obtain ⟨Cs, cs0, ce, hs, hcs0, hev, _⟩ := hash_cell.get_empty_page_returned h
  obtain ⟨p, hp, _⟩ := hash_cell.evict_some hev
  obtain ⟨cs, m, r0, hcs, hscan⟩ := hash_cell.select_victim_final_scan hs
  rw [hcs0] at hcs
  simp only [Option.some.injEq] at hcs
  subst hcs
  have key : (∃ (k : Nat) (q : thread_safe_page), cs0.buf[k]? = some q ∧ q.ref = 0) →
      (∀ q ∈ cs0.buf, q.hits ≤ 0xff) →
      p.ref = 0 ∧ p.hits = m ∧
      (∀ (j : Nat) (q : thread_safe_page), j < i → cs0.buf[j]? = some q → q.ref = 0 →
        m < q.hits) ∧
      (∀ (j : Nat) (q : thread_safe_page), cs0.buf[j]? = some q → q.ref = 0 → m ≤ q.hits) := by
    intro ⟨k, q, hk, hq⟩ hb
    rcases hash_cell.scan_spec cs0.buf 0 _ r0 m (some i) hscan with
      ⟨_, _, hall⟩ | ⟨k1, q1, hk1, hj, hq1, hh1, _, hlow, hle⟩
    · have h1 := hall k q hk hq
      have h2 := hb q (List.getElem?_mem hk)
      omega
    · simp only [Option.some.injEq, zero_add] at hj
      subst hj
      rw [hp] at hk1
      simp only [Option.some.injEq] at hk1
      subst hk1
      exact ⟨hq1, hh1, hlow, hle⟩
  refine ⟨Cs, cs0, p, hs, hcs0, hp, ?_, ?_, ?_⟩
  · intro hfree hb
    obtain ⟨h1, h2, h3, h4⟩ := key hfree hb
    refine ⟨h1, ?_⟩
    intro k q hk hq
    refine ⟨by rw [h2]; exact h4 k q hk hq, ?_⟩
    intro heq
    by_contra hlt
    have := h3 k q (by omega) hk hq
    omega
  · intro hall hb
    have hp0 := hall p (List.getElem?_mem hp)
    obtain ⟨_, h2, h3, _⟩ := key ⟨i, p, hp, hp0.1⟩
      (fun q hq => by rw [(hall q hq).2]; exact hb)
    by_contra hi
    have hlt : 0 < cs0.buf.length := by
      have := (List.getElem?_eq_some.mp hp).1
      omega
    have hq0 := hall _ (List.getElem_mem hlt)
    have := h3 0 _ (by omega) (List.getElem?_eq_getElem hlt) hq0.1
    omega
  · intro off old j ev C3 hmiss hsearch
    have hf := hash_cell.find_offset_eq_none hmiss 0
    obtain ⟨C1, c1, c2, c3, hpin, _, _, _, _⟩ := hash_cell.search_returned hsearch
    obtain ⟨Cs', cs', ce', ca, cp, hs', hcs', hev', hadm, hpin', _, _⟩ :=
      hash_cell.search_pinned_miss hc hf hpin
    rw [hs] at hs'
    simp only [Outcome.returned.injEq] at hs'
    obtain ⟨rfl, rfl⟩ := hs'
    rw [hcs0] at hcs'
    simp only [Option.some.injEq] at hcs'
    subst hcs'
    obtain ⟨p', pf, hp', _, hevp, _⟩ := hash_cell.miss_chain hev' hadm hpin'
    rw [hp] at hp'
    simp only [Option.some.injEq] at hp'
    subst hp'
    exact ⟨rfl, hevp⟩

namespace associative_cache

theorem hits_bounded_get_cell {C : associative_cache} {g : Nat} {c : hash_cell}
    (hb : C.hits_bounded) (hc : C.get_cell g = some c) : c.hits_bounded := by
  unfold get_cell at hc
  split at hc
  · exact absurd hc (by simp)
  · split at hc
    · rename_i cells hcells
      exact hb _ (List.getElem?_mem hcells) cells rfl c (List.getElem?_mem hc)
    · exact absurd hc (by simp)

theorem hits_bounded_set_cell {C : associative_cache} (g : Nat) {c : hash_cell}
    (hb : C.hits_bounded) (hc : c.hits_bounded) : (C.set_cell g c).hits_bounded := by
  unfold set_cell
  split
  · rename_i cells hcells
    intro x hx cs hcs c1 hc1
    rcases List.mem_or_eq_of_mem_set hx with h1 | rfl
    · exact hb x h1 cs hcs c1 hc1
    · simp only [Option.mem_def, Option.some.injEq] at hcs
      subst hcs
      rcases List.mem_or_eq_of_mem_set hc1 with h2 | rfl
      · exact hb _ (List.getElem?_mem hcells) cells rfl c1 h2
      · exact hc
  · exact hb

theorem fresh_hits_bounded {c : hash_cell}
    (h : (∀ p ∈ c.buf, ∃ d, p = thread_safe_page.fresh d) ∧ c.shadow.queue = []) :
    c.hits_bounded := by
  constructor
  · intro p hp
    obtain ⟨d, rfl⟩ := h.1 p hp
    simp [thread_safe_page.fresh]
  · rw [h.2]; simp

theorem rehash_hits_bounded {hash1 : Int → Int} {c e c2 e2 : hash_cell}
    (h : hash_cell.rehash hash1 c e = some (c2, e2)) (hc : c.hits_bounded)
    (he : e.hits_bounded) : c2.hits_bounded ∧ e2.hits_bounded := by
  obtain ⟨b, eb, hl, rfl, rfl⟩ := hash_cell.rehash_some h
  obtain ⟨_, _, _, hexp, hsrc⟩ := hash_cell.rehash_loop_spec _ _ _ _ _ _ _ _ hl
  refine ⟨⟨?_, hc.2⟩, ⟨?_, he.2⟩⟩
  · intro p hp
    rcases hsrc p hp with h1 | h1 | ⟨q0, _, rfl⟩
    · exact hc.1 p h1
    · exact he.1 p h1
    · simp [thread_safe_page.set_hits]
  · intro p hp
    rcases hexp p hp with h1 | ⟨h1, _⟩
    · exact he.1 p h1
    · exact hc.1 p h1

/-- A call of `expand` keeps the hits of every page and shadow entry within 8 bits. -/
theorem expand_hits_bounded {C : associative_cache} {g0 : Nat} {b : Bool}
    {C2 : associative_cache} (hb : C.hits_bounded) (h : C.expand g0 = some (b, C2)) :
    C2.hits_bounded := by
  unfold expand at h
  split at h
  · simp only [Option.some.injEq, Prod.mk.injEq] at h
    obtain ⟨_, rfl⟩ := h
    exact hb
  · split at h
    · exact absurd h (by simp)
    · have grow_ok : ∀ (D D1 : associative_cache) (oom : Bool), D.hits_bounded →
          D.grow (2 ^ C.level * C.init_ncells) = some (oom, D1) → D1.hits_bounded := by
        intro D D1 oom hD hgrow
        obtain ⟨_, _, _, _, _, _, _, _, _, hmem⟩ := grow_spec hgrow
        intro x hx cells hcells c hc
        rcases hmem x hx with h1 | ⟨cs, rfl, hfresh⟩
        · exact hD x h1 cells hcells c hc
        · simp only [Option.mem_def, Option.some.injEq] at hcells
          subst hcells
          exact fresh_hits_bounded (hfresh c hc)
      refine expand_loop_induct g0 (2 ^ C.level * C.init_ncells)
        (fun D => D.hits_bounded) (fun D => D.hits_bounded)
        ?_ ?_ ?_ (C.cells_table.length * C.init_ncells + 1) { C with expanding := true }
        b C2 hb h
      · intro D D1 hD hgrow
        exact grow_ok D D1 true hD hgrow
      · intro D hD
        exact hD
      · intro D cell D1 e c2 e2 hD hcell hgrow he hre
        have hD1 := grow_ok D D1 false hD hgrow
        obtain ⟨h1, h2⟩ := rehash_hits_bounded hre (hits_bounded_get_cell hD hcell)
          (hits_bounded_get_cell hD1 he)
        have := hits_bounded_set_cell (D1.split + 2 ^ C.level * C.init_ncells)
          (hits_bounded_set_cell D1.split hD1 h1) h2
        exact ⟨this, this⟩

end associative_cache

namespace clock_shadow_cell

theorem add_scan_bounded (pg : shadow_page) (hpg : pg.hits ≤ 0xff) :
    ∀ (n : Nat) (q : List shadow_page) (l : Nat), (∀ e ∈ q, e.hits ≤ 0xff) →
      ∀ e ∈ (add_scan pg n q l).1, e.hits ≤ 0xff := by
  intro n
  induction n with
  | zero => intro q l hq; simpa [add_scan] using hq
  | succ n ih =>
    intro q l hq
    unfold add_scan
    simp only
    split
    · exact hq
    · rename_i old hold
      split
      · apply ih
        intro e he
        rcases List.mem_or_eq_of_mem_set he with h1 | rfl
        · exact hq e h1
        · exact hq old (List.getElem?_mem hold)
      · intro e he
        rcases List.mem_or_eq_of_mem_set he with h1 | rfl
        · exact hq e h1
        · exact hpg

theorem add_passes_bounded (pg : shadow_page) (hpg : pg.hits ≤ 0xff) :
    ∀ (fuel : Nat) (q : List shadow_page) (l : Nat) (q1 : List shadow_page) (l1 : Nat),
      (∀ e ∈ q, e.hits ≤ 0xff) → add_passes pg fuel q l = some (q1, l1) →
      ∀ e ∈ q1, e.hits ≤ 0xff := by
  intro fuel
  induction fuel with
  | zero => intro q l q1 l1 _ h; simp [add_passes] at h
  | succ fuel ih =>
    intro q l q1 l1 hq h
    unfold add_passes at h
    have hs := add_scan_bounded pg hpg q.length q l hq
    split at h
    · rename_i q2 l2 heq
      simp only [Option.some.injEq, Prod.mk.injEq] at h
      obtain ⟨rfl, _⟩ := h
      rw [heq] at hs
      exact hs
    · rename_i q2 l2 heq
      rw [heq] at hs
      exact ih _ _ _ _ hs h

theorem add_bounded {s s1 : clock_shadow_cell} {pg : shadow_page} (hpg : pg.hits ≤ 0xff)
    (hs : ∀ e ∈ s.queue, e.hits ≤ 0xff) (h : s.add pg = some s1) :
    ∀ e ∈ s1.queue, e.hits ≤ 0xff := by
  unfold add at h
  split at h
  · split at h
    · rename_i q l hp
      simp only [Option.some.injEq] at h
      subst h
      exact add_passes_bounded pg hpg _ _ _ _ _ hs hp
    · exact absurd h (by simp)
  · simp only [Option.some.injEq] at h
    subst h
    intro e he
    simp only [List.mem_append, List.mem_singleton] at he
    rcases he with h1 | rfl
    · exact hs e h1
    · exact hpg

theorem search_queue_bounded (off : Int) (q : List shadow_page)
    (hq : ∀ e ∈ q, e.hits ≤ 0xff) :
    (search_queue off q).1.hits ≤ 0xff ∧ ∀ e ∈ (search_queue off q).2, e.hits ≤ 0xff := by
  induction q with
  | nil => simp [search_queue, shadow_page.invalid]
  | cons pg rest ih =>
    unfold search_queue
    have hpg := hq pg (List.mem_cons_self _ _)
    have hrest := ih (fun e he => hq e (List.mem_cons_of_mem _ he))
    split
    · refine ⟨hpg, ?_⟩
      intro e he
      rcases List.mem_cons.mp he with rfl | h1
      · exact hpg
      · exact hq e (List.mem_cons_of_mem _ h1)
    · refine ⟨hrest.1, ?_⟩
      intro e he
      rcases List.mem_cons.mp he with rfl | h1
      · exact hpg
      · exact hrest.2 e h1

end clock_shadow_cell

namespace hash_cell

theorem set_bounded {buf : List thread_safe_page} (i : Nat) {p : thread_safe_page}
    (hb : ∀ q ∈ buf, q.hits ≤ 0xff) (hp : p.hits ≤ 0xff) :
    ∀ q ∈ buf.set i p, q.hits ≤ 0xff := by
  intro q hq
  rcases List.mem_or_eq_of_mem_set hq with h1 | rfl
  · exact hb q h1
  · exact hp

theorem select_victim_bounded {C : associative_cache} {g i : Nat} {Cs : associative_cache}
    (hb : C.hits_bounded) (h : select_victim C g = Outcome.returned i Cs) :
    Cs.hits_bounded := by
  obtain ⟨c, hc, hcase⟩ := select_victim_returned h
  have hcb := associative_cache.hits_bounded_get_cell hb hc
  have hb1 : (C.set_cell g { c with overflow := true }).hits_bounded :=
    associative_cache.hits_bounded_set_cell g hb ⟨hcb.1, hcb.2⟩
  rcases hcase with ⟨_, rfl⟩ | ⟨m, _, _, _, rfl⟩ |
    ⟨m, i0, C2, c2, m2, _, _, _, he, hc2, _, rfl⟩
  · exact hb
  · exact hb1
  · have hb2 := associative_cache.expand_hits_bounded hb1 he
    have hc2b := associative_cache.hits_bounded_get_cell hb2 hc2
    by_cases hm2 : m2 ≠ 0
    · simp only [hm2, ne_eq, not_false_eq_true, if_true]
      exact associative_cache.hits_bounded_set_cell g hb2 ⟨hc2b.1, hc2b.2⟩
    · simp only [hm2, if_false]
      exact hb2

theorem evict_bounded {u : Bool} {c c1 : hash_cell} {i : Nat} (hb : c.hits_bounded)
    (h : evict u c i = some c1) : c1.hits_bounded := by
  obtain ⟨p, hp, hbuf, _, _, hsh⟩ := evict_some h
  constructor
  · rw [hbuf]
    exact set_bounded i hb.1 (by simp [thread_safe_page.set_data_ready,
      thread_safe_page.reset_hits])
  · rcases hsh with ⟨_, _, hadd⟩ | ⟨_, hsame⟩
    · exact clock_shadow_cell.add_bounded
        (by simpa [shadow_page.of_page] using hb.1 p (List.getElem?_mem hp)) hb.2 hadd
    · rw [hsame]; exact hb.2

theorem reassign_bounded {u : Bool} {c c1 : hash_cell} {i : Nat} {off ev : Int}
    (hb : c.hits_bounded) (h : reassign u c i off = some (ev, c1)) : c1.hits_bounded := by
  obtain ⟨p, hp, _, hcase⟩ := reassign_some h
  have hpb := hb.1 p (List.getElem?_mem hp)
  have hsq := clock_shadow_cell.search_queue_bounded off c.shadow.queue hb.2
  rcases hcase with ⟨_, rfl⟩ | ⟨_, rfl⟩
  · constructor
    · apply set_bounded i hb.1
      split
      · simpa [thread_safe_page.set_hits, clock_shadow_cell.search] using hsq.1
      · simpa [thread_safe_page.set_offset] using hpb
    · simpa [clock_shadow_cell.search] using hsq.2
  · exact ⟨set_bounded i hb.1 (by simpa [thread_safe_page.set_offset] using hpb), hb.2⟩

theorem pin_bounded {c c1 : hash_cell} {i : Nat} (hb : c.hits_bounded)
    (h : pin c i = some c1) : c1.hits_bounded := by
  obtain ⟨p, hp, rfl⟩ := pin_some h
  have hpb := hb.1 p (List.getElem?_mem hp)
  exact ⟨set_bounded i hb.1 (by simpa [thread_safe_page.inc_ref] using hpb), hb.2⟩

/-- After the aging step the hits of every page is within 8 bits and that of the chosen page
is below `0xff`. -/
theorem age_bounded {u : Bool} {c ca : hash_cell} {i : Nat} (hb : c.hits_bounded)
    (h : age u c i = some ca) :
    ca.hits_bounded ∧ ∃ pa, ca.buf[i]? = some pa ∧ pa.hits < 0xff := by
  obtain ⟨p, hp, hcase⟩ := age_some h
  have hpb := hb.1 p (List.getElem?_mem hp)
  rcases hcase with ⟨h255, rfl⟩ | ⟨h255, rfl⟩
  · refine ⟨⟨?_, ?_⟩, ?_⟩
    · intro q hq
      simp only [page_cell_scale_down_hits, List.mem_map] at hq
      obtain ⟨q0, hq0, rfl⟩ := hq
      have := hb.1 q0 hq0
      simp only [thread_safe_page.set_hits]
      omega
    · split
      · intro e he
        simp only [clock_shadow_cell.scale_down_hits, List.mem_map] at he
        obtain ⟨e0, he0, rfl⟩ := he
        have := hb.2 e0 he0
        simp only
        omega
      · exact hb.2
    · refine ⟨p.set_hits (p.hits / 2), ?_, ?_⟩
      · simp only [page_cell_scale_down_hits, List.getElem?_map, hp, Option.map_some']
      · simp only [thread_safe_page.set_hits]
        omega
  · exact ⟨hb, p, hp, by omega⟩

theorem record_hit_bounded {c c1 : hash_cell} {i : Nat} {pa : thread_safe_page}
    (hb : c.hits_bounded) (hpa : c.buf[i]? = some pa) (hlt : pa.hits < 0xff)
    (h : record_hit c i = some c1) : c1.hits_bounded := by
  obtain ⟨p, hp, rfl⟩ := record_hit_some h
  rw [hpa] at hp
  simp only [Option.some.injEq] at hp
  subst hp
  refine ⟨set_bounded i hb.1 ?_, hb.2⟩
  simp only [thread_safe_page.hit]
  split <;> omega

theorem search_pinned_bounded {C : associative_cache} {g : Nat} {off old : Int} {i : Nat}
    {ev : Int} {C1 : associative_cache} (hb : C.hits_bounded)
    (h : search_pinned C g off old = Outcome.returned (i, ev) C1) : C1.hits_bounded := by
  obtain ⟨c, hc, hcase⟩ := search_pinned_returned h
  rcases hcase with ⟨_, _, c1, hpin, rfl⟩ | ⟨_, Ca, ca, cb, cc, hg, hca, hadm, hpin, rfl⟩
  · exact associative_cache.hits_bounded_set_cell g hb
      (pin_bounded (associative_cache.hits_bounded_get_cell hb hc) hpin)
  · obtain ⟨Cs, cs, ce, hs, hcs, hev, rfl⟩ := get_empty_page_returned hg
    have hbs := select_victim_bounded hb hs
    have hce := evict_bounded (associative_cache.hits_bounded_get_cell hbs hcs) hev
    have hba := associative_cache.hits_bounded_set_cell g hbs hce
    exact associative_cache.hits_bounded_set_cell g hba
      (pin_bounded (reassign_bounded (associative_cache.hits_bounded_get_cell hba hca) hadm)
        hpin)

/-- A call of `search` that runs no expansion keeps the hits of the cell within 8 bits when
those of the cell alone were. -/
theorem search_cell_bounded {C : associative_cache} {g : Nat} {off old : Int} {i : Nat}
    {ev : Int} {C2 : associative_cache} {c : hash_cell} (hc : C.get_cell g = some c)
    (hb : c.hits_bounded) (hno : runs_expansion C g off = false)
    (h : search C g off old = Outcome.returned (i, ev) C2) :
    ∃ c2, C2.get_cell g = some c2 ∧ c2.hits_bounded := by
  obtain ⟨C1, c1, ca, c3, hp, hc1, hage, hrec, rfl⟩ := search_returned h
  have hb1 : c1.hits_bounded := by
    obtain ⟨c', hc', hcase⟩ := search_pinned_returned hp
    rw [hc] at hc'
    simp only [Option.some.injEq] at hc'
    subst hc'
    rcases hcase with ⟨_, _, cp, hpin, rfl⟩ | ⟨hf, _⟩
    · rw [associative_cache.get_cell_set_cell_self hc cp] at hc1
      simp only [Option.some.injEq] at hc1
      subst hc1
      exact pin_bounded hb hpin
    · obtain ⟨Cs, cs, ce, cb, cp, hs, hcs, hev, hadm, hpin, hcp, _⟩ :=
        search_pinned_miss hc hf hp
      rw [hc1] at hcp
      simp only [Option.some.injEq] at hcp
      subst hcp
      obtain ⟨cs', m, hcs', hbuf, hsh, _, _, _⟩ :=
        select_victim_no_expansion hc (runs_expansion_false hc hf hno) hs
      rw [hcs] at hcs'
      simp only [Option.some.injEq] at hcs'
      subst hcs'
      have hbs : cs.hits_bounded := ⟨by rw [hbuf]; exact hb.1, by rw [hsh]; exact hb.2⟩
      exact pin_bounded (reassign_bounded (evict_bounded hbs hev) hadm) hpin
  obtain ⟨hba, pa, hpa, hlt⟩ := age_bounded hb1 hage
  exact ⟨c3, associative_cache.get_cell_set_cell_self hc1 c3,
    record_hit_bounded hba hpa hlt hrec⟩

end hash_cell

/-- C8: hits bound.  If before a call to `hash_cell::search` every page of the cell and
every shadow entry has hits within [0, 255], then every page of the cell has after the call:
for a call that runs no expansion this needs the bound on the cell alone, and in general, an
expansion being able to exchange pages with another cell, the bound on every cell (which the
8-bit type of the counter gives).  The counter never wraps around, because `hit()` is applied
to the chosen page in a state in which its hits is below 255. -/
theorem search_keeps_hits_within_8_bits (C : associative_cache) (g : Nat) (off old : Int)
    (i : Nat) (ev : Int) (C2 : associative_cache)
    (h : hash_cell.search C g off old = Outcome.returned (i, ev) C2) :
    (∀ c, C.get_cell g = some c → c.hits_bounded →
      hash_cell.runs_expansion C g off = false →
      ∃ c2, C2.get_cell g = some c2 ∧ c2.hits_bounded) ∧
    (C.hits_bounded →
      C2.hits_bounded ∧
      (∃ c2, C2.get_cell g = some c2 ∧ ∀ p ∈ c2.buf, p.hits ≤ 0xff) ∧
      (∃ C1 c1 ca pa, hash_cell.search_pinned C g off old = Outcome.returned (i, ev) C1 ∧
        C1.get_cell g = some c1 ∧ hash_cell.age C1.use_shadow c1 i = some ca ∧
        ca.buf[i]? = some pa ∧ pa.hits < 0xff ∧
        ∃ c2, hash_cell.record_hit ca i = some c2 ∧ C2.get_cell g = some c2 ∧
          c2.buf[i]? = some pa.hit ∧ pa.hit.hits = pa.hits + 1)) := by
  refine ⟨fun c hc hcb hno => hash_cell.search_cell_bounded hc hcb hno h, ?_⟩
  intro hb
  obtain ⟨C1, c1, ca, c3, hp, hc1, hage, hrec, rfl⟩ := hash_cell.search_returned h
  have hb1 := hash_cell.search_pinned_bounded hb hp
  obtain ⟨hba, pa, hpa, hlt⟩ :=
    hash_cell.age_bounded (associative_cache.hits_bounded_get_cell hb1 hc1) hage
  have hb3 := hash_cell.record_hit_bounded hba hpa hlt hrec
  have hget := associative_cache.get_cell_set_cell_self hc1 c3
  refine ⟨associative_cache.hits_bounded_set_cell g hb1 hb3, ⟨c3, hget, hb3.1⟩,
    C1, c1, ca, pa, hp, hc1, hage, hpa, hlt, c3, hrec, hget, ?_, ?_⟩
  · obtain ⟨q, hq, rfl⟩ := hash_cell.record_hit_some hrec
    rw [hpa] at hq
    simp only [Option.some.injEq] at hq
    subst hq
    exact List.getElem?_set_self (List.getElem?_eq_some.mp hpa).1
  · simp only [thread_safe_page.hit]
    split
    · rfl
    · omega

theorem hits_sum_set (buf : List thread_safe_page) :
    ∀ (i : Nat) (p q : thread_safe_page), buf[i]? = some p →
      hits_sum (buf.set i q) + p.hits = hits_sum buf + q.hits := by
  induction buf with
  | nil => intro i p q h; simp at h
  | cons a rest ih =>
    intro i p q h
    cases i with
    | zero =>
      simp only [List.getElem?_cons_zero, Option.some.injEq] at h
      subst h
      simp only [hits_sum, List.set_cons_zero, List.map_cons, List.sum_cons]
      omega
    | succ i =>
      have := ih i p q (by simpa using h)
      simp only [hits_sum, List.set_cons_succ, List.map_cons, List.sum_cons] at this ⊢
      omega

theorem hits_sum_scale_down (buf : List thread_safe_page) :
    ∀ (i : Nat) (p : thread_safe_page), buf[i]? = some p →
      hits_sum (page_cell_scale_down_hits buf) + (p.hits - p.hits / 2) ≤ hits_sum buf := by
  induction buf with
  | nil => intro i p h; simp at h
  | cons a rest ih =>
    intro i p h
    have hle : hits_sum (page_cell_scale_down_hits rest) ≤ hits_sum rest := by
      clear ih h
      induction rest with
      | nil => simp [hits_sum, page_cell_scale_down_hits]
      | cons b r ihr =>
        simp only [hits_sum, page_cell_scale_down_hits, List.map_cons, List.sum_cons,
          thread_safe_page.set_hits] at ihr ⊢
        omega
    cases i with
    | zero =>
      simp only [List.getElem?_cons_zero, Option.some.injEq] at h
      subst h
      simp only [hits_sum, page_cell_scale_down_hits, List.map_cons, List.sum_cons,
        thread_safe_page.set_hits] at hle ⊢
      omega
    | succ i =>
      have := ih i p (by simpa using h)
      simp only [hits_sum, page_cell_scale_down_hits, List.map_cons, List.sum_cons,
        thread_safe_page.set_hits] at this ⊢
      omega

/-- C9 (as stated, refuted): in `seeded_cache` a miss on offset 8192 takes the only page
(1 hit), seeds it with the 255 hits of its shadow record, so that the page has hits `0xff`
when the hit is about to be recorded; the halving fires and the page ends with 128 hits, but
the sum of hits over the cell, 1 before the call, is 128 after it. -/
theorem aging_after_seeding_raises_hits_sum :
    (seeded_cache.get_cell 0).map (fun c => hits_sum c.buf) = some 1 ∧
    ((hash_cell.search_pinned seeded_cache 0 8192 (-1)).cache.bind
      (fun C1 => (C1.get_cell 0).bind (fun c1 => (c1.buf[0]?).map (fun p => p.hits))))
        = some 0xff ∧
    (hash_cell.search seeded_cache 0 8192 (-1)).value = some (0, 4096) ∧
    ((hash_cell.search seeded_cache 0 8192 (-1)).cache.bind
      (fun C2 => (C2.get_cell 0).map (fun c2 => hits_sum c2.buf))) = some 128 ∧
    ¬ (128 < 1) := by
  decide

/-- C9 (amended): aging.  Whenever the page chosen by `hash_cell::search` has hits `0xff` at
the point the hit is about to be recorded (right after `inc_ref`), the call replaces the hits
of every page of the cell (and, with shadow pages, of every shadow entry) by floor(hits/2)
before recording the hit, so the chosen page ends with hits 128 and the sum of hits over the
cell after the call is strictly smaller than it was at that point, which on a hit is the sum
before the call; when the chosen page's hits is not `0xff` at that point, no other page is
changed from then on. -/
theorem aging_halves_hits_before_recording (C : associative_cache) (g : Nat) (off old : Int)
    (i : Nat) (ev : Int) (C2 : associative_cache)
    (h : hash_cell.search C g off old = Outcome.returned (i, ev) C2) :
    ∃ C1 c1 p1 c2, hash_cell.search_pinned C g off old = Outcome.returned (i, ev) C1 ∧
      C1.get_cell g = some c1 ∧ c1.buf[i]? = some p1 ∧ C2.get_cell g = some c2 ∧
      (p1.hits = 0xff →
        (∀ k, k ≠ i → c2.buf[k]? = (c1.buf[k]?).map (fun q => q.set_hits (q.hits / 2))) ∧
        (∃ p2, c2.buf[i]? = some p2 ∧ p2.hits = 128) ∧
        (C1.use_shadow = true →
          c2.shadow.queue = c1.shadow.queue.map (fun e => { e with hits := e.hits / 2 })) ∧
        hits_sum c2.buf < hits_sum c1.buf) ∧
      (p1.hits ≠ 0xff → (∀ k, k ≠ i → c2.buf[k]? = c1.buf[k]?) ∧ c2.shadow = c1.shadow) ∧
      (∀ c, C.get_cell g = some c →
        (∃ (k : Nat) (p : thread_safe_page), c.buf[k]? = some p ∧ p.offset = off) →
        hits_sum c1.buf = hits_sum c.buf) := by
  obtain ⟨C1, c1, ca, c3, hp, hc1, hage, hrec, rfl⟩ := hash_cell.search_returned h
  obtain ⟨p1, hp1, hcase⟩ := hash_cell.age_some hage
  have hlt : i < c1.buf.length := (List.getElem?_eq_some.mp hp1).1
  refine ⟨C1, c1, p1, c3, hp, hc1, hp1, associative_cache.get_cell_set_cell_self hc1 c3,
    ?_, ?_, ?_⟩
  · intro h255
    rcases hcase with ⟨_, rfl⟩ | ⟨hne, _⟩
    · obtain ⟨pa, hpa, rfl⟩ := hash_cell.record_hit_some hrec
      have hpa' : (page_cell_scale_down_hits c1.buf)[i]? = some (p1.set_hits (p1.hits / 2)) := by
        simp only [page_cell_scale_down_hits, List.getElem?_map, hp1, Option.map_some']
      simp only at hpa
      rw [hpa'] at hpa
      simp only [Option.some.injEq] at hpa
      subst hpa
      have hlt2 : i < (page_cell_scale_down_hits c1.buf).length :=
        (List.getElem?_eq_some.mp hpa').1
      refine ⟨?_, ⟨_, List.getElem?_set_self hlt2, ?_⟩, ?_, ?_⟩
      · intro k hk
        simp only [List.getElem?_set_ne (Ne.symm hk)]
        simp only [page_cell_scale_down_hits, List.getElem?_map]
      · simp [thread_safe_page.hit, thread_safe_page.set_hits, h255]
      · intro hu
        simp [hu, clock_shadow_cell.scale_down_hits]
      · have h1 := hits_sum_set (page_cell_scale_down_hits c1.buf) i _
          (p1.set_hits (p1.hits / 2)).hit hpa'
        have h2 := hits_sum_scale_down c1.buf i p1 hp1
        have hq128 : (p1.set_hits (p1.hits / 2)).hit.hits = 128 := by
          simp [thread_safe_page.hit, thread_safe_page.set_hits, h255]
        have hq127 : (p1.set_hits (p1.hits / 2)).hits = 127 := by
          simp [thread_safe_page.set_hits, h255]
        rw [hq128, hq127] at h1
        rw [h255] at h2
        norm_num at h2
        show hits_sum ((page_cell_scale_down_hits c1.buf).set i
          (p1.set_hits (p1.hits / 2)).hit) < hits_sum c1.buf
        omega
    · exact absurd h255 hne
  · intro hne
    rcases hcase with ⟨h255, _⟩ | ⟨_, rfl⟩
    · exact absurd h255 hne
    · obtain ⟨pa, hpa, rfl⟩ := hash_cell.record_hit_some hrec
      exact ⟨fun k hk => List.getElem?_set_ne (Ne.symm hk), rfl⟩
  · intro c hc ⟨k, p, hk, hpo⟩
    obtain ⟨c', hc', hcase2⟩ := hash_cell.search_pinned_returned hp
    rw [hc] at hc'
    simp only [Option.some.injEq] at hc'
    subst hc'
    rcases hcase2 with ⟨hf, _, cp, hpin, rfl⟩ | ⟨hf, _⟩
    · rw [associative_cache.get_cell_set_cell_self hc cp] at hc1
      simp only [Option.some.injEq] at hc1
      subst hc1
      obtain ⟨q, hq, rfl⟩ := hash_cell.pin_some hpin
      have := hits_sum_set c.buf i q q.inc_ref hq
      simp only [thread_safe_page.inc_ref] at this ⊢
      omega
    · exact absurd hpo (hash_cell.find_offset_none off c.buf 0 hf k p hk)

namespace clock_shadow_cell

theorem search_queue_offsets (off : Int) (q : List shadow_page) :
    (search_queue off q).2.map (fun e => e.offset) = q.map (fun e => e.offset) := by
  induction q with
  | nil => simp [search_queue]
  | cons pg rest ih =>
    unfold search_queue
    split
    · simp
    · simp [ih]

theorem search_queue_append_ne (off : Int) (r : shadow_page) (hr : r.offset ≠ off)
    (q : List shadow_page) :
    (search_queue off (q ++ [r])).2 = (search_queue off q).2 ++ [r] := by
  induction q with
  | nil => simp [search_queue, hr]
  | cons pg rest ih =>
    simp only [List.cons_append]
    unfold search_queue
    split
    · simp
    · simp [ih]

theorem search_queue_first (off : Int) (r : shadow_page) (hr : r.offset = off)
    (q rest : List shadow_page) (hq : ∀ e ∈ q, e.offset ≠ off) :
    (search_queue off (q ++ r :: rest)).1 = r := by
  induction q with
  | nil => simp [search_queue, hr]
  | cons pg tl ih =>
    simp only [List.cons_append]
    unfold search_queue
    have hpg := hq pg (List.mem_cons_self _ _)
    simp only [hpg, if_false]
    exact ih (fun e he => hq e (List.mem_cons_of_mem _ he))

theorem add_not_full {s : clock_shadow_cell} (pg : shadow_page)
    (h : s.queue.length < s.capacity) :
    s.add pg = some { s with queue := s.queue ++ [pg] } := by
  unfold add is_full
  simp [Nat.not_le.mpr h]

end clock_shadow_cell
namespace hash_cell

/-- A miss that runs no expansion, step by step: the victim `p` of slot `i`, the shadow cell
`sh` after the victim was recorded, the page `pf` after `inc_ref`, and the cells before the
aging step (`c1`), after it (`ca`) and at the end (`c3`). -/
theorem search_miss_no_expansion {C : associative_cache} {g : Nat} {off old : Int} {i : Nat}
    {ev : Int} {C2 : associative_cache} {c : hash_cell} (hc : C.get_cell g = some c)
    (hf : find_offset off c.buf 0 = none) (hno : runs_expansion C g off = false)
    (h : search C g off old = Outcome.returned (i, ev) C2) :
    ∃ p sh pf c1 ca c3, c.buf[i]? = some p ∧ ev = p.offset ∧
      ((C.use_shadow = true ∧ 0 < p.hits ∧ c.shadow.add (shadow_page.of_page p) = some sh) ∨
        ((C.use_shadow = false ∨ p.hits = 0) ∧ sh = c.shadow)) ∧
      c1.buf = c.buf.set i pf ∧ pf.offset = off ∧ pf.ref = p.ref + 1 ∧
      pf.hits = (if C.use_shadow = true ∧ (sh.search off).1.is_valid = true
        then (sh.search off).1.hits else 0) ∧
      c1.shadow = (if C.use_shadow = true then (sh.search off).2 else sh) ∧
      age C.use_shadow c1 i = some ca ∧ record_hit ca i = some c3 ∧
      C2.get_cell g = some c3 ∧ C2.use_shadow = C.use_shadow := by
  obtain ⟨C1, c1, ca, c3, hp, hc1, hage, hrec, rfl⟩ := search_returned h
  obtain ⟨Cs, cs, ce, cb, cp, hs, hcs, hev, hadm, hpin, hcp, hus⟩ :=
    search_pinned_miss hc hf hp
  rw [hc1] at hcp
  simp only [Option.some.injEq] at hcp
  subst hcp
  obtain ⟨cs', m, hcs', hbuf, hsh, _, husC, _⟩ :=
    select_victim_no_expansion hc (runs_expansion_false hc hf hno) hs
  rw [hcs] at hcs'
  simp only [Option.some.injEq] at hcs'
  subst hcs'
  obtain ⟨p, pf, hp1, hcpbuf, hevp, hpref, hpoff, _, _, hphits, hcpsh, _⟩ :=
    miss_chain hev hadm hpin
  obtain ⟨p', hp', _, _, _, hshcase⟩ := evict_some hev
  rw [hp1] at hp'
  simp only [Option.some.injEq] at hp'
  subst hp'
  rw [hbuf] at hp1 hcpbuf
  rw [hsh, husC] at hshcase
  rw [husC] at hphits hcpsh
  rw [hus, husC] at hage
  refine ⟨p, ce.shadow, pf, c1, ca, c3, hp1, hevp, ?_, hcpbuf, hpoff, hpref, hphits, hcpsh,
    hage, hrec, associative_cache.get_cell_set_cell_self hc1 c3, ?_⟩
  · rcases hshcase with ⟨h1, h2, h3⟩ | ⟨h1, h2⟩
    · exact Or.inl ⟨h1, h2, h3⟩
    · exact Or.inr ⟨h1, h2⟩
  · rw [associative_cache.set_cell_use_shadow, hus, husC]

/-- The page that `search` returns, from the chosen page `pf` right after `inc_ref`. -/
theorem tail_page {u : Bool} {c1 ca c3 : hash_cell} {i : Nat} {pf : thread_safe_page}
    (ha : age u c1 i = some ca) (hr : record_hit ca i = some c3)
    (hp : c1.buf[i]? = some pf) (hle : pf.hits ≤ 0xff) :
    ∃ p3, c3.buf[i]? = some p3 ∧ p3.offset = pf.offset ∧
      p3.hits = (if pf.hits = 0xff then 128 else pf.hits + 1) := by
  have hlt : i < c1.buf.length := (List.getElem?_eq_some.mp hp).1
  obtain ⟨q, hq, hcase⟩ := age_some ha
  rw [hp] at hq
  simp only [Option.some.injEq] at hq
  subst hq
  rcases hcase with ⟨h255, rfl⟩ | ⟨h255, rfl⟩
  · obtain ⟨pa, hpa, rfl⟩ := record_hit_some hr
    have hpa' : (page_cell_scale_down_hits c1.buf)[i]? = some (pf.set_hits (pf.hits / 2)) := by
      simp only [page_cell_scale_down_hits, List.getElem?_map, hp, Option.map_some']
    simp only at hpa
    rw [hpa'] at hpa
    simp only [Option.some.injEq] at hpa
    subst hpa
    refine ⟨_, List.getElem?_set_self (List.getElem?_eq_some.mp hpa').1, ?_, ?_⟩
    · simp [thread_safe_page.hit, thread_safe_page.set_hits]
    · simp [thread_safe_page.hit, thread_safe_page.set_hits, h255]
  · obtain ⟨pa, hpa, rfl⟩ := record_hit_some hr
    rw [hp] at hpa
    simp only [Option.some.injEq] at hpa
    subst hpa
    refine ⟨_, List.getElem?_set_self hlt, ?_, ?_⟩
    · simp [thread_safe_page.hit]
    · have : pf.hits < 0xff := by omega
      simp [thread_safe_page.hit, h255, this]

end hash_cell

namespace clock_shadow_cell

theorem search_queue_result (off : Int) (q : List shadow_page) :
    (search_queue off q).1 = shadow_page.invalid ∨
      ((search_queue off q).1 ∈ q ∧ (search_queue off q).1.offset = off) := by
  induction q with
  | nil => left; simp [search_queue]
  | cons pg rest ih =>
    unfold search_queue
    split
    · rename_i hoff
      right; exact ⟨List.mem_cons_self _ _, hoff⟩
    · rcases ih with h | h
      · left; exact h
      · right; exact ⟨List.mem_cons_of_mem _ h.1, h.2⟩

theorem search_queue_keeps_offsets (off : Int) (q : List shadow_page) :
    ∀ e ∈ (search_queue off q).2, ∃ e0 ∈ q, e.offset = e0.offset := by
  induction q with
  | nil => simp [search_queue]
  | cons pg rest ih =>
    unfold search_queue
    split
    · intro e he
      rcases List.mem_cons.mp he with rfl | h
      · exact ⟨pg, List.mem_cons_self _ _, rfl⟩
      · exact ⟨e, List.mem_cons_of_mem _ h, rfl⟩
    · intro e he
      rcases List.mem_cons.mp he with rfl | h
      · exact ⟨e, List.mem_cons_self _ _, rfl⟩
      · obtain ⟨e0, he0, heq⟩ := ih e h
        exact ⟨e0, List.mem_cons_of_mem _ he0, heq⟩

theorem search_queue_length (off : Int) (q : List shadow_page) :
    (search_queue off q).2.length = q.length := by
  have := congrArg List.length (search_queue_offsets off q)
  simpa using this

end clock_shadow_cell

/-- C10 (as stated, refuted): in `two_page_cache` offset 4096 sits in slot 0 with hits 1; the
miss on 12288 evicts it and records it in the shadow cell; the next `search(4096)` finds the
record still there, but the page it returns reports hits 2, not 1. -/
theorem shadow_round_trip_reports_one_more_hit :
    (two_page_cache.get_cell 0).bind (fun c => (c.buf[0]?).map (fun p => (p.offset, p.hits)))
      = some (4096, 1) ∧
    hash_cell.search two_page_cache 0 12288 (-1)
      = Outcome.returned (0, 4096) two_page_cache_after_miss ∧
    (two_page_cache_after_miss.get_cell 0).map (fun c => c.shadow.queue)
      = some [{ offset := 4096, hits := 1, referenced := false }] ∧
    (hash_cell.search two_page_cache_after_miss 0 4096 (-1)).value = some (1, 8192) ∧
    ((hash_cell.search two_page_cache_after_miss 0 4096 (-1)).cache.bind
      (fun C2 => (C2.get_cell 0).bind
        (fun c2 => (c2.buf[1]?).map (fun p => (p.offset, p.hits))))) = some (4096, 2) ∧
    (2 : Nat) ≠ 1 := by
  decide

/-- The round trip in two consecutive calls.  If a miss on `B` evicts offset `A` from slot `i`
while its page has hits `h > 0`, and `search(A)` is the next call on that cell, `A`'s record
being the only record of `A` in the shadow cell (no older record of `A`, room for two more
records, no record with 255 hits, no expansion), then the new page of `A` is seeded with hits
`h` before the access is recorded, so the page returned for `A` reports hits `h + 1`, or 128
when `h` is 255 and the aging fires. -/
theorem shadow_round_trip_immediate (C : associative_cache) (g : Nat) (c : hash_cell)
    (A B old old2 : Int) (i j : Nat) (ev2 : Int) (C1 C2 : associative_cache)
    (pA : thread_safe_page)
    (hu : C.use_shadow = true) (hc : C.get_cell g = some c)
    (hmissB : ∀ p ∈ c.buf, p.offset ≠ B)
    (hno1 : hash_cell.runs_expansion C g B = false)
    (h1 : hash_cell.search C g B old = Outcome.returned (i, A) C1)
    (hpA : c.buf[i]? = some pA) (hh : 0 < pA.hits) (hle : pA.hits ≤ 0xff)
    (hA : A ≠ unassigned)
    (honly : ∀ (k : Nat) (p : thread_safe_page), k ≠ i → c.buf[k]? = some p → p.offset ≠ A)
    (hrec : ∀ e ∈ c.shadow.queue, e.offset ≠ A ∧ e.hits ≠ 0xff)
    (hroom : c.shadow.queue.length + 2 ≤ c.shadow.capacity)
    (hno2 : hash_cell.runs_expansion C1 g A = false)
    (h2 : hash_cell.search C1 g A old2 = Outcome.returned (j, ev2) C2) :
    ∃ c2 p2, C2.get_cell g = some c2 ∧ c2.buf[j]? = some p2 ∧ p2.offset = A ∧
      p2.hits = (if pA.hits = 0xff then 128 else pA.hits + 1) := by
  -- the first call
  have hf1 := hash_cell.find_offset_eq_none hmissB 0
  obtain ⟨p, sh, pf, c1, ca, c3, hp, hev, hshcase, hc1buf, hpfoff, _, hpfhits, hc1sh,
    hage, hrec1, hC1, huC1⟩ := hash_cell.search_miss_no_expansion hc hf1 hno1 h1
  rw [hpA] at hp
  simp only [Option.some.injEq] at hp
  subst hp
  have hAB : A ≠ B := by
    rw [hev]; exact hmissB pA (List.getElem?_mem hpA)
  have hsh : sh = { c.shadow with
      queue := c.shadow.queue ++ [shadow_page.of_page pA] } := by
    rcases hshcase with ⟨_, _, hadd⟩ | ⟨h0, _⟩
    · rw [clock_shadow_cell.add_not_full _ (by omega)] at hadd
      simpa using hadd.symm
    · rcases h0 with h0 | h0
      · rw [hu] at h0; exact absurd h0 (by simp)
      · omega
  have hrA : (shadow_page.of_page pA).offset = A := by rw [hev]; rfl
  have hc1q : c1.shadow.queue =
      (clock_shadow_cell.search_queue B c.shadow.queue).2 ++ [shadow_page.of_page pA] := by
    rw [hc1sh, hsh]
    simp only [hu, if_true, clock_shadow_cell.search]
    exact clock_shadow_cell.search_queue_append_ne B _ (by rw [hrA]; exact hAB) _
  have hc1cap : c1.shadow.capacity = c.shadow.capacity := by
    rw [hc1sh, hsh]; simp [hu, clock_shadow_cell.search]
  have hpf255 : pf.hits ≠ 0xff := by
    rw [hpfhits]
    split
    · rw [hsh]
      simp only [clock_shadow_cell.search]
      rcases clock_shadow_cell.search_queue_result B
        (c.shadow.queue ++ [shadow_page.of_page pA]) with h | ⟨h, hoff⟩
      · rw [h]; simp [shadow_page.invalid]
      · rcases List.mem_append.mp h with h | h
        · exact (hrec _ h).2
        · simp only [List.mem_singleton] at h
          rw [h, hrA] at hoff
          exact absurd hoff hAB
    · decide
  have hlti : i < c.buf.length := (List.getElem?_eq_some.mp hpA).1
  have hpf1 : c1.buf[i]? = some pf := by rw [hc1buf]; exact List.getElem?_set_self hlti
  have hc3 := hash_cell.tail_without_aging hage hrec1 hpf1 hpf255
  have hc3buf : c3.buf = c.buf.set i pf.hit := by
    rw [hc3]; simp only [hc1buf, List.set_set]
  have hc3q : c3.shadow.queue =
      (clock_shadow_cell.search_queue B c.shadow.queue).2 ++ [shadow_page.of_page pA] := by
    rw [hc3]; exact hc1q
  have hc3cap : c3.shadow.capacity = c.shadow.capacity := by
    rw [hc3]; exact hc1cap
  -- the second call misses
  have hmissA : ∀ q ∈ c3.buf, q.offset ≠ A := by
    intro q hq
    obtain ⟨n, hn⟩ := List.mem_iff_getElem?.mp hq
    rw [hc3buf] at hn
    by_cases hni : n = i
    · rw [hni, List.getElem?_set_self hlti] at hn
      simp only [Option.some.injEq] at hn
      rw [← hn]
      simp only [thread_safe_page.hit]
      rw [hpfoff]
      exact Ne.symm hAB
    · rw [List.getElem?_set_ne (Ne.symm hni)] at hn
      exact honly n q hni hn
  have hf2 := hash_cell.find_offset_eq_none hmissA 0
  have huC1' : C1.use_shadow = true := by rw [huC1]; exact hu
  obtain ⟨pv, sh2, pf2, d1, da, d3, hpv, _, hsh2case, hd1buf, hpf2off, _, hpf2hits, _,
    hage2, hrec2, hC2, _⟩ := hash_cell.search_miss_no_expansion hC1 hf2 hno2 h2
  have hq' : ∀ e ∈ (clock_shadow_cell.search_queue B c.shadow.queue).2, e.offset ≠ A := by
    intro e he
    obtain ⟨e0, he0, heq⟩ := clock_shadow_cell.search_queue_keeps_offsets B _ e he
    rw [heq]; exact (hrec e0 he0).1
  have hlen : c3.shadow.queue.length < c3.shadow.capacity := by
    rw [hc3q, hc3cap]
    simp only [List.length_append, clock_shadow_cell.search_queue_length, List.length_singleton]
    omega
  have hfound : (sh2.search A).1 = shadow_page.of_page pA := by
    rcases hsh2case with ⟨_, _, hadd⟩ | ⟨_, hsame⟩
    · rw [clock_shadow_cell.add_not_full _ hlen] at hadd
      simp only [Option.some.injEq] at hadd
      rw [← hadd]
      simp only [clock_shadow_cell.search, hc3q, List.append_assoc, List.singleton_append]
      exact clock_shadow_cell.search_queue_first A _ hrA _ _ hq'
    · rw [hsame]
      simp only [clock_shadow_cell.search, hc3q]
      exact clock_shadow_cell.search_queue_first A _ hrA _ _ hq'
  have hvalid : (sh2.search A).1.is_valid = true := by
    rw [hfound]
    simp only [shadow_page.is_valid, hrA, decide_eq_true_eq]
    exact hA
  have hpf2h : pf2.hits = pA.hits := by
    rw [hpf2hits]
    simp only [huC1', hvalid, and_self, if_true]
    rw [hfound]
    rfl
  have hltj : j < c3.buf.length := (List.getElem?_eq_some.mp hpv).1
  have hpf2 : d1.buf[j]? = some pf2 := by rw [hd1buf]; exact List.getElem?_set_self hltj
  obtain ⟨p3, hp3, hp3off, hp3hits⟩ :=
    hash_cell.tail_page hage2 hrec2 hpf2 (by rw [hpf2h]; exact hle)
  exact ⟨d3, p3, hC2, hp3, by rw [hp3off, hpf2off], by rw [hp3hits, hpf2h]⟩

/-- C6, at concrete inputs: a miss on offset 12288 in `two_page_cache_after_hit`, whose slot 1
is in use, and a `rehash` of a cell whose slot 0 is in use and maps to the expanded cell. -/
theorem pinned_slot_keeps_offset_witness :
    ((∃ c2 q, two_page_cache_after_hit_miss.get_cell 0 = some c2 ∧ c2.buf[1]? = some q ∧
        q.offset = (sample_page 8192 4 1).offset) ∧
      ((∀ q ∈ (sample_cell 0 false [sample_page 4096 1 0, sample_page 8192 4 1] []).buf,
        q.offset ≠ 12288) → 0 ≠ 1)) ∧
    (([sample_page 8192 5 1, thread_safe_page.fresh 7][0]? = some (sample_page 8192 5 1) ∨
      [sample_page 8192 5 1, thread_safe_page.fresh 7][0]?
        = some ((sample_page 8192 5 1).set_hits 1)) ∧
      ∀ q ∈ [sample_page 24576 2 0, thread_safe_page.fresh 8],
        q ∈ [thread_safe_page.fresh 7, thread_safe_page.fresh 8] ∨
        (q ∈ [sample_page 8192 5 1, sample_page 24576 2 0] ∧ q.ref = 0)) :=
  ⟨(pinned_slot_keeps_offset.1 two_page_cache_after_hit 0 12288 (-1)
      (sample_cell 0 false [sample_page 4096 1 0, sample_page 8192 4 1] []) 1
      (sample_page 8192 4 1) (by decide) (by decide) (by decide) (by decide) (by decide)).1
      0 4096 two_page_cache_after_hit_miss (by decide),
    pinned_slot_keeps_offset.2 sample_hash1
      (sample_cell 0 true [sample_page 8192 5 1, sample_page 24576 2 0] [])
      (sample_cell 2 false [thread_safe_page.fresh 7, thread_safe_page.fresh 8] [])
      (sample_cell 0 false [sample_page 8192 5 1, thread_safe_page.fresh 7] [])
      (sample_cell 2 false [sample_page 24576 2 0, thread_safe_page.fresh 8] [])
      0 (sample_page 8192 5 1) (by decide) (by decide) (by decide)⟩

/-- C8, at a concrete input: a miss on offset 12288 in `two_page_cache`. -/
theorem search_keeps_hits_within_8_bits_witness :
    two_page_cache.hits_bounded ∧
    hash_cell.search two_page_cache 0 12288 (-1)
      = Outcome.returned (0, 4096) two_page_cache_after_miss ∧
    two_page_cache_after_miss.hits_bounded :=
  ⟨by unfold associative_cache.hits_bounded hash_cell.hits_bounded; decide, by decide,
    ((search_keeps_hits_within_8_bits two_page_cache 0 12288 (-1) 0 4096
      two_page_cache_after_miss (by decide)).2
      (by unfold associative_cache.hits_bounded hash_cell.hits_bounded; decide)).1⟩

/-- C9 (amended), at a concrete input: the miss on offset 8192 in `seeded_cache`, in which the
aging fires. -/
theorem aging_halves_hits_before_recording_witness :
    hash_cell.search seeded_cache 0 8192 (-1)
      = Outcome.returned (0, 4096) seeded_cache_after ∧
    ∃ C1 c1 p1 c2, hash_cell.search_pinned seeded_cache 0 8192 (-1)
        = Outcome.returned (0, 4096) C1 ∧
      C1.get_cell 0 = some c1 ∧ c1.buf[0]? = some p1 ∧
      seeded_cache_after.get_cell 0 = some c2 ∧
      (p1.hits = 0xff → hits_sum c2.buf < hits_sum c1.buf) :=
  ⟨by decide,
    (aging_halves_hits_before_recording seeded_cache 0 8192 (-1) 0 4096 seeded_cache_after
      (by decide)).imp fun _ hC1 => hC1.imp fun _ hc1 => hc1.imp fun _ hp1 =>
        hp1.imp fun _ hc2 =>
          ⟨hc2.1, hc2.2.1, hc2.2.2.1, hc2.2.2.2.1, fun h => (hc2.2.2.2.2.1 h).2.2.2⟩⟩

namespace associative_cache

theorem get_cell_lt {C : associative_cache} {i : Nat} {c : hash_cell}
    (h : C.get_cell i = some c) : i < C.cells_table.length * C.init_ncells := by
  unfold get_cell at h
  split at h
  · exact absurd h (by simp)
  · rename_i hn
    split at h
    · rename_i cells hcells
      have hlt : i / C.init_ncells < C.cells_table.length := (List.getElem?_eq_some.mp hcells).1
      exact (Nat.div_lt_iff_lt_mul (Nat.pos_of_ne_zero hn)).mp hlt
    · exact absurd h (by simp)

/-- The loop of `expand` never runs out of the fuel that `expand` gives it: with at least that
much fuel, one more unit changes nothing. -/
theorem expand_loop_fuel (global_idx size : Nat) :
    ∀ (fuel : Nat) (C : associative_cache),
      C.cells_table.length * C.init_ncells ≤ fuel + C.split + size →
      expand_loop global_idx size (fuel + 1) C = expand_loop global_idx size (fuel + 2) C := by
  intro fuel
  induction fuel with
  | zero =>
    intro C hC
    rw [expand_loop]
    conv_rhs => rw [expand_loop]
    cases h1 : C.get_cell C.split with
    | none => rfl
    | some cell =>
      simp only []
      split
      · cases h2 : C.grow size with
        | none => rfl
        | some r =>
          obtain ⟨oom, C1⟩ := r
          cases oom with
          | true => rfl
          | false =>
            simp only []
            obtain ⟨hinit, hsplit, _, _, _, _, _, hlen, _, _⟩ := grow_spec h2
            cases h3 : C1.get_cell (C1.split + size) with
            | none => rfl
            | some e =>
              have := get_cell_lt h3
              rw [hlen, hinit, hsplit] at this
              omega
      · rfl
  | succ fuel ih =>
    intro C hC
    rw [expand_loop]
    conv_rhs => rw [expand_loop]
    cases h1 : C.get_cell C.split with
    | none => rfl
    | some cell =>
      simp only []
      split
      · cases h2 : C.grow size with
        | none => rfl
        | some r =>
          obtain ⟨oom, C1⟩ := r
          cases oom with
          | true => rfl
          | false =>
            simp only []
            obtain ⟨hinit, hsplit, _, _, _, _, _, hlen, _, _⟩ := grow_spec h2
            cases h3 : C1.get_cell (C1.split + size) with
            | none => rfl
            | some e =>
              simp only []
              cases h4 : hash_cell.rehash C1.hash1_locked cell e with
              | none => rfl
              | some r2 =>
                obtain ⟨c2, e2⟩ := r2
                simp only []
                split
                · rfl
                · apply ih
                  simp only [set_cell_length, set_cell_init_ncells, set_cell_split]
                  rw [hlen, hinit, hsplit]
                  omega
      · rfl

end associative_cache

namespace associative_cache

/-- Case analysis over the iterations of the loop of `expand`, keeping the value that is
returned: the loop ends on an allocation failure (`false`), on its condition, or on the step
in which `split` reaches `size`. -/
theorem expand_loop_cases (global_idx size : Nat) (inv : associative_cache → Prop)
    (post : Bool → associative_cache → Prop)
    (hoom : ∀ C C1, inv C → C.grow size = some (true, C1) → post false C1)
    (hexit : ∀ C cell, inv C → C.get_cell C.split = some cell →
      ¬ (C.split < global_idx ∨ cell.overflow = true) → post true { C with expanding := false })
    (hlast : ∀ C cell C1 e c2 e2, inv C → C.get_cell C.split = some cell →
      (C.split < global_idx ∨ cell.overflow = true) →
      C.grow size = some (false, C1) → C1.get_cell (C1.split + size) = some e →
      hash_cell.rehash C1.hash1_locked cell e = some (c2, e2) →
      ((C1.set_cell C1.split c2).set_cell (C1.split + size) e2).split + 1 = size →
      post true { (C1.set_cell C1.split c2).set_cell (C1.split + size) e2 with
              level := ((C1.set_cell C1.split c2).set_cell (C1.split + size) e2).level + 1,
              split := 0, expanding := false })
    (hnext : ∀ C cell C1 e c2 e2, inv C → C.get_cell C.split = some cell →
      (C.split < global_idx ∨ cell.overflow = true) →
      C.grow size = some (false, C1) → C1.get_cell (C1.split + size) = some e →
      hash_cell.rehash C1.hash1_locked cell e = some (c2, e2) →
      ((C1.set_cell C1.split c2).set_cell (C1.split + size) e2).split + 1 ≠ size →
      inv { (C1.set_cell C1.split c2).set_cell (C1.split + size) e2 with
              split := ((C1.set_cell C1.split c2).set_cell (C1.split + size) e2).split + 1 }) :
    ∀ (fuel : Nat) (C : associative_cache) (b : Bool) (C2 : associative_cache),
      inv C → expand_loop global_idx size fuel C = some (b, C2) → post b C2 := by
  intro fuel
  induction fuel with
  | zero => intro C b C2 _ h; simp [expand_loop] at h
  | succ fuel ih =>
    intro C b C2 hinv h
    unfold expand_loop at h
    split at h
    · exact absurd h (by simp)
    · rename_i cell hcell
      split at h
      · rename_i hcond
        split at h
        · exact absurd h (by simp)
        · rename_i C1 hg
          simp only [Option.some.injEq, Prod.mk.injEq] at h
          obtain ⟨rfl, rfl⟩ := h
          exact hoom C _ hinv hg
        · rename_i C1 hg
          split at h
          · exact absurd h (by simp)
          · rename_i e he
            split at h
            · exact absurd h (by simp)
            · rename_i c2 e2 hr
              simp only at h
              split at h
              · rename_i hs
                simp only [Option.some.injEq, Prod.mk.injEq] at h
                obtain ⟨rfl, rfl⟩ := h
                exact hlast C cell C1 e c2 e2 hinv hcell hcond hg he hr hs
              · rename_i hs
                exact ih _ _ _ (hnext C cell C1 e c2 e2 hinv hcell hcond hg he hr hs) h
      · rename_i hcond
        simp only [Option.some.injEq, Prod.mk.injEq] at h
        obtain ⟨rfl, rfl⟩ := h
        exact hexit C cell hinv hcell hcond

/-- What a call of `expand` does to `level`, `split`, `init_ncells` and the flag: either the
level is kept and `split` has not moved back, or the level has been incremented and `split`
reset; a call that found the flag clear and returns false leaves it set. -/
theorem expand_level_split {C : associative_cache} {g : Nat} {b : Bool}
    {C2 : associative_cache} (h : C.expand g = some (b, C2)) :
    C2.init_ncells = C.init_ncells ∧
    ((C2.level = C.level ∧ C.split ≤ C2.split ∧
        (C.split < 2 ^ C.level * C.init_ncells → C2.split < 2 ^ C.level * C.init_ncells)) ∨
      (C2.level = C.level + 1 ∧ C2.split = 0 ∧ C.split < 2 ^ C.level * C.init_ncells)) ∧
    (C.expanding = false → C2.expanding = !b) := by
  unfold expand at h
  split at h
  · rename_i hex
    simp only [Option.some.injEq, Prod.mk.injEq] at h
    obtain ⟨rfl, rfl⟩ := h
    exact ⟨rfl, Or.inl ⟨rfl, le_refl _, fun h => h⟩, fun h => by rw [hex] at h; cases h⟩
  · split at h
    · exact absurd h (by simp)
    · refine expand_loop_cases g (2 ^ C.level * C.init_ncells)
        (fun D => D.init_ncells = C.init_ncells ∧ D.level = C.level ∧ C.split ≤ D.split ∧
          (C.split < 2 ^ C.level * C.init_ncells → D.split < 2 ^ C.level * C.init_ncells) ∧
          D.expanding = true)
        (fun b D => D.init_ncells = C.init_ncells ∧
          ((D.level = C.level ∧ C.split ≤ D.split ∧
            (C.split < 2 ^ C.level * C.init_ncells → D.split < 2 ^ C.level * C.init_ncells)) ∨
          (D.level = C.level + 1 ∧ D.split = 0 ∧ C.split < 2 ^ C.level * C.init_ncells)) ∧
          (C.expanding = false → D.expanding = !b))
        ?_ ?_ ?_ ?_ (C.cells_table.length * C.init_ncells + 1) { C with expanding := true }
        b C2 ⟨rfl, rfl, le_refl _, fun h => h, rfl⟩ h
      · intro D D1 ⟨h1, h2, h3, h4, h5⟩ hg
        obtain ⟨g1, g2, g3, _, g5, _⟩ := grow_spec hg
        exact ⟨by rw [g1, h1], Or.inl ⟨by rw [g3, h2], by rw [g2]; exact h3,
          fun h => by rw [g2]; exact h4 h⟩, fun _ => by rw [g5, h5]; rfl⟩
      · intro D cell ⟨h1, h2, h3, h4, _⟩ _ _
        exact ⟨h1, Or.inl ⟨h2, h3, h4⟩, fun _ => rfl⟩
      · intro D cell D1 e c2 e2 ⟨h1, h2, h3, h4, _⟩ _ _ hg _ _ hs
        obtain ⟨g1, g2, g3, _⟩ := grow_spec hg
        simp only [set_cell_split] at hs
        rw [g2] at hs
        refine ⟨?_, Or.inr ⟨?_, rfl, ?_⟩, fun _ => rfl⟩
        · show ((D1.set_cell D1.split c2).set_cell (D1.split + 2 ^ C.level * C.init_ncells)
            e2).init_ncells = C.init_ncells
          rw [set_cell_init_ncells, set_cell_init_ncells, g1, h1]
        · show ((D1.set_cell D1.split c2).set_cell (D1.split + 2 ^ C.level * C.init_ncells)
            e2).level + 1 = C.level + 1
          rw [set_cell_level, set_cell_level, g3, h2]
        · omega
      · intro D cell D1 e c2 e2 ⟨h1, h2, h3, h4, h5⟩ _ _ hg _ _ hs
        obtain ⟨g1, g2, g3, _, g5, _⟩ := grow_spec hg
        simp only [set_cell_split] at hs
        rw [g2] at hs
        refine ⟨?_, ?_, ?_, ?_, ?_⟩
        · show ((D1.set_cell D1.split c2).set_cell (D1.split + 2 ^ C.level * C.init_ncells)
            e2).init_ncells = C.init_ncells
          rw [set_cell_init_ncells, set_cell_init_ncells, g1, h1]
        · show ((D1.set_cell D1.split c2).set_cell (D1.split + 2 ^ C.level * C.init_ncells)
            e2).level = C.level
          rw [set_cell_level, set_cell_level, g3, h2]
        · show C.split ≤ ((D1.set_cell D1.split c2).set_cell
            (D1.split + 2 ^ C.level * C.init_ncells) e2).split + 1
          rw [set_cell_split, set_cell_split, g2]
          omega
        · intro h
          have := h4 h
          show ((D1.set_cell D1.split c2).set_cell
            (D1.split + 2 ^ C.level * C.init_ncells) e2).split + 1 < _
          rw [set_cell_split, set_cell_split, g2]
          omega
        · show ((D1.set_cell D1.split c2).set_cell (D1.split + 2 ^ C.level * C.init_ncells)
            e2).expanding = true
          rw [set_cell_expanding, set_cell_expanding, g5, h5]

end associative_cache

namespace associative_cache

/-- C17: when `TABLE_EXPANDING` is already set, `expand` returns false and the cache (level,
split, ncells, the cell directory with every cell's pages and overflow flag, and the flag
itself) is the one it was called on. -/
theorem expand_rejected_while_expanding (C : associative_cache) (g : Nat)
    (h : C.expanding = true) : C.expand g = some (false, C) := by
  unfold expand
  rw [if_pos h]

/-- C17, at a concrete input: `busy_cache`, in which `TABLE_EXPANDING` is set. -/
theorem expand_rejected_while_expanding_witness :
    busy_cache.expanding = true ∧ busy_cache.expand 1 = some (false, busy_cache) :=
  ⟨by decide, expand_rejected_while_expanding busy_cache 1 (by decide)⟩

/-- C15: `expand`, entered with `TABLE_EXPANDING` clear, returns false with the flag still
set when the memory manager fails to supply the pages of a new chunk (in the cache
`starved_cache`, called for cell 1), and every later call is then rejected; in general, every
call that finds the flag clear and returns false leaves it set, and every call that returns
true leaves it clear. -/
theorem expand_out_of_memory_leaves_flag_set :
    starved_cache.expanding = false ∧
    starved_cache.expand 1 = some (false, starved_cache_after) ∧
    starved_cache_after.expanding = true ∧
    (∀ g, starved_cache_after.expand g = some (false, starved_cache_after)) ∧
    (∀ (C : associative_cache) (g : Nat) (b : Bool) (C2 : associative_cache),
      C.expanding = false → C.expand g = some (b, C2) → C2.expanding = !b) := by
  refine ⟨by decide, by decide, by decide, fun g => ?_, fun C g b C2 hc h => ?_⟩
  · unfold expand
    rw [if_pos (by decide)]
  · exact (expand_level_split h).2.2 hc

/-- C12 (counterexample): the call of `expand` for cell 3 of `level_two_cache` (level 2,
split 3, one cell per chunk) returns true and takes `level * 2 * init_ncells + split` from 7
down to 6, as split reaches 4 and the level becomes 3. -/
theorem expand_level_step_lowers_stated_measure :
    level_two_cache.expand 3 = some (true, level_two_cache_after) ∧
    stated_measure level_two_cache = 7 ∧ stated_measure level_two_cache_after = 6 := by
  decide

/-- C12 (amended): for every cache state and every call of `expand` that returns (true or
false), the logical cell count `2^level * init_ncells + split` after the call is at least its
value before the call, also across a step that increments the level; the quantity
`level * 2 * init_ncells + split` is at least its value before the call when the call keeps
the level or the level before the call is at most 1. -/
theorem expand_size_monotone (C : associative_cache) (g : Nat) (b : Bool)
    (C2 : associative_cache) (h : C.expand g = some (b, C2)) :
    C.size ≤ C2.size ∧
    (C2.level = C.level ∨ C.level ≤ 1 → stated_measure C ≤ stated_measure C2) := by
  obtain ⟨hi, hls, _⟩ := expand_level_split h
  unfold size stated_measure
  rw [hi]
  rcases hls with ⟨hl, hs, _⟩ | ⟨hl, hs, hlt⟩
  · rw [hl]
    exact ⟨by omega, fun _ => by omega⟩
  · have hS : 2 ^ (C.level + 1) * C.init_ncells = 2 * (2 ^ C.level * C.init_ncells) := by ring
    rw [hl, hs, hS]
    refine ⟨by omega, fun hc => ?_⟩
    rcases hc with hc | hc
    · omega
    · have h01 : C.level = 0 ∨ C.level = 1 := by omega
      rcases h01 with h0 | h0
      · rw [h0] at hlt ⊢
        simp only [pow_zero, one_mul] at hlt
        omega
      · rw [h0] at hlt ⊢
        simp only [pow_one] at hlt
        omega

/-- C12 (amended), at a concrete input: the call that takes `level_two_cache` to level 3. -/
theorem expand_size_monotone_witness :
    level_two_cache.expand 3 = some (true, level_two_cache_after) ∧
    level_two_cache.size ≤ level_two_cache_after.size :=
  ⟨by decide, (expand_size_monotone level_two_cache 3 true level_two_cache_after
    (by decide)).1⟩

end associative_cache

namespace associative_cache

/-- C14: a cache that the constructor returns has `level = 0`, `split = 0`,
`init_ncells ≥ 1` and so `split < 2^level * init_ncells`; under the precondition
`init_cache_size ≥ CELL_SIZE * PAGE_SIZE`, with positive `CELL_SIZE` and `PAGE_SIZE`, the
constructor does return a cache unless a cell constructor runs out of memory; and every call
of `expand` that returns keeps `split < 2^level * init_ncells`. -/
theorem split_in_range :
    (∀ (m : memory_manager) (init_cache_size max_size CELL_SIZE NUM_SHADOW_PAGES
        PAGE_SIZE : Nat) (use_shadow : Bool) (C : associative_cache),
      create m init_cache_size max_size CELL_SIZE NUM_SHADOW_PAGES PAGE_SIZE use_shadow
          = some C →
        CELL_SIZE * PAGE_SIZE ≤ init_cache_size ∧
        C.level = 0 ∧ C.split = 0 ∧ 1 ≤ C.init_ncells ∧
        C.split < 2 ^ C.level * C.init_ncells) ∧
    (∀ (m : memory_manager) (init_cache_size max_size CELL_SIZE NUM_SHADOW_PAGES
        PAGE_SIZE : Nat) (use_shadow : Bool),
      0 < PAGE_SIZE → 0 < CELL_SIZE → CELL_SIZE * PAGE_SIZE ≤ init_cache_size →
      (alloc_cells CELL_SIZE NUM_SHADOW_PAGES (init_cache_size / PAGE_SIZE / CELL_SIZE)
        m 0).2 ≠ none →
      ∃ C, create m init_cache_size max_size CELL_SIZE NUM_SHADOW_PAGES PAGE_SIZE use_shadow
          = some C) ∧
    (∀ (C : associative_cache) (g : Nat) (b : Bool) (C2 : associative_cache),
      C.split < 2 ^ C.level * C.init_ncells → C.expand g = some (b, C2) →
      C2.split < 2 ^ C2.level * C2.init_ncells) := by
  refine ⟨fun m ics ms cs ns ps us C h => ?_, fun m ics ms cs ns ps us hps hcs hpre ha => ?_,
    fun C g b C2 hr h => ?_⟩
  · unfold create at h
    split at h
    · exact absurd h (by simp)
    · rename_i hz
      split at h
      · exact absurd h (by simp)
      · rename_i hpre
        split at h
        · exact absurd h (by simp)
        · simp only [Option.some.injEq] at h
          have hi : C.init_ncells = ics / ps / cs := by rw [← h]
          have hl : C.level = 0 := by rw [← h]
          have hsp : C.split = 0 := by rw [← h]
          have hps : 0 < ps := by omega
          have hcs : 0 < cs := by omega
          have h1 : 1 ≤ ics / ps / cs := by
            rw [Nat.le_div_iff_mul_le hcs, Nat.le_div_iff_mul_le hps, one_mul]
            omega
          refine ⟨by omega, hl, hsp, by rw [hi]; exact h1, ?_⟩
          rw [hsp, hl, hi]
          omega
  · unfold create
    rw [if_neg (by omega), if_neg (by omega)]
    obtain ⟨m1, r, hr⟩ : ∃ m1 r, alloc_cells cs ns (ics / ps / cs) m 0 = (m1, r) := ⟨_, _, rfl⟩
    rw [hr] at ha ⊢
    cases r with
    | none => exact absurd rfl ha
    | some cells => exact ⟨_, rfl⟩
  · obtain ⟨hi, hls, _⟩ := expand_level_split h
    rcases hls with ⟨hl, _, hs⟩ | ⟨hl, hs, hlt⟩
    · rw [hl, hi]
      exact hs hr
    · have hS : 2 ^ (C.level + 1) * C.init_ncells = 2 * (2 ^ C.level * C.init_ncells) := by
        ring
      rw [hl, hs, hi, hS]
      omega

/-- C14, at concrete inputs: the construction of `created_cache` and the call of `expand`
that takes `level_two_cache` to level 3. -/
theorem split_in_range_witness :
    (create plentiful_manager 4096 16384 1 4 4096 true = some created_cache ∧
      created_cache.split < 2 ^ created_cache.level * created_cache.init_ncells) ∧
    (∃ C, create plentiful_manager 4096 16384 1 4 4096 true = some C) ∧
    level_two_cache_after.split
      < 2 ^ level_two_cache_after.level * level_two_cache_after.init_ncells :=
  ⟨⟨by decide, (split_in_range.1 plentiful_manager 4096 16384 1 4 4096 true created_cache
      (by decide)).2.2.2.2⟩,
    split_in_range.2.1 plentiful_manager 4096 16384 1 4 4096 true (by decide) (by decide)
      (by decide) (by decide),
    split_in_range.2.2 level_two_cache 3 true level_two_cache_after (by decide) (by decide)⟩

end associative_cache

namespace associative_cache

/-- The cell constructor gives the cell the hash it was asked for. -/
theorem create_hash {m m1 : memory_manager} {cs ns : Nat} {hash : Int} {c : hash_cell}
    (h : hash_cell.create m cs ns hash = (m1, some c)) :
    c.hash = hash ∧ c.overflow = false := by
  unfold hash_cell.create at h
  split at h
  · simp at h
  · simp only [Prod.mk.injEq, Option.some.injEq] at h
    obtain ⟨_, rfl⟩ := h
    exact ⟨rfl, rfl⟩

/-- A chunk that was built has `n` cells, the one in position `j` with hash `first + j`. -/
theorem alloc_cells_hash (cs ns : Nat) :
    ∀ (n : Nat) (m : memory_manager) (first : Int) (m1 : memory_manager)
      (cells : List hash_cell),
      alloc_cells cs ns n m first = (m1, some cells) →
      cells.length = n ∧
      ∀ (j : Nat) (c : hash_cell), cells[j]? = some c → c.hash = first + (j : Int) := by
  intro n
  induction n with
  | zero =>
    intro m first m1 cells h
    simp only [alloc_cells, Prod.mk.injEq, Option.some.injEq] at h
    obtain ⟨_, rfl⟩ := h
    simp
  | succ n ih =>
    intro m first m1 cells h
    unfold alloc_cells at h
    split at h
    · simp at h
    · rename_i m2 c hc
      split at h
      · simp at h
      · rename_i m3 cs1 hrec
        simp only [Prod.mk.injEq, Option.some.injEq] at h
        obtain ⟨_, rfl⟩ := h
        obtain ⟨hl, hh⟩ := ih _ _ _ _ hrec
        refine ⟨by simp [hl], ?_⟩
        intro j c1 hj
        cases j with
        | zero =>
          simp only [List.getElem?_cons_zero, Option.some.injEq] at hj
          subst hj
          simp [(create_hash hc).1]
        | succ j =>
          simp only [List.getElem?_cons_succ] at hj
          rw [hh j c1 hj]
          push_cast
          ring

/-- The chunks that were built: at most `count`, fewer when a constructor ran out of memory
and `count` otherwise, each of `init` cells whose hashes are their global indices. -/
theorem alloc_chunks_spec (cs ns init : Nat) :
    ∀ (count i : Nat) (m m1 : memory_manager) (table : List (List hash_cell)) (oom : Bool),
      alloc_chunks cs ns init count i m = (m1, table, oom) →
      (oom = true → table.length < count) ∧ (oom = false → table.length = count) ∧
      ∀ (t : Nat) (cells : List hash_cell), table[t]? = some cells →
        cells.length = init ∧
        ∀ (j : Nat) (c : hash_cell), cells[j]? = some c →
          c.hash = (((i + t) * init + j : Nat) : Int) := by
  intro count
  induction count with
  | zero =>
    intro i m m1 table oom h
    simp only [alloc_chunks, Prod.mk.injEq] at h
    obtain ⟨_, rfl, rfl⟩ := h
    simp
  | succ count ih =>
    intro i m m1 table oom h
    unfold alloc_chunks at h
    split at h
    · simp only [Prod.mk.injEq] at h
      obtain ⟨_, rfl, rfl⟩ := h
      simp
    · rename_i m2 cells hc
      obtain ⟨m3, table1, oom1, hrec⟩ : ∃ m3 table1 oom1,
          alloc_chunks cs ns init count (i + 1) m2 = (m3, table1, oom1) := ⟨_, _, _, rfl⟩
      rw [hrec] at h
      simp only [Prod.mk.injEq] at h
      obtain ⟨_, rfl, rfl⟩ := h
      obtain ⟨h1, h2, h3⟩ := ih _ _ _ _ _ hrec
      refine ⟨fun ho => by simp only [List.length_cons]; have := h1 ho; omega,
        fun ho => by simp only [List.length_cons]; have := h2 ho; omega, ?_⟩
      intro t cs1 ht
      cases t with
      | zero =>
        simp only [List.getElem?_cons_zero, Option.some.injEq] at ht
        subst ht
        obtain ⟨hl, hh⟩ := alloc_cells_hash cs ns _ _ _ _ _ hc
        refine ⟨hl, fun j c hj => ?_⟩
        rw [hh j c hj]
        push_cast
        ring
      | succ t =>
        simp only [List.getElem?_cons_succ] at ht
        obtain ⟨hl, hh⟩ := h3 t cs1 ht
        refine ⟨hl, fun j c hj => ?_⟩
        rw [hh j c hj]
        congr 1
        ring

/-- The publication loop stores every chunk of the table when the directory has room, and
touches no other entry. -/
theorem publish_full (table : List (List hash_cell)) :
    ∀ (dir : List (Option (List hash_cell))) (pos : Nat),
      pos + table.length ≤ dir.length →
      ∃ dir1, publish dir pos table = some dir1 ∧ dir1.length = dir.length ∧
        (∀ t, t < table.length → dir1[pos + t]? = some table[t]?) ∧
        (∀ j, j < pos ∨ pos + table.length ≤ j → dir1[j]? = dir[j]?) := by
  induction table with
  | nil =>
    intro dir pos _
    exact ⟨dir, rfl, rfl, fun t ht => absurd ht (by simp), fun _ _ => rfl⟩
  | cons cells table ih =>
    intro dir pos hroom
    simp only [List.length_cons] at hroom
    unfold publish
    rw [if_pos (by omega)]
    obtain ⟨dir1, hp, hl, hin, hout⟩ := ih (dir.set pos (some cells)) (pos + 1)
      (by simp only [List.length_set]; omega)
    refine ⟨dir1, hp, by simpa using hl, ?_, ?_⟩
    · intro t ht
      cases t with
      | zero =>
        simp only [Nat.add_zero, List.getElem?_cons_zero]
        rw [hout pos (Or.inl (by omega)), List.getElem?_set_self (by omega)]
      | succ t =>
        simp only [List.length_cons] at ht
        have := hin t (by omega)
        rw [show pos + (t + 1) = pos + 1 + t by omega, this]
        simp
    · intro j hj
      simp only [List.length_cons] at hj
      rw [hout j (by omega), List.getElem?_set_ne (by omega)]

end associative_cache

namespace associative_cache

/-- If, in a split step of `expand` (an iteration of its loop entered in state `C`) that
needs the chunks `ncells .. (split + size) / init_ncells`, the allocation loop ends with
`out_of_memory` after building the chunks `table` (so a cell of chunk number
`table.length + 1` threw), and the directory has room for them, then `expand` returns false
from that step, fewer chunks than needed were built, exactly the chunks of `table` are stored
in the directory from position `ncells` on while every other entry is kept, `ncells` grows by
`table.length`, and `level`, `split` and `init_ncells`, hence the cell index of every offset,
are those at the start of the step; when the step is the first of a call of `expand`, the
call returns false in that state. -/
theorem expand_loop_out_of_memory (C : associative_cache) (g size fuel : Nat)
    (cell : hash_cell) (m : memory_manager) (table : List (List hash_cell))
    (hcell : C.get_cell C.split = some cell)
    (hcond : C.split < g ∨ cell.overflow = true)
    (hneed : C.ncells ≤ (C.split + size) / C.init_ncells)
    (ha : alloc_chunks C.CELL_SIZE C.NUM_SHADOW_PAGES C.init_ncells
      ((C.split + size) / C.init_ncells + 1 - C.ncells) C.ncells C.manager = (m, table, true))
    (hroom : C.ncells + table.length ≤ C.cells_table.length) :
    ∃ C1, expand_loop g size (fuel + 1) C = some (false, C1) ∧
      table.length < (C.split + size) / C.init_ncells + 1 - C.ncells ∧
      C1.ncells = C.ncells + table.length ∧
      C1.level = C.level ∧ C1.split = C.split ∧ C1.init_ncells = C.init_ncells ∧
      C1.cells_table.length = C.cells_table.length ∧
      (∀ t, t < table.length → C1.cells_table[C.ncells + t]? = some table[t]?) ∧
      (∀ j, j < C.ncells ∨ C.ncells + table.length ≤ j →
        C1.cells_table[j]? = C.cells_table[j]?) ∧
      (∀ off, C1.cell_index off = C.cell_index off) ∧
      (∀ C0 : associative_cache, C0.expanding = false → C0.get_cell g ≠ none →
        size = 2 ^ C0.level * C0.init_ncells → C = { C0 with expanding := true } →
        C0.expand g = some (false, C1) ∧ ∀ off, C1.cell_index off = C0.cell_index off) := by
  obtain ⟨dir1, hp, hl, hin, hout⟩ := publish_full table C.cells_table C.ncells hroom
  have hgrow : C.grow size = some (true,
      { C with manager := m, cells_table := dir1, ncells := C.ncells + table.length }) := by
    unfold grow
    simp only
    rw [if_pos hneed, ha]
    simp only
    rw [hp]
  have hloop : ∀ fuel1, expand_loop g size (fuel1 + 1) C = some (false,
      { C with manager := m, cells_table := dir1, ncells := C.ncells + table.length }) := by
    intro fuel1
    rw [expand_loop, hcell]
    simp only
    rw [if_pos hcond, hgrow]
  refine ⟨_, hloop fuel, (alloc_chunks_spec _ _ _ _ _ _ _ _ _ ha).1 rfl, rfl, rfl, rfl, rfl, hl,
    hin, hout, fun _ => rfl, ?_⟩
  intro C0 he hg hs hC
  refine ⟨?_, fun off => ?_⟩
  · unfold expand
    rw [if_neg (by rw [he]; simp)]
    cases hc : C0.get_cell g with
    | none => exact absurd hc hg
    | some c =>
      simp only
      rw [← hs, ← hC]
      exact hloop _
  · rw [hC]
    rfl

end associative_cache

namespace associative_cache

end associative_cache

namespace hash_cell

/-- The selection of a victim once the first scan has selected slot `i` with `min_hits`. -/
theorem select_victim_eq {C : associative_cache} {g : Nat} {c : hash_cell} {min_hits i : Nat}
    (hc : C.get_cell g = some c) (hscan : scan c.buf 0 0x7fffffff none = (min_hits, some i)) :
    select_victim C g =
      if min_hits ≠ 0 then
        if (C.size : Int) < C.manager.average_cache_size then
          match (C.set_cell g { c with overflow := true }).expand g with
          | none => Outcome.fault
          | some (true, C2) => Outcome.expand_exception C2
          | some (false, C2) =>
            match C2.get_cell g with
            | none => Outcome.fault
            | some c2 =>
              match scan c2.buf 0 0x7fffffff (some i) with
              | (_, none) => Outcome.spins
              | (min_hits2, some i2) =>
                if min_hits2 ≠ 0 then
                  Outcome.returned i2 (C2.set_cell g { c2 with overflow := true })
                else
                  Outcome.returned i2 C2
        else
          Outcome.returned i (C.set_cell g { c with overflow := true })
      else
        Outcome.returned i C := by
  unfold select_victim
  rw [hc]
  simp only
  rw [hscan]
  simp only [associative_cache.set_cell_size, associative_cache.set_cell_manager]

theorem get_empty_page_thrown_iff (C : associative_cache) (g : Nat)
    (C2 : associative_cache) :
    get_empty_page C g = Outcome.expand_exception C2 ↔
      select_victim C g = Outcome.expand_exception C2 := by
  unfold get_empty_page
  cases hs : select_victim C g with
  | returned i C1 =>
    simp only
    constructor
    · intro h
      split at h
      · exact absurd h (by simp)
      · split at h <;> exact absurd h (by simp)
    · intro h
      exact absurd h (by simp)
  | expand_exception C1 => simp
  | spins => simp
  | fault => simp

end hash_cell

namespace hash_cell

end hash_cell

/-- C19: the cache `livelock_cache` is reached from a new cache by the lookup of offset 0,
the release of its page and the lookup of offset 8192; the cell responsible for offset 16384
in it is cell 0, whose page is not in use; yet `associative_cache::search(16384, old_off)`
returns within no number of attempts: `get_empty_page` sets the overflow flag of cell 0 and
calls `expand`, whose loop looks at cell 1 (split is 1, beyond cell 0), runs no iteration and
returns true, so that `expand_exception` is thrown in an unchanged state every time. -/
theorem search_retries_forever :
    ((associative_cache.create plentiful_manager 4096 16384 1 4 4096 true).bind
      (fun C => run C [Op.search 0 1, Op.release 0 0, Op.search 8192 3]))
      = some livelock_cache ∧
    livelock_cache.cell_index 16384 = 0 ∧
    (∃ c p, livelock_cache.get_cell 0 = some c ∧ p ∈ c.buf ∧ p.ref = 0) ∧
    hash_cell.search livelock_cache 0 16384 unassigned
      = Outcome.expand_exception livelock_cache_flagged ∧
    hash_cell.search livelock_cache_flagged 0 16384 unassigned
      = Outcome.expand_exception livelock_cache_flagged ∧
    (∀ fuel, livelock_cache.search fuel 16384 unassigned = none) := by
  have hflag : ∀ fuel, livelock_cache_flagged.search fuel 16384 unassigned = none := by
    intro fuel
    induction fuel with
    | zero => rfl
    | succ n ih =>
      rw [associative_cache.search, if_neg (by decide)]
      have h : hash_cell.search livelock_cache_flagged
          (livelock_cache_flagged.cell_index 16384).toNat 16384 unassigned
            = Outcome.expand_exception livelock_cache_flagged := by decide
      rw [h]
      exact ih
  refine ⟨by decide, by decide, ⟨_, _, rfl, List.mem_cons_self _ _, rfl⟩, by decide,
    by decide, ?_⟩
  intro fuel
  cases fuel with
  | zero => rfl
  | succ n =>
    rw [associative_cache.search, if_neg (by decide)]
    have h : hash_cell.search livelock_cache
        (livelock_cache.cell_index 16384).toNat 16384 unassigned
          = Outcome.expand_exception livelock_cache_flagged := by decide
    rw [h]
    exact hflag n

namespace associative_cache

end associative_cache

namespace hash_cell

end hash_cell

namespace associative_cache

/-- The directory after the publication loop, entry by entry. -/
theorem publish_pos (table : List (List hash_cell)) :
    ∀ (dir : List (Option (List hash_cell))) (pos : Nat)
      (dir1 : List (Option (List hash_cell))),
      publish dir pos table = some dir1 →
      (∀ t, t < table.length → dir1[pos + t]? = some table[t]?) ∧
      (∀ j, j < pos ∨ pos + table.length ≤ j → dir1[j]? = dir[j]?) := by
  induction table with
  | nil =>
    intro dir pos dir1 h
    simp only [publish, Option.some.injEq] at h
    subst h
    exact ⟨fun t ht => absurd ht (by simp), fun _ _ => rfl⟩
  | cons cells table ih =>
    intro dir pos dir1 h
    unfold publish at h
    split at h
    · rename_i hlt
      obtain ⟨hin, hout⟩ := ih _ _ _ h
      refine ⟨?_, ?_⟩
      · intro t ht
        cases t with
        | zero =>
          simp only [Nat.add_zero, List.getElem?_cons_zero]
          rw [hout pos (Or.inl (by omega)), List.getElem?_set_self hlt]
        | succ t =>
          simp only [List.length_cons] at ht
          have := hin t (by omega)
          rw [show pos + (t + 1) = pos + 1 + t by omega, this]
          simp
      · intro j hj
        simp only [List.length_cons] at hj
        rw [hout j (by omega), List.getElem?_set_ne (by omega)]
    · exact absurd h (by simp)

/-- The cells of the directory after the allocation step of `expand`: a cell was there
before, or it is a cell of a new chunk: its hash is its index, its chunk is one of the new
ones and its pages are fresh. -/
theorem grow_cells {C : associative_cache} {size : Nat} {oom : Bool} {C1 : associative_cache}
    (h : C.grow size = some (oom, C1)) (g : Nat) (c : hash_cell)
    (hc : C1.get_cell g = some c) :
    C.get_cell g = some c ∨
    (c.hash = (g : Int) ∧ C.ncells ≤ g / C.init_ncells ∧ g / C.init_ncells < C1.ncells ∧
      ∀ p ∈ c.buf, ∃ d, p = thread_safe_page.fresh d) := by
  unfold grow at h
  simp only at h
  split at h
  · obtain ⟨m, table, oom1, ha⟩ : ∃ m table oom1, alloc_chunks C.CELL_SIZE C.NUM_SHADOW_PAGES
        C.init_ncells ((C.split + size) / C.init_ncells + 1 - C.ncells) C.ncells C.manager
          = (m, table, oom1) := ⟨_, _, _, rfl⟩
    rw [ha] at h
    simp only at h
    split at h
    · exact absurd h (by simp)
    · rename_i dir hp
      simp only [Option.some.injEq, Prod.mk.injEq] at h
      obtain ⟨_, rfl⟩ := h
      obtain ⟨hin, hout⟩ := publish_pos _ _ _ _ hp
      by_cases hj : g / C.init_ncells < C.ncells ∨ C.ncells + table.length ≤ g / C.init_ncells
      · left
        have := hout _ hj
        simp only [get_cell] at hc ⊢
        rw [this] at hc
        exact hc
      · right
        have hj1 : C.ncells ≤ g / C.init_ncells := by omega
        have hj2 : g / C.init_ncells - C.ncells < table.length := by omega
        have hd := hin (g / C.init_ncells - C.ncells) hj2
        rw [show C.ncells + (g / C.init_ncells - C.ncells) = g / C.init_ncells by omega] at hd
        obtain ⟨chunk, hchunk⟩ : ∃ chunk, table[g / C.init_ncells - C.ncells]? = some chunk :=
          ⟨_, List.getElem?_eq_getElem hj2⟩
        rw [hchunk] at hd
        simp only [get_cell] at hc
        split at hc
        · exact absurd hc (by simp)
        · rw [hd] at hc
          simp only at hc
          obtain ⟨_, _, hspec⟩ := alloc_chunks_spec _ _ _ _ _ _ _ _ _ ha
          obtain ⟨_, hhash⟩ := hspec _ _ hchunk
          have hfresh := alloc_chunks_fresh _ _ _ _ _ _ _ _ _ ha chunk
            (List.getElem?_mem hchunk) c (List.getElem?_mem hc)
          refine ⟨?_, hj1, by show g / C.init_ncells < C.ncells + table.length; omega,
            hfresh.1⟩
          rw [hhash _ _ hc]
          congr 1
          rw [show C.ncells + (g / C.init_ncells - C.ncells) = g / C.init_ncells by omega]
          rw [Nat.mul_comm]
          exact Nat.div_add_mod g C.init_ncells
  · simp only [Option.some.injEq, Prod.mk.injEq] at h
    obtain ⟨_, rfl⟩ := h
    exact Or.inl hc

end associative_cache

namespace associative_cache

end associative_cache

namespace associative_cache

end associative_cache

namespace associative_cache

end associative_cache

namespace associative_cache

end associative_cache

namespace associative_cache

end associative_cache

namespace associative_cache

end associative_cache

namespace associative_cache

end associative_cache

namespace hash_cell

end hash_cell

namespace hash_cell

end hash_cell

namespace associative_cache

end associative_cache

namespace hash_cell

/-- Once the least hits seen is 0, the exhaustive scan changes nothing any more. -/
theorem exhaustive_scan_zero (buf : List thread_safe_page) :
    ∀ (i : Nat) (r : Option Nat), exhaustive_scan buf i 0 r = (0, r) := by
  induction buf with
  | nil => intro i r; rfl
  | cons pg rest ih =>
    intro i r
    unfold exhaustive_scan
    split
    · exact ih _ _
    · rw [if_neg (by omega)]
      exact ih _ _

/-- C29: the scan of `get_empty_page`, which stops at the first free slot with hits 0,
returns what the scan of all slots returns, from every slot, `min_hits` and `ret`; and when
the hits are below the initial `min_hits`, the slot that the scan of all slots selects is the
lowest-index slot of least hits among the slots with `ref == 0`. -/
theorem scan_short_circuit_equivalent :
    (∀ (buf : List thread_safe_page) (i m : Nat) (r : Option Nat),
      scan buf i m r = exhaustive_scan buf i m r) ∧
    (∀ (buf : List thread_safe_page) (k : Nat), (∀ p ∈ buf, p.hits < 0x7fffffff) →
      ((exhaustive_scan buf 0 0x7fffffff none).2 = some k ↔
        ∃ q, buf[k]? = some q ∧ q.ref = 0 ∧
          ∀ (j : Nat) (p : thread_safe_page), buf[j]? = some p → p.ref = 0 →
            q.hits ≤ p.hits ∧ (p.hits = q.hits → k ≤ j))) := by
  have heq : ∀ (buf : List thread_safe_page) (i m : Nat) (r : Option Nat),
      scan buf i m r = exhaustive_scan buf i m r := by
    intro buf
    induction buf with
    | nil => intro i m r; rfl
    | cons pg rest ih =>
      intro i m r
      unfold scan exhaustive_scan
      split
      · exact ih _ _ _
      · simp only
        by_cases hgt : m > pg.hits
        · simp only [hgt, if_true]
          split
          · rename_i h0
            rw [h0, exhaustive_scan_zero]
          · exact ih _ _ _
        · simp only [hgt, if_false]
          split
          · rename_i h0
            rw [h0, exhaustive_scan_zero]
          · exact ih _ _ _
  refine ⟨heq, fun buf k hb => ?_⟩
  rw [← heq]
  obtain ⟨m1, r1, hs⟩ : ∃ m1 r1, scan buf 0 0x7fffffff none = (m1, r1) := ⟨_, _, rfl⟩
  rw [hs]
  rcases scan_spec buf 0 0x7fffffff none m1 r1 hs with
    ⟨_, hr, hall⟩ | ⟨k1, q1, hk1, hr, hq1, hh1, _, hbefore, hmin⟩
  · subst hr
    simp only
    constructor
    · intro h; exact absurd h (by simp)
    · rintro ⟨q, hq, hq0, _⟩
      have h1 := hall k q hq hq0
      have h2 := hb q (List.getElem?_mem hq)
      omega
  · subst hr
    simp only [Nat.zero_add, Option.some.injEq]
    constructor
    · intro h
      subst h
      refine ⟨q1, hk1, hq1, fun j p hp hp0 => ⟨by rw [hh1]; exact hmin j p hp hp0, ?_⟩⟩
      intro he
      by_contra hlt
      have := hbefore j p (by omega) hp hp0
      omega
    · rintro ⟨q, hq, hq0, hmin2⟩
      have h1 := hmin2 k1 q1 hk1 hq1
      have h2 := hmin k q hq hq0
      have h3 : q1.hits = q.hits := by omega
      have h4 := h1.2 h3
      by_contra hne
      have h5 := hbefore k q (by omega) hq hq0
      omega

end hash_cell

namespace hash_cell

/-- Every page whose `hash1` is not the hash of the expanded cell is left in its slot by
`rehash` with its hits set to 1, whatever the hash of this cell. -/
theorem rehash_loop_marks (hash1 : Int → Int) (th eh : Int) (buf : List thread_safe_page) :
    ∀ (ebuf : List thread_safe_page) (j : Nat) (b e : List thread_safe_page),
      rehash_loop hash1 th eh buf ebuf j = some (b, e) →
      ∀ (k : Nat) (p : thread_safe_page), buf[k]? = some p →
        hash1 p.offset ≠ eh → b[k]? = some (p.set_hits 1) := by
  induction buf with
  | nil =>
    intro ebuf j b e h k p hk
    simp at hk
  | cons pg rest ih =>
    intro ebuf j b e h k p hk hp
    unfold rehash_loop at h
    split at h
    · rename_i hne
      split at h
      · exact absurd h (by simp)
      · rename_i b1 e1 hrec
        simp only [Option.some.injEq, Prod.mk.injEq] at h
        obtain ⟨rfl, rfl⟩ := h
        cases k with
        | zero =>
          simp only [List.getElem?_cons_zero, Option.some.injEq] at hk ⊢
          rw [hk]
        | succ k =>
          simp only [List.getElem?_cons_succ] at hk ⊢
          exact ih _ _ _ _ hrec k p hk hp
    · rename_i heq
      have heq1 : hash1 pg.offset = eh := by
        by_contra hc
        exact heq hc
      have hk0 : k ≠ 0 := by
        intro h0
        subst h0
        simp only [List.getElem?_cons_zero, Option.some.injEq] at hk
        subst hk
        exact hp heq1
      obtain ⟨k1, rfl⟩ := Nat.exists_eq_succ_of_ne_zero hk0
      simp only [List.getElem?_cons_succ] at hk
      split at h
      · split at h
        · exact absurd h (by simp)
        · split at h
          · split at h
            · exact absurd h (by simp)
            · rename_i b1 e1 hrec
              simp only [Option.some.injEq, Prod.mk.injEq] at h
              obtain ⟨rfl, rfl⟩ := h
              simp only [List.getElem?_cons_succ]
              exact ih _ _ _ _ hrec k1 p hk hp
          · split at h
            · exact absurd h (by simp)
            · split at h
              · exact absurd h (by simp)
              · rename_i b1 e1 hrec
                simp only [Option.some.injEq, Prod.mk.injEq] at h
                obtain ⟨rfl, rfl⟩ := h
                simp only [List.getElem?_cons_succ]
                exact ih _ _ _ _ hrec k1 p hk hp
      · split at h
        · exact absurd h (by simp)
        · rename_i b1 e1 hrec
          simp only [Option.some.injEq, Prod.mk.injEq] at h
          obtain ⟨rfl, rfl⟩ := h
          simp only [List.getElem?_cons_succ]
          exact ih _ _ _ _ hrec k1 p hk hp

end hash_cell

namespace hash_cell

/-- The two buffers after the loop of `rehash`, slot by slot, when the two hashes differ: the
expanded cell holds the moved pages, in the order of their slots, from slot `j` on, and a
moved page has left in its slot the page that the expanded cell held in the slot it went
to. -/
theorem rehash_loop_slots (hash1 : Int → Int) (th eh : Int) (hne : th ≠ eh)
    (buf : List thread_safe_page) :
    ∀ (ebuf : List thread_safe_page) (j : Nat) (b e : List thread_safe_page),
      rehash_loop hash1 th eh buf ebuf j = some (b, e) →
      (∀ t, t < j → e[t]? = ebuf[t]?) ∧
      (∀ t, t < (buf.filter (is_moved hash1 eh)).length →
        e[j + t]? = (buf.filter (is_moved hash1 eh))[t]?) ∧
      (∀ t, j + (buf.filter (is_moved hash1 eh)).length ≤ t → e[t]? = ebuf[t]?) ∧
      (∀ (k : Nat) (p : thread_safe_page), buf[k]? = some p →
        (is_moved hash1 eh p = true →
          b[k]? = ebuf[j + ((buf.take k).filter (is_moved hash1 eh)).length]?) ∧
        (is_moved hash1 eh p = false → hash1 p.offset = eh → b[k]? = some p)) := by
  induction buf with
  | nil =>
    intro ebuf j b e h
    simp only [rehash_loop, Option.some.injEq, Prod.mk.injEq] at h
    obtain ⟨rfl, rfl⟩ := h
    refine ⟨fun _ _ => rfl, fun t ht => absurd ht (by simp), fun _ _ => rfl, ?_⟩
    intro k p hk
    simp at hk
  | cons pg rest ih =>
    intro ebuf j b e h
    unfold rehash_loop at h
    split at h
    · rename_i hpg
      have hm : is_moved hash1 eh pg = false := by
        simp [is_moved, hpg]
      split at h
      · exact absurd h (by simp)
      · rename_i b1 e1 hrec
        simp only [Option.some.injEq, Prod.mk.injEq] at h
        obtain ⟨rfl, rfl⟩ := h
        obtain ⟨h1, h2, h3, h4⟩ := ih _ _ _ _ hrec
        rw [List.filter_cons_of_neg (by rw [hm]; simp)]
        refine ⟨h1, h2, h3, ?_⟩
        intro k p hk
        cases k with
        | zero =>
          simp only [List.getElem?_cons_zero, Option.some.injEq] at hk
          subst hk
          exact ⟨fun h => (by rw [hm] at h; cases h), fun _ h => absurd h hpg⟩
        | succ k =>
          simp only [List.getElem?_cons_succ] at hk ⊢
          rw [List.take_succ_cons, List.filter_cons_of_neg (by rw [hm]; simp)]
          exact h4 k p hk
    · rename_i heq
      have heq1 : hash1 pg.offset = eh := by
        by_contra hc
        exact heq hc
      split at h
      · split at h
        · exact absurd h (by simp)
        · rename_i epg hepg
          split at h
          · rename_i href
            have hm : is_moved hash1 eh pg = false := by
              simp [is_moved, href]
            split at h
            · exact absurd h (by simp)
            · rename_i b1 e1 hrec
              simp only [Option.some.injEq, Prod.mk.injEq] at h
              obtain ⟨rfl, rfl⟩ := h
              obtain ⟨h1, h2, h3, h4⟩ := ih _ _ _ _ hrec
              rw [List.filter_cons_of_neg (by rw [hm]; simp)]
              refine ⟨h1, h2, h3, ?_⟩
              intro k p hk
              cases k with
              | zero =>
                simp only [List.getElem?_cons_zero, Option.some.injEq] at hk
                subst hk
                exact ⟨fun h => (by rw [hm] at h; cases h), fun _ _ => by simp⟩
              | succ k =>
                simp only [List.getElem?_cons_succ] at hk ⊢
                rw [List.take_succ_cons, List.filter_cons_of_neg (by rw [hm]; simp)]
                exact h4 k p hk
          · rename_i href
            have href0 : pg.ref = 0 := by
              by_contra hc
              exact href hc
            have hm : is_moved hash1 eh pg = true := by
              simp [is_moved, heq1, href0]
            split at h
            · exact absurd h (by simp)
            · split at h
              · exact absurd h (by simp)
              · rename_i b1 e1 hrec
                simp only [Option.some.injEq, Prod.mk.injEq] at h
                obtain ⟨rfl, rfl⟩ := h
                obtain ⟨h1, h2, h3, h4⟩ := ih _ _ _ _ hrec
                have hjlt : j < ebuf.length := (List.getElem?_eq_some_iff.mp hepg).1
                rw [List.filter_cons_of_pos hm]
                refine ⟨?_, ?_, ?_, ?_⟩
                · intro t ht
                  rw [h1 t (by omega), List.getElem?_set_ne (by omega)]
                · intro t ht
                  cases t with
                  | zero =>
                    simp only [Nat.add_zero, List.getElem?_cons_zero]
                    rw [h1 j (by omega), List.getElem?_set_self hjlt]
                  | succ t =>
                    simp only [List.length_cons] at ht
                    simp only [List.getElem?_cons_succ]
                    rw [show j + (t + 1) = j + 1 + t by omega]
                    exact h2 t (by omega)
                · intro t ht
                  simp only [List.length_cons] at ht
                  rw [h3 t (by omega), List.getElem?_set_ne (by omega)]
                · intro k p hk
                  cases k with
                  | zero =>
                    simp only [List.getElem?_cons_zero, Option.some.injEq] at hk
                    subst hk
                    refine ⟨fun _ => ?_, fun h => (by rw [hm] at h; cases h)⟩
                    simp [hepg]
                  | succ k =>
                    simp only [List.getElem?_cons_succ] at hk ⊢
                    rw [List.take_succ_cons, List.filter_cons_of_pos hm]
                    obtain ⟨h5, h6⟩ := h4 k p hk
                    refine ⟨fun hp => ?_, h6⟩
                    rw [h5 hp, List.getElem?_set_ne (by omega)]
                    simp only [List.length_cons]
                    congr 1
                    omega
      · rename_i hth
        exfalso
        apply hth
        rw [heq1]
        exact hne

/-- The loop of `rehash` ends without a failed assertion when the expanded cell has an
uninitialised slot for every page to move. -/
theorem rehash_loop_total (hash1 : Int → Int) (th eh : Int) (buf : List thread_safe_page) :
    ∀ (ebuf : List thread_safe_page) (j : Nat),
      j + buf.length ≤ ebuf.length →
      (∀ (t : Nat) (q : thread_safe_page), j ≤ t → ebuf[t]? = some q → q.initialized = false) →
      ∃ b e, rehash_loop hash1 th eh buf ebuf j = some (b, e) ∧
        b.length = buf.length ∧ e.length = ebuf.length := by
  induction buf with
  | nil =>
    intro ebuf j _ _
    exact ⟨[], ebuf, rfl, rfl, rfl⟩
  | cons pg rest ih =>
    intro ebuf j hlen hinit
    simp only [List.length_cons] at hlen
    unfold rehash_loop
    split
    · obtain ⟨b, e, h, hb, he⟩ := ih ebuf j (by omega) hinit
      rw [h]
      exact ⟨_, _, rfl, by simp [hb], he⟩
    · split
      · obtain ⟨epg, hepg⟩ : ∃ epg, ebuf[j]? = some epg :=
          ⟨ebuf[j], List.getElem?_eq_getElem (by omega)⟩
        rw [hepg]
        simp only
        split
        · obtain ⟨b, e, h, hb, he⟩ := ih ebuf j (by omega) hinit
          rw [h]
          exact ⟨_, _, rfl, by simp [hb], he⟩
        · rw [if_neg (by rw [hinit j epg (le_refl _) hepg]; simp)]
          obtain ⟨b, e, h, hb, he⟩ := ih (ebuf.set j pg) (j + 1)
            (by simp only [List.length_set]; omega)
            (fun t q ht hq => hinit t q (by omega)
              (by rw [List.getElem?_set_ne (by omega)] at hq; exact hq))
          rw [h]
          exact ⟨_, _, rfl, by simp [hb], by simpa using he⟩
      · obtain ⟨b, e, h, hb, he⟩ := ih ebuf j (by omega) hinit
        rw [h]
        exact ⟨_, _, rfl, by simp [hb], he⟩

end hash_cell

namespace hash_cell

/-- C22: for a cell `c` and an expanded cell `e` of another hash, of as many pages, all
uninitialised, `rehash` returns; both cells keep their number of pages; the expanded cell
then holds, from slot 0 on and in the order of their slots, exactly the pages of `c` whose
`hash1` is the hash of `e` and whose ref is 0, each unchanged, followed by its own remaining
pages; the old slot of the moved page number `t` holds the page that was in slot `t` of `e`;
every other page is still in its slot (with hits 1 if its `hash1` is not the hash of `e`),
in particular every page in use. -/
theorem rehash_moves_unused_pages (hash1 : Int → Int) (c e : hash_cell)
    (hne : e.hash ≠ c.hash) (hfresh : ∀ p ∈ e.buf, p.initialized = false)
    (hlen : e.buf.length = c.buf.length) :
    ∃ c2 e2, rehash hash1 c e = some (c2, e2) ∧
      c2.buf.length = c.buf.length ∧ e2.buf.length = e.buf.length ∧
      e2.buf = c.buf.filter (is_moved hash1 e.hash)
        ++ e.buf.drop (c.buf.filter (is_moved hash1 e.hash)).length ∧
      (∀ (k : Nat) (p : thread_safe_page), c.buf[k]? = some p →
        (is_moved hash1 e.hash p = true →
          c2.buf[k]? = e.buf[((c.buf.take k).filter (is_moved hash1 e.hash)).length]?) ∧
        (is_moved hash1 e.hash p = false →
          c2.buf[k]? = some (if hash1 p.offset = e.hash then p else p.set_hits 1)) ∧
        (p.ref ≠ 0 → ∃ q, c2.buf[k]? = some q ∧ q.offset = p.offset ∧ q.ref = p.ref ∧
          q.data = p.data ∧ q.initialized = p.initialized)) := by
  obtain ⟨b, eb, hl, hbl, hel⟩ := rehash_loop_total hash1 c.hash e.hash c.buf e.buf 0
    (by omega) (fun t q _ hq => hfresh q (List.getElem?_mem hq))
  have hr : rehash hash1 c e
      = some ({ c with buf := b, overflow := false }, { e with buf := eb }) := by
    unfold rehash
    rw [hl]
  obtain ⟨_, h2, h3, h4⟩ := rehash_loop_slots hash1 c.hash e.hash (fun h => hne h.symm)
    c.buf e.buf 0 b eb hl
  have hmarks := rehash_loop_marks hash1 c.hash e.hash c.buf e.buf 0 b eb hl
  have hnot : ∀ (k : Nat) (p : thread_safe_page), c.buf[k]? = some p →
      is_moved hash1 e.hash p = false →
      b[k]? = some (if hash1 p.offset = e.hash then p else p.set_hits 1) := by
    intro k p hk hm
    by_cases hh : hash1 p.offset = e.hash
    · rw [if_pos hh]
      exact (h4 k p hk).2 hm hh
    · rw [if_neg hh]
      exact hmarks k p hk hh
  refine ⟨_, _, hr, hbl, hel, ?_, ?_⟩
  · apply List.ext_getElem?
    intro t
    show eb[t]? = _
    by_cases ht : t < (c.buf.filter (is_moved hash1 e.hash)).length
    · rw [List.getElem?_append_left ht]
      have := h2 t ht
      simpa using this
    · rw [List.getElem?_append_right (by omega), List.getElem?_drop, h3 t (by omega)]
      congr 1
      omega
  · intro k p hk
    refine ⟨fun hm => ?_, hnot k p hk, fun href => ?_⟩
    · have := (h4 k p hk).1 hm
      simpa using this
    · have hm : is_moved hash1 e.hash p = false := by simp [is_moved, href]
      refine ⟨_, hnot k p hk hm, ?_⟩
      split <;> exact ⟨rfl, rfl, rfl, rfl⟩

/-- C22, at a concrete input: the page of offset 8192 of `split_source_cell` moves into slot
0 of `split_target_cell`, and the fresh page of that slot takes its place. -/
theorem rehash_moves_unused_pages_witness :
    ∃ c2 e2, rehash expanding_cache.hash1_locked split_source_cell split_target_cell
        = some (c2, e2) ∧
      e2.buf = [sample_page 8192 5 0, thread_safe_page.fresh 8] ∧
      c2.buf[1]? = some (thread_safe_page.fresh 7) := by
  obtain ⟨c2, e2, h1, _, _, h4, h5⟩ := rehash_moves_unused_pages
    expanding_cache.hash1_locked split_source_cell split_target_cell (by decide)
    (by decide) (by decide)
  refine ⟨c2, e2, h1, ?_, ?_⟩
  · rw [h4]
    decide
  · rw [(h5 1 (sample_page 8192 5 0) (by decide)).1 (by decide)]
    decide

/-- C23: `rehash` sets the hits of a page that correctly stays in this cell to 1: in
`split_source_cell`, of hash 0, the page of offset 16384 has `hash1` 0 and 3 hits, and after
`rehash` into the new cell of hash 2 it has 1 hit.  In general `rehash` sets to 1 the hits of
every page whose `hash1` is not the hash of the expanded cell, the pages whose `hash1` is the
hash of this cell included. -/
theorem rehash_marks_pages_that_stay :
    expanding_cache.hash1_locked 16384 = split_source_cell.hash ∧
    rehash expanding_cache.hash1_locked split_source_cell split_target_cell
      = some (sample_cell 0 false [sample_page 16384 1 0, thread_safe_page.fresh 7] [],
          { split_target_cell with buf := [sample_page 8192 5 0, thread_safe_page.fresh 8] }) ∧
    (∀ (hash1 : Int → Int) (c e c2 e2 : hash_cell), rehash hash1 c e = some (c2, e2) →
      ∀ (k : Nat) (p : thread_safe_page), c.buf[k]? = some p → hash1 p.offset ≠ e.hash →
        c2.buf[k]? = some (p.set_hits 1)) := by
  refine ⟨by decide, by decide, ?_⟩
  intro hash1 c e c2 e2 h k p hk hp
  obtain ⟨b, eb, hl, rfl, rfl⟩ := rehash_some h
  exact rehash_loop_marks hash1 c.hash e.hash c.buf e.buf 0 b eb hl k p hk hp

end hash_cell

namespace associative_cache

/-- C21: a call of `expand` for a cell whose overflow flag is set can return true, without
having incremented the level, while that flag is still set: in `livelock_cache_flagged`
(split 1) the call for cell 0 looks at cell 1, runs no iteration and returns true in the same
state.  What holds for every call that returns true without incrementing the level is that
split is at least the index of the origin cell and that the cell at index split has no
overflow flag; the origin cell has none either when its index was at least split at the time
of the call. -/
theorem expand_tests_cell_at_split :
    (livelock_cache_flagged.expand 0 = some (true, livelock_cache_flagged) ∧
      ∃ c, livelock_cache_flagged.get_cell 0 = some c ∧ c.overflow = true) ∧
    (∀ (C : associative_cache) (g : Nat) (C2 : associative_cache),
      C.expand g = some (true, C2) → C2.level = C.level →
      g ≤ C2.split ∧ ∃ cell, C2.get_cell C2.split = some cell ∧ cell.overflow = false) ∧
    (∀ (C : associative_cache) (g : Nat) (C2 : associative_cache),
      C.split ≤ g → g < C.size → g / C.init_ncells < C.ncells →
      C.expand g = some (true, C2) → C2.level = C.level →
      ∃ c, C2.get_cell g = some c ∧ c.overflow = false) := by
  have hgen : ∀ (C : associative_cache) (g : Nat) (C2 : associative_cache),
      C.expand g = some (true, C2) → C2.level = C.level →
      g ≤ C2.split ∧ ∃ cell, C2.get_cell C2.split = some cell ∧ cell.overflow = false := by
    intro C g C2 h hl
    unfold expand at h
    split at h
    · simp at h
    · split at h
      · exact absurd h (by simp)
      · refine expand_loop_cases g (2 ^ C.level * C.init_ncells)
          (fun D => D.level = C.level)
          (fun b D => b = true → D.level = C.level →
            g ≤ D.split ∧ ∃ cell, D.get_cell D.split = some cell ∧ cell.overflow = false)
          ?_ ?_ ?_ ?_ (C.cells_table.length * C.init_ncells + 1) { C with expanding := true }
          true C2 rfl h rfl hl
        · intro D D1 _ _ hb
          cases hb
        · intro D cell _ hcell hcond _ _
          have hge : ¬ D.split < g := fun h => hcond (Or.inl h)
          refine ⟨by show g ≤ D.split; omega, cell, hcell, ?_⟩
          cases ho : cell.overflow with
          | false => rfl
          | true => exact absurd (Or.inr ho) hcond
        · intro D cell D1 e c2 e2 hD _ _ hg _ _ _ _ hlev
          obtain ⟨_, _, g3, _⟩ := grow_spec hg
          exfalso
          have : ((D1.set_cell D1.split c2).set_cell
              (D1.split + 2 ^ C.level * C.init_ncells) e2).level + 1 = C.level := hlev
          rw [set_cell_level, set_cell_level, g3, hD] at this
          omega
        · intro D cell D1 e c2 e2 hD _ _ hg _ _ _
          obtain ⟨_, _, g3, _⟩ := grow_spec hg
          show ((D1.set_cell D1.split c2).set_cell
              (D1.split + 2 ^ C.level * C.init_ncells) e2).level = C.level
          rw [set_cell_level, set_cell_level, g3, hD]
  refine ⟨⟨by decide, _, rfl, rfl⟩, hgen, ?_⟩
  intro C g C2 hsg hgs hn h hl
  obtain ⟨hge, cell, hcell, hov⟩ := hgen C g C2 h hl
  unfold expand at h
  split at h
  · simp at h
  · split at h
    · exact absurd h (by simp)
    · have key := expand_loop_cases g (2 ^ C.level * C.init_ncells)
        (fun D => D.level = C.level ∧ D.init_ncells = C.init_ncells ∧
          g / D.init_ncells < D.ncells ∧ g < 2 ^ C.level * C.init_ncells + D.split ∧
          (g < D.split → ∃ c, D.get_cell g = some c ∧ c.overflow = false))
        (fun b D => b = true → D.level = C.level → g < D.split →
          ∃ c, D.get_cell g = some c ∧ c.overflow = false)
        ?_ ?_ ?_ ?_ (C.cells_table.length * C.init_ncells + 1) { C with expanding := true }
        true C2 ⟨rfl, rfl, hn, hgs, fun hlt => absurd hlt (by show ¬ g < C.split; omega)⟩
        h rfl hl
      · by_cases hlt : g < C2.split
        · exact key hlt
        · have : C2.split = g := by omega
          rw [this] at hcell
          exact ⟨cell, hcell, hov⟩
      · intro D D1 _ _ hb
        cases hb
      · intro D cell ⟨_, _, _, _, h5⟩ _ _ _ _ hlt
        exact h5 hlt
      · intro D cell D1 e c2 e2 ⟨hD, _, _, _, _⟩ _ _ hg _ _ _ _ hlev
        obtain ⟨_, _, g3, _⟩ := grow_spec hg
        exfalso
        have : ((D1.set_cell D1.split c2).set_cell
            (D1.split + 2 ^ C.level * C.init_ncells) e2).level + 1 = C.level := hlev
        rw [set_cell_level, set_cell_level, g3, hD] at this
        omega
      · intro D cell D1 e c2 e2 ⟨hD, hDi, hDn, hDg, hDo⟩ hcellD _ hg he hre _
        obtain ⟨g1, g2, g3, g4, _, _, _, _, hget, _⟩ := grow_spec hg
        have hne : D1.split + 2 ^ C.level * C.init_ncells ≠ g := by rw [g2]; omega
        refine ⟨?_, ?_, ?_, ?_, ?_⟩
        · show ((D1.set_cell D1.split c2).set_cell _ e2).level = C.level
          rw [set_cell_level, set_cell_level, g3, hD]
        · show ((D1.set_cell D1.split c2).set_cell _ e2).init_ncells = C.init_ncells
          rw [set_cell_init_ncells, set_cell_init_ncells, g1, hDi]
        · show g / ((D1.set_cell D1.split c2).set_cell _ e2).init_ncells
            < ((D1.set_cell D1.split c2).set_cell _ e2).ncells
          rw [set_cell_init_ncells, set_cell_init_ncells, set_cell_ncells, set_cell_ncells, g1]
          omega
        · show g < 2 ^ C.level * C.init_ncells
            + (((D1.set_cell D1.split c2).set_cell _ e2).split + 1)
          rw [set_cell_split, set_cell_split, g2]
          omega
        · intro hlt
          have hlt1 : g < ((D1.set_cell D1.split c2).set_cell
              (D1.split + 2 ^ C.level * C.init_ncells) e2).split + 1 := hlt
          rw [set_cell_split, set_cell_split, g2] at hlt1
          show ∃ c, ((D1.set_cell D1.split c2).set_cell
              (D1.split + 2 ^ C.level * C.init_ncells) e2).get_cell g = some c ∧ _
          rw [get_cell_set_cell_ne _ _ hne]
          by_cases hgs2 : D.split = g
          · have hc1 : D1.get_cell g = some cell := by
              rw [hget g hDn, ← hgs2]; exact hcellD
            rw [g2, hgs2, get_cell_set_cell_self hc1]
            obtain ⟨bb, eb, _, rfl, _⟩ := hash_cell.rehash_some hre
            exact ⟨_, rfl, rfl⟩
          · rw [get_cell_set_cell_ne _ _ (by rw [g2]; exact hgs2), hget g hDn]
            exact hDo (by omega)

end associative_cache

namespace associative_cache

end associative_cache

namespace generic_queue

theorem getElem?_logical_from {α : Type} (buf : List α) :
    ∀ (n i t : Nat), (logical_from buf i n)[t]?
      = if t < n then buf[(i + t) % buf.length]? else none := by
  intro n
  induction n with
  | zero => intro i t; simp [logical_from]
  | succ n ih =>
    intro i t
    unfold logical_from
    cases hx : buf[i % buf.length]? with
    | none =>
      simp only
      have hlen : buf.length = 0 := by
        by_contra hpos
        have hlt : i % buf.length < buf.length := Nat.mod_lt _ (by omega)
        rw [List.getElem?_eq_getElem hlt] at hx
        cases hx
      have hnil : buf = [] := List.length_eq_zero.mp hlen
      subst hnil
      simp
    | some x =>
      simp only
      cases t with
      | zero => simp [hx]
      | succ t =>
        simp only [List.getElem?_cons_succ, ih]
        rw [show i + 1 + t = i + (t + 1) by omega]
        simp

/-- The logical sequence is a segment of the buffer written twice. -/
theorem to_list_eq {α : Type} (q : generic_queue α) (hs : q.start < q.buf.length)
    (hn : q.num ≤ q.buf.length) :
    q.to_list = ((q.buf ++ q.buf).drop q.start).take q.num := by
  apply List.ext_getElem?
  intro t
  unfold to_list
  rw [getElem?_logical_from, List.getElem?_take, List.getElem?_drop]
  split
  · rename_i ht
    by_cases hlt : q.start + t < q.buf.length
    · rw [Nat.mod_eq_of_lt hlt, List.getElem?_append_left hlt]
    · rw [List.getElem?_append_right (by omega)]
      congr 1
      rw [Nat.mod_eq_sub_mod (by omega), Nat.mod_eq_of_lt (by omega)]
  · rfl

theorem double_take_left {α : Type} (buf : List α) (s k : Nat) (h : s + k ≤ buf.length) :
    ((buf ++ buf).drop s).take k = (buf.drop s).take k := by
  rw [List.drop_append_of_le_length (by omega), List.take_append_of_le_length]
  simp only [List.length_drop]
  omega

theorem double_take_wrap {α : Type} (buf : List α) (s k : Nat) (hs : s ≤ buf.length)
    (h : buf.length ≤ s + k) :
    ((buf ++ buf).drop s).take k = buf.drop s ++ buf.take (k - (buf.length - s)) := by
  rw [List.drop_append_of_le_length hs, List.take_append_eq_append_take]
  simp only [List.length_drop]
  rw [List.take_of_length_le (by simp only [List.length_drop]; omega)]

theorem double_drop_right {α : Type} (buf : List α) (x : Nat) :
    (buf ++ buf).drop (buf.length + x) = buf.drop x := by
  rw [List.drop_append]

end generic_queue

namespace generic_queue

theorem erase_segment {α : Type} (D : List α) (s n idx : Nat) (hi : idx < n) :
    ((D.drop s).take n).eraseIdx idx
      = (D.drop s).take idx ++ (D.drop (s + idx + 1)).take (n - idx - 1) := by
  rw [List.eraseIdx_eq_take_drop_succ, List.take_take, Nat.min_eq_left (by omega),
    List.drop_take, List.drop_drop, Nat.add_assoc, Nat.sub_sub]

/-- The array `tmp` that `remove` builds in the middle case holds the logical sequence
without its element number `idx`. -/
theorem remove_tmp_eq {α : Type} (buf : List α) (start num idx : Nat)
    (hs : start < buf.length) (hn : num ≤ buf.length) (hi : idx < num) :
    (if start + num ≤ buf.length then
        slice buf start idx ++ slice buf (start + idx + 1) (num - idx - 1)
      else if idx + start < buf.length then
        slice buf start idx
          ++ slice buf (start + idx + 1) (buf.length - start - idx - 1)
          ++ slice buf 0 (num - (buf.length - start))
      else
        slice buf start (buf.length - start)
          ++ slice buf 0 ((idx + start) % buf.length)
          ++ slice buf ((idx + start) % buf.length + 1)
              ((start + num) % buf.length - (idx + start) % buf.length - 1))
      = ((buf ++ buf).drop start).take idx
        ++ ((buf ++ buf).drop (start + idx + 1)).take (num - idx - 1) := by
  unfold slice
  split
  · rw [double_take_left _ _ _ (by omega), double_take_left _ _ _ (by omega)]
  · split
    · rw [double_take_left _ _ _ (by omega),
        double_take_wrap _ _ _ (by omega) (by omega), List.drop_zero,
        List.append_assoc,
        List.take_of_length_le (l := buf.drop (start + idx + 1))
          (by simp only [List.length_drop]; omega),
        show num - idx - 1 - (buf.length - (start + idx + 1)) = num - (buf.length - start)
          by omega]
    · have hm1 : (idx + start) % buf.length = idx + start - buf.length := by
        rw [Nat.mod_eq_sub_mod (by omega), Nat.mod_eq_of_lt (by omega)]
      have hm2 : (start + num) % buf.length = start + num - buf.length := by
        rw [Nat.mod_eq_sub_mod (by omega), Nat.mod_eq_of_lt (by omega)]
      rw [hm1, hm2, double_take_wrap _ _ _ (by omega) (by omega), List.drop_zero,
        show start + idx + 1 = buf.length + (idx + start - buf.length + 1) by omega,
        double_drop_right,
        List.take_of_length_le (l := buf.drop start)
          (by simp only [List.length_drop]; omega),
        show idx - (buf.length - start) = idx + start - buf.length by omega,
        show start + num - buf.length - (idx + start - buf.length) - 1 = num - idx - 1
          by omega]

/-- The queue that the final `memcpy` of `remove` leaves has the copied sequence as its
logical sequence. -/
theorem to_list_of_copy {α : Type} (E buf : List α) (n : Nat) (hE : E.length = n)
    (hn : n < buf.length) :
    ({ buf := E.take n ++ buf.drop n, start := 0, num := n } : generic_queue α).to_list = E ∧
    (E.take n ++ buf.drop n).length = buf.length := by
  have hlen : (E.take n ++ buf.drop n).length = buf.length := by
    simp only [List.length_append, List.length_take, List.length_drop]
    omega
  refine ⟨?_, hlen⟩
  rw [to_list_eq _ (by show 0 < (E.take n ++ buf.drop n).length; omega)
    (by show n ≤ (E.take n ++ buf.drop n).length; omega)]
  show (((E.take n ++ buf.drop n) ++ (E.take n ++ buf.drop n)).drop 0).take n = E
  rw [List.drop_zero, List.take_of_length_le (l := E) (by omega), List.append_assoc,
    List.take_append_of_le_length (by omega), List.take_of_length_le (by omega)]

/-- What `remove` returns, with the logical sequence written as two segments of the buffer
written twice. -/
theorem remove_segments {α : Type} (q : generic_queue α) (idx : Nat)
    (hs : q.start < q.buf.length) (hn : q.num ≤ q.buf.length) (hi : idx < q.num) :
    ∃ q1, q.remove idx = some q1 ∧
      q1.to_list = ((q.buf ++ q.buf).drop q.start).take idx
        ++ ((q.buf ++ q.buf).drop (q.start + idx + 1)).take (q.num - idx - 1) ∧
      q1.num = q.num - 1 ∧ q1.buf.length = q.buf.length ∧ q1.start < q1.buf.length := by
  unfold remove
  rw [if_neg (by omega)]
  by_cases h0 : idx = 0
  · rw [if_pos h0]
    subst h0
    have hs1 : (q.start + 1) % q.buf.length < q.buf.length := Nat.mod_lt _ (by omega)
    refine ⟨_, rfl, ?_, rfl, rfl, hs1⟩
    rw [to_list_eq q.pop_front hs1 (by show q.num - 1 ≤ q.buf.length; omega)]
    show ((q.buf ++ q.buf).drop ((q.start + 1) % q.buf.length)).take (q.num - 1) = _
    rw [List.take_zero, List.nil_append, Nat.add_zero, Nat.sub_zero]
    by_cases hw : q.start + 1 < q.buf.length
    · rw [Nat.mod_eq_of_lt hw]
    · have he : q.start + 1 = q.buf.length := by omega
      rw [he, Nat.mod_self, List.drop_zero]
      have := double_drop_right q.buf 0
      rw [Nat.add_zero, List.drop_zero] at this
      rw [this, List.take_append_of_le_length (by omega)]
  · rw [if_neg h0]
    by_cases hlast : idx = q.num - 1
    · rw [if_pos hlast]
      refine ⟨_, rfl, ?_, rfl, rfl, hs⟩
      rw [to_list_eq { q with num := q.num - 1 } hs
        (by show q.num - 1 ≤ q.buf.length; omega)]
      show ((q.buf ++ q.buf).drop q.start).take (q.num - 1) = _
      rw [hlast, show q.num - (q.num - 1) - 1 = 0 by omega, List.take_zero,
        List.append_nil]
    · rw [if_neg hlast]
      simp only
      rw [remove_tmp_eq q.buf q.start q.num idx hs hn hi]
      have hlenE : (((q.buf ++ q.buf).drop q.start).take idx
            ++ ((q.buf ++ q.buf).drop (q.start + idx + 1)).take (q.num - idx - 1)).length
          = q.num - 1 := by
        simp only [List.length_append, List.length_take, List.length_drop]
        omega
      obtain ⟨h1, h2⟩ := to_list_of_copy _ q.buf (q.num - 1) hlenE (by omega)
      exact ⟨_, rfl, h1, rfl, h2, by show 0 < List.length _; rw [h2]; omega⟩

/-- C27: for every state of the circular buffer with `start < SIZE` and `num ≤ SIZE`, wrapped
or not, and every `idx < num`, `remove(idx)` returns, the logical sequence afterwards is the
one before with its element number `idx` deleted, `num` is decreased by one, and the buffer
keeps its length and `start` stays inside it. -/
theorem remove_deletes_logical_element {α : Type} (q : generic_queue α) (idx : Nat)
    (hs : q.start < q.buf.length) (hn : q.num ≤ q.buf.length) (hi : idx < q.num) :
    ∃ q1, q.remove idx = some q1 ∧ q1.to_list = q.to_list.eraseIdx idx ∧
      q1.num = q.num - 1 ∧ q1.buf.length = q.buf.length ∧ q1.start < q1.buf.length := by
  obtain ⟨q1, h1, h2, h3, h4, h5⟩ := remove_segments q idx hs hn hi
  refine ⟨q1, h1, ?_, h3, h4, h5⟩
  rw [h2, to_list_eq q hs hn, erase_segment _ _ _ _ hi]

/-- C27, at a concrete input: a wrapped queue of three elements in a buffer of four. -/
theorem remove_deletes_logical_element_witness :
    ∃ q1, wrapped_queue.remove 1 = some q1 ∧ q1.to_list = [40, 20] := by
  obtain ⟨q1, h1, h2, _⟩ := remove_deletes_logical_element wrapped_queue 1 (by decide)
    (by decide) (by decide)
  exact ⟨q1, h1, by rw [h2]; decide⟩

end generic_queue

namespace generic_queue

theorem length_to_list {α : Type} (q : generic_queue α) (hs : q.start < q.buf.length)
    (hn : q.num ≤ q.buf.length) : q.to_list.length = q.num := by
  rw [to_list_eq q hs hn]
  simp only [List.length_take, List.length_drop, List.length_append]
  omega

theorem get_eq_to_list {α : Type} (q : generic_queue α) (i : Nat) (hi : i < q.num) :
    q.get i = q.to_list[i]? := by
  unfold get to_list
  rw [getElem?_logical_from, if_pos hi]

/-- The logical sequence after `push_back` on a queue that is not full. -/
theorem to_list_push_back {α : Type} (q : generic_queue α) (x : α)
    (hs : q.start < q.buf.length) (hn : q.num < q.buf.length) :
    (q.push_back x).to_list = q.to_list ++ [x] := by
  apply List.ext_getElem?
  intro t
  have hlen := length_to_list q hs (by omega)
  unfold to_list at hlen ⊢
  rw [getElem?_logical_from]
  show (if t < q.num + 1 then
      (q.buf.set ((q.start + q.num) % q.buf.length) x)[(q.start + t)
        % (q.buf.set ((q.start + q.num) % q.buf.length) x).length]? else none) = _
  rw [List.length_set]
  by_cases ht : t < q.num
  · rw [if_pos (by omega), List.getElem?_append_left (by rw [hlen]; exact ht),
      getElem?_logical_from, if_pos ht, List.getElem?_set_ne]
    intro heq
    have h1 := Nat.sub_mod_eq_zero_of_mod_eq heq
    rw [show q.start + q.num - (q.start + t) = q.num - t by omega,
      Nat.mod_eq_of_lt (by omega)] at h1
    omega
  · by_cases ht2 : t = q.num
    · subst ht2
      rw [if_pos (by omega), List.getElem?_append_right (by rw [hlen]), hlen,
        List.getElem?_set_self (Nat.mod_lt _ (by omega))]
      simp
    · rw [if_neg (by omega), List.getElem?_eq_none]
      simp only [List.length_append, hlen, List.length_singleton]
      omega

end generic_queue

theorem getElem?_length_append_cons {α : Type} (l r : List α) (x : α) :
    (l ++ x :: r)[l.length]? = some x := by
  rw [List.getElem?_append_right (le_refl _), Nat.sub_self, List.getElem?_cons_zero]

/-- The loop of `LRU_shadow_cell::search` when no entry from the current position on has the
offset. -/
theorem LRU_search_loop_miss (off : Int) (q : generic_queue shadow_page)
    (hs : q.start < q.buf.length) (hn : q.num ≤ q.buf.length) :
    ∀ (rest done : List shadow_page), q.to_list = done ++ rest →
      (∀ e ∈ rest, e.offset ≠ off) →
      LRU_shadow_cell_search_loop off q rest.length done.length
        = some (shadow_page.invalid, q) := by
  intro rest
  induction rest with
  | nil => intro done _ _; rfl
  | cons e rest ih =>
    intro done hL hne
    have hlen := generic_queue.length_to_list q hs hn
    rw [hL] at hlen
    simp only [List.length_append, List.length_cons] at hlen
    have hget : q.get done.length = some e := by
      rw [generic_queue.get_eq_to_list q _ (by omega), hL]
      exact getElem?_length_append_cons _ _ _
    simp only [List.length_cons]
    rw [LRU_shadow_cell_search_loop, hget]
    simp only
    rw [if_neg (hne e (List.mem_cons_self _ _))]
    have := ih (done ++ [e]) (by rw [hL]; simp)
      (fun x hx => hne x (List.mem_cons_of_mem _ hx))
    simpa using this

/-- The loop of `LRU_shadow_cell::search` when the first entry with the offset, from the
current position on, is `pg`. -/
theorem LRU_search_loop_hit (off : Int) (q : generic_queue shadow_page)
    (hs : q.start < q.buf.length) (hn : q.num ≤ q.buf.length) (pg : shadow_page)
    (post : List shadow_page) (hpg : pg.offset = off) :
    ∀ (pre done : List shadow_page), q.to_list = done ++ pre ++ pg :: post →
      (∀ e ∈ pre, e.offset ≠ off) →
      ∃ q1, LRU_shadow_cell_search_loop off q (pre.length + 1 + post.length) done.length
          = some (pg, q1) ∧
        q1.to_list = done ++ pre ++ post ++ [pg] ∧ q1.num = q.num ∧
        q1.buf.length = q.buf.length ∧ q1.start < q1.buf.length := by
  intro pre
  induction pre with
  | nil =>
    intro done hL _
    have hlen := generic_queue.length_to_list q hs hn
    rw [hL] at hlen
    simp only [List.length_append, List.length_cons, List.length_nil] at hlen
    have hget : q.get done.length = some pg := by
      rw [generic_queue.get_eq_to_list q _ (by omega), hL, List.append_nil]
      exact getElem?_length_append_cons _ _ _
    obtain ⟨q1, h1, h2, h3, h4, h5⟩ :=
      generic_queue.remove_segments q done.length hs hn (by omega)
    have h2b : q1.to_list = done ++ post := by
      rw [h2, ← generic_queue.erase_segment _ _ _ _ (by omega),
        ← generic_queue.to_list_eq q hs hn, hL]
      simp [List.eraseIdx_append_of_length_le]
    simp only [List.length_nil, Nat.zero_add]
    rw [Nat.add_comm 1 post.length, LRU_shadow_cell_search_loop, hget]
    simp only
    rw [if_pos hpg, h1]
    refine ⟨_, rfl, ?_, ?_, ?_, ?_⟩
    · rw [generic_queue.to_list_push_back q1 pg h5 (by omega), h2b]
      simp
    · show q1.num + 1 = q.num
      omega
    · show (q1.buf.set _ pg).length = q.buf.length
      rw [List.length_set, h4]
    · show q1.start < (q1.buf.set _ pg).length
      rw [List.length_set]
      exact h5
  | cons e pre ih =>
    intro done hL hne
    have hlen := generic_queue.length_to_list q hs hn
    rw [hL] at hlen
    simp only [List.length_append, List.length_cons] at hlen
    have hget : q.get done.length = some e := by
      rw [generic_queue.get_eq_to_list q _ (by omega), hL, List.append_assoc,
        List.cons_append]
      exact getElem?_length_append_cons _ _ _
    obtain ⟨q1, h1, h2, h3⟩ := ih (done ++ [e]) (by rw [hL]; simp)
      (fun x hx => hne x (List.mem_cons_of_mem _ hx))
    simp only [List.length_cons]
    rw [show pre.length + 1 + 1 + post.length = (pre.length + 1 + post.length) + 1 by omega,
      LRU_shadow_cell_search_loop, hget]
    simp only
    rw [if_neg (hne e (List.mem_cons_self _ _))]
    refine ⟨q1, by simpa using h1, by simpa using h2, h3⟩

/-- C26: on a queue with `start < SIZE` and `num ≤ SIZE`, when the logical sequence has an
entry with offset `off`, `pg` being the first one, `LRU_shadow_cell::search(off)` returns `pg`
and the logical sequence afterwards is the original one with that entry removed and appended
at the tail, of the same size and with the order of the other entries kept; when no entry has
the offset it returns an invalid shadow page and leaves the queue unchanged. -/
theorem LRU_search_moves_match_to_tail (q : generic_queue shadow_page) (off : Int)
    (hs : q.start < q.buf.length) (hn : q.num ≤ q.buf.length) :
    (∀ (pre : List shadow_page) (pg : shadow_page) (post : List shadow_page),
      q.to_list = pre ++ pg :: post → (∀ e ∈ pre, e.offset ≠ off) → pg.offset = off →
      ∃ q1, LRU_shadow_cell_search q off = some (pg, q1) ∧
        q1.to_list = pre ++ post ++ [pg] ∧ q1.num = q.num ∧
        q1.to_list.length = q.to_list.length) ∧
    ((∀ e ∈ q.to_list, e.offset ≠ off) →
      LRU_shadow_cell_search q off = some (shadow_page.invalid, q) ∧
      shadow_page.invalid.is_valid = false) := by
  have hlen := generic_queue.length_to_list q hs hn
  refine ⟨fun pre pg post hL hpre hpg => ?_, fun hne => ⟨?_, by decide⟩⟩
  · obtain ⟨q1, h1, h2, h3, _, _⟩ := LRU_search_loop_hit off q hs hn pg post hpg pre []
      (by simpa using hL) hpre
    refine ⟨q1, ?_, by simpa using h2, h3, ?_⟩
    · unfold LRU_shadow_cell_search
      rw [← hlen, hL]
      have hq : (pre ++ pg :: post).length = pre.length + 1 + post.length := by
        simp only [List.length_append, List.length_cons]
        omega
      rw [hq]
      exact h1
    · rw [h2, hL]
      simp only [List.length_append, List.length_cons, List.length_nil]
      omega
  · have := LRU_search_loop_miss off q hs hn q.to_list [] (by simp) hne
    unfold LRU_shadow_cell_search
    rw [← hlen]
    simpa using this

/-- C26, at a concrete input: the lookup of offset 8192 in a wrapped queue of three shadow
pages. -/
theorem LRU_search_moves_match_to_tail_witness :
    ∃ q1, LRU_shadow_cell_search shadow_queue 8192
        = some ({ offset := 8192, hits := 2, referenced := false }, q1) ∧
      q1.to_list = [{ offset := 4096, hits := 1, referenced := false },
        { offset := 12288, hits := 3, referenced := false },
        { offset := 8192, hits := 2, referenced := false }] := by
  obtain ⟨q1, h1, h2, _⟩ := (LRU_search_moves_match_to_tail shadow_queue 8192 (by decide)
    (by decide)).1 [{ offset := 4096, hits := 1, referenced := false }]
    { offset := 8192, hits := 2, referenced := false }
    [{ offset := 12288, hits := 3, referenced := false }] (by decide) (by decide) (by decide)
  exact ⟨q1, h1, h2⟩

namespace clock_shadow_cell

theorem mod_succ_shift (l len k : Nat) :
    ((l + 1) % len + 1 + k) % len = (l + 1 + (k + 1)) % len := by
  rw [Nat.add_assoc, Nat.mod_add_mod, Nat.add_comm 1 k]

theorem mod_add_ne (a j len : Nat) (h0 : 0 < j) (hj : j < len) :
    (a + j) % len ≠ a % len := by
  intro h
  have h1 := Nat.sub_mod_eq_zero_of_mod_eq h
  rw [Nat.add_sub_cancel_left, Nat.mod_eq_of_lt hj] at h1
  omega

/-- One pass of the clock hand over `n` entries of a non-empty queue, `n` being at most its
length: either it inserts the page at the first entry, in the order of the hand, whose
referenced bit is clear, having cleared the bits of the entries before it, or all the `n`
entries were referenced and have their bits cleared. -/
theorem add_scan_spec (pg : shadow_page) :
    ∀ (n : Nat) (q : List shadow_page) (l : Nat), n ≤ q.length → 0 < q.length →
      ∃ q1 l1 ins, add_scan pg n q l = (q1, l1, ins) ∧ q1.length = q.length ∧
        ((ins = true ∧ ∃ k, k < n ∧ l1 = (l + 1 + k) % q.length ∧
            (∃ old, q[(l + 1 + k) % q.length]? = some old ∧ old.referenced = false) ∧
            q1[(l + 1 + k) % q.length]? = some pg ∧
            (∀ j, j < k → ∃ e, q[(l + 1 + j) % q.length]? = some e ∧ e.referenced = true ∧
              q1[(l + 1 + j) % q.length]? = some { e with referenced := false }) ∧
            (∀ t, (∀ j, j ≤ k → t ≠ (l + 1 + j) % q.length) → q1[t]? = q[t]?)) ∨
         (ins = false ∧ (l1 + 1) % q.length = (l + n + 1) % q.length ∧
            (∀ j, j < n → ∃ e, q[(l + 1 + j) % q.length]? = some e ∧ e.referenced = true ∧
              q1[(l + 1 + j) % q.length]? = some { e with referenced := false }) ∧
            (∀ t, (∀ j, j < n → t ≠ (l + 1 + j) % q.length) → q1[t]? = q[t]?))) := by
  intro n
  induction n with
  | zero =>
    intro q l _ _
    exact ⟨q, l, false, rfl, rfl, Or.inr ⟨rfl, rfl, fun j hj => absurd hj (by omega),
      fun _ _ => rfl⟩⟩
  | succ n ih =>
    intro q l hn hpos
    have hl1 : (l + 1) % q.length < q.length := Nat.mod_lt _ hpos
    obtain ⟨old, hold⟩ : ∃ old, q[(l + 1) % q.length]? = some old :=
      ⟨q[(l + 1) % q.length], List.getElem?_eq_getElem hl1⟩
    unfold add_scan
    simp only
    rw [hold]
    simp only
    by_cases href : old.referenced = true
    · rw [if_pos href]
      obtain ⟨q1, l1, ins, hrec, hlen, hcase⟩ :=
        ih (q.set ((l + 1) % q.length) { old with referenced := false })
          ((l + 1) % q.length) (by rw [List.length_set]; omega)
          (by rw [List.length_set]; exact hpos)
      rw [List.length_set] at hlen hcase
      refine ⟨q1, l1, ins, hrec, hlen, ?_⟩
      have hne : ∀ j, j < n → (l + 1 + (j + 1)) % q.length ≠ (l + 1) % q.length :=
        fun j hj => mod_add_ne _ _ _ (by omega) (by omega)
      have hq : ∀ x, x ≠ (l + 1) % q.length →
          (q.set ((l + 1) % q.length) { old with referenced := false })[x]? = q[x]? :=
        fun x hx => List.getElem?_set_ne (fun h => hx h.symm)
      -- the entries that the pass has cleared, the first one included
      have hcleared : ∀ (k : Nat), k ≤ n →
          (∀ j, j < k → ∃ e,
            (q.set ((l + 1) % q.length) { old with referenced := false })[
              ((l + 1) % q.length + 1 + j) % q.length]? = some e ∧ e.referenced = true ∧
            q1[((l + 1) % q.length + 1 + j) % q.length]?
              = some { e with referenced := false }) →
          q1[(l + 1) % q.length]? = some { old with referenced := false } →
          ∀ j, j < k + 1 → ∃ e, q[(l + 1 + j) % q.length]? = some e ∧ e.referenced = true ∧
            q1[(l + 1 + j) % q.length]? = some { e with referenced := false } := by
        intro k hk hprev hhead j hj
        cases j with
        | zero => exact ⟨old, by rw [Nat.add_zero]; exact hold, href,
            by rw [Nat.add_zero]; exact hhead⟩
        | succ j =>
          obtain ⟨e, he1, he2, he3⟩ := hprev j (by omega)
          rw [mod_succ_shift] at he1 he3
          rw [hq _ (hne j (by omega))] at he1
          exact ⟨e, he1, he2, he3⟩
      -- an entry that the pass has not scanned
      have huntouched : ∀ (t : Nat), t ≠ (l + 1) % q.length →
          q1[t]? = (q.set ((l + 1) % q.length) { old with referenced := false })[t]? →
          q1[t]? = q[t]? := fun t ht h => by rw [h, hq t ht]
      rcases hcase with ⟨hins, k, hk, hl, ⟨old2, hold2, hnr⟩, hpg, hprev, hrest⟩ |
        ⟨hins, hl, hprev, hrest⟩
      · left
        rw [mod_succ_shift] at hl hold2 hpg
        rw [hq _ (hne k hk)] at hold2
        have hhead : q1[(l + 1) % q.length]? = some { old with referenced := false } := by
          rw [hrest _ (fun j hj => by
            rw [mod_succ_shift]; exact fun h => hne j (by omega) h.symm),
            List.getElem?_set_self hl1]
        refine ⟨hins, k + 1, by omega, hl, ⟨old2, hold2, hnr⟩, hpg,
          hcleared k (by omega) hprev hhead, ?_⟩
        intro t ht
        have ht0 : t ≠ (l + 1) % q.length := by
          have := ht 0 (by omega)
          rwa [Nat.add_zero] at this
        exact huntouched t ht0 (hrest t (fun j hj => by
          rw [mod_succ_shift]; exact ht (j + 1) (by omega)))
      · right
        have hhead : q1[(l + 1) % q.length]? = some { old with referenced := false } := by
          rw [hrest _ (fun j hj => by
            rw [mod_succ_shift]; exact fun h => hne j (by omega) h.symm),
            List.getElem?_set_self hl1]
        refine ⟨hins, ?_, hcleared n (le_refl _) hprev hhead, ?_⟩
        · rw [hl, Nat.add_assoc, Nat.mod_add_mod]
          congr 1
          omega
        · intro t ht
          have ht0 : t ≠ (l + 1) % q.length := by
            have := ht 0 (by omega)
            rwa [Nat.add_zero] at this
          exact huntouched t ht0 (hrest t (fun j hj => by
            rw [mod_succ_shift]; exact ht (j + 1) (by omega)))
    · rw [if_neg href]
      refine ⟨_, _, true, rfl, by rw [List.length_set], Or.inl ⟨rfl, 0, by omega, rfl,
        ⟨old, hold, by simpa using href⟩, ?_, fun j hj => absurd hj (by omega), ?_⟩⟩
      · rw [Nat.add_zero, List.getElem?_set_self hl1]
      · intro t ht
        have := ht 0 (le_refl _)
        rw [Nat.add_zero] at this
        rw [List.getElem?_set_ne (fun h => this h.symm)]

end clock_shadow_cell

namespace clock_shadow_cell

/-- A pass that starts on an entry whose referenced bit is clear overwrites that entry. -/
theorem add_scan_head_clear (pg : shadow_page) (n : Nat) (q : List shadow_page) (l : Nat)
    (e : shadow_page) (he : q[(l + 1) % q.length]? = some e) (hr : e.referenced = false) :
    add_scan pg (n + 1) q l = (q.set ((l + 1) % q.length) pg, (l + 1) % q.length, true) := by
  unfold add_scan
  simp only
  rw [he]
  simp [hr]

/-- The passes of the clock hand over a non-empty queue: `k` is the number of entries the hand
passes before it overwrites one.  Two passes always suffice, the second one overwriting the
first entry it scans. -/
theorem add_passes_spec (pg : shadow_page) (q : List shadow_page) (l : Nat)
    (hpos : 0 < q.length) :
    ∃ q2 l2 k, (∀ fuel, add_passes pg (fuel + 2) q l = some (q2, l2)) ∧
      (k < q.length → add_scan pg q.length q l = (q2, l2, true)) ∧
      (k = q.length → ∃ q1 l1, add_scan pg q.length q l = (q1, l1, false) ∧
        q1.length = q.length ∧
        add_scan pg q.length q1 l1 = (q1.set ((l1 + 1) % q.length) pg, (l1 + 1) % q.length, true) ∧
        q2 = q1.set ((l1 + 1) % q.length) pg ∧ l2 = (l1 + 1) % q.length) ∧
      k ≤ q.length ∧ q2.length = q.length ∧ l2 = (l + 1 + k) % q.length ∧
      q2[l2]? = some pg ∧
      (∀ j, j < k → ∃ e, q[(l + 1 + j) % q.length]? = some e ∧ e.referenced = true ∧
        ((l + 1 + j) % q.length ≠ l2 →
          q2[(l + 1 + j) % q.length]? = some { e with referenced := false })) ∧
      (k < q.length → ∃ old, q[l2]? = some old ∧ old.referenced = false) ∧
      (∀ t, t ≠ l2 → (∀ j, j < k → t ≠ (l + 1 + j) % q.length) → q2[t]? = q[t]?) := by
  obtain ⟨q1, l1, ins, hscan, hlen, hcase⟩ := add_scan_spec pg q.length q l (le_refl _) hpos
  rcases hcase with ⟨hins, k, hk, hl, ⟨old, hold, hnr⟩, hpg, hprev, hrest⟩ |
    ⟨hins, hl, hprev, hrest⟩
  · subst hins
    refine ⟨q1, l1, k, ?_, fun _ => hscan, fun h => absurd h (by omega), by omega, hlen, hl,
      by rw [hl]; exact hpg, ?_, fun _ => ⟨old, by rw [hl]; exact hold, hnr⟩, ?_⟩
    · intro fuel
      rw [add_passes, hscan]
    · intro j hj
      obtain ⟨e, he1, he2, he3⟩ := hprev j hj
      exact ⟨e, he1, he2, fun _ => he3⟩
    · intro t ht hj
      refine hrest t (fun j hjk => ?_)
      rcases Nat.lt_or_ge j k with h | h
      · exact hj j h
      · have : j = k := by omega
        rw [this, ← hl]
        exact ht
  · subst hins
    have hv : (l1 + 1) % q.length = (l + 1) % q.length := by
      rw [hl, Nat.add_right_comm, Nat.add_mod_right]
    obtain ⟨e0, he0, hr0, hc0⟩ := hprev 0 hpos
    rw [Nat.add_zero] at he0 hc0
    have hlt : (l + 1) % q.length < q1.length := by
      rw [hlen]; exact Nat.mod_lt _ hpos
    obtain ⟨m, hm⟩ : ∃ m, q.length = m + 1 := ⟨q.length - 1, by omega⟩
    have hsecond : add_scan pg q.length q1 l1
        = (q1.set ((l1 + 1) % q.length) pg, (l1 + 1) % q.length, true) := by
      have := add_scan_head_clear pg m q1 l1 { e0 with referenced := false }
        (by rw [hlen, hv]; exact hc0) rfl
      rw [hlen, ← hm] at this
      exact this
    refine ⟨q1.set ((l1 + 1) % q.length) pg, (l1 + 1) % q.length, q.length, ?_,
      fun h => absurd h (by omega), fun _ => ⟨q1, l1, hscan, hlen, hsecond, rfl, rfl⟩,
      le_refl _, by rw [List.length_set, hlen], ?_, ?_, ?_, fun h => absurd h (by omega), ?_⟩
    · intro fuel
      rw [add_passes, hscan]
      simp only
      rw [add_passes, hlen, hsecond]
    · rw [hv, Nat.add_mod_right]
    · rw [hv]; exact List.getElem?_set_self hlt
    · intro j hj
      obtain ⟨e, he1, he2, he3⟩ := hprev j hj
      refine ⟨e, he1, he2, fun hne => ?_⟩
      rw [List.getElem?_set_ne (fun h => hne h.symm)]
      exact he3
    · intro t ht hj
      rw [List.getElem?_set_ne (fun h => ht h.symm)]
      exact hrest t hj

end clock_shadow_cell

namespace clock_shadow_cell

/-- C24: clock replacement.  A queue that is not full gets the page appended.  A full queue of
capacity at least 1 keeps its size and has exactly one entry overwritten with the page: with
`k` the number of entries the hand passes, starting after the cursor, the `k` entries passed
were all referenced, the entry the hand stops on is the first one in that order whose bit is
clear (or, after a whole revolution, the first entry scanned, whose bit the revolution has
cleared), the cursor is left on it, every other entry passed has only its referenced bit
cleared, and every entry not passed is unchanged. -/
theorem add_replaces_first_unreferenced (s : clock_shadow_cell) (pg : shadow_page) :
    (s.queue.length < s.capacity → s.add pg = some { s with queue := s.queue ++ [pg] }) ∧
    (s.capacity ≤ s.queue.length → 0 < s.capacity →
      ∃ s2 k, s.add pg = some s2 ∧ k ≤ s.queue.length ∧
        s2.queue.length = s.queue.length ∧ s2.capacity = s.capacity ∧
        s2.last_idx = (s.last_idx + 1 + k) % s.queue.length ∧
        s2.queue[s2.last_idx]? = some pg ∧
        (∀ j, j < k → ∃ e, s.queue[(s.last_idx + 1 + j) % s.queue.length]? = some e ∧
          e.referenced = true ∧
          ((s.last_idx + 1 + j) % s.queue.length ≠ s2.last_idx →
            s2.queue[(s.last_idx + 1 + j) % s.queue.length]?
              = some { e with referenced := false })) ∧
        (k < s.queue.length →
          ∃ old, s.queue[s2.last_idx]? = some old ∧ old.referenced = false) ∧
        (∀ t, t ≠ s2.last_idx → (∀ j, j < k → t ≠ (s.last_idx + 1 + j) % s.queue.length) →
          s2.queue[t]? = s.queue[t]?)) := by
  refine ⟨fun h => add_not_full pg h, fun hfull hcap => ?_⟩
  obtain ⟨q2, l2, k, hpass, _, _, hk, hlen, hl, hpg, hprev, hvictim, hrest⟩ :=
    add_passes_spec pg s.queue s.last_idx (by omega)
  refine ⟨{ s with queue := q2, last_idx := l2 }, k, ?_, hk, hlen, rfl, hl, hpg, hprev,
    hvictim, hrest⟩
  unfold add is_full
  rw [decide_eq_true hfull, if_pos rfl, hpass 0]

/-- C24, at a concrete input: the hand of the full cell passes the two referenced entries and
overwrites the third. -/
theorem add_replaces_first_unreferenced_witness :
    full_clock_cell.capacity ≤ full_clock_cell.queue.length ∧ 0 < full_clock_cell.capacity ∧
    full_clock_cell.add incoming_shadow_page
      = some { queue := [{ offset := 4096, hits := 1, referenced := false },
                         { offset := 8192, hits := 2, referenced := false },
                         incoming_shadow_page],
               last_idx := 2, capacity := 3 } ∧
    ∃ s2 k, full_clock_cell.add incoming_shadow_page = some s2 ∧
      k ≤ full_clock_cell.queue.length ∧
      s2.queue.length = full_clock_cell.queue.length ∧
      s2.capacity = full_clock_cell.capacity ∧
      s2.last_idx = (full_clock_cell.last_idx + 1 + k) % full_clock_cell.queue.length ∧
      s2.queue[s2.last_idx]? = some incoming_shadow_page ∧
      (∀ j, j < k → ∃ e,
        full_clock_cell.queue[
          (full_clock_cell.last_idx + 1 + j) % full_clock_cell.queue.length]? = some e ∧
        e.referenced = true ∧
        ((full_clock_cell.last_idx + 1 + j) % full_clock_cell.queue.length ≠ s2.last_idx →
          s2.queue[(full_clock_cell.last_idx + 1 + j) % full_clock_cell.queue.length]?
            = some { e with referenced := false })) ∧
      (k < full_clock_cell.queue.length →
        ∃ old, full_clock_cell.queue[s2.last_idx]? = some old ∧ old.referenced = false) ∧
      (∀ t, t ≠ s2.last_idx →
        (∀ j, j < k →
          t ≠ (full_clock_cell.last_idx + 1 + j) % full_clock_cell.queue.length) →
        s2.queue[t]? = full_clock_cell.queue[t]?) :=
  ⟨by decide, by decide, by decide,
    (add_replaces_first_unreferenced full_clock_cell incoming_shadow_page).2
      (by decide) (by decide)⟩

/-- C25: clock victim guarantee.  On a full queue of capacity at least 1, whatever the
referenced bits, `add` returns; the loop gives the same result whatever number of passes, two
or more, it is allowed; and a first pass that inserts nothing is followed by a pass that
overwrites the first entry it scans. -/
theorem add_terminates_within_two_passes (s : clock_shadow_cell) (pg : shadow_page)
    (hfull : s.capacity ≤ s.queue.length) (hcap : 0 < s.capacity) :
    (∃ s2, s.add pg = some s2) ∧
    (∃ r, ∀ fuel, 2 ≤ fuel → add_passes pg fuel s.queue s.last_idx = some r) ∧
    (∀ q1 l1, add_scan pg s.queue.length s.queue s.last_idx = (q1, l1, false) →
      add_scan pg q1.length q1 l1
        = (q1.set ((l1 + 1) % q1.length) pg, (l1 + 1) % q1.length, true)) := by
  obtain ⟨q2, l2, k, hpass, hone, htwo, hk, _⟩ :=
    add_passes_spec pg s.queue s.last_idx (by omega)
  refine ⟨⟨{ s with queue := q2, last_idx := l2 }, ?_⟩, ⟨(q2, l2), ?_⟩, ?_⟩
  · unfold add is_full
    rw [decide_eq_true hfull, if_pos rfl, hpass 0]
  · intro fuel hfuel
    obtain ⟨f, rfl⟩ : ∃ f, fuel = f + 2 := ⟨fuel - 2, by omega⟩
    exact hpass f
  · intro q1 l1 hscan
    rcases Nat.lt_or_ge k s.queue.length with h | h
    · rw [hone h] at hscan
      simp at hscan
    · obtain ⟨q1', l1', hs1, hlen1, hs2, _, _⟩ := htwo (by omega)
      rw [hs1] at hscan
      simp only [Prod.mk.injEq, and_true] at hscan
      obtain ⟨rfl, rfl⟩ := hscan
      rw [hlen1]
      exact hs2

/-- C25, at a concrete input: every entry of the cell is referenced, the first pass clears the
three bits and the second pass overwrites the entry after the cursor. -/
theorem add_terminates_within_two_passes_witness :
    all_referenced_clock_cell.capacity ≤ all_referenced_clock_cell.queue.length ∧
    0 < all_referenced_clock_cell.capacity ∧
    all_referenced_clock_cell.add incoming_shadow_page
      = some { queue := [{ offset := 4096, hits := 1, referenced := false },
                         { offset := 8192, hits := 2, referenced := false },
                         incoming_shadow_page],
               last_idx := 2, capacity := 3 } ∧
    ((∃ s2, all_referenced_clock_cell.add incoming_shadow_page = some s2) ∧
     (∃ r, ∀ fuel, 2 ≤ fuel →
        add_passes incoming_shadow_page fuel all_referenced_clock_cell.queue
          all_referenced_clock_cell.last_idx = some r) ∧
     (∀ q1 l1, add_scan incoming_shadow_page all_referenced_clock_cell.queue.length
          all_referenced_clock_cell.queue all_referenced_clock_cell.last_idx = (q1, l1, false) →
        add_scan incoming_shadow_page q1.length q1 l1
          = (q1.set ((l1 + 1) % q1.length) incoming_shadow_page, (l1 + 1) % q1.length, true))) :=
  ⟨by decide, by decide, by decide,
    add_terminates_within_two_passes all_referenced_clock_cell incoming_shadow_page
      (by decide) (by decide)⟩

end clock_shadow_cell

theorem pairwise_distinct_iff (xs : List Int) :
    xs.Pairwise (fun x y => x = y → x = unassigned) ↔
      ∀ (i j : Nat) (x y : Int), i < j → xs[i]? = some x → xs[j]? = some y → x = y →
        x = unassigned := by
  rw [List.pairwise_iff_getElem]
  constructor
  · intro h i j x y hij hx hy
    obtain ⟨hi, rfl⟩ := List.getElem?_eq_some_iff.mp hx
    obtain ⟨hj, rfl⟩ := List.getElem?_eq_some_iff.mp hy
    exact h i j hi hj hij
  · intro h i j hi hj hij
    exact h i j _ _ hij (List.getElem?_eq_getElem hi) (List.getElem?_eq_getElem hj)

theorem slots_kept_refl (xs : List Int) : slots_kept xs xs :=
  ⟨rfl, fun _ _ h => Or.inr h⟩

theorem slots_kept_of_eq {xs ys : List Int} (h : ys = xs) : slots_kept xs ys := by
  rw [h]; exact slots_kept_refl xs

theorem slots_kept_trans {xs ys zs : List Int} (h1 : slots_kept xs ys) (h2 : slots_kept ys zs) :
    slots_kept xs zs := by
  refine ⟨by rw [h2.1, h1.1], fun k z hz => ?_⟩
  rcases h2.2 k z hz with h | h
  · exact Or.inl h
  · exact h1.2 k z h

/-- Slots that keep their offset or lose it keep the assigned offsets pairwise distinct. -/
theorem pairwise_of_slots_kept {xs ys : List Int} (hk : slots_kept xs ys)
    (hd : xs.Pairwise (fun x y => x = y → x = unassigned)) :
    ys.Pairwise (fun x y => x = y → x = unassigned) := by
  rw [pairwise_distinct_iff] at hd ⊢
  intro i j x y hij hx hy hxy
  rcases hk.2 i x hx with h | h
  · exact h
  · rcases hk.2 j y hy with h2 | h2
    · rw [hxy]; exact h2
    · exact hd i j x y hij h h2 hxy

/-- Writing into one slot an offset that no slot holds keeps the assigned offsets pairwise
distinct. -/
theorem pairwise_set_new {xs : List Int} (i : Nat) (off : Int)
    (hno : ∀ (k : Nat), k ≠ i → xs[k]? ≠ some off)
    (hd : xs.Pairwise (fun x y => x = y → x = unassigned)) :
    (xs.set i off).Pairwise (fun x y => x = y → x = unassigned) := by
  rw [pairwise_distinct_iff] at hd ⊢
  intro a b x y hab hx hy hxy
  by_cases ha : a = i
  · subst ha
    have hb : a ≠ b := by omega
    rw [List.getElem?_set_ne hb] at hy
    have hxo : x = off := by
      have hlt : a < xs.length := by
        have := (List.getElem?_eq_some_iff.mp hx).1
        rwa [List.length_set] at this
      rw [List.getElem?_set_self hlt] at hx
      exact (Option.some.inj hx).symm
    exact absurd (by rw [hy, ← hxy, hxo]) (hno b (fun h => hb h.symm))
  · rw [List.getElem?_set_ne (fun h => ha h.symm)] at hx
    by_cases hb : b = i
    · subst hb
      have hyo : y = off := by
        have hlt : b < xs.length := by
          have := (List.getElem?_eq_some_iff.mp hy).1
          rwa [List.length_set] at this
        rw [List.getElem?_set_self hlt] at hy
        exact (Option.some.inj hy).symm
      exact absurd (by rw [hx, hxy, hyo]) (hno a ha)
    · rw [List.getElem?_set_ne (fun h => hb h.symm)] at hy
      exact hd a b x y hab hx hy hxy

theorem slot_offsets_getElem? (buf : List thread_safe_page) (k : Nat) :
    (slot_offsets buf)[k]? = (buf[k]?).map (fun p => p.offset) := by
  unfold slot_offsets
  rw [List.getElem?_map]

theorem slot_offsets_set (buf : List thread_safe_page) (i : Nat) (p : thread_safe_page) :
    slot_offsets (buf.set i p) = (slot_offsets buf).set i p.offset := by
  unfold slot_offsets
  rw [List.map_set]

theorem slot_offsets_set_same {buf : List thread_safe_page} {i : Nat} {p0 : thread_safe_page}
    (p : thread_safe_page) (h : buf[i]? = some p0) (ho : p.offset = p0.offset) :
    slot_offsets (buf.set i p) = slot_offsets buf := by
  rw [slot_offsets_set]
  apply List.ext_getElem?
  intro k
  by_cases hk : i = k
  · subst hk
    have hlt : i < (slot_offsets buf).length := by
      unfold slot_offsets
      rw [List.length_map]
      exact (List.getElem?_eq_some_iff.mp h).1
    rw [List.getElem?_set_self hlt, slot_offsets_getElem?, h, ho]
    rfl
  · rw [List.getElem?_set_ne hk]

namespace hash_cell

/-- Each slot of this cell after `rehash` holds a page with the offset the slot held, or a
page that the expanded cell held at a slot not yet filled. -/
theorem rehash_loop_positions (hash1 : Int → Int) (th eh : Int)
    (buf : List thread_safe_page) :
    ∀ (ebuf : List thread_safe_page) (j : Nat) (b e : List thread_safe_page),
      rehash_loop hash1 th eh buf ebuf j = some (b, e) →
      ∀ (k : Nat) (q : thread_safe_page), b[k]? = some q →
        (∃ p, buf[k]? = some p ∧ q.offset = p.offset) ∨ ∃ t, j ≤ t ∧ ebuf[t]? = some q := by
  induction buf with
  | nil =>
    intro ebuf j b e h k q hq
    simp only [rehash_loop, Option.some.injEq, Prod.mk.injEq] at h
    obtain ⟨rfl, rfl⟩ := h
    simp at hq
  | cons pg rest ih =>
    intro ebuf j b e h k q hq
    -- a slot that keeps a page with the offset of `pg`, followed by the visited rest
    have hkeep : ∀ (pg1 : thread_safe_page) (b1 e1 : List thread_safe_page),
        pg1.offset = pg.offset → rehash_loop hash1 th eh rest ebuf j = some (b1, e1) →
        b = pg1 :: b1 →
        (∃ p, (pg :: rest)[k]? = some p ∧ q.offset = p.offset) ∨
          ∃ t, j ≤ t ∧ ebuf[t]? = some q := by
      intro pg1 b1 e1 ho hrec hb
      subst hb
      cases k with
      | zero =>
        simp only [List.getElem?_cons_zero, Option.some.injEq] at hq
        subst hq
        exact Or.inl ⟨pg, List.getElem?_cons_zero, ho⟩
      | succ k =>
        rw [List.getElem?_cons_succ] at hq
        rcases ih _ _ _ _ hrec k q hq with h1 | h1
        · left; rw [List.getElem?_cons_succ]; exact h1
        · exact Or.inr h1
    unfold rehash_loop at h
    split at h
    · split at h
      · exact absurd h (by simp)
      · rename_i b1 e1 hrec
        simp only [Option.some.injEq, Prod.mk.injEq] at h
        exact hkeep (pg.set_hits 1) b1 e1 rfl hrec h.1.symm
    · split at h
      · split at h
        · exact absurd h (by simp)
        · rename_i epg hepg
          split at h
          · split at h
            · exact absurd h (by simp)
            · rename_i b1 e1 hrec
              simp only [Option.some.injEq, Prod.mk.injEq] at h
              exact hkeep _ b1 e1 rfl hrec h.1.symm
          · split at h
            · exact absurd h (by simp)
            · split at h
              · exact absurd h (by simp)
              · rename_i b1 e1 hrec
                simp only [Option.some.injEq, Prod.mk.injEq] at h
                obtain ⟨rfl, _⟩ := h
                cases k with
                | zero =>
                  simp only [List.getElem?_cons_zero, Option.some.injEq] at hq
                  subst hq
                  exact Or.inr ⟨j, le_refl _, hepg⟩
                | succ k =>
                  rw [List.getElem?_cons_succ] at hq
                  rcases ih _ _ _ _ hrec k q hq with h1 | ⟨t, ht, h1⟩
                  · left; rw [List.getElem?_cons_succ]; exact h1
                  · right
                    refine ⟨t, by omega, ?_⟩
                    rw [List.getElem?_set_ne (by omega)] at h1
                    exact h1
      · split at h
        · exact absurd h (by simp)
        · rename_i b1 e1 hrec
          simp only [Option.some.injEq, Prod.mk.injEq] at h
          exact hkeep _ b1 e1 rfl hrec h.1.symm

end hash_cell

namespace associative_cache

theorem slots_kept_of_pages {buf b : List thread_safe_page} (hlen : b.length = buf.length)
    (h : ∀ (k : Nat) (q : thread_safe_page), b[k]? = some q →
      q.offset = unassigned ∨ ∃ p, buf[k]? = some p ∧ q.offset = p.offset) :
    slots_kept (slot_offsets buf) (slot_offsets b) := by
  refine ⟨by unfold slot_offsets; rw [List.length_map, List.length_map, hlen], ?_⟩
  intro k y hy
  rw [slot_offsets_getElem?, Option.map_eq_some'] at hy
  obtain ⟨q, hq, rfl⟩ := hy
  rcases h k q hq with h1 | ⟨p, hp, hpo⟩
  · exact Or.inl h1
  · right
    rw [slot_offsets_getElem?, hp, hpo]
    rfl

/-- A call of `expand` leaves in every slot of a cell of the logical cell space a page with
the offset the slot held or a page without an assigned offset, when the spare cells hold no
assigned offset. -/
theorem expand_slots {C : associative_cache} {g0 : Nat} {b : Bool} {C2 : associative_cache}
    {g : Nat} {c : hash_cell} (hg : g < C.size) (hn : g / C.init_ncells < C.ncells)
    (hs : spare_cells_unassigned C) (hc : C.get_cell g = some c)
    (h : C.expand g0 = some (b, C2)) :
    ∃ c2, C2.get_cell g = some c2 ∧ slots_kept (slot_offsets c.buf) (slot_offsets c2.buf) := by
  unfold expand at h
  split at h
  · simp only [Option.some.injEq, Prod.mk.injEq] at h
    obtain ⟨_, rfl⟩ := h
    exact ⟨c, hc, slots_kept_refl _⟩
  · split at h
    · exact absurd h (by simp)
    · have hspare : ∀ j cj, 2 ^ C.level * C.init_ncells + C.split ≤ j →
          C.get_cell j = some cj → ∀ p ∈ cj.buf, p.offset = unassigned :=
        fun j cj hj hcj p hp => hs j (get_cell_lt hcj) hj cj hcj p hp
      refine expand_loop_induct g0 (2 ^ C.level * C.init_ncells)
        (fun D => g < 2 ^ C.level * C.init_ncells + D.split ∧ g / D.init_ncells < D.ncells ∧
          (∀ j cj, 2 ^ C.level * C.init_ncells + D.split ≤ j → D.get_cell j = some cj →
            ∀ p ∈ cj.buf, p.offset = unassigned) ∧
          ∃ c2, D.get_cell g = some c2 ∧ slots_kept (slot_offsets c.buf) (slot_offsets c2.buf))
        (fun D => ∃ c2, D.get_cell g = some c2 ∧
          slots_kept (slot_offsets c.buf) (slot_offsets c2.buf))
        ?_ ?_ ?_ (C.cells_table.length * C.init_ncells + 1) { C with expanding := true }
        b C2 ⟨hg, hn, hspare, c, hc, slots_kept_refl _⟩ h
      · intro D D1 ⟨_, hn1, _, hp1⟩ hgrow
        obtain ⟨_, _, _, _, _, _, _, _, hget, _⟩ := grow_spec hgrow
        rw [hget g hn1]
        exact hp1
      · intro D ⟨_, _, _, hp1⟩
        exact hp1
      · intro D cell D1 e c2 e2 ⟨hlt, hn1, hsp, cg, hcg, hkept⟩ hcell hgrow he hre
        obtain ⟨hinit, hsplit, _, hnc, _, _, _, _, hget, _⟩ := grow_spec hgrow
        have hc1 : D1.get_cell g = some cg := by rw [hget g hn1]; exact hcg
        have hne : D1.split + 2 ^ C.level * C.init_ncells ≠ g := by rw [hsplit]; omega
        -- the spare cells after the directory has grown
        have hsp1 : ∀ j cj, 2 ^ C.level * C.init_ncells + D.split ≤ j →
            D1.get_cell j = some cj → ∀ p ∈ cj.buf, p.offset = unassigned := by
          intro j cj hj hcj p hp
          rcases grow_cells hgrow j cj hcj with h1 | ⟨_, _, _, h1⟩
          · exact hsp j cj hj h1 p hp
          · obtain ⟨d, rfl⟩ := h1 p hp
            rfl
        have hfree : ∀ p ∈ e.buf, p.offset = unassigned :=
          hsp1 _ e (by rw [hsplit]; omega) he
        have hcellg : ∃ c3, ((D1.set_cell D1.split c2).set_cell
            (D1.split + 2 ^ C.level * C.init_ncells) e2).get_cell g = some c3 ∧
            slots_kept (slot_offsets c.buf) (slot_offsets c3.buf) := by
          rw [get_cell_set_cell_ne _ _ hne]
          by_cases hgs : D1.split = g
          · rw [hgs, get_cell_set_cell_self hc1]
            rw [hsplit] at hgs
            rw [hgs, hcg] at hcell
            simp only [Option.some.injEq] at hcell
            subst hcell
            obtain ⟨bb, eb, hl, rfl, _⟩ := hash_cell.rehash_some hre
            obtain ⟨hlen, _⟩ := hash_cell.rehash_loop_spec _ _ _ _ _ _ _ _ hl
            refine ⟨_, rfl, slots_kept_trans hkept (slots_kept_of_pages hlen ?_)⟩
            intro k q hq
            rcases hash_cell.rehash_loop_positions _ _ _ _ _ _ _ _ hl k q hq with h1 | ⟨t, _, h1⟩
            · exact Or.inr h1
            · exact Or.inl (hfree q (List.getElem?_mem h1))
          · rw [get_cell_set_cell_ne _ _ hgs]
            exact ⟨cg, hc1, hkept⟩
        refine ⟨⟨?_, ?_, ?_, hcellg⟩, hcellg⟩
        · simp only [set_cell_split]
          rw [hsplit]; omega
        · simp only [set_cell_init_ncells, set_cell_ncells]
          rw [hinit]; omega
        · intro j cj hj hcj
          simp only [set_cell_split] at hj
          rw [hsplit] at hj
          have hcj1 : ((D1.set_cell D1.split c2).set_cell
              (D1.split + 2 ^ C.level * C.init_ncells) e2).get_cell j = some cj := hcj
          rw [get_cell_set_cell_ne _ _ (by rw [hsplit]; omega),
            get_cell_set_cell_ne _ _ (by rw [hsplit]; omega)] at hcj1
          exact hsp1 j cj (by omega) hcj1

end associative_cache

namespace hash_cell

/-- The cell in which `select_victim` ends holds in every slot the offset the slot held or
no offset, when the call of `expand` that the selection may run does so. -/
theorem select_victim_slots {C : associative_cache} {g : Nat} {c : hash_cell}
    (hc : C.get_cell g = some c)
    (hexp : ∀ m k b C2, scan c.buf 0 0x7fffffff none = (m, some k) → m ≠ 0 →
      ((C.set_cell g { c with overflow := true }).size : Int) <
        (C.set_cell g { c with overflow := true }).manager.average_cache_size →
      (C.set_cell g { c with overflow := true }).expand g = some (b, C2) →
      ∃ c2, C2.get_cell g = some c2 ∧ slots_kept (slot_offsets c.buf) (slot_offsets c2.buf))
    (C2 : associative_cache) (h : (select_victim C g).cache = some C2) :
    ∃ c2, C2.get_cell g = some c2 ∧ slots_kept (slot_offsets c.buf) (slot_offsets c2.buf) := by
  have hset : (C.set_cell g { c with overflow := true }).get_cell g
      = some { c with overflow := true } := associative_cache.get_cell_set_cell_self hc _
  rw [select_victim, hc] at h
  simp only at h
  obtain ⟨m, r, hs⟩ : ∃ m r, scan c.buf 0 0x7fffffff none = (m, r) := ⟨_, _, rfl⟩
  rw [hs] at h
  cases r with
  | none => simp [Outcome.cache] at h
  | some i =>
    simp only at h
    by_cases hm : m ≠ 0
    · rw [if_pos hm] at h
      by_cases hsz : ((C.set_cell g { c with overflow := true }).size : Int) <
          (C.set_cell g { c with overflow := true }).manager.average_cache_size
      · rw [if_pos hsz] at h
        cases hex : (C.set_cell g { c with overflow := true }).expand g with
        | none => rw [hex] at h; simp [Outcome.cache] at h
        | some r =>
          obtain ⟨b, C3⟩ := r
          obtain ⟨c3, hc3, hk3⟩ := hexp m i b C3 hs hm hsz hex
          rw [hex] at h
          cases b with
          | true =>
            simp only [Outcome.cache, Option.some.injEq] at h
            subst h
            exact ⟨c3, hc3, hk3⟩
          | false =>
            simp only [hc3] at h
            obtain ⟨m2, r2, hs2⟩ : ∃ m2 r2, scan c3.buf 0 0x7fffffff (some i) = (m2, r2) :=
              ⟨_, _, rfl⟩
            rw [hs2] at h
            cases r2 with
            | none => simp [Outcome.cache] at h
            | some i2 =>
              simp only at h
              by_cases hm2 : m2 ≠ 0
              · rw [if_pos hm2] at h
                simp only [Outcome.cache, Option.some.injEq] at h
                subst h
                exact ⟨_, associative_cache.get_cell_set_cell_self hc3 _, hk3⟩
              · rw [if_neg hm2] at h
                simp only [Outcome.cache, Option.some.injEq] at h
                subst h
                exact ⟨c3, hc3, hk3⟩
      · rw [if_neg hsz] at h
        simp only [Outcome.cache, Option.some.injEq] at h
        subst h
        exact ⟨_, hset, slots_kept_refl _⟩
    · rw [if_neg hm] at h
      simp only [Outcome.cache, Option.some.injEq] at h
      subst h
      exact ⟨c, hc, slots_kept_refl _⟩

end hash_cell

namespace hash_cell

theorem evict_slots {u : Bool} {c c1 : hash_cell} {i : Nat} (h : evict u c i = some c1) :
    slot_offsets c1.buf = slot_offsets c.buf ∧ i < c.buf.length := by
  obtain ⟨p0, hp0, hbuf, _⟩ := evict_some h
  rw [hbuf]
  exact ⟨slot_offsets_set_same _ hp0 rfl, (List.getElem?_eq_some_iff.mp hp0).1⟩

theorem reassign_slots {u : Bool} {c c1 : hash_cell} {i : Nat} {off ev : Int}
    (h : reassign u c i off = some (ev, c1)) :
    slot_offsets c1.buf = (slot_offsets c.buf).set i off := by
  obtain ⟨p0, hp0, _, hc1⟩ := reassign_some h
  rcases hc1 with ⟨_, rfl⟩ | ⟨_, rfl⟩
  · show slot_offsets (c.buf.set i _) = _
    rw [slot_offsets_set]
    congr 1
    split <;> rfl
  · show slot_offsets (c.buf.set i _) = _
    rw [slot_offsets_set]
    rfl

theorem pin_slots {c c1 : hash_cell} {i : Nat} (h : pin c i = some c1) :
    slot_offsets c1.buf = slot_offsets c.buf := by
  obtain ⟨p0, hp0, rfl⟩ := pin_some h
  exact slot_offsets_set_same _ hp0 rfl

theorem record_hit_slots {c c1 : hash_cell} {i : Nat} (h : record_hit c i = some c1) :
    slot_offsets c1.buf = slot_offsets c.buf := by
  obtain ⟨p0, hp0, rfl⟩ := record_hit_some h
  exact slot_offsets_set_same _ hp0 rfl

theorem age_slots {u : Bool} {c c1 : hash_cell} {i : Nat} (h : age u c i = some c1) :
    slot_offsets c1.buf = slot_offsets c.buf := by
  obtain ⟨p0, _, hc1⟩ := age_some h
  rcases hc1 with ⟨_, rfl⟩ | ⟨_, rfl⟩
  · simp [slot_offsets, page_cell_scale_down_hits, thread_safe_page.set_hits]
  · rfl

/-- A lookup that hits does not end with `expand_exception`. -/
theorem search_hit_not_thrown {C : associative_cache} {g : Nat} {off old : Int}
    {c : hash_cell} {i : Nat} (hc : C.get_cell g = some c)
    (hf : find_offset off c.buf 0 = some i) (C2 : associative_cache) :
    search C g off old ≠ Outcome.expand_exception C2 := by
  intro h
  have h1 := search_thrown h
  have h2 := (get_empty_page_thrown_iff C g C2).mpr h1
  have h3 : search_pinned C g off old = Outcome.expand_exception C2 := by
    unfold search at h
    split at h
    · split at h
      · exact absurd h (by simp)
      · split at h
        · exact absurd h (by simp)
        · split at h <;> exact absurd h (by simp)
    · rename_i C3 hp
      simp only [Outcome.expand_exception.injEq] at h
      subst h
      exact hp
    · exact absurd h (by simp)
    · exact absurd h (by simp)
  rw [search_pinned, hc] at h3
  simp only [hf] at h3
  split at h3 <;> exact absurd h3 (by simp)

end hash_cell

namespace hash_cell

/-- The call of `expand` that a victim selection may run keeps or clears the offset of every
slot of the cell, when no expansion is run or when the cell lies in the logical cell space
and the spare cells hold no assigned offset. -/
theorem expansion_keeps_slots {C : associative_cache} {g : Nat} {off : Int} {c : hash_cell}
    (hc : C.get_cell g = some c) (hf : find_offset off c.buf 0 = none)
    (hinv : runs_expansion C g off = false ∨
      (g < C.size ∧ g / C.init_ncells < C.ncells ∧ spare_cells_unassigned C)) :
    ∀ m k b C2, scan c.buf 0 0x7fffffff none = (m, some k) → m ≠ 0 →
      ((C.set_cell g { c with overflow := true }).size : Int) <
        (C.set_cell g { c with overflow := true }).manager.average_cache_size →
      (C.set_cell g { c with overflow := true }).expand g = some (b, C2) →
      ∃ c2, C2.get_cell g = some c2 ∧
        slots_kept (slot_offsets c.buf) (slot_offsets c2.buf) := by
  intro m k b C2 hs hm hsz hex
  have hset : (C.set_cell g { c with overflow := true }).get_cell g
      = some { c with overflow := true } := associative_cache.get_cell_set_cell_self hc _
  rcases hinv with hno | ⟨hg, hn, hsp⟩
  · rw [associative_cache.set_cell_size, associative_cache.set_cell_manager] at hsz
    rcases runs_expansion_false hc hf hno m k hs with h0 | h0 | h0
    · exact absurd h0 hm
    · exact absurd hsz h0
    · unfold associative_cache.expand at hex
      rw [associative_cache.set_cell_expanding, h0, if_pos rfl] at hex
      simp only [Option.some.injEq, Prod.mk.injEq] at hex
      obtain ⟨_, rfl⟩ := hex
      exact ⟨_, hset, slots_kept_refl _⟩
  · refine associative_cache.expand_slots (c := { c with overflow := true })
      (by rw [associative_cache.set_cell_size]; exact hg)
      (by rw [associative_cache.set_cell_init_ncells, associative_cache.set_cell_ncells]
          exact hn) ?_ hset hex
    intro j hj hsize c1 hc1
    rw [associative_cache.set_cell_size] at hsize
    rw [associative_cache.set_cell_length, associative_cache.set_cell_init_ncells] at hj
    have hc2 : (C.set_cell g { c with overflow := true }).get_cell j = some c1 := hc1
    rw [associative_cache.get_cell_set_cell_ne _ _ (by omega)] at hc2
    exact hsp j hj hsize c1 hc2

/-- C30: distinct identities.  When the assigned offsets of the pages of the cell are pairwise
distinct and `search(off, old_off)` is called with `off` assigned, they are pairwise distinct
in the cell as the call leaves it, whether it returns or throws `expand_exception`; when it
returns slot `i`, that slot holds `off` and no other slot does.  This holds when the call
runs no expansion, and, when it does, provided that the cell is one of the `size()` cells of
the logical cell space, in a published chunk, and the cells past the logical cell space hold
no assigned offset. -/
theorem search_keeps_identities_distinct (C : associative_cache) (g : Nat) (off old_off : Int)
    (c : hash_cell) (hc : C.get_cell g = some c) (hoff : off ≠ unassigned)
    (hd : distinct_identities c.buf)
    (hinv : runs_expansion C g off = false ∨
      (g < C.size ∧ g / C.init_ncells < C.ncells ∧ spare_cells_unassigned C))
    (C2 : associative_cache) (h : (search C g off old_off).cache = some C2) :
    ∃ c2, C2.get_cell g = some c2 ∧ distinct_identities c2.buf ∧
      ∀ i ev, search C g off old_off = Outcome.returned (i, ev) C2 →
        (slot_offsets c2.buf)[i]? = some off ∧
        ∀ k, k ≠ i → (slot_offsets c2.buf)[k]? ≠ some off := by
  unfold distinct_identities at hd ⊢
  cases hsr : search C g off old_off with
  | returned r C3 =>
    obtain ⟨i, ev⟩ := r
    rw [hsr] at h
    simp only [Outcome.cache, Option.some.injEq] at h
    subst h
    obtain ⟨C1, c1, ca, c3, hsp, hc1, hage, hrec, rfl⟩ := search_returned hsr
    have htail : slot_offsets c3.buf = slot_offsets c1.buf := by
      rw [record_hit_slots hrec, age_slots hage]
    obtain ⟨c', hc', hcase⟩ := search_pinned_returned hsp
    rw [hc] at hc'
    simp only [Option.some.injEq] at hc'
    subst hc'
    refine ⟨c3, associative_cache.get_cell_set_cell_self hc1 _, ?_⟩
    rcases hcase with ⟨hf, _, cp, hpin, rfl⟩ | ⟨hf, Cx, cx, cr, cp, hge, hcx, hre, hpin, rfl⟩
    · -- a hit
      rw [associative_cache.get_cell_set_cell_self hc] at hc1
      simp only [Option.some.injEq] at hc1
      subst hc1
      have hall : slot_offsets c3.buf = slot_offsets c.buf := by
        rw [htail, pin_slots hpin]
      rw [hall]
      refine ⟨hd, ?_⟩
      intro i2 ev2 hret
      simp only [Outcome.returned.injEq, Prod.mk.injEq] at hret
      obtain ⟨⟨rfl, _⟩, _⟩ := hret
      obtain ⟨k0, p, hik, hp, hpo, _⟩ := find_offset_some off c.buf 0 i hf
      rw [Nat.zero_add] at hik
      subst hik
      have hi : (slot_offsets c.buf)[i]? = some off := by
        rw [slot_offsets_getElem?, hp]
        exact congrArg some hpo
      refine ⟨hi, fun k hk hko => ?_⟩
      rw [pairwise_distinct_iff] at hd
      rcases Nat.lt_or_gt_of_ne hk with hlt | hlt
      · exact hoff (hd k i off off hlt hko hi rfl)
      · exact hoff (hd i k off off hlt hi hko rfl)
    · -- a miss
      obtain ⟨Cs, cs, ce, hsel, hcs, hev, rfl⟩ := get_empty_page_returned hge
      rw [associative_cache.get_cell_set_cell_self hcs] at hcx
      simp only [Option.some.injEq] at hcx
      subst hcx
      rw [associative_cache.get_cell_set_cell_self
        (associative_cache.get_cell_set_cell_self hcs _)] at hc1
      simp only [Option.some.injEq] at hc1
      subst hc1
      obtain ⟨cs', hcs', hkept⟩ := select_victim_slots hc (expansion_keeps_slots hc hf hinv) Cs
        (by rw [hsel]; rfl)
      rw [hcs] at hcs'
      simp only [Option.some.injEq] at hcs'
      subst hcs'
      obtain ⟨hev1, hilt⟩ := evict_slots hev
      have hall : slot_offsets c3.buf = (slot_offsets cs.buf).set i off := by
        rw [htail, pin_slots hpin, reassign_slots hre, hev1]
      have hno : ∀ (k : Nat), k ≠ i → (slot_offsets cs.buf)[k]? ≠ some off := by
        intro k _ hk
        rcases hkept.2 k off hk with h1 | h1
        · exact hoff h1
        · rw [slot_offsets_getElem?, Option.map_eq_some'] at h1
          obtain ⟨p, hp, hpo⟩ := h1
          exact find_offset_none off c.buf 0 hf k p hp hpo
      rw [hall]
      refine ⟨pairwise_set_new i off hno (pairwise_of_slots_kept hkept hd), ?_⟩
      intro i2 ev2 hret
      simp only [Outcome.returned.injEq, Prod.mk.injEq] at hret
      obtain ⟨⟨rfl, _⟩, _⟩ := hret
      refine ⟨?_, fun k hk => ?_⟩
      · rw [List.getElem?_set_self (by unfold slot_offsets; rw [List.length_map]; exact hilt)]
      · rw [List.getElem?_set_ne (fun h => hk h.symm)]
        exact hno k hk
  | expand_exception C3 =>
    rw [hsr] at h
    simp only [Outcome.cache, Option.some.injEq] at h
    subst h
    have hsel := search_thrown hsr
    have hf : find_offset off c.buf 0 = none := by
      cases hfo : find_offset off c.buf 0 with
      | none => rfl
      | some i0 => exact absurd hsr (search_hit_not_thrown hc hfo C3)
    obtain ⟨c2, hc2, hkept⟩ := select_victim_slots hc (expansion_keeps_slots hc hf hinv) C3
      (by rw [hsel]; rfl)
    exact ⟨c2, hc2, pairwise_of_slots_kept hkept hd, fun i ev hret => by simp at hret⟩
  | spins => rw [hsr] at h; simp [Outcome.cache] at h
  | fault => rw [hsr] at h; simp [Outcome.cache] at h

end hash_cell

namespace hash_cell

/-- C30, at a concrete input: the lookup of the offset 32768 in the cell 0 of `crowded_cache`
misses and runs an expansion that splits the cell before it fails; the offsets 32768 and
16384 that the cell holds afterwards are distinct. -/
theorem search_keeps_identities_distinct_witness :
    crowded_cache.get_cell 0 = some crowded_cell ∧ (32768 : Int) ≠ unassigned ∧
    distinct_identities crowded_cell.buf ∧
    runs_expansion crowded_cache 0 32768 = true ∧
    (0 < crowded_cache.size ∧ 0 / crowded_cache.init_ncells < crowded_cache.ncells ∧
      spare_cells_unassigned crowded_cache) ∧
    search crowded_cache 0 32768 unassigned = Outcome.returned (0, unassigned) crowded_cache_after ∧
    ∃ c2, crowded_cache_after.get_cell 0 = some c2 ∧ distinct_identities c2.buf ∧
      ∀ i ev, search crowded_cache 0 32768 unassigned
          = Outcome.returned (i, ev) crowded_cache_after →
        (slot_offsets c2.buf)[i]? = some 32768 ∧
        ∀ k, k ≠ i → (slot_offsets c2.buf)[k]? ≠ some 32768 :=
  ⟨by decide, by decide, by unfold distinct_identities; decide, by decide,
    ⟨by decide, by decide, by unfold spare_cells_unassigned; decide⟩, by decide,
    search_keeps_identities_distinct crowded_cache 0 32768 unassigned crowded_cell
      (by decide) (by decide) (by unfold distinct_identities; decide)
      (Or.inr ⟨by decide, by decide, by unfold spare_cells_unassigned; decide⟩)
      crowded_cache_after (by decide)⟩

end hash_cell

namespace hash_cell

/-- C29, at a concrete input: on `scanned_buffer` both scans select slot 3, the first free
slot of hits 0, and slot 3 is the lowest-index slot of least hits among the free ones. -/
theorem scan_short_circuit_equivalent_witness :
    (∀ p ∈ scanned_buffer, p.hits < 0x7fffffff) ∧
    scan scanned_buffer 0 0x7fffffff none = (0, some 3) ∧
    scan scanned_buffer 0 0x7fffffff none = exhaustive_scan scanned_buffer 0 0x7fffffff none ∧
    ((exhaustive_scan scanned_buffer 0 0x7fffffff none).2 = some 3 ↔
      ∃ q, scanned_buffer[3]? = some q ∧ q.ref = 0 ∧
        ∀ (j : Nat) (p : thread_safe_page), scanned_buffer[j]? = some p → p.ref = 0 →
          q.hits ≤ p.hits ∧ (p.hits = q.hits → 3 ≤ j)) :=
  ⟨by decide, by decide, scan_short_circuit_equivalent.1 scanned_buffer 0 0x7fffffff none,
    scan_short_circuit_equivalent.2 scanned_buffer 3 (by decide)⟩

end hash_cell

/-- C1: whenever `hash_cell::search(off, old_off)` returns a page, the offset of that page is
`off`; and if a slot of the cell already held `off` before the call, the returned page is the
lowest-index such slot and the call changes the offset of no slot.  The call does return a
page of offset `off`: on a hit, the page of the lowest-index slot holding `off`; on a miss, as
soon as `get_empty_page` returns a victim, that victim, whose offset the call has set to
`off`. -/
theorem search_returns_page_of_offset (C : associative_cache) (g : Nat) (off old : Int) :
    (∀ (i : Nat) (ev : Int) (C2 : associative_cache),
      hash_cell.search C g off old = Outcome.returned (i, ev) C2 →
      (∃ c2 p2, C2.get_cell g = some c2 ∧ c2.buf[i]? = some p2 ∧ p2.offset = off) ∧
      (∀ (c : hash_cell) (k : Nat) (p : thread_safe_page),
        C.get_cell g = some c → c.buf[k]? = some p → p.offset = off →
          (∃ q, c.buf[i]? = some q ∧ q.offset = off) ∧
          (∀ (j : Nat) (q : thread_safe_page), j < i → c.buf[j]? = some q → q.offset ≠ off) ∧
          (∃ c2, C2.get_cell g = some c2 ∧
            c2.buf.map (fun q => q.offset) = c.buf.map (fun q => q.offset)))) ∧
    (∀ (c : hash_cell) (i : Nat), C.get_cell g = some c →
      hash_cell.find_offset off c.buf 0 = some i →
      ∃ C2 c2 p2, hash_cell.search C g off old = Outcome.returned (i, old) C2 ∧
        C2.get_cell g = some c2 ∧ c2.buf[i]? = some p2 ∧ p2.offset = off) ∧
    (∀ (c : hash_cell) (i : Nat) (Cg : associative_cache), C.get_cell g = some c →
      hash_cell.find_offset off c.buf 0 = none →
      hash_cell.get_empty_page C g = Outcome.returned i Cg →
      ∃ ev C2 c2 p2, hash_cell.search C g off old = Outcome.returned (i, ev) C2 ∧
        C2.get_cell g = some c2 ∧ c2.buf[i]? = some p2 ∧ p2.offset = off) := by
  refine ⟨fun i ev C2 h => search_returned_offset C g off old i ev C2 h, ?_, ?_⟩
  · intro c i hc hf
    obtain ⟨C2, h⟩ := hash_cell.search_hit_returns hc hf old
    obtain ⟨c2, p2, h1, h2, h3⟩ := (search_returned_offset C g off old i old C2 h).1
    exact ⟨C2, c2, p2, h, h1, h2, h3⟩
  · intro c i Cg hc hf hg
    obtain ⟨ev, C2, h⟩ := hash_cell.search_miss_returns hc hf hg old
    obtain ⟨c2, p2, h1, h2, h3⟩ := (search_returned_offset C g off old i ev C2 h).1
    exact ⟨ev, C2, c2, p2, h, h1, h2, h3⟩

/-- C1, at a concrete input: a miss on offset 12288 in `two_page_cache_after_hit`, whose slot 1
is in use: `get_empty_page` takes slot 0, which held offset 4096, and the page returned holds
offset 12288. -/
theorem search_returns_page_of_offset_witness :
    two_page_cache_after_hit.get_cell 0
      = some (sample_cell 0 false [sample_page 4096 1 0, sample_page 8192 4 1] []) ∧
    hash_cell.find_offset 12288
      (sample_cell 0 false [sample_page 4096 1 0, sample_page 8192 4 1] []).buf 0 = none ∧
    hash_cell.get_empty_page two_page_cache_after_hit 0
      = Outcome.returned 0 (sample_cache (sample_cell 0 true
          [{ sample_page 4096 0 0 with data_ready := false }, sample_page 8192 4 1]
          [{ offset := 4096, hits := 1, referenced := false }])) ∧
    hash_cell.search two_page_cache_after_hit 0 12288 (-1)
      = Outcome.returned (0, 4096) two_page_cache_after_hit_miss ∧
    (∃ c2 p2, two_page_cache_after_hit_miss.get_cell 0 = some c2 ∧
      c2.buf[0]? = some p2 ∧ p2.offset = 12288) ∧
    (∃ ev C2 c2 p2, hash_cell.search two_page_cache_after_hit 0 12288 (-1)
        = Outcome.returned (0, ev) C2 ∧
      C2.get_cell 0 = some c2 ∧ c2.buf[0]? = some p2 ∧ p2.offset = 12288) :=
  ⟨by decide, by decide, by decide, by decide,
    ((search_returns_page_of_offset two_page_cache_after_hit 0 12288 (-1)).1 0 4096
      two_page_cache_after_hit_miss (by decide)).1,
    (search_returns_page_of_offset two_page_cache_after_hit 0 12288 (-1)).2.2
      (sample_cell 0 false [sample_page 4096 1 0, sample_page 8192 4 1] []) 0
      (sample_cache (sample_cell 0 true
          [{ sample_page 4096 0 0 with data_ready := false }, sample_page 8192 4 1]
          [{ offset := 4096, hits := 1, referenced := false }]))
      (by decide) (by decide) (by decide)⟩

namespace associative_cache

/-- A manager with pages for `n` more cells builds a chunk of `n` cells. -/
theorem alloc_cells_answers (cs ns : Nat) :
    ∀ (n : Nat) (m : memory_manager) (first : Int) (rest : List Bool),
      m.answers = List.replicate n true ++ rest →
      ∃ m1 cells, alloc_cells cs ns n m first = (m1, some cells) ∧ m1.answers = rest := by
  intro n
  induction n with
  | zero =>
    intro m first rest h
    exact ⟨m, [], rfl, by simpa using h⟩
  | succ n ih =>
    intro m first rest h
    rw [List.replicate_succ, List.cons_append] at h
    have hc : hash_cell.create m cs ns first
        = ({ m with answers := List.replicate n true ++ rest, next_buf := m.next_buf + cs },
            some { hash := first, overflow := false,
                   buf := ((List.range cs).map (fun k => m.next_buf + k)).map
                     thread_safe_page.fresh,
                   shadow := clock_shadow_cell.empty ns }) := by
      unfold hash_cell.create memory_manager.get_free_pages
      rw [h]
    obtain ⟨m1, cells, hrec, hans⟩ := ih
      { m with answers := List.replicate n true ++ rest, next_buf := m.next_buf + cs }
      (first + 1) rest rfl
    refine ⟨m1, { hash := first, overflow := false,
                  buf := ((List.range cs).map (fun k => m.next_buf + k)).map
                    thread_safe_page.fresh,
                  shadow := clock_shadow_cell.empty ns } :: cells, ?_, hans⟩
    rw [alloc_cells, hc]
    simp only
    rw [hrec]

/-- A manager that runs out of pages before the `n` cells of a chunk are built makes the
construction of the chunk fail. -/
theorem alloc_cells_fails (cs ns : Nat) :
    ∀ (n : Nat) (m : memory_manager) (first : Int) (t : Nat) (tail : List Bool), t < n →
      m.answers = List.replicate t true ++ tail →
      (tail = [] ∨ ∃ rest, tail = false :: rest) →
      ∃ m1, alloc_cells cs ns n m first = (m1, none) := by
  intro n
  induction n with
  | zero => intro m first t tail ht; omega
  | succ n ih =>
    intro m first t tail ht h htail
    cases t with
    | zero =>
      rw [List.replicate_zero, List.nil_append] at h
      rcases htail with rfl | ⟨rest, rfl⟩
      · refine ⟨m, ?_⟩
        rw [alloc_cells]
        unfold hash_cell.create memory_manager.get_free_pages
        rw [h]
      · refine ⟨{ m with answers := rest }, ?_⟩
        rw [alloc_cells]
        unfold hash_cell.create memory_manager.get_free_pages
        rw [h]
    | succ t =>
      rw [List.replicate_succ, List.cons_append] at h
      have hc : hash_cell.create m cs ns first
          = ({ m with answers := List.replicate t true ++ tail, next_buf := m.next_buf + cs },
              some { hash := first, overflow := false,
                     buf := ((List.range cs).map (fun k => m.next_buf + k)).map
                       thread_safe_page.fresh,
                     shadow := clock_shadow_cell.empty ns }) := by
        unfold hash_cell.create memory_manager.get_free_pages
        rw [h]
      obtain ⟨m1, hrec⟩ := ih
        { m with answers := List.replicate t true ++ tail, next_buf := m.next_buf + cs }
        (first + 1) t tail (by omega) rfl htail
      refine ⟨m1, ?_⟩
      rw [alloc_cells, hc]
      simp only
      rw [hrec]

/-- A manager with pages for `b` whole chunks and `t` more cells, `t` below the number of
cells of a chunk, makes the allocation loop end with `out_of_memory` and exactly `b` chunks
built, when more than `b` chunks are needed. -/
theorem alloc_chunks_answers (cs ns init : Nat) :
    ∀ (b count i : Nat) (m : memory_manager) (t : Nat) (tail : List Bool),
      b < count → t < init →
      m.answers = List.replicate (b * init + t) true ++ tail →
      (tail = [] ∨ ∃ rest, tail = false :: rest) →
      ∃ m1 table, alloc_chunks cs ns init count i m = (m1, table, true) ∧
        table.length = b := by
  intro b
  induction b with
  | zero =>
    intro count i m t tail hb ht h htail
    obtain ⟨count, rfl⟩ : ∃ c, count = c + 1 := ⟨count - 1, by omega⟩
    rw [Nat.zero_mul, Nat.zero_add] at h
    obtain ⟨m1, hf⟩ := alloc_cells_fails cs ns init m ((i * init : Nat) : Int) t tail ht h htail
    refine ⟨m1, [], ?_, rfl⟩
    rw [alloc_chunks, hf]
  | succ b ih =>
    intro count i m t tail hb ht h htail
    obtain ⟨count, rfl⟩ : ∃ c, count = c + 1 := ⟨count - 1, by omega⟩
    have hsplit : List.replicate ((b + 1) * init + t) true ++ tail
        = List.replicate init true ++ (List.replicate (b * init + t) true ++ tail) := by
      rw [← List.append_assoc, ← List.replicate_add]
      congr 2
      ring
    rw [hsplit] at h
    obtain ⟨m1, cells, hcells, hans⟩ :=
      alloc_cells_answers cs ns init m ((i * init : Nat) : Int) _ h
    obtain ⟨m2, table, hrec, hlen⟩ := ih count (i + 1) m1 t tail (by omega) ht hans htail
    refine ⟨m2, cells :: table, ?_, by simp [hlen]⟩
    rw [alloc_chunks, hcells]
    simp only
    rw [hrec]

end associative_cache

namespace associative_cache

/-- C16: partial-tolerant allocation failure.  In a split step of `expand` (an iteration of
its loop entered in state `C`) that needs the chunks `ncells .. (split + size) / init_ncells`,
let the manager supply pages for `b` whole chunks and `t` more cells, `t` below `init_ncells`,
and then fail, chunk number `b + 1` being one of those needed: the construction of a cell of
the new chunk number `k = b + 1` raises `out_of_memory`.  Then `expand` returns false from
that step; exactly the `b = k - 1` chunks built before the failure are in the directory, from
position `ncells` on, each of `init_ncells` cells of fresh pages whose hashes are their global
indices, and no other entry of the directory has changed; `ncells` has grown by `b`; and
`level`, `split` and `init_ncells`, hence the cell index of every offset, are those at the
start of the step.  When the step is the first of a call of `expand`, the call returns false
in that state. -/
theorem expand_partial_allocation_failure (C : associative_cache) (g size fuel : Nat)
    (cell : hash_cell) (b t : Nat) (tail : List Bool)
    (hcell : C.get_cell C.split = some cell)
    (hcond : C.split < g ∨ cell.overflow = true)
    (hb : C.ncells + b ≤ (C.split + size) / C.init_ncells)
    (ht : t < C.init_ncells)
    (hans : C.manager.answers = List.replicate (b * C.init_ncells + t) true ++ tail)
    (htail : tail = [] ∨ ∃ rest, tail = false :: rest)
    (hroom : C.ncells + b ≤ C.cells_table.length) :
    ∃ C1, expand_loop g size (fuel + 1) C = some (false, C1) ∧
      C1.ncells = C.ncells + b ∧
      C1.level = C.level ∧ C1.split = C.split ∧ C1.init_ncells = C.init_ncells ∧
      C1.cells_table.length = C.cells_table.length ∧
      (∀ a, a < b → ∃ cells, C1.cells_table[C.ncells + a]? = some (some cells) ∧
        cells.length = C.init_ncells ∧
        ∀ (j : Nat) (c : hash_cell), cells[j]? = some c →
          c.hash = (((C.ncells + a) * C.init_ncells + j : Nat) : Int) ∧
          ∀ p ∈ c.buf, ∃ d, p = thread_safe_page.fresh d) ∧
      (∀ j, j < C.ncells ∨ C.ncells + b ≤ j → C1.cells_table[j]? = C.cells_table[j]?) ∧
      (∀ off, C1.cell_index off = C.cell_index off) ∧
      (∀ C0 : associative_cache, C0.expanding = false → C0.get_cell g ≠ none →
        size = 2 ^ C0.level * C0.init_ncells → C = { C0 with expanding := true } →
        C0.expand g = some (false, C1) ∧ ∀ off, C1.cell_index off = C0.cell_index off) := by
  obtain ⟨m, table, ha, hlen⟩ := alloc_chunks_answers C.CELL_SIZE C.NUM_SHADOW_PAGES
    C.init_ncells b ((C.split + size) / C.init_ncells + 1 - C.ncells) C.ncells C.manager t tail
    (by omega) ht hans htail
  obtain ⟨C1, h1, _, h3, h4, h5, h6, h7, h8, h9, h10, h11⟩ :=
    expand_loop_out_of_memory C g size fuel cell m table hcell hcond (by omega) ha
      (by rw [hlen]; exact hroom)
  rw [hlen] at h3 h8 h9
  refine ⟨C1, h1, h3, h4, h5, h6, h7, ?_, h9, h10, h11⟩
  intro a hab
  obtain ⟨cells, hcells⟩ : ∃ cells, table[a]? = some cells :=
    ⟨table[a], List.getElem?_eq_getElem (by omega)⟩
  obtain ⟨hl, hh⟩ := (alloc_chunks_spec _ _ _ _ _ _ _ _ _ ha).2.2 a cells hcells
  refine ⟨cells, by rw [h8 a hab, hcells], hl, fun j c hj => ⟨hh j c hj, ?_⟩⟩
  exact (alloc_chunks_fresh _ _ _ _ _ _ _ _ _ ha cells (List.getElem?_mem hcells) c
    (List.getElem?_mem hj)).1

/-- C16, at a concrete input: the split of the cell 0 of `lagging_cache` needs the chunks 1
and 2; the manager has pages for the two cells of chunk 1 and the first cell of chunk 2, whose
second cell fails.  The call returns false, chunk 1 is in the directory with the cells 2 and
3, chunk 2 is not, and `ncells` has grown from 1 to 2. -/
theorem expand_partial_allocation_failure_witness :
    ({ lagging_cache with expanding := true } : associative_cache).get_cell 0
      = some (sample_cell 0 true [sample_page 16384 1 0] []) ∧
    lagging_cache.manager.answers = List.replicate (1 * 2 + 1) true ++ [] ∧
    lagging_cache.expand 0 = some (false, lagging_cache_after) ∧
    lagging_cache_after.ncells = lagging_cache.ncells + 1 ∧
    lagging_cache_after.cells_table[1]?
      = some (some [{ hash := 2, overflow := false, buf := [thread_safe_page.fresh 7],
                      shadow := clock_shadow_cell.empty 4 },
                    { hash := 3, overflow := false, buf := [thread_safe_page.fresh 8],
                      shadow := clock_shadow_cell.empty 4 }]) ∧
    lagging_cache_after.cells_table[2]? = some none ∧
    ∃ C1, expand_loop 0 4 1 { lagging_cache with expanding := true } = some (false, C1) ∧
      C1.ncells = lagging_cache.ncells + 1 ∧
      C1.level = lagging_cache.level ∧ C1.split = lagging_cache.split ∧
      (∀ a, a < 1 → ∃ cells, C1.cells_table[lagging_cache.ncells + a]? = some (some cells) ∧
        cells.length = lagging_cache.init_ncells ∧
        ∀ (j : Nat) (c : hash_cell), cells[j]? = some c →
          c.hash = (((lagging_cache.ncells + a) * lagging_cache.init_ncells + j : Nat) : Int) ∧
          ∀ p ∈ c.buf, ∃ d, p = thread_safe_page.fresh d) ∧
      (∀ j, j < lagging_cache.ncells ∨ lagging_cache.ncells + 1 ≤ j →
        C1.cells_table[j]? = lagging_cache.cells_table[j]?) ∧
      lagging_cache.expand 0 = some (false, C1) := by
  refine ⟨by decide, by decide, by decide, by decide, by decide, by decide, ?_⟩
  obtain ⟨C1, h1, h2, h3, h4, _, _, h7, h8, _, h10⟩ :=
    expand_partial_allocation_failure { lagging_cache with expanding := true } 0 4 0
      (sample_cell 0 true [sample_page 16384 1 0] []) 1 1 []
      (by decide) (by decide) (by decide) (by decide) (by decide) (Or.inl rfl) (by decide)
  exact ⟨C1, h1, h2, h3, h4, h7, h8,
    (h10 lagging_cache (by decide) (by decide) (by decide) rfl).1⟩

end associative_cache

namespace clock_shadow_cell

/-- The page that `add` was given is in the queue afterwards. -/
theorem add_mem {s s2 : clock_shadow_cell} {pg : shadow_page} (h : s.add pg = some s2) :
    pg ∈ s2.queue := by
  unfold add at h
  split at h
  · rcases Nat.eq_zero_or_pos s.queue.length with h0 | hpos
    · have hnil : s.queue = [] := List.length_eq_zero.mp h0
      rw [hnil] at h
      simp [add_passes, add_scan] at h
    · obtain ⟨q2, l2, k, hpass, _, _, _, _, _, hpg, _⟩ :=
        add_passes_spec pg s.queue s.last_idx hpos
      rw [hpass 0] at h
      simp only [Option.some.injEq] at h
      rw [← h]
      exact List.getElem?_mem hpg
  · simp only [Option.some.injEq] at h
    rw [← h]
    simp

/-- A record of another offset appended to the queue does not change what the lookup of `off`
finds. -/
theorem search_queue_append_fst (off : Int) (r : shadow_page) (hr : r.offset ≠ off)
    (q : List shadow_page) :
    (search_queue off (q ++ [r])).1 = (search_queue off q).1 := by
  induction q with
  | nil => simp [search_queue, hr]
  | cons pg rest ih =>
    simp only [List.cons_append]
    unfold search_queue
    split
    · rfl
    · exact ih

end clock_shadow_cell

/-- C10 (amended): shadow round-trip (frequency-biased policy, shadow pages enabled).
(1) The eviction of a page with hits `h > 0` leaves the record of its offset and hits in the
shadow cell.  (2) A call `search(A)` that misses and runs no expansion first records its own
victim in the shadow cell, which becomes `sh`, and then looks `A` up in `sh`: when the record
it finds is valid with hits `h`, the page returned for `A` reports hits `h + 1`, or 128 when
`h` is 255 and the aging fires; and the record found in `sh` is the one that was found before
the call when the victim has hits 0 or the shadow queue is not full.  (3) In particular, for
the call that immediately follows the eviction of an assigned offset `A` with hits `h`, no
other slot holding `A`, neither call running an expansion, the queue having had room for two
more records and held no record of `A` and none with 255 hits, the page reports `h + 1` (128
for 255).  (4) With a full queue the record of the call's own victim can take the
entry that remembered `A`: in `full_shadow_cache` offset 4096 is evicted with 3 hits and comes
back with 1 hit. -/
theorem shadow_round_trip_seeds_hits :
    (∀ (c ce : hash_cell) (i : Nat) (p : thread_safe_page),
      hash_cell.evict true c i = some ce → c.buf[i]? = some p → 0 < p.hits →
      ({ offset := p.offset, hits := p.hits, referenced := false } : shadow_page)
        ∈ ce.shadow.queue) ∧
    (∀ (C : associative_cache) (g : Nat) (c : hash_cell) (A old : Int) (j : Nat) (ev : Int)
      (C2 : associative_cache),
      C.use_shadow = true → C.get_cell g = some c → (∀ p ∈ c.buf, p.offset ≠ A) →
      hash_cell.runs_expansion C g A = false →
      hash_cell.search C g A old = Outcome.returned (j, ev) C2 →
      ∃ pv sh, c.buf[j]? = some pv ∧ ev = pv.offset ∧
        ((0 < pv.hits ∧ c.shadow.add (shadow_page.of_page pv) = some sh) ∨
          (pv.hits = 0 ∧ sh = c.shadow)) ∧
        ((pv.hits = 0 ∨ c.shadow.queue.length < c.shadow.capacity) →
          (sh.search A).1 = (c.shadow.search A).1) ∧
        ((sh.search A).1.is_valid = true → (sh.search A).1.hits ≤ 0xff →
          ∃ c2 p2, C2.get_cell g = some c2 ∧ c2.buf[j]? = some p2 ∧ p2.offset = A ∧
            p2.hits = (if (sh.search A).1.hits = 0xff then 128
              else (sh.search A).1.hits + 1))) ∧
    (∀ (C : associative_cache) (g : Nat) (c : hash_cell) (A B old old2 : Int) (i j : Nat)
      (ev2 : Int) (C1 C2 : associative_cache) (pA : thread_safe_page),
      C.use_shadow = true → C.get_cell g = some c → (∀ p ∈ c.buf, p.offset ≠ B) →
      hash_cell.runs_expansion C g B = false →
      hash_cell.search C g B old = Outcome.returned (i, A) C1 →
      c.buf[i]? = some pA → 0 < pA.hits → pA.hits ≤ 0xff → A ≠ unassigned →
      (∀ (k : Nat) (p : thread_safe_page), k ≠ i → c.buf[k]? = some p → p.offset ≠ A) →
      (∀ e ∈ c.shadow.queue, e.offset ≠ A ∧ e.hits ≠ 0xff) →
      c.shadow.queue.length + 2 ≤ c.shadow.capacity →
      hash_cell.runs_expansion C1 g A = false →
      hash_cell.search C1 g A old2 = Outcome.returned (j, ev2) C2 →
      ∃ c2 p2, C2.get_cell g = some c2 ∧ c2.buf[j]? = some p2 ∧ p2.offset = A ∧
        p2.hits = (if pA.hits = 0xff then 128 else pA.hits + 1)) ∧
    ((full_shadow_cache.get_cell 0).bind
        (fun c => (c.buf[0]?).map (fun p => (p.offset, p.hits))) = some (4096, 3) ∧
      hash_cell.search full_shadow_cache 0 12288 (-1)
        = Outcome.returned (0, 4096) full_shadow_cache_after_miss ∧
      (full_shadow_cache_after_miss.get_cell 0).map (fun c => c.shadow.queue[3]?)
        = some (some { offset := 4096, hits := 3, referenced := false }) ∧
      hash_cell.search full_shadow_cache_after_miss 0 4096 (-1)
        = Outcome.returned (1, 8192) full_shadow_cache_after_round_trip ∧
      (full_shadow_cache_after_round_trip.get_cell 0).bind
        (fun c => (c.buf[1]?).map (fun p => (p.offset, p.hits))) = some (4096, 1)) := by
  refine ⟨?_, ?_, ?_, by decide⟩
  · intro c ce i p hev hp hh
    obtain ⟨p', hp', _, _, _, hcase⟩ := hash_cell.evict_some hev
    rw [hp] at hp'
    simp only [Option.some.injEq] at hp'
    subst hp'
    rcases hcase with ⟨_, _, hadd⟩ | ⟨h0, _⟩
    · exact clock_shadow_cell.add_mem hadd
    · rcases h0 with h0 | h0
      · exact absurd h0 (by simp)
      · omega
  · intro C g c A old j ev C2 hu hc hmiss hno h
    have hf := hash_cell.find_offset_eq_none hmiss 0
    obtain ⟨pv, sh, pf, c1, ca, c3, hpv, hev, hshcase, hc1buf, hpfoff, _, hpfhits, _,
      hage, hrec, hC2, _⟩ := hash_cell.search_miss_no_expansion hc hf hno h
    have hpvA : (shadow_page.of_page pv).offset ≠ A := hmiss pv (List.getElem?_mem hpv)
    have hshcase2 : (0 < pv.hits ∧ c.shadow.add (shadow_page.of_page pv) = some sh) ∨
        (pv.hits = 0 ∧ sh = c.shadow) := by
      rcases hshcase with ⟨_, h1, h2⟩ | ⟨h0, h1⟩
      · exact Or.inl ⟨h1, h2⟩
      · rcases h0 with h0 | h0
        · rw [hu] at h0; exact absurd h0 (by simp)
        · exact Or.inr ⟨h0, h1⟩
    refine ⟨pv, sh, hpv, hev, hshcase2, ?_, ?_⟩
    · intro hkeep
      rcases hshcase2 with ⟨hpos, hadd⟩ | ⟨_, hsame⟩
      · rcases hkeep with h0 | hroom
        · omega
        · rw [clock_shadow_cell.add_not_full _ hroom] at hadd
          simp only [Option.some.injEq] at hadd
          rw [← hadd]
          simp only [clock_shadow_cell.search]
          exact clock_shadow_cell.search_queue_append_fst A _ hpvA _
      · rw [hsame]
    · intro hvalid hle
      have hpfh : pf.hits = (sh.search A).1.hits := by
        rw [hpfhits]
        simp only [hu, hvalid, and_self, if_true]
      have hltj : j < c.buf.length := (List.getElem?_eq_some_iff.mp hpv).1
      have hpf1 : c1.buf[j]? = some pf := by rw [hc1buf]; exact List.getElem?_set_self hltj
      obtain ⟨p3, hp3, hp3off, hp3hits⟩ :=
        hash_cell.tail_page hage hrec hpf1 (by rw [hpfh]; exact hle)
      exact ⟨c3, p3, hC2, hp3, by rw [hp3off, hpfoff], by rw [hp3hits, hpfh]⟩
  · intro C g c A B old old2 i j ev2 C1 C2 pA hu hc hmissB hno1 h1 hpA hh hle hA honly hrec
      hroom hno2 h2
    exact shadow_round_trip_immediate C g c A B old old2 i j ev2 C1 C2 pA hu hc hmissB hno1 h1
      hpA hh hle hA honly hrec hroom hno2 h2

/-- C10 (amended), at a concrete input: offset 4096 (1 hit) is evicted from `two_page_cache`
by a miss on 12288; the next call, `search(4096)`, records its victim, offset 8192, in the
shadow queue, which has room, finds the record of 4096 with 1 hit, and returns the page with 2
hits. -/
theorem shadow_round_trip_seeds_hits_witness :
    hash_cell.search two_page_cache 0 12288 (-1)
      = Outcome.returned (0, 4096) two_page_cache_after_miss ∧
    hash_cell.runs_expansion two_page_cache_after_miss 0 4096 = false ∧
    hash_cell.search two_page_cache_after_miss 0 4096 (-1)
      = Outcome.returned (1, 8192) two_page_cache_after_round_trip ∧
    (∃ c2 p2, two_page_cache_after_round_trip.get_cell 0 = some c2 ∧ c2.buf[1]? = some p2 ∧
      p2.offset = 4096 ∧
      p2.hits = (if (sample_page 4096 1 0).hits = 0xff then 128
        else (sample_page 4096 1 0).hits + 1)) ∧
    (∃ (pv : thread_safe_page) (sh : clock_shadow_cell), (sample_cell 0 true
          [{ sample_page 12288 1 1 with data_ready := false }, sample_page 8192 3 0]
          [{ offset := 4096, hits := 1, referenced := false }]).buf[1]? = some pv ∧
      (8192 : Int) = pv.offset ∧
      (sh.search 4096).1 = ({ offset := 4096, hits := 1, referenced := false } : shadow_page) ∧
      ∃ c2 p2, two_page_cache_after_round_trip.get_cell 0 = some c2 ∧ c2.buf[1]? = some p2 ∧
        p2.offset = 4096 ∧ p2.hits = 2) := by
  refine ⟨by decide, by decide, by decide, ?_, ?_⟩
  · exact shadow_round_trip_seeds_hits.2.2.1 two_page_cache 0
      (sample_cell 0 false [sample_page 4096 1 0, sample_page 8192 3 0] [])
      4096 12288 (-1) (-1) 0 1 8192 two_page_cache_after_miss two_page_cache_after_round_trip
      (sample_page 4096 1 0) (by decide) (by decide) (by decide) (by decide) (by decide)
      (by decide) (by decide) (by decide) (by decide)
      (by
        intro k p hk hp
        match k, hk, hp with
        | 1, _, hp =>
          simp only [sample_cell, List.getElem?_cons_succ, List.getElem?_cons_zero,
            Option.some.injEq] at hp
          rw [← hp]
          decide
        | k + 2, _, hp => simp [sample_cell] at hp)
      (by decide) (by decide) (by decide) (by decide)
  · obtain ⟨pv, sh, hpv, hev, _, hkeep, hres⟩ :=
      shadow_round_trip_seeds_hits.2.1 two_page_cache_after_miss 0
        (sample_cell 0 true
          [{ sample_page 12288 1 1 with data_ready := false }, sample_page 8192 3 0]
          [{ offset := 4096, hits := 1, referenced := false }])
        4096 (-1) 1 8192 two_page_cache_after_round_trip
        (by decide) (by decide) (by decide) (by decide) (by decide)
    have hfound : (sh.search 4096).1
        = ({ offset := 4096, hits := 1, referenced := false } : shadow_page) := by
      rw [hkeep (Or.inr (by decide))]
      decide
    rw [hfound] at hres
    exact ⟨pv, sh, hpv, hev, hfound, hres (by decide) (by decide)⟩

namespace hash_cell

/-- The scan of a cell that is filled in order and not yet full selects the first slot never
assigned, with `min_hits` 0. -/
theorem scan_filled {c : hash_cell} {offs : List Int} (hfill : c.filled_in_order offs)
    (hlt : offs.length < c.buf.length) :
    scan c.buf 0 0x7fffffff none = (0, some offs.length) := by
  obtain ⟨hdone, hrest, _⟩ := hfill
  obtain ⟨pk, hpk⟩ : ∃ pk, c.buf[offs.length]? = some pk :=
    ⟨c.buf[offs.length], List.getElem?_eq_getElem hlt⟩
  obtain ⟨_, hk0, hkr⟩ := hrest _ pk (le_refl _) hpk
  obtain ⟨m1, r1, hs⟩ : ∃ m1 r1, scan c.buf 0 0x7fffffff none = (m1, r1) := ⟨_, _, rfl⟩
  rcases scan_spec c.buf 0 0x7fffffff none m1 r1 hs with ⟨_, _, hall⟩ |
    ⟨k, q, hq, hr1, hqr, hqh, _, hbefore, hmin⟩
  · have := hall _ pk hpk hkr
    omega
  · have hm0 : m1 = 0 := by
      have := hmin _ pk hpk hkr
      omega
    have hk : k = offs.length := by
      rcases Nat.lt_trichotomy k offs.length with h | h | h
      · obtain ⟨o, ho⟩ : ∃ o, offs[k]? = some o := ⟨offs[k], List.getElem?_eq_getElem h⟩
        obtain ⟨p, hp, _, hph, _⟩ := hdone k o ho
        rw [hq] at hp
        simp only [Option.some.injEq] at hp
        subst hp
        omega
      · exact h
      · have := hbefore _ pk h hpk hkr
        omega
    rw [hs, hr1, hm0, hk, Nat.zero_add]

/-- The scan of a full cell that is filled in order selects slot 0, with `min_hits` 1. -/
theorem scan_full {c : hash_cell} {offs : List Int} (hfill : c.filled_in_order offs)
    (hlen : offs.length = c.buf.length) (hpos : 0 < offs.length) :
    scan c.buf 0 0x7fffffff none = (1, some 0) := by
  obtain ⟨hdone, _, _⟩ := hfill
  have hall : ∀ (k : Nat) (q : thread_safe_page), c.buf[k]? = some q → q.hits = 1 ∧ q.ref = 0 := by
    intro k q hq
    have hk : k < offs.length := by
      rw [hlen]; exact (List.getElem?_eq_some_iff.mp hq).1
    obtain ⟨p, hp, _, hph, hpr⟩ := hdone k _ (List.getElem?_eq_getElem hk)
    rw [hq] at hp
    simp only [Option.some.injEq] at hp
    subst hp
    exact ⟨hph, hpr⟩
  obtain ⟨p0, hp0⟩ : ∃ p0, c.buf[0]? = some p0 :=
    ⟨c.buf[0], List.getElem?_eq_getElem (by omega)⟩
  obtain ⟨m1, r1, hs⟩ : ∃ m1 r1, scan c.buf 0 0x7fffffff none = (m1, r1) := ⟨_, _, rfl⟩
  rcases scan_spec c.buf 0 0x7fffffff none m1 r1 hs with ⟨_, _, hge⟩ |
    ⟨k, q, hq, hr1, _, hqh, _, hbefore, _⟩
  · have := hge 0 p0 hp0 (hall 0 p0 hp0).2
    have := (hall 0 p0 hp0).1
    omega
  · have hm1 : m1 = 1 := by rw [← hqh]; exact (hall k q hq).1
    have hk : k = 0 := by
      rcases Nat.eq_zero_or_pos k with h | h
      · exact h
      · have := hbefore 0 p0 h hp0 (hall 0 p0 hp0).2
        have := (hall 0 p0 hp0).1
        omega
    rw [hs, hr1, hm1, hk]

/-- A miss that runs no expansion in a cell whose shadow queue is empty: the call returns the
slot that the scan selects and reports its offset; the page it returns holds the new offset
with one hit and one reference more than the victim had, and no other slot has changed. -/
theorem miss_step {C : associative_cache} {g : Nat} {c : hash_cell} {o : Int} {m i : Nat}
    {p : thread_safe_page} (hc : C.get_cell g = some c)
    (hf : find_offset o c.buf 0 = none)
    (hscan : scan c.buf 0 0x7fffffff none = (m, some i))
    (hnoexp : m = 0 ∨ ¬ ((C.size : Int) < C.manager.average_cache_size))
    (hp : c.buf[i]? = some p) (hq : c.shadow.queue = [])
    (hcap : p.hits = 0 ∨ C.use_shadow = false ∨ 0 < c.shadow.capacity) (old : Int) :
    ∃ C2 c2 pn, search C g o old = Outcome.returned (i, p.offset) C2 ∧
      C2.get_cell g = some c2 ∧ c2.buf = c.buf.set i pn ∧ pn.offset = o ∧ pn.hits = 1 ∧
      pn.ref = p.ref + 1 ∧
      (p.hits = 0 → c2.shadow.queue = [] ∧ c2.shadow.capacity = c.shadow.capacity) ∧
      C2.use_shadow = C.use_shadow ∧ C2.size = C.size ∧ C2.manager = C.manager := by
  have hno : runs_expansion C g o = false := by
    unfold runs_expansion
    rw [hc]
    simp only
    rw [hf]
    simp only
    rw [hscan]
    rcases hnoexp with h | h <;> simp [h]
  have hpo : p.offset ≠ o := find_offset_none o c.buf 0 hf i p hp
  -- the victim is selected in the cache as it is, or with the overflow flag stored
  obtain ⟨Cs, cs, hsel, hcs, hcsbuf, hcssh, hcsu, hcssize, hcsman⟩ :
      ∃ Cs cs, select_victim C g = Outcome.returned i Cs ∧ Cs.get_cell g = some cs ∧
        cs.buf = c.buf ∧ cs.shadow = c.shadow ∧ Cs.use_shadow = C.use_shadow ∧
        Cs.size = C.size ∧ Cs.manager = C.manager := by
    rw [select_victim_eq hc hscan]
    by_cases hm : m ≠ 0
    · have hs : ¬ ((C.size : Int) < C.manager.average_cache_size) := by
        rcases hnoexp with h | h
        · exact absurd h hm
        · exact h
      rw [if_pos hm, if_neg hs]
      exact ⟨_, _, rfl, associative_cache.get_cell_set_cell_self hc _, rfl, rfl,
        associative_cache.set_cell_use_shadow _ _ _, associative_cache.set_cell_size _ _ _,
        associative_cache.set_cell_manager _ _ _⟩
    · rw [if_neg hm]
      exact ⟨C, c, rfl, hc, rfl, rfl, rfl, rfl, rfl⟩
  obtain ⟨ce, hev⟩ : ∃ ce, evict Cs.use_shadow cs i = some ce := by
    unfold evict
    rw [hcsbuf, hp]
    simp only
    by_cases hadd : (Cs.use_shadow && decide (p.hits > 0)) = true
    · rw [if_pos hadd]
      simp only [Bool.and_eq_true, decide_eq_true_eq] at hadd
      have hcappos : 0 < c.shadow.capacity := by
        rcases hcap with h | h | h
        · omega
        · rw [hcsu, h] at hadd; exact absurd hadd.1 (by simp)
        · exact h
      rw [hcssh, clock_shadow_cell.add_not_full _ (by rw [hq]; exact hcappos)]
      exact ⟨_, rfl⟩
    · rw [if_neg hadd]
      exact ⟨_, rfl⟩
  have hge : get_empty_page C g = Outcome.returned i (Cs.set_cell g ce) := by
    unfold get_empty_page
    rw [hsel]
    simp only [hcs, hev]
  obtain ⟨ev, C2, h⟩ := search_miss_returns hc hf hge old
  obtain ⟨p', sh, pf, c1, ca, c3, hp', hevp, hshcase, hc1buf, hpfoff, hpfref, hpfhits, hc1sh,
    hage, hrec, hC2, hu2⟩ := search_miss_no_expansion hc hf hno h
  rw [hp] at hp'
  simp only [Option.some.injEq] at hp'
  subst hp'
  -- the lookup in the shadow cell finds nothing
  have hfound : (sh.search o).1 = shadow_page.invalid ∧ (sh.search o).2 = sh := by
    rcases hshcase with ⟨_, hpos, hadd⟩ | ⟨_, hsame⟩
    · have hcappos : 0 < c.shadow.capacity := by
        rcases hcap with h | h | h
        · omega
        · rename_i hu
          rw [h] at hu; exact absurd hu (by simp)
        · exact h
      rw [clock_shadow_cell.add_not_full _ (by rw [hq]; exact hcappos)] at hadd
      simp only [Option.some.injEq] at hadd
      rw [← hadd, hq]
      have hne : (shadow_page.of_page p).offset ≠ o := hpo
      simp [clock_shadow_cell.search, clock_shadow_cell.search_queue, hne]
    · rw [hsame]
      have hsh : c.shadow = { c.shadow with queue := [] } := by rw [← hq]
      rw [hsh]
      simp [clock_shadow_cell.search, clock_shadow_cell.search_queue]
  have hpf0 : pf.hits = 0 := by
    rw [hpfhits, hfound.1]
    simp [shadow_page.is_valid, shadow_page.invalid]
  have hlti : i < c.buf.length := (List.getElem?_eq_some_iff.mp hp).1
  have hpf1 : c1.buf[i]? = some pf := by rw [hc1buf]; exact List.getElem?_set_self hlti
  have hc3 := tail_without_aging hage hrec hpf1 (by rw [hpf0]; decide)
  -- the cache after the call
  obtain ⟨D1, d1, d2, d3, hsp, _, _, _, hC2eq⟩ := search_returned h
  obtain ⟨c', hc', hcase⟩ := search_pinned_returned hsp
  have hD1 : D1.use_shadow = C.use_shadow ∧ D1.size = C.size ∧ D1.manager = C.manager := by
    rcases hcase with ⟨hf2, _⟩ | ⟨_, Cx, cx, cr, cp, hge2, _, _, _, hD1eq⟩
    · rw [hc] at hc'
      simp only [Option.some.injEq] at hc'
      subst hc'
      rw [hf] at hf2
      exact absurd hf2 (by simp)
    · rw [hge] at hge2
      simp only [Outcome.returned.injEq] at hge2
      rw [hD1eq, ← hge2.2]
      exact ⟨by rw [associative_cache.set_cell_use_shadow,
          associative_cache.set_cell_use_shadow, hcsu],
        by rw [associative_cache.set_cell_size, associative_cache.set_cell_size, hcssize],
        by rw [associative_cache.set_cell_manager, associative_cache.set_cell_manager, hcsman]⟩
  refine ⟨C2, c3, pf.hit, by rw [hevp] at h; exact h, hC2, ?_, ?_, ?_, ?_, ?_, hu2, ?_, ?_⟩
  · rw [hc3]
    simp only [hc1buf, List.set_set]
  · simp only [thread_safe_page.hit]
    exact hpfoff
  · simp [thread_safe_page.hit, hpf0]
  · simp only [thread_safe_page.hit]
    exact hpfref
  · intro h0
    have hsame : sh = c.shadow := by
      rcases hshcase with ⟨_, hpos, _⟩ | ⟨_, hsame⟩
      · omega
      · exact hsame
    rw [hc3]
    simp only
    rw [hc1sh, hfound.2, hsame]
    split <;> exact ⟨hq, rfl⟩
  · rw [hC2eq, associative_cache.set_cell_size]
    exact hD1.2.1
  · rw [hC2eq, associative_cache.set_cell_manager]
    exact hD1.2.2

/-- One step of the caller that fills a cell: the lookup of an offset that the cell does not
hold goes to the first slot never assigned, and after the release the cell is filled in order
with one offset more. -/
theorem fill_step {C : associative_cache} {g : Nat} {c : hash_cell} {done : List Int}
    {o : Int} (rest : List Int) (hc : C.get_cell g = some c)
    (hfill : c.filled_in_order done) (hlt : done.length < c.buf.length)
    (hnew : o ∉ done) (ho : o ≠ unassigned) :
    ∃ C1 c1, lookup_and_release C g (o :: rest) = lookup_and_release C1 g rest ∧
      C1.get_cell g = some c1 ∧ c1.filled_in_order (done ++ [o]) ∧
      c1.buf.length = c.buf.length ∧ c1.shadow.capacity = c.shadow.capacity ∧
      C1.use_shadow = C.use_shadow ∧ C1.size = C.size ∧ C1.manager = C.manager := by
  have hscan := scan_filled hfill hlt
  obtain ⟨hdone, hrest, hq⟩ := hfill
  obtain ⟨pk, hpk⟩ : ∃ pk, c.buf[done.length]? = some pk :=
    ⟨c.buf[done.length], List.getElem?_eq_getElem hlt⟩
  obtain ⟨hpko, hpkh, hpkr⟩ := hrest _ pk (le_refl _) hpk
  have hf : find_offset o c.buf 0 = none := by
    apply find_offset_eq_none
    intro p hp
    obtain ⟨t, ht⟩ := List.mem_iff_getElem?.mp hp
    rcases Nat.lt_or_ge t done.length with h | h
    · obtain ⟨p', hp', hpo, _⟩ := hdone t _ (List.getElem?_eq_getElem h)
      rw [ht] at hp'
      simp only [Option.some.injEq] at hp'
      subst hp'
      rw [hpo]
      exact fun heq => hnew (heq ▸ List.getElem_mem h)
    · rw [(hrest t p h ht).1]
      exact Ne.symm ho
  obtain ⟨C2, c2, pn, hsearch, hC2, hc2buf, hpno, hpnh, hpnr, hsh, hu, hsize, hman⟩ :=
    miss_step hc hf hscan (Or.inl rfl) hpk hq (Or.inl hpkh) unassigned
  obtain ⟨hshq, hshc⟩ := hsh hpkh
  have hpn2 : c2.buf[done.length]? = some pn := by
    rw [hc2buf]; exact List.getElem?_set_self hlt
  refine ⟨C2.set_cell g { c2 with buf := c2.buf.set done.length pn.dec_ref },
    { c2 with buf := c2.buf.set done.length pn.dec_ref }, ?_,
    associative_cache.get_cell_set_cell_self hC2 _, ⟨?_, ?_, hshq⟩, ?_, hshc, ?_, ?_, ?_⟩
  · rw [lookup_and_release, hsearch]
    simp only [hC2, hpn2]
  · intro t o' ht
    rcases Nat.lt_or_ge t done.length with h | h
    · rw [List.getElem?_append_left h] at ht
      obtain ⟨p, hp, hrest'⟩ := hdone t o' ht
      refine ⟨p, ?_, hrest'⟩
      simp only [hc2buf, List.set_set]
      rw [List.getElem?_set_ne (by omega)]
      exact hp
    · have hlen : t < (done ++ [o]).length := (List.getElem?_eq_some_iff.mp ht).1
      simp only [List.length_append, List.length_singleton] at hlen
      have hte : t = done.length := by omega
      subst hte
      rw [List.getElem?_append_right (le_refl _)] at ht
      simp only [Nat.sub_self, List.getElem?_cons_zero, Option.some.injEq] at ht
      subst ht
      refine ⟨pn.dec_ref, ?_, hpno, hpnh, ?_⟩
      · simp only [hc2buf, List.set_set]
        exact List.getElem?_set_self hlt
      · simp only [thread_safe_page.dec_ref]
        omega
  · intro t p ht hp
    simp only [List.length_append, List.length_singleton] at ht
    simp only [hc2buf, List.set_set] at hp
    rw [List.getElem?_set_ne (by omega)] at hp
    exact hrest t p (by omega) hp
  · simp only [hc2buf, List.set_set, List.length_set]
  · rw [associative_cache.set_cell_use_shadow]; exact hu
  · rw [associative_cache.set_cell_size]; exact hsize
  · rw [associative_cache.set_cell_manager]; exact hman

/-- The caller that fills a cell with offsets that are new, assigned and pairwise distinct
returns, and leaves the cell filled in order with them. -/
theorem fill_from (g : Nat) :
    ∀ (rest done : List Int) (C : associative_cache) (c : hash_cell),
      C.get_cell g = some c → c.filled_in_order done →
      done.length + rest.length ≤ c.buf.length → (done ++ rest).Nodup →
      (∀ o ∈ rest, o ≠ unassigned) →
      ∃ C1 c1, lookup_and_release C g rest = some C1 ∧ C1.get_cell g = some c1 ∧
        c1.filled_in_order (done ++ rest) ∧ c1.buf.length = c.buf.length ∧
        c1.shadow.capacity = c.shadow.capacity ∧ C1.use_shadow = C.use_shadow ∧
        C1.size = C.size ∧ C1.manager = C.manager := by
  intro rest
  induction rest with
  | nil =>
    intro done C c hc hfill _ _ _
    exact ⟨C, c, rfl, hc, by rw [List.append_nil]; exact hfill, rfl, rfl, rfl, rfl, rfl⟩
  | cons o rest ih =>
    intro done C c hc hfill hlen hnd hassigned
    simp only [List.length_cons] at hlen
    have hnew : o ∉ done := by
      intro hmem
      have := (List.nodup_append.mp hnd).2.2
      exact this hmem (List.mem_cons_self _ _)
    obtain ⟨C1, c1, hstep, hC1, hfill1, hl1, hcap1, hu1, hs1, hm1⟩ :=
      fill_step rest hc hfill (by omega) hnew (hassigned o (List.mem_cons_self _ _))
    obtain ⟨C2, c2, hrun, hC2, hfill2, hl2, hcap2, hu2, hs2, hm2⟩ :=
      ih (done ++ [o]) C1 c1 hC1 hfill1
        (by simp only [List.length_append, List.length_singleton]; omega)
        (by rw [List.append_assoc, List.singleton_append]; exact hnd)
        (fun o' ho' => hassigned o' (List.mem_cons_of_mem _ ho'))
    refine ⟨C2, c2, by rw [hstep]; exact hrun, hC2, ?_, by rw [hl2, hl1], by rw [hcap2, hcap1],
      by rw [hu2, hu1], by rw [hs2, hs1], by rw [hm2, hm1]⟩
    rw [List.append_assoc, List.singleton_append] at hfill2
    exact hfill2

end hash_cell

/-- C7 (as stated, refuted): a cell of two pages is filled from the fresh state with the
offsets 4096 and 8192; the lookup of 12288 evicts 4096 and takes slot 0.  The cell is then
full, both pages have one hit and ref 0, and the lookup of 16384 selects slot 0 and evicts
12288, the offset admitted last, while 8192, admitted before it, stays in slot 1. -/
theorem equal_hits_victim_is_not_first_admitted :
    ((lookup_and_release fresh_cache 0 [4096, 8192, 12288]).bind
      (fun S => (S.get_cell 0).map
        (fun c => c.buf.map (fun p => (p.offset, p.hits, p.ref)))))
      = some [(12288, 1, 0), (8192, 1, 0)] ∧
    ((lookup_and_release fresh_cache 0 [4096, 8192, 12288]).bind
      (fun S => (hash_cell.search S 0 16384 unassigned).value)) = some (0, 12288) ∧
    ((lookup_and_release fresh_cache 0 [4096, 8192, 12288]).bind
      (fun S => (hash_cell.search S 0 16384 unassigned).cache.bind
        (fun S2 => (S2.get_cell 0).map (fun c => c.buf.map (fun p => p.offset)))))
      = some [16384, 8192] ∧
    (12288 : Int) ≠ 8192 := by
  decide

/-- C7 (amended): frequency-biased victim selection.  (1) Whenever `get_empty_page` returns a
victim and the cell, as of the final scan, has a slot with ref 0 (hits being 8-bit values),
the victim is the lowest-index slot among the slots with ref 0 whose hits is minimal among
those slots; in particular, when all pages have ref 0 and equal hits the victim is slot 0; a
`search` that misses returns that victim and reports as evicted offset the offset that slot
held.  (2) When a fresh cell (every page unassigned with hits 0 and ref 0, the shadow queue
empty) is filled by lookups of as many assigned, pairwise distinct offsets as it has pages,
each page released before the next lookup, in a table that is not below the manager's average
size, the shadow cell being disabled or of capacity at least 1, the lookups return, the cell
holds the offsets in slot order in the order of their admission, each with one hit and ref 0,
and the lookup of any further offset selects slot 0 and reports as evicted the offset
admitted first. -/
theorem victim_is_least_hit_free_slot :
    (∀ (C : associative_cache) (g i : Nat) (C2 : associative_cache) (c : hash_cell),
      C.get_cell g = some c → hash_cell.get_empty_page C g = Outcome.returned i C2 →
      ∃ Cs cs p, hash_cell.select_victim C g = Outcome.returned i Cs ∧
        Cs.get_cell g = some cs ∧ cs.buf[i]? = some p ∧
        ((∃ (k : Nat) (q : thread_safe_page), cs.buf[k]? = some q ∧ q.ref = 0) →
          (∀ q ∈ cs.buf, q.hits ≤ 0xff) →
          p.ref = 0 ∧ ∀ (k : Nat) (q : thread_safe_page), cs.buf[k]? = some q → q.ref = 0 →
            p.hits ≤ q.hits ∧ (q.hits = p.hits → i ≤ k)) ∧
        ((∀ q ∈ cs.buf, q.ref = 0 ∧ q.hits = p.hits) → p.hits ≤ 0xff → i = 0) ∧
        (∀ (off old : Int) (j : Nat) (ev : Int) (C3 : associative_cache),
          (∀ q ∈ c.buf, q.offset ≠ off) →
          hash_cell.search C g off old = Outcome.returned (j, ev) C3 →
          j = i ∧ ev = p.offset)) ∧
    (∀ (C : associative_cache) (g : Nat) (c : hash_cell) (offs : List Int),
      C.get_cell g = some c →
      (∀ p ∈ c.buf, p.offset = unassigned ∧ p.hits = 0 ∧ p.ref = 0) →
      c.shadow.queue = [] → offs.length = c.buf.length → offs ≠ [] → offs.Nodup →
      (∀ o ∈ offs, o ≠ unassigned) →
      ¬ ((C.size : Int) < C.manager.average_cache_size) →
      (C.use_shadow = false ∨ 0 < c.shadow.capacity) →
      ∃ C1 c1, lookup_and_release C g offs = some C1 ∧ C1.get_cell g = some c1 ∧
        c1.buf.length = c.buf.length ∧
        (∀ (t : Nat) (o : Int), offs[t]? = some o →
          ∃ p, c1.buf[t]? = some p ∧ p.offset = o ∧ p.hits = 1 ∧ p.ref = 0) ∧
        (∀ (o old first : Int), o ∉ offs → offs[0]? = some first →
          ∃ C2 c2 p2, hash_cell.search C1 g o old = Outcome.returned (0, first) C2 ∧
            C2.get_cell g = some c2 ∧ c2.buf[0]? = some p2 ∧ p2.offset = o)) := by
  refine ⟨fun C g i C2 c hc h => victim_of_final_scan C g i C2 c hc h, ?_⟩
  intro C g c offs hc hfresh hq hlen hne hnd hassigned hsize hcap
  have hfill0 : c.filled_in_order [] :=
    ⟨fun t o h => by simp at h, fun t p _ hp => hfresh p (List.getElem?_mem hp), hq⟩
  obtain ⟨C1, c1, hrun, hC1, hfill, hl1, hcap1, hu1, hs1, hm1⟩ :=
    hash_cell.fill_from g offs [] C c hc hfill0 (by simp [hlen]) (by simpa using hnd)
      hassigned
  rw [List.nil_append] at hfill
  refine ⟨C1, c1, hrun, hC1, hl1, hfill.1, ?_⟩
  intro o old first hnew hfirst
  have hpos : 0 < offs.length := List.length_pos.mpr hne
  have hscan := hash_cell.scan_full hfill (by rw [hl1]; exact hlen) hpos
  obtain ⟨p0, hp0, hp0o, hp0h, _⟩ := hfill.1 0 first hfirst
  have hf : hash_cell.find_offset o c1.buf 0 = none := by
    apply hash_cell.find_offset_eq_none
    intro p hp
    obtain ⟨t, ht⟩ := List.mem_iff_getElem?.mp hp
    have hlt : t < offs.length := by
      rw [hlen, ← hl1]; exact (List.getElem?_eq_some_iff.mp ht).1
    obtain ⟨p', hp', hpo, _⟩ := hfill.1 t _ (List.getElem?_eq_getElem hlt)
    rw [ht] at hp'
    simp only [Option.some.injEq] at hp'
    subst hp'
    rw [hpo]
    exact fun heq => hnew (heq ▸ List.getElem_mem hlt)
  obtain ⟨C2, c2, pn, hsearch, hC2, hc2buf, hpno, _⟩ :=
    hash_cell.miss_step hC1 hf hscan (Or.inr (by rw [hs1, hm1]; exact hsize)) hp0 hfill.2.2
      (Or.inr (by rw [hu1, hcap1]; exact hcap)) old
  rw [hp0o] at hsearch
  refine ⟨C2, c2, pn, hsearch, hC2, ?_, hpno⟩
  rw [hc2buf]
  exact List.getElem?_set_self (by rw [hl1, ← hlen]; exact hpos)

/-- C7 (amended), at a concrete input: `get_empty_page` on `two_page_cache` takes slot 0, the
page with the fewest hits; and `fresh_cache`, filled with the offsets 4096 and 8192, evicts
4096, the offset admitted first, from slot 0 at the lookup of 12288. -/
theorem victim_is_least_hit_free_slot_witness :
    hash_cell.get_empty_page two_page_cache 0
      = Outcome.returned 0 two_page_cache_victim_taken ∧
    (∃ Cs cs p, hash_cell.select_victim two_page_cache 0 = Outcome.returned 0 Cs ∧
      Cs.get_cell 0 = some cs ∧ cs.buf[0]? = some p ∧
      ((∃ (k : Nat) (q : thread_safe_page), cs.buf[k]? = some q ∧ q.ref = 0) →
        (∀ q ∈ cs.buf, q.hits ≤ 0xff) →
        p.ref = 0 ∧ ∀ (k : Nat) (q : thread_safe_page), cs.buf[k]? = some q → q.ref = 0 →
          p.hits ≤ q.hits ∧ (q.hits = p.hits → 0 ≤ k))) ∧
    ((lookup_and_release fresh_cache 0 [4096, 8192]).bind
      (fun S => (hash_cell.search S 0 12288 unassigned).value)) = some (0, 4096) ∧
    (∃ C1 c1, lookup_and_release fresh_cache 0 [4096, 8192] = some C1 ∧
      C1.get_cell 0 = some c1 ∧
      (∀ (t : Nat) (o : Int), [(4096 : Int), 8192][t]? = some o →
        ∃ p, c1.buf[t]? = some p ∧ p.offset = o ∧ p.hits = 1 ∧ p.ref = 0) ∧
      ∃ C2 c2 p2, hash_cell.search C1 0 12288 unassigned = Outcome.returned (0, 4096) C2 ∧
        C2.get_cell 0 = some c2 ∧ c2.buf[0]? = some p2 ∧ p2.offset = 12288) := by
  refine ⟨by decide, ?_, by decide, ?_⟩
  · exact (victim_is_least_hit_free_slot.1 two_page_cache 0 0 two_page_cache_victim_taken
      (sample_cell 0 false [sample_page 4096 1 0, sample_page 8192 3 0] [])
      (by decide) (by decide)).imp fun _ hCs => hCs.imp fun _ hcs => hcs.imp fun _ hp =>
        ⟨hp.1, hp.2.1, hp.2.2.1, hp.2.2.2.1⟩
  · obtain ⟨C1, c1, h1, h2, _, h4, h5⟩ :=
      victim_is_least_hit_free_slot.2 fresh_cache 0
        (sample_cell 0 false [thread_safe_page.fresh 0, thread_safe_page.fresh 1] [])
        [4096, 8192] (by decide) (by decide) (by decide) (by decide) (by decide) (by decide)
        (by decide) (by decide) (by decide)
    exact ⟨C1, c1, h1, h2, h4, h5 12288 unassigned 4096 (by decide) (by decide)⟩

end FlashX
